import Mathlib

/-! BeeKind: pathfinder, timeline, entities, message box, character AI,
player movement and game loop.

A shallow embedding of `pathfinder.h`, `timeline.h` and of the entity
bookkeeping, the message box, the level change, the character AI, the
collision-resolved movement of the player and the game loop (initialisation,
update, contact of the player with the entities, gun) of `main.cpp`, with the
properties the specification states about them.

Conventions of the embedding:

* `int16_t` values are integers; the places where the source narrows an `int`
  result to `int16_t` go through `wrap16`. Counters of type `uint32_t` and
  `uint64_t` are natural numbers reduced modulo `U32` and `U64` where the
  source increments them.
* The `float` costs of the pathfinder only ever hold integers (sums of
  Manhattan distances and step counts, below 2^24 on every level whose
  dimensions fit `uint8_t` and whose cell ids fit `int16_t`); they are integers
  here, with the sentinel `-1` of `findcheapestopenlist` kept as it is. What is
  proved for larger levels (completeness) holds whichever open node the search
  picks, so it does not rest on the costs.
* The `float` handed to the timeline callback is a single-precision number:
  the two conversions, the division and the multiplication that compute it
  each round to the nearest such number, a tie going to the even significand
  (`f32`, IEEE 754 binary32 with every operation rounded to `float`). The
  values stay below 2^71, far from the largest `float`, so overflow is not
  part of `f32`.
* `std::vector` is `List`, `push_back` appends at the end.
* The two `while` loops of the pathfinder take a fuel argument; `none` is
  "no result within the fuel".
* Function pointers of the timeline are labels; calling one appends an event
  to a trace and leaves the timeline itself untouched.
* The `float` positions and speeds of the entities are exact rationals: they
  start on whole pixels and move in steps of a half or a quarter, which single
  precision holds exactly. A `float` to integer conversion drops the fraction;
  `abs` on a `float` is the absolute value. Fields of type `int32_t` are
  integers; signed overflow, undefined in the source, is outside the embedding.
* `rng()` reads a sequence `rnd : Nat → ℚ` given from outside; `Game.rands`
  counts the values taken so far.
* `levels.h` is not embedded: the number of levels and the tile array of the
  current level, with entries of type `uint8_t`, are parameters.
* The loops of `updatecharAI` whose bound can grow while they run take the fuel
  argument too, as do the calls of `pathfinder` made from it.
* The position and the speeds of the player are exact rationals as well; the
  `uint8_t` counter of the two loops of `collisioncheck` is the recursion
  argument of `slidex` and `slidey`.
* Of the four calls at the start of `update`, `updatemovements` and
  `checkspawn` are not embedded: `update` takes them as two functions on the
  game, and what is proved about it holds for every choice of them.
* A read of the tile array at an index outside of it, undefined in the source,
  has no value: `tileat` gives `none` there and the caller gives `none` on.
* The state of the fire button, read by `guncheck` from the input of the
  cabinet, is the argument `fire`.
-/

namespace BeeKind

/-! # Definitions -/

/-! ## pathfinder.h -/

/-- The level data read by the pathfinder: `gs.width`, `gs.height` and the
tile array `levels[gs.level].tiles`, indexed by `y*width+x`. -/
structure Grid where
  width : Nat
  height : Nat
  tiles : Nat → Nat

/-- The `struct pathnode` of the source. -/
structure pathnode where
  id : Int
  x : Int
  y : Int
  p : Int
  g : Int
  h : Int
  f : Int
deriving DecidableEq, Repr

/-- Narrowing of an `int` to `int16_t`. -/
def wrap16 (v : Int) : Int := (v + 32768) % 65536 - 32768

/-- The lambda `issolid`: out of bounds, or a non-zero tile. -/
def issolid (gr : Grid) (x y : Int) : Bool :=
  if x < 0 ∨ x ≥ gr.width ∨ y < 0 ∨ y ≥ gr.height then true
  else gr.tiles ((y * gr.width + x).toNat) != 0

/-- The lambda `manhattan_cost`. -/
def manhattan_cost (x1 y1 x2 y2 : Int) : Int :=
  ((x1 - x2).natAbs : Int) + ((y1 - y2).natAbs : Int)

/-- The mutable variables of `pathfinder` that outlive one statement: the two
lists and the current node `n`. -/
structure PFState where
  openlist : List pathnode
  closedlist : List pathnode
  n : pathnode

/-- The node built by the lambda `addnode`. -/
def mknode (dx dy : Int) (id x y prev acc : Int) : pathnode :=
  { id := id, x := x, y := y, p := prev, g := acc,
    h := manhattan_cost x y dx dy, f := acc + manhattan_cost x y dx dy }

/-- The lambda `addnode`: build the node and push it on the open list. -/
def addnode (dx dy : Int) (st : PFState) (id x y prev acc : Int) : PFState :=
  { st with openlist := st.openlist ++ [mknode dx dy id x y prev acc] }

/-- The scan of `findcheapestopenlist`: `i` is the running index, `cost` and
`idx` the best seen so far (`cost = -1` before the first element). The open
list never has more entries than the level has cells, so the `uint16_t` index
and the `int16_t` result do not wrap. -/
def cheapestScan : List pathnode → Nat → Int → Nat → Nat
  | [], _, _, idx => idx
  | nd :: rest, i, cost, idx =>
    if cost = -1 ∨ nd.f < cost then cheapestScan rest (i + 1) nd.f i
    else cheapestScan rest (i + 1) cost idx

/-- The lambda `findcheapestopenlist`; `none` stands for the read of
`openlist[0]` on an empty list. -/
def findcheapestopenlist (openlist : List pathnode) : Option pathnode :=
  openlist.get? (cheapestScan openlist 0 (-1) 0)

/-- The lambda `isopen`. -/
def isopen (st : PFState) (id : Int) : Bool :=
  st.openlist.any (fun nd => nd.id == id)

/-- The lambda `isclosed`. -/
def isclosed (st : PFState) (id : Int) : Bool :=
  st.closedlist.any (fun nd => nd.id == id)

/-- The lambda `movetoclosedlist`: the first open node with this id goes to
the end of the closed list. -/
def movetoclosedlist (st : PFState) (id : Int) : PFState :=
  match st.openlist.find? (fun nd => nd.id == id) with
  | some nd =>
    { st with closedlist := st.closedlist ++ [nd],
              openlist := st.openlist.eraseP (fun nd => nd.id == id) }
  | none => st

/-- The lambda `findparent`: closed list first, then open list, else `-1`. -/
def findparent (st : PFState) (id : Int) : Int :=
  match st.closedlist.find? (fun nd => nd.id == id) with
  | some nd => nd.p
  | none =>
    match st.openlist.find? (fun nd => nd.id == id) with
    | some nd => nd.p
    | none => -1

/-- The `while (prev!=-1)` loop of `retracepath`. -/
def retraceLoop (st : PFState) : Nat → Int → List Int → Option (List Int)
  | 0, _, _ => none
  | fuel + 1, prev, finalpath =>
    if prev != -1 then retraceLoop st fuel (findparent st prev) (prev :: finalpath)
    else some finalpath

/-- The lambda `retracepath`. -/
def retracepath (st : PFState) (fuel : Nat) (dest : Int) : Option (List Int) :=
  if st.n.id == dest then retraceLoop st fuel (findparent st dest) [dest]
  else some []

/-- The lambda `explore`. -/
def explore (gr : Grid) (dx dy : Int) (st : PFState) (x y : Int) : PFState :=
  let c := wrap16 (st.n.id + (x + y * gr.width))
  let cx := wrap16 (st.n.x + x)
  let cy := wrap16 (st.n.y + y)
  if !issolid gr cx cy && !isopen st c && !isclosed st c then
    addnode dx dy st c cx cy st.n.id (st.n.f + 1)
  else st

/-- One pass through the body of the main loop after `n` has been chosen and
found not to be the target: four `explore` calls, then `movetoclosedlist`. -/
def expand (gr : Grid) (dx dy : Int) (st : PFState) : PFState :=
  let st := explore gr dx dy st 0 (-1)
  let st := explore gr dx dy st 1 0
  let st := explore gr dx dy st 0 1
  let st := explore gr dx dy st (-1) 0
  movetoclosedlist st st.n.id

/-- The main `while` loop of `pathfinder`. -/
def searchLoop (gr : Grid) (dx dy dest : Int) : Nat → PFState → Option PFState
  | 0, _ => none
  | fuel + 1, st =>
    if st.n.id != dest && decide (st.openlist.length > 0) then
      match findcheapestopenlist st.openlist with
      | none => none
      | some n =>
        if n.id == dest then some { st with n := n }
        else searchLoop gr dx dy dest fuel (expand gr dx dy { st with n := n })
    else some st

/-- The function `pathfinder`. `Int.tmod` and `Int.tdiv` are the `%` and `/`
of C++. The variable `n` is unassigned until the first
`findcheapestopenlist`; the node given for it in `st0` is never read. -/
def pathfinder (gr : Grid) (fuel : Nat) (src dest : Int) : Option (List Int) :=
  let dx := wrap16 (Int.tmod dest gr.width)
  let dy := wrap16 (Int.tdiv dest gr.width)
  let nx := wrap16 (Int.tmod src gr.width)
  let ny := wrap16 (Int.tdiv src gr.width)
  let st0 : PFState := addnode dx dy ⟨[], [], mknode dx dy src nx ny (-1) 0⟩ src nx ny (-1) 0
  match findcheapestopenlist st0.openlist with
  | none => none
  | some n =>
    match searchLoop gr dx dy dest fuel { st0 with n := n } with
    | none => none
    | some st => retracepath st fuel dest

/-- Grid coordinates inside the level. -/
def InB (gr : Grid) (x y : Int) : Prop :=
  0 ≤ x ∧ x < gr.width ∧ 0 ≤ y ∧ y < gr.height

/-- A node whose coordinates are inside the level and whose id is
`y*width+x`. -/
def WF (gr : Grid) (nd : pathnode) : Prop :=
  InB gr nd.x nd.y ∧ nd.id = nd.y * gr.width + nd.x

/-- The four offsets passed to `explore`. -/
def Dir (x y : Int) : Prop :=
  (x = 0 ∧ y = -1) ∨ (x = 1 ∧ y = 0) ∨ (x = 0 ∧ y = 1) ∨ (x = -1 ∧ y = 0)

/-- The node `explore` adds for the offset `(x, y)`. -/
def child (gr : Grid) (dx dy : Int) (n : pathnode) (x y : Int) : pathnode :=
  mknode dx dy ((n.y + y) * gr.width + (n.x + x)) (n.x + x) (n.y + y) n.id (n.f + 1)

/-- Either the root (the source node, with parent `-1`), or a node whose
parent is in `l`, one step away, and whose own tile is free. -/
def ParentOK (gr : Grid) (src : Int) (l : List pathnode) (nd : pathnode) : Prop :=
  (nd.p = -1 ∧ nd.id = src) ∨
  (∃ u ∈ l, u.id = nd.p ∧ manhattan_cost u.x u.y nd.x nd.y = 1 ∧
    gr.tiles nd.id.toNat = 0)

/-- A list in which every node has its parent strictly before it. -/
inductive Ordered (gr : Grid) (src : Int) : List pathnode → Prop
  | nil : Ordered gr src []
  | snoc {l : List pathnode} {nd : pathnode} :
      Ordered gr src l → ParentOK gr src l nd → Ordered gr src (l ++ [nd])

/-- The invariant of the main loop, at the loop head. -/
structure LoopInv (gr : Grid) (src : Int) (st : PFState) : Prop where
  wf : ∀ nd ∈ st.closedlist ++ st.openlist, WF gr nd
  nodup : ((st.closedlist ++ st.openlist).map pathnode.id).Nodup
  ord : Ordered gr src st.closedlist
  par : ∀ nd ∈ st.openlist, ParentOK gr src st.closedlist nd
  nmem : st.n ∈ st.closedlist ++ st.openlist

/-- A cell id of the level. -/
def inRange (gr : Grid) (c : Int) : Prop := 0 ≤ c ∧ c < gr.width * gr.height

/-- Two cell ids of the level that are 4-neighbours: same row and adjacent
columns, or same column and adjacent rows. -/
def adjacent (gr : Grid) (a b : Int) : Prop :=
  inRange gr a ∧ inRange gr b ∧
  ((a / gr.width = b / gr.width ∧ (a % gr.width - b % gr.width).natAbs = 1) ∨
   (a % gr.width = b % gr.width ∧ (a / gr.width - b / gr.width).natAbs = 1))

/-- One move of a route: to a 4-neighbour whose tile value is 0. -/
def step (gr : Grid) (a b : Int) : Prop :=
  adjacent gr a b ∧ gr.tiles b.toNat = 0

/-- A route from `src` to `last`: moves of `step`, no cell twice. -/
def RouteTo (gr : Grid) (src last : Int) (r : List Int) : Prop :=
  r.head? = some src ∧ r.getLast? = some last ∧ List.Chain' (step gr) r ∧ r.Nodup

/-- A node that `explore` may add while `n` is the current node. -/
def Kid (gr : Grid) (dx dy : Int) (n nd : pathnode) : Prop :=
  ∃ x y, Dir x y ∧ nd = child gr dx dy n x y ∧ issolid gr (n.x + x) (n.y + y) = false

/-- The state `st2` is `st` with some nodes added to the open list by `explore`. -/
structure Grew (gr : Grid) (dx dy : Int) (st st2 : PFState) : Prop where
  n_eq : st2.n = st.n
  closed_eq : st2.closedlist = st.closedlist
  old : ∀ nd ∈ st.openlist, nd ∈ st2.openlist
  new : ∀ nd ∈ st2.openlist, nd ∈ st.openlist ∨ Kid gr dx dy st.n nd
  nodup : ((st2.closedlist ++ st2.openlist).map pathnode.id).Nodup

/-- What one pass through the loop body does to the lists. -/
structure Expanded (gr : Grid) (dx dy : Int) (st st2 : PFState) : Prop where
  n_eq : st2.n = st.n
  closed_eq : st2.closedlist = st.closedlist ++ [st.n]
  open_sub : ∀ nd ∈ st2.openlist,
    (nd ∈ st.openlist ∨ Kid gr dx dy st.n nd) ∧ nd.id ≠ st.n.id
  open_sup : ∀ nd ∈ st.openlist, nd.id ≠ st.n.id → nd ∈ st2.openlist
  nodup : ((st2.closedlist ++ st2.openlist).map pathnode.id).Nodup
  nbr : ∀ x y, Dir x y → issolid gr (st.n.x + x) (st.n.y + y) = false →
    (child gr dx dy st.n x y).id ∈ (st2.closedlist ++ st2.openlist).map pathnode.id

/-- The `dx` of `pathfinder`. -/
def destx (gr : Grid) (dest : Int) : Int := wrap16 (Int.tmod dest gr.width)

/-- The `dy` of `pathfinder`. -/
def desty (gr : Grid) (dest : Int) : Int := wrap16 (Int.tdiv dest gr.width)

/-- The node `addnode(src, nx, ny, -1, 0)` puts on the open list. -/
def srcnode (gr : Grid) (src dest : Int) : pathnode :=
  mknode (destx gr dest) (desty gr dest) src (wrap16 (Int.tmod src gr.width))
    (wrap16 (Int.tdiv src gr.width)) (-1) 0

/-- The state on entry to the main loop. -/
def initState (gr : Grid) (src dest : Int) : PFState :=
  ⟨[srcnode gr src dest], [], srcnode gr src dest⟩

/-- Some chain of `step` moves leads from `src` to `dest`; the tile of `src`
itself is not looked at. -/
def Connected (gr : Grid) (src dest : Int) : Prop :=
  ∃ r : List Int, r.head? = some src ∧ r.getLast? = some dest ∧ List.Chain' (step gr) r

/-- All four neighbours of the cell are solid or out of bounds. -/
def Enclosed (gr : Grid) (dest : Int) : Prop :=
  ∀ x y, Dir x y → issolid gr (dest % gr.width + x) (dest / gr.width + y) = true

/-- Manhattan distance as a natural number. -/
def mdist (x1 y1 x2 y2 : Int) : Nat := (x1 - x2).natAbs + (y1 - y2).natAbs

/-- The cost `f` of a node reached along a path on which every move reduces
the distance to the target, `m` moves from the source; past the target
distance `h0` it grows by one per move. It bounds the `f` of every node `m`
moves away from the source from below. -/
def LB (h0 : Nat) : Nat → Int
  | 0 => h0
  | m + 1 => LB h0 m + 1 + max ((h0 : Int) - (m + 1)) 0

/-- The cost invariant of the main loop on a level without obstacles; `(sx, sy)`
is the source cell and `(tx, ty)` the target cell. -/
structure CostInv (gr : Grid) (sx sy tx ty : Int) (st : PFState) : Prop where
  exact : ∀ nd ∈ st.closedlist ++ st.openlist,
    mdist sx sy nd.x nd.y + mdist nd.x nd.y tx ty = mdist sx sy tx ty →
    nd.f = LB (mdist sx sy tx ty) (mdist sx sy nd.x nd.y)
  lower : ∀ nd ∈ st.closedlist ++ st.openlist,
    LB (mdist sx sy tx ty) (mdist sx sy nd.x nd.y) ≤ nd.f
  closure : ∀ u ∈ st.closedlist, ∀ x y, Dir x y → InB gr (u.x + x) (u.y + y) →
    (u.y + y) * gr.width + (u.x + x) ∈ (st.closedlist ++ st.openlist).map pathnode.id
  srcin : sy * gr.width + sx ∈ (st.closedlist ++ st.openlist).map pathnode.id
  destout : ty * gr.width + tx ∉ st.closedlist.map pathnode.id
  parentR : ∀ nd ∈ st.closedlist ++ st.openlist,
    mdist sx sy nd.x nd.y + mdist nd.x nd.y tx ty = mdist sx sy tx ty →
    (nd.p = -1 ∧ nd.x = sx ∧ nd.y = sy) ∨
    ∃ u ∈ st.closedlist ++ st.openlist, u.id = nd.p ∧
      mdist sx sy u.x u.y + mdist u.x u.y tx ty = mdist sx sy tx ty ∧
      mdist sx sy u.x u.y + 1 = mdist sx sy nd.x nd.y

/-- A node whose coordinates are inside the level and whose id is `y*width+x`
narrowed to `int16_t`. -/
def WFw (gr : Grid) (nd : pathnode) : Prop :=
  InB gr nd.x nd.y ∧ nd.id = wrap16 (nd.y * gr.width + nd.x)

/-- The node `explore` adds for the offset `(x, y)`, its id narrowed to
`int16_t`. -/
def childW (gr : Grid) (dx dy : Int) (n : pathnode) (x y : Int) : pathnode :=
  mknode dx dy (wrap16 ((n.y + y) * gr.width + (n.x + x))) (n.x + x) (n.y + y) n.id (n.f + 1)

/-- A node that `explore` may add while `n` is the current node, on a level of
any size. -/
def KidW (gr : Grid) (dx dy : Int) (n nd : pathnode) : Prop :=
  ∃ x y, Dir x y ∧ nd = childW gr dx dy n x y ∧ issolid gr (n.x + x) (n.y + y) = false

/-- The state `st2` is `st` with some nodes added to the open list by `explore`,
on a level of any size. -/
structure GrewW (gr : Grid) (dx dy : Int) (st st2 : PFState) : Prop where
  n_eq : st2.n = st.n
  closed_eq : st2.closedlist = st.closedlist
  old : ∀ nd ∈ st.openlist, nd ∈ st2.openlist
  new : ∀ nd ∈ st2.openlist, nd ∈ st.openlist ∨ KidW gr dx dy st.n nd
  nodup : ((st2.closedlist ++ st2.openlist).map pathnode.id).Nodup

/-- What one pass through the loop body does to the lists, on a level of any
size. -/
structure ExpandedW (gr : Grid) (dx dy : Int) (st st2 : PFState) : Prop where
  n_eq : st2.n = st.n
  closed_eq : st2.closedlist = st.closedlist ++ [st.n]
  open_sub : ∀ nd ∈ st2.openlist,
    (nd ∈ st.openlist ∨ KidW gr dx dy st.n nd) ∧ nd.id ≠ st.n.id
  open_sup : ∀ nd ∈ st.openlist, nd.id ≠ st.n.id → nd ∈ st2.openlist
  nodup : ((st2.closedlist ++ st2.openlist).map pathnode.id).Nodup
  nbr : ∀ x y, Dir x y → issolid gr (st.n.x + x) (st.n.y + y) = false →
    (childW gr dx dy st.n x y).id ∈ (st2.closedlist ++ st2.openlist).map pathnode.id

/-- The parent link of a node: the root mark on the source node, or the id of
a node of `l`. -/
def ParentW (src : Int) (l : List pathnode) (nd : pathnode) : Prop :=
  (nd.p = -1 ∧ nd.id = src) ∨ ∃ u ∈ l, u.id = nd.p

/-- A list in which every node has its parent strictly before it, on a level
of any size. -/
inductive OrderedW (src : Int) : List pathnode → Prop
  | nil : OrderedW src []
  | snoc {l : List pathnode} {nd : pathnode} :
      OrderedW src l → ParentW src l nd → OrderedW src (l ++ [nd])

/-- The invariant of the main loop behind completeness, at the loop head, on a
level of any size: the closed cells have all their free neighbours on a list,
the source is on a list and the target is not closed. -/
structure ReachInv (gr : Grid) (src dest : Int) (st : PFState) : Prop where
  wf : ∀ nd ∈ st.closedlist ++ st.openlist, WFw gr nd
  nodup : ((st.closedlist ++ st.openlist).map pathnode.id).Nodup
  ord : OrderedW src st.closedlist
  par : ∀ nd ∈ st.openlist, ParentW src st.closedlist nd
  nmem : st.n ∈ st.closedlist ++ st.openlist
  closure : ∀ u ∈ st.closedlist, ∀ x y, Dir x y → issolid gr (u.x + x) (u.y + y) = false →
    wrap16 ((u.y + y) * gr.width + (u.x + x)) ∈ (st.closedlist ++ st.openlist).map pathnode.id
  srcin : src ∈ (st.closedlist ++ st.openlist).map pathnode.id
  destout : dest ∉ st.closedlist.map pathnode.id

/-- A level of 255 by 129 tiles, all solid but two cells. -/
def bigGrid : Grid := ⟨255, 129, fun i => if i = 32768 ∨ i = 32513 then 0 else 1⟩

/-- A level of two cells: a solid one on the left, a free one on the right. -/
def solidSrcGrid : Grid := ⟨2, 1, fun i => if i = 0 then 1 else 0⟩

/-- A level of one free cell. -/
def unitGrid : Grid := ⟨1, 1, fun _ => 0⟩

/-- A level of three by three free cells. -/
def openGrid3 : Grid := ⟨3, 3, fun _ => 0⟩

/-- A row of three cells with a wall in the middle. -/
def wallGrid : Grid := ⟨3, 1, fun i => if i = 1 then 1 else 0⟩

/-- A row of three free cells. -/
def rowGrid3 : Grid := ⟨3, 1, fun _ => 0⟩

/-- A level of seven by five cells, rows from the top `##.....`, `...###.`,
`.#.#...`, `..#..##`, `#...###`, where `#` is a tile of value 1 and `.` a tile
of value 0. -/
def detourGrid : Grid :=
  ⟨7, 5, fun i => [1, 1, 0, 0, 0, 0, 0,
                   0, 0, 0, 1, 1, 1, 0,
                   0, 1, 0, 1, 0, 0, 0,
                   0, 0, 1, 0, 0, 1, 1,
                   1, 0, 0, 0, 1, 1, 1].getD i 1⟩

instance (gr : Grid) (c : Int) : Decidable (inRange gr c) := by
  unfold inRange; infer_instance

instance (gr : Grid) (a b : Int) : Decidable (adjacent gr a b) := by
  unfold adjacent; infer_instance

instance (gr : Grid) (a b : Int) : Decidable (step gr a b) := by
  unfold step; infer_instance

/-- The states at the head of the main loop of the search from `src` to
`dest`, with the number of passes through the loop body made so far. -/
inductive LoopHead (gr : Grid) (src dest : Int) : Nat → PFState → Prop
  | init : LoopHead gr src dest 0 (initState gr src dest)
  | step {k : Nat} {st : PFState} {n : pathnode} :
      LoopHead gr src dest k st → st.n.id ≠ dest → st.openlist ≠ [] →
      findcheapestopenlist st.openlist = some n → n.id ≠ dest →
      LoopHead gr src dest (k + 1)
        (expand gr (destx gr dest) (desty gr dest) { st with n := n })

/-- An open list of three nodes, the last two with the same lowest cost. -/
def tieList : List pathnode :=
  [⟨7, 1, 1, -1, 0, 3, 3⟩, ⟨8, 2, 1, 7, 1, 1, 2⟩, ⟨12, 1, 2, 7, 1, 1, 2⟩]

/-! ## timeline.h -/

/-- The `struct timelineitem` of the source; `func` is the label of the function
pointer, `none` for `NULL`. -/
structure timelineitem where
  frame : Nat
  func : Option Nat
  done : Bool
deriving DecidableEq, Repr

/-- The `struct timelineobj` of the source; `callback` is the label of the
callback pointer, `none` for `NULL`. -/
structure timelineobj where
  timeline : List timelineitem
  timelinepos : Nat
  callback : Option Nat
  running : Bool
  looped : Nat
  loop : Nat
deriving DecidableEq, Repr

/-- What a call through a function pointer of the timeline leaves behind: the
function of item `i` was run, or the callback was run with a value. The `float`
argument of the callback is the rational number that the `float` stands for. -/
inductive TLEvent where
  | func (i : Nat) (f : Nat)
  | callback (cb : Nat) (percent : ℚ)
deriving DecidableEq, Repr

/-- The global `tl` together with the trace of the calls made so far. The
functions called do not touch `tl`. -/
structure TLWorld where
  tl : timelineobj
  trace : List TLEvent
deriving DecidableEq, Repr

/-- The range of `uint64_t`. -/
def U64 : Nat := 2 ^ 64

/-- The function `timeline_add`. -/
def timeline_add (tl : timelineobj) (itemstart : Nat) (newitem : Option Nat) : timelineobj :=
  { tl with timeline := tl.timeline ++ [⟨itemstart, newitem, false⟩] }

/-- The function `timeline_addcallback`. -/
def timeline_addcallback (tl : timelineobj) (callback : Option Nat) : timelineobj :=
  { tl with callback := callback }

/-- The `for` loop of `timeline_call` from index `i` on, over the items not yet
visited: the items with their new `done` flags, the calls made, and the number
of jobs counted as remaining. -/
def callItems (pos size : Nat) (running : Bool) :
    Nat → List timelineitem → List timelineitem × List TLEvent × Nat
  | _, [] => ([], [], 0)
  | i, it :: rest =>
    let fire := !it.done && decide (it.frame ≤ pos)
    let it2 : timelineitem := if fire then { it with done := true } else it
    let ev : List TLEvent :=
      if fire then
        match it.func with
        | some f => [TLEvent.func i f]
        | none => []
      else []
    let r : Nat := if running && decide (size - 1 ≥ i) && !it2.done then 1 else 0
    let res := callItems pos size running (i + 1) rest
    (it2 :: res.1, ev ++ res.2.1, r + res.2.2)

/-- The power `2^e` of an integer exponent. -/
def pow2 (e : Int) : ℚ :=
  if 0 ≤ e then ((2 ^ e.toNat : Nat) : ℚ) else 1 / ((2 ^ (-e).toNat : Nat) : ℚ)

/-- The binary logarithm of `n`, rounded down, by at most `f` halvings. -/
def halvings : Nat → Nat → Nat
  | 0, _ => 0
  | f + 1, n => if n < 2 then 0 else halvings f (n / 2) + 1

/-- The binary exponent of a positive number `q`: the `e` with
`2^e <= q < 2^(e+1)`. -/
def f32exp (q : ℚ) : Int :=
  let e0 : Int := (halvings q.num.natAbs q.num.natAbs : Int) - (halvings q.den q.den : Int)
  if pow2 e0 ≤ q then e0 else e0 - 1

/-- Rounding to the nearest integer, a tie going to the even one. -/
def rne (m : ℚ) : Int :=
  if m - Int.floor m < 1 / 2 then Int.floor m
  else if 1 / 2 < m - Int.floor m then Int.floor m + 1
  else if Int.floor m % 2 = 0 then Int.floor m else Int.floor m + 1

/-- The single-precision number nearest to a positive `q`, a tie going to the
even significand: 24 significant bits, the exponent not below `-126`. -/
def f32pos (q : ℚ) : ℚ :=
  (rne (q / pow2 (max (f32exp q) (-126) - 23)) : ℚ) * pow2 (max (f32exp q) (-126) - 23)

/-- Rounding to single precision (IEEE 754 binary32, round to nearest, ties to
even), on the numbers below the largest `float`: the value of a conversion to
`float` and of a `float` division or multiplication. -/
def f32 (q : ℚ) : ℚ :=
  if 0 < q then f32pos q else if q < 0 then -f32pos (-q) else 0

/-- The value `((float)tl.timelinepos/(float)tl.timeline[0].frame)*100` that
`timeline_call` hands to the callback: both conversions, the division and the
multiplication are single-precision operations. -/
def percentage (pos frame : Nat) : ℚ :=
  f32 (f32 (f32 (pos : ℚ) / f32 (frame : ℚ)) * f32 100)

/-- The call of the callback in `timeline_call`, if one is registered. -/
def callCallback (tl : timelineobj) : List TLEvent :=
  match tl.callback with
  | none => []
  | some cb =>
    match tl.timeline with
    | [it] =>
      if it.func = none ∧ it.frame > 0 then
        [TLEvent.callback cb (percentage tl.timelinepos it.frame)]
      else [TLEvent.callback cb 0]
    | _ => [TLEvent.callback cb 0]

/-- The function `timeline_call`. -/
def timeline_call (w : TLWorld) : TLWorld :=
  if !w.tl.running then w
  else
    let res := callItems w.tl.timelinepos w.tl.timeline.length w.tl.running 0 w.tl.timeline
    let tl1 : timelineobj := { w.tl with timeline := res.1 }
    let trace1 := w.trace ++ res.2.1 ++ callCallback tl1
    let tl2 : timelineobj :=
      if res.2.2 = 0 then
        let tl3 : timelineobj := { tl1 with looped := (tl1.looped + 1) % U64 }
        if tl3.loop = 0 ∨ tl3.looped < tl3.loop then
          { tl3 with timelinepos := 0,
                     timeline := tl3.timeline.map (fun it => { it with done := false }) }
        else { tl3 with running := false }
      else tl1
    ⟨{ tl2 with timelinepos := (tl2.timelinepos + 1) % U64 }, trace1⟩

/-- The function `timeline_begin`. -/
def timeline_begin (tl : timelineobj) (loops : Nat) : timelineobj :=
  { tl with looped := 0, loop := loops, timelinepos := 0, running := true }

/-- The function `timeline_end`. -/
def timeline_end (tl : timelineobj) : timelineobj :=
  { tl with running := false }

/-- The function `timeline_reset`. -/
def timeline_reset (_tl : timelineobj) : timelineobj :=
  { running := false, timeline := [], timelinepos := 0, callback := none, looped := 0, loop := 1 }

/-- The world after `k` calls of `timeline_call`. -/
def ticks : Nat → TLWorld → TLWorld
  | 0, w => w
  | k + 1, w => timeline_call (ticks k w)

/-- The world of claim C5: reset, one action `a` at frame `N`, one loop. -/
def singleShot (tl0 : timelineobj) (N a : Nat) : TLWorld :=
  ⟨timeline_begin (timeline_add (timeline_reset tl0) N (some a)) 1, []⟩

/-- The world of claim C6: reset, one action `a` at frame `N`, looping forever. -/
def looping (tl0 : timelineobj) (N a : Nat) : TLWorld :=
  ⟨timeline_begin (timeline_add (timeline_reset tl0) N (some a)) 0, []⟩

/-- Any timeline state, to start from. -/
def staleTimeline : timelineobj := ⟨[⟨3, some 9, true⟩], 5, some 3, true, 7, 9⟩

/-- The schedule built by successive `timeline_add` calls. -/
def scheduleAll (tl : timelineobj) : List (Nat × Option Nat) → timelineobj
  | [] => tl
  | e :: rest => scheduleAll (timeline_add tl e.1 e.2) rest

/-- The world of claim C7: reset, the items of `sched` added in order, an
optional callback, `L` loops. -/
def bounded (tl0 : timelineobj) (sched : List (Nat × Option Nat)) (cb : Option Nat)
    (L : Nat) : TLWorld :=
  ⟨timeline_begin (timeline_addcallback (scheduleAll (timeline_reset tl0) sched) cb) L, []⟩

/-- What one pass of the `for` loop does to one item. -/
def fireItem (pos : Nat) (it : timelineitem) : timelineitem :=
  if !it.done && decide (it.frame ≤ pos) then { it with done := true } else it

/-- The `done` flag of item `i`, false when there is no such item. -/
def doneAt (tl : timelineobj) (i : Nat) : Bool :=
  match tl.timeline.get? i with
  | some it => it.done
  | none => false

/-- The invariant of a bounded run of the schedule `sched` with `L` loops. -/
structure SchedInv (sched : List (Nat × Option Nat)) (L : Nat) (w : TLWorld) : Prop where
  shape : w.tl.timeline.map (fun it => (it.frame, it.func)) = sched
  loopL : w.tl.loop = L
  cnt : ∀ i it f, w.tl.timeline.get? i = some it → it.func = some f →
    List.count (TLEvent.func i f) w.trace =
      w.tl.looped + (if w.tl.running = true ∧ it.done = true then 1 else 0)
  run : w.tl.running = true → w.tl.looped < L
  stop : w.tl.running = false → w.tl.looped = L

/-- The trace after one more call of `timeline_call` on a running timeline. -/
def traceAfter (w : TLWorld) : List TLEvent :=
  w.trace ++
    (callItems w.tl.timelinepos w.tl.timeline.length true 0 w.tl.timeline).2.1 ++
    callCallback { w.tl with timeline := w.tl.timeline.map (fireItem w.tl.timelinepos) }

/-- Every item is done after the `for` loop of this tick. -/
def passDone (w : TLWorld) : Prop :=
  ∀ it ∈ w.tl.timeline, (fireItem w.tl.timelinepos it).done = true

/-- A schedule of three items, out of frame order, one of them without action. -/
def demoSchedule : List (Nat × Option Nat) := [(3, some 1), (0, some 2), (1, none)]

/-- A stopped timeline with an item still to run, an item already run and a
callback, after one call has been traced. -/
def stoppedWorld : TLWorld :=
  ⟨⟨[⟨0, some 4, false⟩, ⟨2, none, true⟩], 5, some 3, false, 0, 0⟩, [TLEvent.func 0 4]⟩

/-- The timeline of a single-shot run that has completed. -/
def spentTimeline : timelineobj := (ticks 4 (singleShot staleTimeline 3 7)).tl

/-- The `struct gamechar` of the source; the `float` fields are rationals. -/
structure gamechar where
  id : Nat
  x : ℚ
  y : ℚ
  flip : Bool
  hs : ℚ
  vs : ℚ
  dwell : Int
  htime : Int
  del : Bool
  health : Int
  growtime : Int
  pollen : Int
  dx : Int
  dy : Int
  path : List Int
deriving DecidableEq

/-- The `struct shot` of the source; the `float` fields are rationals. -/
structure shot where
  id : Nat
  x : ℚ
  y : ℚ
  flip : Bool
  dir : Int
  ttl : Int
  del : Bool
deriving DecidableEq

/-- The range of `uint32_t`. -/
def U32 : Nat := 2 ^ 32

/-- The function `countchars` over the entity collection `gs.chars`: the
`uint32_t` counter `found` goes up for every entity whose id occurs in
`tileids`. -/
def countchars (chars : List gamechar) (tileids : List Nat) : Nat :=
  chars.foldl (fun found c => if tileids.count c.id > 0 then (found + 1) % U32 else found) 0

/-- The function `islevelcompleted` for the entity collection `gs.chars` and
the level index `gs.level`; `(uint8_t)(gs.level+5)` is the remainder modulo 256. -/
def islevelcompleted (chars : List gamechar) (level : Nat) : Bool :=
  countchars chars [55, 56] == 0 && countchars chars [53, 54] == 0 &&
    decide (countchars chars [51, 52] ≥ (level + 5) % 256)

/-- The purge loop `while (id--) if (v[id].del) v.erase(v.begin()+id)`, entered
with `id == i`. -/
def purgeLoop {α : Type} (del : α → Bool) : Nat → List α → List α
  | 0, l => l
  | i + 1, l =>
    purgeLoop del i
      (match l.get? i with
       | some c => if del c then l.eraseIdx i else l
       | none => l)

/-- The purge pass at the end of `updatecharAI`; `id` is a `uint32_t`. -/
def purgechars (chars : List gamechar) : List gamechar :=
  purgeLoop gamechar.del (chars.length % U32) chars

/-- The purge pass at the end of `guncheck`; `i` is a `uint32_t`. -/
def purgeshots (shots : List shot) : List shot :=
  purgeLoop shot.del (shots.length % U32) shots

/-- An entity with the given tile id and deletion flag, at rest. -/
def mkchar (id : Nat) (del : Bool) : gamechar :=
  ⟨id, 0, 0, false, 0, 0, 0, 0, del, 0, 0, 0, -1, -1, []⟩

/-- A shot with the given time to live and deletion flag. -/
def mkshot (ttl : Int) (del : Bool) : shot := ⟨44, 0, 0, false, 1, ttl, del⟩

/-- Five foragers and nothing else. -/
def fiveBees : List gamechar :=
  [mkchar 51 false, mkchar 52 false, mkchar 51 false, mkchar 52 false, mkchar 51 false]

/-- Three entities, the middle one marked for deletion. -/
def threeChars : List gamechar := [mkchar 51 false, mkchar 53 true, mkchar 55 false]

/-- Two shots, the first one marked for deletion. -/
def twoShots : List shot := [mkshot 0 true, mkshot 5 false]

/-! ## main.cpp: message box and level change -/

/-- The `struct particle` of the source. -/
structure particle where
  x : ℚ
  y : ℚ
  ang : ℚ
  t : ℚ
  r : Nat
  g : Nat
  b : Nat
  a : ℚ
  s : Nat
deriving DecidableEq

/-- The `struct parallax` of the source. -/
structure parallax where
  t : Nat
  x : ℚ
  y : ℚ
  z : ℚ
deriving DecidableEq

/-- The `struct msgboxitem` of the source. -/
structure msgboxitem where
  msgboxtext : String
  msgboxtime : Nat
deriving DecidableEq

/-- The `struct gamestate` of the source without its `surface` pointer. -/
structure gamestate where
  gravity : ℚ
  terminalvelocity : ℚ
  friction : ℚ
  x : ℚ
  y : ℚ
  px : ℚ
  py : ℚ
  sx : ℚ
  sy : ℚ
  vs : ℚ
  hs : ℚ
  jump : Bool
  fall : Bool
  duck : Bool
  htime : Int
  invtime : Int
  dir : Int
  hsp : ℚ
  vsp : ℚ
  speed : ℚ
  jumpspeed : ℚ
  coyote : Int
  life : Int
  tileid : Nat
  flip : Bool
  gun : Bool
  shots : List shot
  gunheat : Nat
  level : Nat
  width : Nat
  height : Nat
  xoffset : Int
  yoffset : Int
  topdown : Bool
  spawntime : Int
  chars : List gamechar
  anim : Int
  particles : List particle
  parallax : List parallax
  state : Nat
  msgboxtext : String
  msgboxtime : Nat
  msgqueue : List msgboxitem
deriving DecidableEq

/-- The globals the embedded functions of `main.cpp` work on: `gs`, `tl`, and
the number of calls of `rand()` made so far. -/
structure Game where
  gs : gamestate
  tl : timelineobj
  rands : Nat
deriving DecidableEq

/-- The constant `FPS`. -/
def FPS : Nat := 30

/-- The constant `TILESIZE`. -/
def TILESIZE : Nat := 16

/-- The constant `STATEINTRO`. -/
def STATEINTRO : Nat := 0

/-- The constant `STATEMENU`. -/
def STATEMENU : Nat := 1

/-- The constant `STATEPLAYING`. -/
def STATEPLAYING : Nat := 2

/-- The constant `STATENEWLEVEL`. -/
def STATENEWLEVEL : Nat := 3

/-- The constant `STATECOMPLETE`. -/
def STATECOMPLETE : Nat := 4

/-- The function `showmessagebox`. -/
def showmessagebox (gs : gamestate) (text : String) (timing : Nat) : gamestate :=
  if gs.msgboxtime = 0 ∧ gs.state = STATEPLAYING then
    { gs with msgboxtext := text, msgboxtime := timing }
  else
    { gs with msgqueue := gs.msgqueue ++ [⟨text, timing⟩] }

/-- The loop of `strsplit` for the delimiter `"\n"`, the only one it is called
with: `tok` holds the characters of the current token. -/
def strsplitLoop : List Char → List Char → List (List Char)
  | [], tok => if tok.length > 0 then [tok] else []
  | c :: rest, tok =>
    if c = '\n' then tok :: strsplitLoop rest [] else strsplitLoop rest (tok ++ [c])

/-- The function `strsplit` for the delimiter `"\n"`. -/
def strsplit (str : String) : List (List Char) := strsplitLoop str.data []

/-- The library function `std::stoi(s, nullptr, 10)`: leading white space, an
optional sign, then decimal digits; `none` stands for the exception it throws
when there is no digit or the value is no `int`. -/
def stoi (s : List Char) : Option Int :=
  let s1 := s.dropWhile (fun c => c = ' ' ∨ (9 ≤ c.toNat ∧ c.toNat ≤ 13))
  let neg := s1.head? = some '-'
  let s2 := if s1.head? = some '-' ∨ s1.head? = some '+' then s1.tail else s1
  let ds := s2.takeWhile Char.isDigit
  let v : Int := ds.foldl (fun a c => 10 * a + ((c.toNat : Int) - 48)) 0
  let r : Int := if neg then -v else v
  if ds.length = 0 then none
  else if -2147483648 ≤ r ∧ r ≤ 2147483647 then some r
  else none

/-- The icon number `drawmsgbox` reads off the first line of the text, narrowed
to `int8_t`; `-1` when the line has no tag, `none` when `std::stoi` throws. -/
def msgboxicon (text : String) : Option Int :=
  match strsplit text with
  | [] => some (-1)
  | line :: _ =>
    if line.head? = some '[' ∧ line.indexOf ']' < line.length then
      match stoi ((line.drop 1).take (line.indexOf ']')) with
      | some v => some ((v + 128) % 256 - 128)
      | none => none
    else some (-1)

/-- The function `drawmsgbox`, as far as `gs` goes: the calls that draw on the
surface write no field of `gs`. `none` is the exception out of `std::stoi`. -/
def drawmsgbox (gs : gamestate) : Option gamestate :=
  if gs.msgboxtime > 0 then
    match msgboxicon gs.msgboxtext with
    | none => none
    | some _ => some { gs with msgboxtime := gs.msgboxtime - 1 }
  else if gs.state = STATEPLAYING ∧ gs.msgqueue.length > 0 then
    match gs.msgqueue.head? with
    | some m =>
      let gs1 := showmessagebox gs m.msgboxtext m.msgboxtime
      some { gs1 with msgqueue := gs1.msgqueue.eraseIdx 0 }
    | none => some gs
  else some gs

/-- The label of the function `startplaying` on the timeline. -/
def startplaying_label : Nat := 1

/-- The hints `newlevel` queues for a level. -/
def levelhints (level : Nat) : List String :=
  match level with
  | 0 => ["[10]Welcome to JS13K entry\nby picosonic",
          "[50]Shoot enemies\nwith the honey gun",
          "[55]Grubs turn into Zombees\nwhen they eat toadstools",
          "[53]Zombees chase bees\nsteal pollen and honey\nand break hives",
          "[51]Bees collect pollen from flowers\nto make pollen in their hives",
          "[30]Clear away toadstools to prevent\ngrubs turning into ZomBees and\nmake space for flowers to grow"]
  | 1 => ["[45]Watch out for gravity toggles"]
  | 2 => ["[50]Solve the maze\nto find your prize"]
  | 3 => ["[50]Use gravity toggle\nto get honey gun"]
  | 4 => ["[45]Race to the top\nwith care"]
  | 5 => ["[55]Hop to it before the\ngrubs change to Zombees"]
  | 6 => ["[40]Take a leap of faith"]
  | _ => []

/-- The function `newlevel`; `nlevels` is `levels.size()`, the number of levels
of `levels.h`. -/
def newlevel (nlevels : Nat) (g : Game) (level : Nat) : Game :=
  if level ≥ nlevels then g
  else
    let tl1 := timeline_add (timeline_reset g.tl) (3 * FPS) (some startplaying_label)
    let gs1 : gamestate :=
      { g.gs with state := STATENEWLEVEL, level := level, msgqueue := [], msgboxtime := 0 }
    let gs2 := (levelhints level).foldl (fun s h => showmessagebox s h (3 * FPS)) gs1
    { g with gs := gs2, tl := timeline_begin tl1 1 }

/-- A game in progress on level 2: a hint on show, two messages queued. -/
def playingState : gamestate :=
  { gravity := 1 / 4, terminalvelocity := 10, friction := 1,
    x := 32, y := 48, px := 32, py := 48, sx := 16, sy := 16, vs := 0, hs := 0,
    jump := false, fall := false, duck := false, htime := 0, invtime := 0, dir := 0,
    hsp := 1, vsp := 1, speed := 2, jumpspeed := 5, coyote := 0, life := 100,
    tileid := 45, flip := false, gun := false, shots := [], gunheat := 0,
    level := 2, width := 20, height := 15, xoffset := 0, yoffset := 0, topdown := false,
    spawntime := 240, chars := [], anim := 8, particles := [], parallax := [],
    state := STATEPLAYING, msgboxtext := "[50]Solve the maze\nto find your prize",
    msgboxtime := 12,
    msgqueue := [⟨"[53]Remove all threats", 90⟩, ⟨"[51]2 more bees needed", 90⟩] }

/-- The state `playingState` once its message box has run out. -/
def idleState : gamestate := { playingState with msgboxtime := 0 }

/-- The game `playingState` with a running timeline. -/
def playingGame : Game := ⟨playingState, staleTimeline, 7⟩

/-- The game state after `k` calls of `drawmsgbox`, one per frame drawn. -/
def draws : Nat → gamestate → Option gamestate
  | 0, gs => some gs
  | k + 1, gs => (draws k gs).bind drawmsgbox

/-! ## main.cpp: character AI -/

/-- The constant `HEALTHZOMBEE`. -/
def HEALTHZOMBEE : Int := 10

/-- The constant `HEALTHGRUB`. -/
def HEALTHGRUB : Int := 5

/-- The constant `HEALTHPLANT`. -/
def HEALTHPLANT : Int := 2

/-- The constant `GROWTIME`. -/
def GROWTIME : Int := 15 * 30

/-- The constant `SPEEDBEE`. -/
def SPEEDBEE : ℚ := 1 / 2

/-- The constant `SPEEDZOMBEE`. -/
def SPEEDZOMBEE : ℚ := 1 / 4

/-- The constant `SPEEDGRUB`. -/
def SPEEDGRUB : ℚ := 1 / 4

/-- The constant `MAXFLIES`. -/
def MAXFLIES : Nat := 15

/-- The constant `MAXBEES`. -/
def MAXBEES : Nat := 20

/-- The macro `Math_floor`. -/
def Math_floor (v : ℚ) : Int := Rat.floor v

/-- Conversion of a `float` to an integer type: the fraction is dropped. -/
def ftoi (v : ℚ) : Int := if v < 0 then -Rat.floor (-v) else Rat.floor v

/-- The function `abs` on a `float`. -/
def fabs (v : ℚ) : ℚ := if v < 0 then -v else v

/-- The entity `gs.chars[i]`. The source reads the collection only at indices
below its size; outside of it the value here is an entity at rest. -/
def charAt (g : Game) (i : Nat) : gamechar := g.gs.chars.getD i (mkchar 0 false)

/-- An assignment to fields of `gs.chars[i]`: the entity becomes `f` of what it
was. -/
def setchar (g : Game) (i : Nat) (f : gamechar → gamechar) : Game :=
  { g with gs := { g.gs with chars := g.gs.chars.set i (f (charAt g i)) } }

/-- The function `rng`: the next value of the random sequence `rnd`, which
stands for `(double) rand() / RAND_MAX`. -/
def rng (rnd : Nat → ℚ) (g : Game) : ℚ × Game :=
  (rnd g.rands, { g with rands := g.rands + 1 })

/-- The function `overlap`. -/
def overlap (ax ay aw ah bx byy bw bh : ℚ) : Bool :=
  if ax < bx ∧ ax + aw ≤ bx then false
  else if ax > bx ∧ bx + bw ≤ ax then false
  else if ay < byy ∧ ay + ah ≤ byy then false
  else if ay > byy ∧ byy + bh ≤ ay then false
  else true

/-- The level the pathfinder and `collide` read: `gs.width`, `gs.height` and the
tile array `levels[gs.level].tiles`. -/
def gridOf (g : Game) (tiles : Nat → Nat) : Grid := ⟨g.gs.width, g.gs.height, tiles⟩

/-- The function `collide`; `TILESIZE/5` is 3 and `TILESIZE/3` is 5. -/
def collide (g : Game) (tiles : Nat → Nat) (px py pw ph : ℚ) : Bool :=
  if px ≤ -3 then true
  else if px + 5 ≥ g.gs.width * 16 then true
  else
    (List.range g.gs.height).any fun y =>
      (List.range g.gs.width).any fun x =>
        decide (tiles (y * g.gs.width + x) > 1) &&
          overlap px py pw ph (x * 16) (y * 16) 16 16

/-- The loop of `findnearestchar`, at index `id`: `closest2` is the square of
`closest`, so that `dist < closest` is a comparison of squares; the result is
an `int16_t`. -/
def findnearestLoop (x y : ℚ) (tileids : List Nat) :
    List gamechar → Nat → ℚ → Int → Int
  | [], _, _, charid => charid
  | c :: rest, id, closest2, charid =>
    if tileids.count c.id > 0 ∧ (x - c.x) ^ 2 + (y - c.y) ^ 2 < closest2 then
      findnearestLoop x y tileids rest (id + 1) ((x - c.x) ^ 2 + (y - c.y) ^ 2) (wrap16 id)
    else findnearestLoop x y tileids rest (id + 1) closest2 charid

/-- The function `findnearestchar`. -/
def findnearestchar (g : Game) (x y : ℚ) (tileids : List Nat) : Int :=
  findnearestLoop x y tileids g.gs.chars 0 (((g.gs.width * g.gs.height * 16 : Nat) : ℚ) ^ 2) (-1)

/-- One pass through the loop of `generateparticles`: the particle built from
the random sequence at position `k`, and the position after it. A colour
channel given as 0 takes one random value. -/
def genparticle (rnd : Nat → ℚ) (cx cy mt : ℚ) (r gg b : Nat) (k : Nat) : particle × Nat :=
  let ang := Math_floor (rnd k * 360)
  let t := Math_floor (rnd (k + 1) * mt)
  let k2 := k + 2
  let pr := if r = 0 then (ftoi (rnd k2 * 255)).toNat % 256 else r
  let k3 := if r = 0 then k2 + 1 else k2
  let pg := if gg = 0 then (ftoi (rnd k3 * 255)).toNat % 256 else gg
  let k4 := if gg = 0 then k3 + 1 else k3
  let pb := if b = 0 then (ftoi (rnd k4 * 255)).toNat % 256 else b
  let k5 := if b = 0 then k4 + 1 else k4
  let s := if rnd k5 < 1 / 4 then 2 else 1
  (⟨cx, cy, ang, t, pr, pg, pb, 1, s⟩, k5 + 1)

/-- The function `generateparticles`. -/
def generateparticles (rnd : Nat → ℚ) (cx cy mt : ℚ) (r gg b : Nat) : Nat → Game → Game
  | 0, g => g
  | count + 1, g =>
    let pk := genparticle rnd cx cy mt r gg b g.rands
    generateparticles rnd cx cy mt r gg b count
      { g with gs := { g.gs with particles := g.gs.particles ++ [pk.1] }, rands := pk.2 }

/-- The path-following block of the bee case, entered with a non-empty path. -/
def beefollow (width : Nat) (c : gamechar) : gamechar :=
  let nextx := wrap16 (Int.tmod (c.path.headD 0) width * 16)
  let nexty := wrap16 (Int.tdiv (c.path.headD 0) width * 16)
  let deltax := ftoi (fabs ((nextx : ℚ) - c.x))
  let deltay := ftoi (fabs ((nexty : ℚ) - c.y))
  if deltax ≤ 8 ∧ deltay ≤ 8 then
    let c1 : gamechar := { c with path := c.path.eraseIdx 0 }
    if c1.path.length = 0 then
      let c2 : gamechar := if c1.dx = -1 then { c1 with dwell := 2 * 30 } else c1
      { c2 with dx := -1, dy := -1 }
    else c1
  else
    let c1 : gamechar :=
      if deltax ≠ 0 then
        let c2 : gamechar := { c with hs := if (nextx : ℚ) < c.x then -SPEEDBEE else SPEEDBEE }
        let c3 : gamechar := { c2 with x := c2.x + c2.hs }
        let c4 : gamechar := { c3 with flip := decide (c3.hs < 0) }
        if c4.x < 0 then { c4 with x := 0 } else c4
      else c
    if deltay ≠ 0 then
      let c2 : gamechar := { c1 with y := c1.y + (if (nexty : ℚ) < c1.y then -SPEEDBEE else SPEEDBEE) }
      if c2.x < 0 then { c2 with x := 0 } else c2
    else c1

/-- The path-following block of the zombee case, entered with a non-empty
path. -/
def zombeefollow (width : Nat) (c : gamechar) : gamechar :=
  let nextx := wrap16 (Int.tmod (c.path.headD 0) width * 16)
  let nexty := wrap16 (Int.tdiv (c.path.headD 0) width * 16)
  let deltax := ftoi (fabs ((nextx : ℚ) - c.x))
  let deltay := ftoi (fabs ((nexty : ℚ) - c.y))
  if deltax ≤ 8 ∧ deltay ≤ 8 then
    let c1 : gamechar := { c with path := c.path.eraseIdx 0 }
    if c1.path.length = 0 then { c1 with dwell := 2 * 30, dx := -1, dy := -1 }
    else c1
  else
    let c1 : gamechar :=
      if deltax ≠ 0 then
        let c2 : gamechar :=
          if (nextx : ℚ) ≠ c.x then
            let c3 : gamechar := { c with hs := if (nextx : ℚ) < c.x then -SPEEDZOMBEE else SPEEDZOMBEE }
            let c4 : gamechar := { c3 with x := c3.x + c3.hs }
            { c4 with flip := decide (c4.hs < 0) }
          else c
        if c2.x < 0 then { c2 with x := 0 } else c2
      else c
    if deltay ≠ 0 then
      let c2 : gamechar := { c1 with y := c1.y + (if (nexty : ℚ) < c1.y then -SPEEDZOMBEE else SPEEDZOMBEE) }
      if c2.x < 0 then { c2 with x := 0 } else c2
    else c1

/-- The cell id handed to `pathfinder` for the pixel position `(x, y)`,
narrowed to the `int16_t` of the parameter. -/
def cellof (width : Nat) (x y : ℚ) : Int :=
  wrap16 (Math_floor (y / 16) * width + Math_floor (x / 16))

/-- The shrinking of a plant that has been eaten from (`gs.chars[id2]`, a
flower when `big = 32`, a toadstool when `big = 30`): its health goes down by
one; at zero the big plant becomes the small one with a new grow time, the
small one is marked for deletion. -/
def eatplant (rnd : Nat → ℚ) (g : Game) (id2 : Nat) (big : Nat) : Game :=
  let g1 := setchar g id2 fun c => { c with health := c.health - 1 }
  if (charAt g1 id2).health ≤ 0 then
    if (charAt g1 id2).id = big then
      let g2 := setchar g1 id2 fun c => { c with health := HEALTHPLANT }
      let r := rng rnd g2
      let g3 := setchar r.2 id2 fun c => { c with growtime := GROWTIME + Math_floor (r.1 * 120) }
      setchar g3 id2 fun c => { c with id := big + 1 }
    else setchar g1 id2 fun c => { c with del := true }
  else g1

/-- The entity a hive spawns. -/
def newbee (x y : ℚ) : gamechar :=
  { id := 51, x := x, y := y, flip := false, hs := 0, vs := 0, dwell := 5 * 30, htime := 0,
    pollen := 0, dx := -1, dy := -1, del := false, health := 0, growtime := 0, path := [] }

/-- The deposit of pollen by the bee `gs.chars[id]` in the hive `gs.chars[id2]`,
with the spawning of a new bee. -/
def hivedeposit (rnd : Nat → ℚ) (g : Game) (id id2 : Nat) : Game :=
  if (charAt g id).pollen > 0 then
    let g1 := setchar g id fun c => { c with dwell := 2 * 30 }
    let g2 := setchar g1 id2 fun c => { c with pollen := c.pollen + (charAt g1 id).pollen }
    let g3 := setchar g2 id fun c => { c with pollen := 0 }
    if (charAt g3 id2).pollen > 10 ∧ countchars g3.gs.chars [51, 52] < MAXBEES then
      let obj := newbee (charAt g3 id2).x (charAt g3 id2).y
      let g4 := setchar g3 id2 fun c => { c with pollen := c.pollen - 10 }
      let g5 : Game := { g4 with gs := { g4.gs with chars := g4.gs.chars ++ [obj] } }
      let g6 := generateparticles rnd ((charAt g5 id).x + 8) ((charAt g5 id).y + 8) 16 0 0 0 16 g5
      let beesneeded := wrap16 ((g6.gs.level : Int) + 5 - countchars g6.gs.chars [51, 52])
      if beesneeded ≤ 0 then
        if !islevelcompleted g6.gs.chars g6.gs.level then
          { g6 with gs := showmessagebox g6.gs "[53]Remove all threats" (3 * FPS) }
        else g6
      else
        let text := "[51]" ++ toString beesneeded ++ " more bees needed"
        { g6 with gs := showmessagebox g6.gs text (3 * FPS) }
    else g3
  else g

/-- One pass through the scan of the bee `gs.chars[id]` over the entities, at
index `id2`. -/
def beevisit (rnd : Nat → ℚ) (g : Game) (id id2 : Nat) : Game :=
  let c := charAt g id
  let c2 := charAt g id2
  if (c2.id = 32 ∨ c2.id = 33 ∨ c2.id = 36 ∨ c2.id = 37) ∧
      overlap c.x c.y 16 16 c2.x c2.y 16 16 = true then
    if c2.id = 32 ∨ c2.id = 33 then
      let g1 := setchar g id fun c => { c with dwell := 2 * 30 }
      let g2 := setchar g1 id fun c => { c with pollen := c.pollen + 1 }
      eatplant rnd g2 id2 32
    else hivedeposit rnd g id id2
  else g

/-- The scan of the bee `gs.chars[id]` over the entities from index `id2` on;
the collection may grow while it runs. -/
def beescan (rnd : Nat → ℚ) (id : Nat) : Nat → Nat → Game → Option Game
  | 0, _, _ => none
  | fuel + 1, id2, g =>
    if id2 < g.gs.chars.length then beescan rnd id fuel (id2 + 1) (beevisit rnd g id id2)
    else some g

/-- The re-routing of `gs.chars[id]` to the entity `gs.chars[nid]`, when that is
not where it is headed. -/
def reroute (tiles : Nat → Nat) (fuel : Nat) (g : Game) (id : Nat) (nid : Int) : Option Game :=
  let c := charAt g id
  let t := charAt g nid.toNat
  if (c.dx : ℚ) ≠ t.x ∧ (c.dy : ℚ) ≠ t.y then
    match pathfinder (gridOf g tiles) fuel (cellof g.gs.width c.x c.y)
        (cellof g.gs.width t.x t.y) with
    | none => none
    | some p =>
      let g1 := setchar g id fun c => { c with path := p }
      let g2 := setchar g1 id fun c => { c with dx := ftoi (charAt g1 nid.toNat).x }
      some (setchar g2 id fun c => { c with dy := ftoi (charAt g2 nid.toNat).y })
  else some g

/-- The choice of a target by the bee `gs.chars[id]`. -/
def beetarget (tiles : Nat → Nat) (fuel : Nat) (g : Game) (id : Nat) : Option Game :=
  let c := charAt g id
  let hid := findnearestchar g c.x c.y [36, 37]
  let fid := findnearestchar g c.x c.y [32, 33]
  let nid0 : Int := -1
  let nid1 := if hid ≠ -1 ∧ c.pollen > 0 then hid else nid0
  let nid := if fid ≠ -1 ∧ c.pollen < 5 then fid else nid1
  if nid ≠ -1 then reroute tiles fuel g id nid
  else if c.path.length = 0 then
    match pathfinder (gridOf g tiles) fuel (cellof g.gs.width c.x c.y)
        (cellof g.gs.width g.gs.x g.gs.y) with
    | none => none
    | some p =>
      let g1 := setchar g id fun c => { c with path := p }
      if (charAt g1 id).path.length ≤ 1 then
        some (setchar g1 id fun c => { c with dwell := 2 * 30 })
      else some g1
  else some g

/-- The case of a bee (51, 52) in `updatecharAI`. -/
def beecase (rnd : Nat → ℚ) (tiles : Nat → Nat) (fuel : Nat) (g : Game) (id : Nat) :
    Option Game :=
  if (charAt g id).dwell > 0 then
    some (setchar g id fun c => { c with dwell := c.dwell - 1 })
  else if (charAt g id).path.length > 0 then
    some (setchar g id (beefollow g.gs.width))
  else
    match beescan rnd id fuel 0 g with
    | none => none
    | some g1 =>
      if (charAt g1 id).dwell = 0 then beetarget tiles fuel g1 id
      else some g1

/-- One pass through the collision scan of the zombee `gs.chars[id]`, at index
`id2`. -/
def zombeevisit (g : Game) (id id2 : Nat) : Game :=
  let c := charAt g id
  let c2 := charAt g id2
  if (c2.id = 51 ∨ c2.id = 52 ∨ c2.id = 36 ∨ c2.id = 37) ∧
      overlap c.x c.y 16 16 c2.x c2.y 16 16 = true ∧ c.dwell = 0 then
    if c2.id = 51 ∨ c2.id = 52 then
      if c2.pollen > 0 then
        let g1 := setchar g id2 fun c => { c with pollen := c.pollen - 1 }
        let g2 := setchar g1 id fun c => { c with pollen := c.pollen + 1 }
        setchar g2 id fun c => { c with dwell := 5 * 30 }
      else g
    else if c2.id = 36 then
      let g1 := setchar g id2 fun c => { c with id := (c.id + 1) % 256 }
      let g2 :=
        if (charAt g1 id2).pollen > 0 then
          setchar g1 id2 fun c => { c with pollen := Int.tdiv c.pollen 2 }
        else g1
      setchar g2 id fun c => { c with dwell := 10 * 30 }
    else g
  else g

/-- The collision scan of the zombee `gs.chars[id]` over the entities from index
`id2` on, `k` of them left. -/
def zombeescan (id : Nat) : Nat → Nat → Game → Game
  | 0, _, g => g
  | k + 1, id2, g => zombeescan id k (id2 + 1) (zombeevisit g id id2)

/-- The case of a zombee (53, 54) in `updatecharAI`. -/
def zombeecase (tiles : Nat → Nat) (fuel : Nat) (g : Game) (id : Nat) : Option Game :=
  if (charAt g id).dwell = 0 then
    let g1 := zombeescan id g.gs.chars.length 0 g
    let nid := findnearestchar g1 (charAt g1 id).x (charAt g1 id).y [36, 51, 52]
    let r : Option Game :=
      if nid ≠ -1 then reroute tiles fuel g1 id nid
      else some (setchar g1 id fun c => { c with dwell := 2 * 30 })
    match r with
    | none => none
    | some g2 =>
      if (charAt g2 id).path.length > 0 then some (setchar g2 id (zombeefollow g2.gs.width))
      else some g2
  else some (setchar g id fun c => { c with dwell := c.dwell - 1 })

/-- The toadstool scan of the grub `gs.chars[id]` from index `id2` on, `k`
entities left: the game after it and the flag `eaten`. The scan ends at the
first toadstool found. -/
def grubscan (rnd : Nat → ℚ) (id : Nat) : Nat → Nat → Game → Game × Bool
  | 0, _, g => (g, false)
  | k + 1, id2, g =>
    let c := charAt g id
    let c2 := charAt g id2
    if (c2.id = 30 ∨ c2.id = 31) ∧ overlap (c.x + 8) (c.y + 8) 1 1 c2.x c2.y 16 16 = true then
      let g1 := setchar g id fun c => { c with health := c.health + 1 }
      let g2 := setchar g1 id fun c => { c with dwell := 3 * 30 }
      (eatplant rnd g2 id2 30, true)
    else grubscan rnd id k (id2 + 1) g

/-- The movement of the grub `gs.chars[id]`: one step, turned around when the
new position is blocked or at a ledge. -/
def grubmove (tiles : Nat → Nat) (g : Game) (id : Nat) : Game :=
  let g1 := setchar g id fun c => { c with x := c.x + c.hs }
  let c := charAt g1 id
  let nx := c.x
  let ahead : ℚ := if c.flip then -8 else 8
  if collide g1 tiles nx c.y 16 16 = true ∨
      (collide g1 tiles (nx + ahead) c.y 16 16 = false ∧
       collide g1 tiles (nx + ahead) (c.y + 8) 16 16 = false) then
    let g2 := setchar g1 id fun c => { c with hs := c.hs * -1 }
    setchar g2 id fun c => { c with flip := !c.flip }
  else setchar g1 id fun c => { c with x := nx }

/-- The case of a grub (55, 56) in `updatecharAI`; the flag tells whether the
function was left by `return`. -/
def grubcase (rnd : Nat → ℚ) (tiles : Nat → Nat) (g : Game) (id : Nat) : Game × Bool :=
  if (charAt g id).dwell > 0 then
    let g1 := setchar g id fun c => { c with dwell := c.dwell - 1 }
    (setchar g1 id fun c => { c with hs := 0 }, false)
  else
    let se := grubscan rnd id g.gs.chars.length 0 g
    let g1 := se.1
    if (charAt g1 id).dwell = 0 ∧ se.2 = false then
      if (charAt g1 id).hs = 0 then
        let r := rng rnd g1
        let g2 := setchar r.2 id fun c => { c with hs := if r.1 < 1 / 2 then -SPEEDGRUB else SPEEDGRUB }
        let g3 := setchar g2 id fun c => { c with flip := decide (c.hs < 0) }
        if (((charAt g3 id).health : ℚ) > HEALTHGRUB * (3 / 2)) ∧
            countchars g3.gs.chars [53, 54] < MAXFLIES then
          let g4 := setchar g3 id fun c =>
            { c with id := 53, health := HEALTHZOMBEE, pollen := 0, dwell := 5 * 30 }
          (generateparticles rnd ((charAt g4 id).x + 8) ((charAt g4 id).y + 8) 16 0 0 0 16 g4,
            true)
        else (grubmove tiles g3 id, false)
      else (grubmove tiles g1 id, false)
    else (g1, false)

/-- The case of a small plant (31, 33) in `updatecharAI`. -/
def plantcase (g : Game) (id : Nat) : Game :=
  let g1 := setchar g id fun c => { c with growtime := c.growtime - 1 }
  if (charAt g1 id).growtime ≤ 0 then
    let g2 := setchar g1 id fun c => { c with health := HEALTHPLANT }
    setchar g2 id fun c => { c with id := c.id - 1 }
  else g1

/-- One pass through the body of the `for` loop of `updatecharAI`, for the
entity at index `id`; the flag tells whether the function was left by
`return`. Both `break` out of the `switch` and `continue` lead to the next
index. -/
def charstep (rnd : Nat → ℚ) (tiles : Nat → Nat) (fuel : Nat) (g : Game) (id : Nat) :
    Option (Game × Bool) :=
  let g1 :=
    if (charAt g id).htime > 0 then setchar g id fun c => { c with htime := c.htime - 1 }
    else g
  let t := (charAt g1 id).id
  if t = 31 ∨ t = 33 then some (plantcase g1 id, false)
  else if t = 51 ∨ t = 52 then (beecase rnd tiles fuel g1 id).map fun g2 => (g2, false)
  else if t = 53 ∨ t = 54 then (zombeecase tiles fuel g1 id).map fun g2 => (g2, false)
  else if t = 55 ∨ t = 56 then some (grubcase rnd tiles g1 id)
  else some (g1, false)

/-- The `for` loop of `updatecharAI` from index `id` on. -/
def ailoop (rnd : Nat → ℚ) (tiles : Nat → Nat) (fuel : Nat) :
    Nat → Nat → Game → Option (Game × Bool)
  | 0, _, _ => none
  | k + 1, id, g =>
    if id < g.gs.chars.length then
      match charstep rnd tiles fuel g id with
      | none => none
      | some (g1, true) => some (g1, true)
      | some (g1, false) => ailoop rnd tiles fuel k (id + 1) g1
    else some (g, false)

/-- The function `updatecharAI`: the loop over the entities, then the purge of
the entities marked for deletion, which a `return` inside the loop skips. -/
def updatecharAI (rnd : Nat → ℚ) (tiles : Nat → Nat) (fuel : Nat) (g : Game) : Option Game :=
  match ailoop rnd tiles fuel fuel 0 g with
  | none => none
  | some (g1, true) => some g1
  | some (g1, false) => some { g1 with gs := { g1.gs with chars := purgechars g1.gs.chars } }

/-- A random sequence that always gives one half. -/
def halves : Nat → ℚ := fun _ => 1 / 2

/-- A level without tiles. -/
def notiles : Nat → Nat := fun _ => 0

/-- A small toadstool shot down by the player (marked for deletion by
`guncheck`, its hurt timer just set), a grub that has eaten its fill, and a
zombee that was hit by a shot and is dwelling. -/
def hatchChars : List gamechar :=
  [{ mkchar 31 true with x := 160, y := 64, htime := 60, growtime := 400 },
   { mkchar 55 false with x := 32, y := 64, health := 8 },
   { mkchar 53 false with x := 96, y := 32, htime := 60, health := 9, dwell := 20 }]

/-- A game in state `STATEPLAYING` with the entities `hatchChars`. -/
def hatchGame : Game :=
  ⟨{ playingState with chars := hatchChars, msgboxtime := 0, msgqueue := [] }, staleTimeline, 0⟩

/-- A zombee that is not dwelling on top of a bee without pollen. -/
def robGame : Game :=
  ⟨{ playingState with
      chars := [{ mkchar 53 false with x := 40, y := 64, pollen := 2 },
                { mkchar 52 false with x := 44, y := 60 }],
      msgboxtime := 0, msgqueue := [] }, staleTimeline, 0⟩

/-- A level of four by three tiles with a platform of two solid tiles in the
bottom row. -/
def ledgeTiles : Nat → Nat := fun i => if i = 8 ∨ i = 9 then 2 else 0

/-- A grub walking to the right on the platform of `ledgeTiles`, half a tile
from its end. -/
def ledgeGame : Game :=
  ⟨{ playingState with
      width := 4
      height := 3
      chars := [{ mkchar 55 false with x := 24, y := 16, hs := 1 / 4, health := 5 }]
      msgboxtime := 0
      msgqueue := [] }, staleTimeline, 0⟩

/-- A zombee on its way to the cell of a bee that has since moved one tile to
the right, in the same row. -/
def trackChars : List gamechar :=
  [{ mkchar 53 false with x := 16, y := 32, health := 10, dx := 64, dy := 32, path := [42, 43, 44] },
   { mkchar 51 false with x := 80, y := 32, dwell := 30 }]

/-- A game in state `STATEPLAYING` with the entities `trackChars`. -/
def trackGame : Game :=
  ⟨{ playingState with chars := trackChars, msgboxtime := 0, msgqueue := [] }, staleTimeline, 0⟩

/-- The square of the distance from the point `(x, y)` to an entity. -/
def dist2 (x y : ℚ) (c : gamechar) : ℚ := (x - c.x) ^ 2 + (y - c.y) ^ 2

/-- The square of the start value of `closest` in `findnearestchar`. -/
def reach2 (g : Game) : ℚ := ((g.gs.width * g.gs.height * 16 : Nat) : ℚ) ^ 2

/-- Some entity with a tile id of `tileids` is closer to `(x, y)` than
`gs.width*gs.height*TILESIZE` pixels. -/
def InReach (g : Game) (x y : ℚ) (tileids : List Nat) : Prop :=
  ∃ c ∈ g.gs.chars, tileids.count c.id > 0 ∧ dist2 x y c < reach2 g

/-- The number `nid` is the index of an entity with a tile id of `tileids`, and
no entity with such a tile id is closer to `(x, y)`. -/
def Nearest (g : Game) (x y : ℚ) (tileids : List Nat) (nid : Int) : Prop :=
  ∃ j, j < g.gs.chars.length ∧ nid = (j : Int) ∧ tileids.count (charAt g j).id > 0 ∧
    ∀ c ∈ g.gs.chars, tileids.count c.id > 0 → dist2 x y (charAt g j) ≤ dist2 x y c

/-- A bee carrying two units of pollen, a hive two tiles to its right and a
flower eight tiles to its right, all in one row. -/
def forageChars : List gamechar :=
  [{ mkchar 51 false with x := 32, y := 32, pollen := 2 },
   { mkchar 36 false with x := 64, y := 32 },
   { mkchar 32 false with x := 160, y := 32, health := 2 }]

/-- A level of twelve by four tiles with the entities `forageChars`. -/
def forageGame : Game :=
  ⟨{ playingState with
      width := 12
      height := 4
      chars := forageChars
      msgboxtime := 0
      msgqueue := [] }, staleTimeline, 0⟩

/-- A zombee with three route nodes pending, on its way to the cell of a bee
that has since moved one tile to the right and one tile down. -/
def chaseChars : List gamechar :=
  [{ mkchar 53 false with x := 16, y := 32, health := 10, dx := 64, dy := 32, path := [42, 43, 44] },
   { mkchar 51 false with x := 80, y := 48, dwell := 30 }]

/-- A game in state `STATEPLAYING` with the entities `chaseChars`. -/
def chaseGame : Game :=
  ⟨{ playingState with chars := chaseChars, msgboxtime := 0, msgqueue := [] }, staleTimeline, 0⟩

/-- An entity that is a bee (id 51 or 52). -/
def isbee (c : gamechar) : Bool := decide (c.id = 51 ∨ c.id = 52)

/-- The number of bees in `gs.chars`. -/
def nbees (g : Game) : Nat := g.gs.chars.countP isbee

/-- A bee with three units of pollen on top of a hive that holds nine. -/
def depositChars : List gamechar :=
  [{ mkchar 51 false with x := 64, y := 32, pollen := 3 },
   { mkchar 36 false with x := 64, y := 32, pollen := 9 }]

/-- A game in state `STATEPLAYING` with the entities `depositChars`. -/
def depositGame : Game :=
  ⟨{ playingState with chars := depositChars, msgboxtime := 0, msgqueue := [] }, staleTimeline, 0⟩

/-! ## main.cpp: player movement -/

/-- The function `playercollide`: `TILESIZE/3` is 5, `(TILESIZE/5)*2` is 6 and
`(TILESIZE/5)*3` is 9. -/
def playercollide (g : Game) (tiles : Nat → Nat) (x y : ℚ) : Bool :=
  collide g tiles (x + 5) (y + 6) 5 9

/-- The first `while` loop of `collisioncheck`, with `loop` passes left: the
player moves by `d`, which is `(gs.hs>0?1:-1)`, along the x axis as long as the
next position is free. -/
def slidex (tiles : Nat → Nat) (d : ℚ) : Nat → Game → Game
  | 0, g => g
  | loop + 1, g =>
    if playercollide g tiles (g.gs.x + d) g.gs.y = false then
      slidex tiles d loop { g with gs := { g.gs with x := g.gs.x + d } }
    else g

/-- The second `while` loop of `collisioncheck`, with `loop` passes left: the
player moves by `d`, which is `(gs.vs>0?1:-1)`, along the y axis as long as the
next position is free. -/
def slidey (tiles : Nat → Nat) (d : ℚ) : Nat → Game → Game
  | 0, g => g
  | loop + 1, g =>
    if playercollide g tiles g.gs.x (g.gs.y + d) = false then
      slidey tiles d loop { g with gs := { g.gs with y := g.gs.y + d } }
    else g

/-- The first half of `collisioncheck`, the x axis: when the move by `gs.hs`
collides the player walks up to `TILESIZE` (16) single pixels towards the
obstacle and `gs.hs` becomes 0; then `gs.x+=Math_floor(gs.hs)`. -/
def collisionx (tiles : Nat → Nat) (g : Game) : Game :=
  let g1 : Game :=
    if g.gs.hs ≠ 0 ∧ playercollide g tiles (g.gs.x + g.gs.hs) g.gs.y = true then
      let g0 := slidex tiles (if g.gs.hs > 0 then 1 else -1) 16 g
      { g0 with gs := { g0.gs with hs := 0 } }
    else g
  { g1 with gs := { g1.gs with x := g1.gs.x + Math_floor g1.gs.hs } }

/-- The second half of `collisioncheck`, the y axis: when the move by `gs.vs`
collides the player walks up to `TILESIZE` (16) single pixels towards the
obstacle and `gs.vs` becomes 0; then `gs.y+=Math_floor(gs.vs)`. -/
def collisiony (tiles : Nat → Nat) (g : Game) : Game :=
  let g1 : Game :=
    if g.gs.vs ≠ 0 ∧ playercollide g tiles g.gs.x (g.gs.y + g.gs.vs) = true then
      let g0 := slidey tiles (if g.gs.vs > 0 then 1 else -1) 16 g
      { g0 with gs := { g0.gs with vs := 0 } }
    else g
  { g1 with gs := { g1.gs with y := g1.gs.y + Math_floor g1.gs.vs } }

/-- The function `collisioncheck`: the x axis, then the y axis. -/
def collisioncheck (tiles : Nat → Nat) (g : Game) : Game :=
  collisiony tiles (collisionx tiles g)

/-- A level of six by four tiles with a floor in the bottom row and a wall in
the last column but one. -/
def roomTiles : Nat → Nat := fun i => if 18 ≤ i ∨ i % 6 = 4 then 2 else 0

/-- The player in the level `roomTiles`, standing on the floor, moving right at
speed 3 towards the wall and falling at speed 7/2. -/
def roomGame : Game :=
  ⟨{ playingState with
      width := 6
      height := 4
      x := 52
      y := 30
      hs := 3
      vs := 7 / 2
      msgboxtime := 0
      msgqueue := [] }, staleTimeline, 0⟩

/-- A tile array with the value 1 at index 5 and 0 elsewhere. -/
def oneTiles : Nat → Nat := fun i => if i = 5 then 1 else 0

/-! ## main.cpp: game loop -/

/-- The constant `SPAWNTIME`, which is `8*FPS`. -/
def SPAWNTIME : Int := 8 * 30

/-- The label of the function `intro` on the timeline. -/
def intro_label : Nat := 2

/-- The label of the function `endgame` on the timeline. -/
def endgame_label : Nat := 3

/-- The function `reset_gamestate`: it assigns every field of `gs` but `state`
(and the `surface` pointer, which is not embedded). -/
def reset_gamestate (gs : gamestate) : gamestate :=
  { gravity := 1 / 4, terminalvelocity := 10, friction := 1,
    x := 0, y := 0, px := 0, py := 0, sx := 0, sy := 0, vs := 0, hs := 0,
    jump := false, fall := false, duck := false, htime := 0, invtime := 0, dir := 0,
    hsp := 1, vsp := 1, speed := 2, jumpspeed := 5, coyote := 0, life := 100,
    tileid := 45, flip := false, gun := false, shots := [], gunheat := 0,
    level := 0, width := 0, height := 0, xoffset := 0, yoffset := 0, topdown := false,
    spawntime := SPAWNTIME, chars := [], anim := 8, particles := [], parallax := [],
    state := gs.state, msgboxtext := "", msgboxtime := 0, msgqueue := [] }

/-- The function `resettointro`, as far as the timeline goes. -/
def resettointro (tl : timelineobj) : timelineobj :=
  timeline_begin
    (timeline_addcallback (timeline_add (timeline_reset tl) (10 * FPS) none) (some intro_label)) 1

/-- The function `jammagame_initialise`: its return value and the globals after
it. The two statements before `reset_gamestate()` install assets and the font,
outside of `gs` and `tl`. -/
def jammagame_initialise (g : Game) : Int × Game :=
  (0, { g with gs := reset_gamestate g.gs, tl := resettointro g.tl })

/-- The block of `update` that follows the four update calls: the test for a
completed level and what it leads to; `nlevels` is `levels.size()`. The
argument of `newlevel` is narrowed to its `uint8_t` parameter. -/
def levelcheck (nlevels : Nat) (g : Game) : Game :=
  if g.gs.state = STATEPLAYING ∧ islevelcompleted g.gs.chars g.gs.level = true then
    let g1 : Game := { g with gs := { g.gs with xoffset := 0, yoffset := 0 } }
    if (g1.gs.level + 1) % 256 = nlevels then
      let g2 : Game := { g1 with gs := { g1.gs with state := STATECOMPLETE } }
      let tl1 := timeline_add (timeline_reset g2.tl) (10 * FPS) none
      { g2 with tl := timeline_begin (timeline_addcallback tl1 (some endgame_label)) 0 }
    else newlevel nlevels g1 ((g1.gs.level + 1) % 256)
  else g

/-- The entity `updateplayerchar` pushes when a zombee makes the player drop
the gun. -/
def droppedgun (x y : ℚ) : gamechar :=
  { id := 50, x := x, y := y, flip := false, hs := 0, vs := 0, dwell := 0, htime := 0,
    del := false, health := 0, growtime := 0, pollen := 0, dx := -1, dy := -1, path := [] }

/-- The index `updateplayerchar` computes for the tile above a gravity toggle:
`(Math_floor((y-TILESIZE)/TILESIZE)*gs.width)+Math_floor(x/TILESIZE)`, an
`int`. -/
def toggleindex (width : Nat) (c : gamechar) : Int :=
  Math_floor ((c.y - 16) / 16) * width + Math_floor (c.x / 16)

/-- The read `levels[gs.level].tiles[i]`. Modelled from the spec: the tile
array of a level has `width*height` entries. `none` is a read outside of the
array. -/
def tileat (g : Game) (tiles : Nat → Nat) (i : Int) : Option Nat :=
  if 0 ≤ i ∧ i < (g.gs.width * g.gs.height : Nat) then some (tiles i.toNat) else none

/-- One pass through the loop of `updateplayerchar`, for the entity at index
`id`; `none` is a tile read outside of the array. -/
def playervisit (tiles : Nat → Nat) (g : Game) (id : Nat) : Option Game :=
  let c := charAt g id
  if overlap (g.gs.x + 5) (g.gs.y + 6) 5 9 c.x c.y 16 16 = true then
    if c.id = 0 then
      match tileat g tiles (toggleindex g.gs.width c) with
      | none => none
      | some t =>
        some { g with gs := { g.gs with topdown := decide (t ≤ 1) && decide (g.gs.vs < 0) } }
    else if c.id = 10 then
      let g1 : Game := { g with gs := { g.gs with htime := 0 } }
      let g2 : Game := { g1 with gs := { g1.gs with invtime := g1.gs.invtime + 10 * 30 } }
      some (setchar g2 id fun c => { c with del := true })
    else if c.id = 53 ∨ c.id = 54 then
      let g1 : Game :=
        if g.gs.invtime = 0 ∧ g.gs.htime = 0 then { g with gs := { g.gs with htime := 5 * 30 } }
        else g
      if g1.gs.gun = true then
        let g2 : Game :=
          { g1 with gs := { g1.gs with chars := g1.gs.chars ++ [droppedgun g1.gs.x g1.gs.y] } }
        some { g2 with gs := { g2.gs with gun := false } }
      else some g1
    else if c.id = 55 ∨ c.id = 56 then
      if g.gs.invtime = 0 ∧ g.gs.htime = 0 then some { g with gs := { g.gs with htime := 2 * 30 } }
      else some g
    else if c.id = 50 then
      if g.gs.invtime > 0 ∨ g.gs.htime = 0 then
        let g1 : Game := { g with gs := { g.gs with gun := true } }
        let g2 : Game := { g1 with gs := { g1.gs with tileid := 40 } }
        some (setchar g2 id fun c => { c with del := true })
      else some g
    else some g
  else some g

/-- The loop of `updateplayerchar` from index `id` on; the collection can grow
while it runs. -/
def playerscan (tiles : Nat → Nat) : Nat → Nat → Game → Option Game
  | 0, _, _ => none
  | fuel + 1, id, g =>
    if id < g.gs.chars.length then
      match playervisit tiles g id with
      | none => none
      | some g1 => playerscan tiles fuel (id + 1) g1
    else some g

/-- The function `updateplayerchar`. -/
def updateplayerchar (tiles : Nat → Nat) (fuel : Nat) (g : Game) : Option Game :=
  playerscan tiles fuel 0 g

/-- The function `update`. The functions `updatemovements` (which reads the
keys) and `checkspawn` are not embedded: they are parameters here, any
functions of the game. -/
def update (updatemovements checkspawn : Game → Game) (rnd : Nat → ℚ) (tiles : Nat → Nat)
    (fuel nlevels : Nat) (g : Game) : Option Game :=
  if g.gs.state = STATEPLAYING then
    match updatecharAI rnd tiles fuel (updatemovements g) with
    | none => none
    | some g2 =>
      match updateplayerchar tiles fuel g2 with
      | none => none
      | some g3 => some (levelcheck nlevels (checkspawn g3))
  else some g

/-- Five dwelling bees and nothing else. -/
def wonChars : List gamechar :=
  [{ mkchar 51 false with dwell := 30 }, { mkchar 52 false with dwell := 30 },
   { mkchar 51 false with dwell := 30 }, { mkchar 52 false with dwell := 30 },
   { mkchar 51 false with dwell := 30 }]

/-- A game on level 0 with the five bees the level asks for and no threat. -/
def wonGame : Game :=
  ⟨{ playingState with level := 0, chars := wonChars }, staleTimeline, 0⟩

/-- A level with a gravity toggle in the top row, at column 3, as `loadlevel`
places it (`obj.x=x*TILESIZE`, `obj.y=y*TILESIZE`), and the player on it. -/
def toggleGame : Game :=
  ⟨{ playingState with
      x := 48
      y := 0
      chars := [{ mkchar 0 false with x := 48, y := 0 }]
      msgboxtime := 0
      msgqueue := [] }, staleTimeline, 0⟩

/-- The shot `gs.shots[i]`. The source reads the collection only at indices
below its size; outside of it the value here is a spent shot. -/
def shotAt (g : Game) (i : Nat) : shot := g.gs.shots.getD i ⟨44, 0, 0, false, 0, 0, false⟩

/-- An assignment to fields of `gs.shots[i]`: the shot becomes `f` of what it
was. -/
def setshot (g : Game) (i : Nat) (f : shot → shot) : Game :=
  { g with gs := { g.gs with shots := g.gs.shots.set i (f (shotAt g i)) } }

/-- The end of the three damage cases of `guncheck`: the particles, then
`gs.shots[i].dir=0; gs.shots[i].ttl=3;`. The count of particles depends on the
health the entity has at that point. -/
def shotspent (rnd : Nat → ℚ) (g : Game) (i id : Nat) (mt : ℚ) (many few r gg b : Nat) : Game :=
  let g1 := generateparticles rnd ((charAt g id).x + 8) ((charAt g id).y + 8) mt r gg b
    (if (charAt g id).health ≤ 0 then many else few) g
  let g2 := setshot g1 i fun s => { s with dir := 0 }
  setshot g2 i fun s => { s with ttl := 3 }

/-- The start of the three damage cases of `guncheck`:
`gs.chars[id].htime=(2*FPS); gs.chars[id].health--;`. -/
def shothurt (g : Game) (id : Nat) : Game :=
  let g1 := setchar g id fun c => { c with htime := 2 * 30 }
  setchar g1 id fun c => { c with health := c.health - 1 }

/-- The toadstool case of `guncheck` after the loss of health: a tall
toadstool out of health becomes a small one, a small one is marked for
deletion. -/
def shotstump (rnd : Nat → ℚ) (g : Game) (id : Nat) : Game :=
  if (charAt g id).health ≤ 0 then
    if (charAt g id).id = 30 then
      let g1 := setchar g id fun c => { c with health := HEALTHPLANT }
      let r := rng rnd g1
      let g2 := setchar r.2 id fun c => { c with growtime := GROWTIME + Math_floor (r.1 * 120) }
      setchar g2 id fun c => { c with id := 31 }
    else setchar g id fun c => { c with del := true }
  else g

/-- The zombee and grub cases of `guncheck` after the loss of health:
`if (gs.chars[id].health<=0) gs.chars[id].del=true;`. -/
def shotkill (g : Game) (id : Nat) : Game :=
  if (charAt g id).health ≤ 0 then setchar g id fun c => { c with del := true } else g

/-- One pass through the inner loop of `guncheck`: the shot at index `i`
against the entity at index `id`. -/
def shothit (rnd : Nat → ℚ) (g : Game) (i id : Nat) : Game :=
  let s := shotAt g i
  let c := charAt g id
  if s.dir ≠ 0 ∧ overlap s.x s.y 16 16 c.x c.y 16 16 = true then
    if c.id = 30 ∨ c.id = 31 then
      shotspent rnd (shotstump rnd (shothurt g id) id) i id 8 16 2 252 104 59
    else if c.id = 53 ∨ c.id = 54 then
      shotspent rnd (shotkill (shothurt g id) id) i id 16 32 4 44 197 246
    else if c.id = 55 ∨ c.id = 56 then
      shotspent rnd (shotkill (shothurt g id) id) i id 16 32 4 252 104 59
    else g
  else g

/-- The inner loop of `guncheck` for the shot at index `i`, from the entity at
index `id` on, `k` entities left. -/
def shotscan (rnd : Nat → ℚ) (i : Nat) : Nat → Nat → Game → Game
  | 0, _, g => g
  | k + 1, id, g => shotscan rnd i k (id + 1) (shothit rnd g i id)

/-- The move of the shot at index `i`: `gs.shots[i].x+=gs.shots[i].dir;`. -/
def shotmove (g : Game) (i : Nat) : Game :=
  setshot g i fun s => { s with x := s.x + s.dir }

/-- The end of a pass through the outer loop of `guncheck`:
`gs.shots[i].ttl--; if (gs.shots[i].ttl<=0) gs.shots[i].del=true;`. -/
def shotage (g : Game) (i : Nat) : Game :=
  let g1 := setshot g i fun s => { s with ttl := s.ttl - 1 }
  if (shotAt g1 i).ttl ≤ 0 then setshot g1 i fun s => { s with del := true } else g1

/-- One pass through the outer loop of `guncheck`, for the shot at index `i`:
the move, the scan of the entities, the count-down of `ttl`. -/
def shotstep (rnd : Nat → ℚ) (g : Game) (i : Nat) : Game :=
  shotage (shotscan rnd i (shotmove g i).gs.chars.length 0 (shotmove g i)) i

/-- The outer loop of `guncheck` from the shot at index `i` on, `k` shots
left. -/
def shotsloop (rnd : Nat → ℚ) : Nat → Nat → Game → Game
  | 0, _, g => g
  | k + 1, i, g => shotsloop rnd k (i + 1) (shotstep rnd g i)

/-- The start of `guncheck`: the gun cools down, and a new shot is added when
the player has the gun, it is cool and the button is pressed; `fire` is
`jammagame::input::is_pressed(jammagame::input::PLAYER1_BUTTON1)`. -/
def gunfire (fire : Bool) (g : Game) : Game :=
  let g1 : Game :=
    if g.gs.gunheat > 0 then { g with gs := { g.gs with gunheat := g.gs.gunheat - 1 } } else g
  if g1.gs.gun = true ∧ g1.gs.gunheat = 0 ∧ fire = true then
    let velocity : Int := if g1.gs.flip then -5 else 5
    let oneshot : shot :=
      ⟨44, g1.gs.x + velocity, g1.gs.y + 3, g1.gs.flip, velocity, 40, false⟩
    let g3 : Game := { g1 with gs := { g1.gs with shots := g1.gs.shots ++ [oneshot] } }
    { g3 with gs := { g3.gs with gunheat := 10 } }
  else g1

/-- The function `guncheck`: the start, the loop over the shots, the purge of
the shots marked for deletion. -/
def guncheck (rnd : Nat → ℚ) (fire : Bool) (g : Game) : Game :=
  let g2 := gunfire fire g
  let g4 := shotsloop rnd g2.gs.shots.length 0 g2
  { g4 with gs := { g4.gs with shots := purgeshots g4.gs.shots } }

/-- The entity at index `j` is one the shot at index `i` damages when its scan
comes to it: it overlaps the shot and is a toadstool, a zombee or a grub. -/
def SHit (g : Game) (i j : Nat) : Prop :=
  overlap (shotAt g i).x (shotAt g i).y 16 16 (charAt g j).x (charAt g j).y 16 16 = true ∧
  ((charAt g j).id = 30 ∨ (charAt g j).id = 31 ∨ (charAt g j).id = 53 ∨ (charAt g j).id = 54 ∨
    (charAt g j).id = 55 ∨ (charAt g j).id = 56)

/-- A tall toadstool with one unit of health left, and a shot that will be on
it after its next move. -/
def stumpGame : Game :=
  ⟨{ playingState with
      chars := [{ mkchar 30 false with x := 64, y := 32, health := 1, growtime := 450 }]
      shots := [⟨44, 56, 35, false, 5, 30, false⟩]
      msgboxtime := 0
      msgqueue := [] }, staleTimeline, 0⟩

/-! # Theorems -/

/-! ## pathfinder.h -/

theorem cell_range {w h x y : Int} (hx0 : 0 ≤ x) (hx : x < w) (hy0 : 0 ≤ y) (hy : y < h) :
    0 ≤ y * w + x ∧ y * w + x < w * h := by
  have hw : 0 ≤ w := by omega
  have h1 : 0 ≤ y * w := mul_nonneg hy0 hw
  have h2 : (y + 1) * w ≤ h * w := mul_le_mul_of_nonneg_right (by omega) hw
  constructor
  · omega
  · have h3 : (y + 1) * w = y * w + w := by ring
    have h4 : h * w = w * h := by ring
    omega

theorem wrap16_id {v : Int} (h0 : -32768 ≤ v) (h1 : v < 32768) : wrap16 v = v := by
  unfold wrap16; omega

theorem issolid_false_iff (gr : Grid) (x y : Int) :
    issolid gr x y = false ↔ InB gr x y ∧ gr.tiles ((y * gr.width + x).toNat) = 0 := by
  unfold issolid InB
  by_cases hb : x < 0 ∨ x ≥ gr.width ∨ y < 0 ∨ y ≥ gr.height
  · simp only [hb, if_true]
    constructor
    · intro h; cases h
    · rintro ⟨⟨h1, h2, h3, h4⟩, -⟩; omega
  · simp only [hb, if_false]
    have hb2 : 0 ≤ x ∧ x < gr.width ∧ 0 ≤ y ∧ y < gr.height := by omega
    simp [hb2]

/-- What `explore` does from a well-formed current node, with the narrowing
to `int16_t` resolved. -/
theorem explore_eq (gr : Grid) (dx dy : Int) (st : PFState) (x y : Int)
    (hfit : gr.width * gr.height ≤ 32768) (hn : WF gr st.n) (hd : Dir x y) :
    explore gr dx dy st x y =
      if issolid gr (st.n.x + x) (st.n.y + y) = false ∧
          isopen st ((st.n.y + y) * gr.width + (st.n.x + x)) = false ∧
          isclosed st ((st.n.y + y) * gr.width + (st.n.x + x)) = false then
        { st with openlist := st.openlist ++ [child gr dx dy st.n x y] }
      else st := by
  obtain ⟨⟨hx0, hx1, hy0, hy1⟩, hid⟩ := hn
  have hfit2 : (gr.width : Int) * gr.height ≤ 32768 := by exact_mod_cast hfit
  have hwpos : (0 : Int) < gr.width := by omega
  have hhpos : (0 : Int) < gr.height := by omega
  have hw : (gr.width : Int) ≤ 32768 := by nlinarith
  have hh : (gr.height : Int) ≤ 32768 := by nlinarith
  have hx : x = 0 ∨ x = 1 ∨ x = -1 := by rcases hd with h | h | h | h <;> omega
  have hy : y = 0 ∨ y = 1 ∨ y = -1 := by rcases hd with h | h | h | h <;> omega
  by_cases hs : InB gr (st.n.x + x) (st.n.y + y)
  · obtain ⟨a0, a1, b0, b1⟩ := hs
    have hc := cell_range a0 a1 b0 b1
    have e1 : wrap16 (st.n.x + x) = st.n.x + x := wrap16_id (by omega) (by omega)
    have e2 : wrap16 (st.n.y + y) = st.n.y + y := wrap16_id (by omega) (by omega)
    have e3 : st.n.id + (x + y * gr.width) = (st.n.y + y) * gr.width + (st.n.x + x) := by
      rw [hid]; ring
    have e4 : wrap16 ((st.n.y + y) * gr.width + (st.n.x + x))
        = (st.n.y + y) * gr.width + (st.n.x + x) := wrap16_id (by omega) (by omega)
    unfold explore
    simp only [e1, e2, e3, e4]
    by_cases hc1 : issolid gr (st.n.x + x) (st.n.y + y) = false ∧
          isopen st ((st.n.y + y) * gr.width + (st.n.x + x)) = false ∧
          isclosed st ((st.n.y + y) * gr.width + (st.n.x + x)) = false
    · obtain ⟨c1, c2, c3⟩ := hc1
      simp [c1, c2, c3, addnode, child]
    · rw [if_neg hc1]
      have : ¬ ((!issolid gr (st.n.x + x) (st.n.y + y) &&
          !isopen st ((st.n.y + y) * gr.width + (st.n.x + x)) &&
          !isclosed st ((st.n.y + y) * gr.width + (st.n.x + x))) = true) := by
        intro hh2
        simp only [Bool.and_eq_true, Bool.not_eq_true'] at hh2
        exact hc1 ⟨hh2.1.1, hh2.1.2, hh2.2⟩
      rw [if_neg this]
  · have s1 : issolid gr (st.n.x + x) (st.n.y + y) = true := by
      cases hq : issolid gr (st.n.x + x) (st.n.y + y) with
      | true => rfl
      | false => exact absurd ((issolid_false_iff gr _ _).1 hq).1 hs
    have s2 : issolid gr (wrap16 (st.n.x + x)) (wrap16 (st.n.y + y)) = true := by
      cases hq : issolid gr (wrap16 (st.n.x + x)) (wrap16 (st.n.y + y)) with
      | true => rfl
      | false =>
        exfalso
        obtain ⟨⟨a0, a1, b0, b1⟩, -⟩ := (issolid_false_iff gr _ _).1 hq
        apply hs
        unfold wrap16 at a0 a1 b0 b1
        unfold InB
        omega
    unfold explore
    simp [s1, s2]

theorem ParentOK.parent_mono {gr : Grid} {src : Int} {l l2 : List pathnode} {nd : pathnode}
    (h : ParentOK gr src l nd) (hs : ∀ u ∈ l, u ∈ l2) : ParentOK gr src l2 nd := by
  rcases h with h | ⟨u, hu, h⟩
  · exact Or.inl h
  · exact Or.inr ⟨u, hs u hu, h⟩

theorem Ordered.append {gr : Grid} {src : Int} {K : List pathnode} (hK : Ordered gr src K) :
    ∀ M : List pathnode, (∀ nd ∈ M, ParentOK gr src K nd) → Ordered gr src (K ++ M) := by
  intro M
  induction M using List.reverseRecOn with
  | nil => intro _; simpa using hK
  | append_singleton M a ih =>
    intro h
    have h1 : Ordered gr src (K ++ M) := ih (fun nd hnd => h nd (by simp [hnd]))
    have h2 : ParentOK gr src (K ++ M) a :=
      (h a (by simp)).parent_mono (fun u hu => by simp [hu])
    have := Ordered.snoc h1 h2
    simpa [List.append_assoc] using this

theorem find_id {L : List pathnode} (hnd : (L.map pathnode.id).Nodup) {nd : pathnode}
    (h : nd ∈ L) : L.find? (fun m => m.id == nd.id) = some nd := by
  induction L with
  | nil => cases h
  | cons a t ih =>
    simp only [List.map_cons, List.nodup_cons] at hnd
    by_cases ha : a.id = nd.id
    · have : nd = a := by
        rcases List.mem_cons.1 h with h1 | h1
        · exact h1
        · exfalso; apply hnd.1; rw [ha]; exact List.mem_map_of_mem _ h1
      subst this
      simp
    · have hmem : nd ∈ t := by
        rcases List.mem_cons.1 h with h1 | h1
        · exact absurd (by rw [h1]) ha
        · exact h1
      rw [List.find?_cons_of_neg _ (by simpa using ha)]
      exact ih hnd.2 hmem

theorem findparent_eq (st : PFState) (id : Int) :
    findparent st id =
      match (st.closedlist ++ st.openlist).find? (fun nd => nd.id == id) with
      | some nd => nd.p
      | none => -1 := by
  unfold findparent
  rw [List.find?_append]
  cases st.closedlist.find? (fun nd => nd.id == id) <;> simp

theorem findparent_mem {st : PFState}
    (hnd : ((st.closedlist ++ st.openlist).map pathnode.id).Nodup) {nd : pathnode}
    (h : nd ∈ st.closedlist ++ st.openlist) : findparent st nd.id = nd.p := by
  rw [findparent_eq, find_id hnd h]

theorem WF.id_nonneg {gr : Grid} {nd : pathnode} (h : WF gr nd) : 0 ≤ nd.id := by
  obtain ⟨⟨a, b, c, d⟩, e⟩ := h
  have := cell_range a b c d
  omega

theorem WF.inRange {gr : Grid} {nd : pathnode} (h : WF gr nd) : inRange gr nd.id := by
  obtain ⟨⟨a, b, c, d⟩, e⟩ := h
  have := cell_range a b c d
  unfold BeeKind.inRange
  rw [e]; exact this

theorem WF.mod {gr : Grid} {nd : pathnode} (h : WF gr nd) : nd.id % gr.width = nd.x := by
  obtain ⟨⟨a, b, c, d⟩, e⟩ := h
  rw [e, Int.add_comm, Int.add_mul_emod_self]
  exact Int.emod_eq_of_lt a b

theorem WF.div {gr : Grid} {nd : pathnode} (h : WF gr nd) : nd.id / gr.width = nd.y := by
  obtain ⟨⟨a, b, c, d⟩, e⟩ := h
  have hw : (gr.width : Int) ≠ 0 := by omega
  rw [e, Int.add_comm, Int.add_mul_ediv_right _ _ hw, Int.ediv_eq_zero_of_lt a b]
  simp

theorem step_of_nodes {gr : Grid} {u nd : pathnode} (hu : WF gr u) (hn : WF gr nd)
    (hm : manhattan_cost u.x u.y nd.x nd.y = 1) (ht : gr.tiles nd.id.toNat = 0) :
    step gr u.id nd.id := by
  refine ⟨⟨hu.inRange, hn.inRange, ?_⟩, ht⟩
  rw [hu.mod, hu.div, hn.mod, hn.div]
  unfold manhattan_cost at hm
  omega

theorem retraceLoop_stop (st : PFState) (fuel : Nat) (acc : List Int) :
    retraceLoop st (fuel + 1) (-1) acc = some acc := by
  simp [retraceLoop]

theorem retraceLoop_go (st : PFState) (fuel : Nat) (prev : Int) (acc : List Int)
    (h : prev ≠ -1) :
    retraceLoop st (fuel + 1) prev acc = retraceLoop st fuel (findparent st prev) (prev :: acc) := by
  simp [retraceLoop, h]

/-- Walking the parent links from a node of an ordered list ends at the source
and yields a route. -/
theorem retrace_ordered {gr : Grid} {src : Int} (st : PFState)
    (hwf : ∀ nd ∈ st.closedlist ++ st.openlist, WF gr nd)
    (hnd : ((st.closedlist ++ st.openlist).map pathnode.id).Nodup) :
    ∀ K, Ordered gr src K → ∀ rest, st.closedlist ++ st.openlist = K ++ rest →
    ∀ nd ∈ K, ∀ fuel acc, K.length + 1 ≤ fuel →
      ∃ r, retraceLoop st fuel nd.id acc = some (r ++ acc) ∧ RouteTo gr src nd.id r ∧
        ∀ c ∈ r, c ∈ K.map pathnode.id := by
  intro K hK
  induction hK with
  | nil => intro rest _ nd h; cases h
  | @snoc l x hl hp ih =>
    intro rest hL nd hmem fuel acc hfuel
    simp only [List.length_append, List.length_singleton] at hfuel
    rcases List.mem_append.1 hmem with h1 | h1
    · obtain ⟨r, hr, hroute, hsub⟩ :=
        ih (x :: rest) (by simpa using hL) nd h1 fuel acc (by omega)
      refine ⟨r, hr, hroute, fun c hc => ?_⟩
      have := hsub c hc
      simp only [List.map_append, List.mem_append]
      exact Or.inl this
    · have hx : nd = x := by simpa using h1
      subst hx
      have hxL : nd ∈ st.closedlist ++ st.openlist := by rw [hL]; simp
      have hid : nd.id ≠ -1 := by have := (hwf nd hxL).id_nonneg; omega
      obtain ⟨k, rfl⟩ : ∃ k, fuel = k + 1 := ⟨fuel - 1, by omega⟩
      rw [retraceLoop_go st k nd.id acc hid, findparent_mem hnd hxL]
      rcases hp with ⟨hp1, hp2⟩ | ⟨u, hu, hup, hm, ht⟩
      · obtain ⟨j, rfl⟩ : ∃ j, k = j + 1 := ⟨k - 1, by omega⟩
        rw [hp1, retraceLoop_stop]
        refine ⟨[nd.id], by simp, ⟨by simp [hp2], by simp, by simp, by simp⟩, ?_⟩
        intro c hc
        simp only [List.mem_singleton] at hc
        subst hc
        simp
      · obtain ⟨r, hr, ⟨hh, hlast, hch, hnodup⟩, hsub⟩ :=
          ih (nd :: rest) (by simpa using hL) u hu k (nd.id :: acc) (by omega)
        rw [← hup, hr]
        have huL : u ∈ st.closedlist ++ st.openlist := by rw [hL]; simp [hu]
        have hrne : r ≠ [] := by intro h0; rw [h0] at hh; cases hh
        refine ⟨r ++ [nd.id], by simp, ⟨?_, by simp, ?_, ?_⟩, ?_⟩
        · rw [List.head?_append_of_ne_nil _ hrne]; exact hh
        · refine List.Chain'.append hch (by simp) ?_
          intro a ha b hb
          rw [hlast] at ha
          simp only [Option.mem_def, Option.some.injEq] at ha
          simp only [List.head?_cons, Option.mem_def, Option.some.injEq] at hb
          subst ha; subst hb
          exact step_of_nodes (hwf u huL) (hwf nd hxL) hm ht
        · rw [List.nodup_append]
          refine ⟨hnodup, by simp, ?_⟩
          intro a ha hb
          simp only [List.mem_singleton] at hb
          subst hb
          have h3 := hsub _ ha
          rw [hL] at hnd
          simp only [List.map_append, List.map_cons, List.map_nil] at hnd
          have h4 := (List.nodup_append.1 (List.nodup_append.1 hnd).1).2.2
          exact h4 h3 (by simp)
        · intro c hc
          simp only [List.mem_append, List.mem_singleton] at hc
          simp only [List.map_append, List.map_cons, List.map_nil, List.mem_append,
            List.mem_singleton]
          rcases hc with hc | hc
          · exact Or.inl (hsub c hc)
          · exact Or.inr hc

theorem isopen_false_iff (st : PFState) (c : Int) :
    isopen st c = false ↔ c ∉ st.openlist.map pathnode.id := by
  unfold isopen
  rw [List.any_eq_false]
  simp only [beq_iff_eq, List.mem_map, not_exists, not_and]

theorem isclosed_false_iff (st : PFState) (c : Int) :
    isclosed st c = false ↔ c ∉ st.closedlist.map pathnode.id := by
  unfold isclosed
  rw [List.any_eq_false]
  simp only [beq_iff_eq, List.mem_map, not_exists, not_and]

theorem Grew.refl {gr : Grid} {dx dy : Int} {st : PFState}
    (h : ((st.closedlist ++ st.openlist).map pathnode.id).Nodup) : Grew gr dx dy st st :=
  ⟨rfl, rfl, fun _ h => h, fun _ h => Or.inl h, h⟩

theorem Grew.trans {gr : Grid} {dx dy : Int} {a b c : PFState}
    (h1 : Grew gr dx dy a b) (h2 : Grew gr dx dy b c) : Grew gr dx dy a c := by
  refine ⟨h2.n_eq.trans h1.n_eq, h2.closed_eq.trans h1.closed_eq,
    fun nd h => h2.old nd (h1.old nd h), ?_, h2.nodup⟩
  intro nd h
  rcases h2.new nd h with h3 | h3
  · exact h1.new nd h3
  · rw [h1.n_eq] at h3; exact Or.inr h3

theorem Grew.ids_mono {gr : Grid} {dx dy : Int} {a b : PFState} (h : Grew gr dx dy a b)
    {c : Int} (hc : c ∈ (a.closedlist ++ a.openlist).map pathnode.id) :
    c ∈ (b.closedlist ++ b.openlist).map pathnode.id := by
  simp only [List.map_append, List.mem_append, List.mem_map] at hc ⊢
  rcases hc with ⟨nd, h1, h2⟩ | ⟨nd, h1, h2⟩
  · exact Or.inl ⟨nd, by rw [h.closed_eq]; exact h1, h2⟩
  · exact Or.inr ⟨nd, h.old nd h1, h2⟩

/-- One call of `explore`: the open list grows by at most the neighbour asked
for, and afterwards that neighbour, when free, is on one of the lists. -/
theorem explore_step (gr : Grid) (dx dy : Int) (st : PFState) (x y : Int)
    (hfit : gr.width * gr.height ≤ 32768) (hn : WF gr st.n) (hd : Dir x y)
    (hnd : ((st.closedlist ++ st.openlist).map pathnode.id).Nodup) :
    Grew gr dx dy st (explore gr dx dy st x y) ∧
    (issolid gr (st.n.x + x) (st.n.y + y) = false →
      (child gr dx dy st.n x y).id ∈
        ((explore gr dx dy st x y).closedlist ++
          (explore gr dx dy st x y).openlist).map pathnode.id) := by
  rw [explore_eq gr dx dy st x y hfit hn hd]
  by_cases hc : issolid gr (st.n.x + x) (st.n.y + y) = false ∧
      isopen st ((st.n.y + y) * gr.width + (st.n.x + x)) = false ∧
      isclosed st ((st.n.y + y) * gr.width + (st.n.x + x)) = false
  · rw [if_pos hc]
    obtain ⟨c1, c2, c3⟩ := hc
    rw [isopen_false_iff] at c2
    rw [isclosed_false_iff] at c3
    refine ⟨⟨rfl, rfl, fun nd h => by simp [h], ?_, ?_⟩, ?_⟩
    · intro nd h
      simp only [List.mem_append, List.mem_singleton] at h
      rcases h with h | h
      · exact Or.inl h
      · exact Or.inr ⟨x, y, hd, h, c1⟩
    · simp only [List.map_append, List.map_cons, List.map_nil] at hnd ⊢
      rw [← List.append_assoc, List.nodup_append]
      refine ⟨hnd, by simp, ?_⟩
      intro a ha hb
      simp only [List.mem_singleton] at hb
      subst hb
      simp only [List.mem_append] at ha
      rcases ha with ha | ha
      · exact c3 ha
      · exact c2 ha
    · intro _
      simp [child, mknode]
  · rw [if_neg hc]
    refine ⟨Grew.refl hnd, ?_⟩
    intro hs
    have : ¬ (isopen st ((st.n.y + y) * gr.width + (st.n.x + x)) = false ∧
      isclosed st ((st.n.y + y) * gr.width + (st.n.x + x)) = false) := fun h => hc ⟨hs, h⟩
    rw [isopen_false_iff, isclosed_false_iff] at this
    simp only [List.map_append, List.mem_append]
    have hid : (child gr dx dy st.n x y).id = (st.n.y + y) * gr.width + (st.n.x + x) := rfl
    rw [hid]
    by_contra hcon
    push_neg at hcon
    exact this ⟨hcon.2, hcon.1⟩

theorem eq_of_id_eq {L : List pathnode} (hnd : (L.map pathnode.id).Nodup) {a b : pathnode}
    (ha : a ∈ L) (hb : b ∈ L) (h : a.id = b.id) : a = b := by
  have h1 := find_id hnd ha
  have h2 := find_id hnd hb
  rw [h] at h1
  rw [h1] at h2
  exact Option.some.inj h2

theorem movetoclosed_spec (st : PFState) (hn : st.n ∈ st.openlist)
    (hnd : ((st.closedlist ++ st.openlist).map pathnode.id).Nodup) :
    ∃ l1 l2, st.openlist = l1 ++ st.n :: l2 ∧
      movetoclosedlist st st.n.id =
        { st with closedlist := st.closedlist ++ [st.n], openlist := l1 ++ l2 } := by
  have hop : (st.openlist.map pathnode.id).Nodup := by
    rw [List.map_append] at hnd
    exact (List.nodup_append.1 hnd).2.1
  have hf := find_id hop hn
  obtain ⟨a, l1, l2, -, hpa, hl, he⟩ :=
    List.exists_of_eraseP (p := fun nd => nd.id == st.n.id) hn (by simp)
  have haid : a.id = st.n.id := by simpa using hpa
  have ha : a = st.n := eq_of_id_eq hop (by rw [hl]; simp) hn haid
  subst ha
  refine ⟨l1, l2, hl, ?_⟩
  unfold movetoclosedlist
  rw [hf, he]

theorem expand_spec_aux (gr : Grid) (dx dy : Int) (st s4 : PFState)
    (hn : st.n ∈ st.openlist) (G : Grew gr dx dy st s4)
    (nb : ∀ x y, Dir x y → issolid gr (st.n.x + x) (st.n.y + y) = false →
      (child gr dx dy st.n x y).id ∈ (s4.closedlist ++ s4.openlist).map pathnode.id) :
    Expanded gr dx dy st (movetoclosedlist s4 s4.n.id) := by
  have e4 : s4.n = st.n := G.n_eq
  have hn4 : s4.n ∈ s4.openlist := by rw [e4]; exact G.old _ hn
  obtain ⟨l1, l2, hl, hm⟩ := movetoclosed_spec s4 hn4 G.nodup
  rw [hm]
  have hnd4 := G.nodup
  rw [hl, G.closed_eq, e4] at hnd4
  have hperm : ((st.closedlist ++ [st.n] ++ (l1 ++ l2)).map pathnode.id).Perm
      ((st.closedlist ++ (l1 ++ st.n :: l2)).map pathnode.id) := by
    simp only [List.map_append, List.map_cons, List.map_nil, List.append_assoc,
      List.singleton_append]
    exact List.Perm.append_left _ List.perm_middle.symm
  have hnd5 : ((st.closedlist ++ [st.n] ++ (l1 ++ l2)).map pathnode.id).Nodup :=
    hperm.nodup_iff.2 hnd4
  have hids : ∀ c, c ∈ (s4.closedlist ++ s4.openlist).map pathnode.id →
      c ∈ ((st.closedlist ++ [st.n]) ++ (l1 ++ l2)).map pathnode.id := by
    intro c hc
    rw [hl, G.closed_eq, e4] at hc
    exact hperm.mem_iff.2 hc
  have hne : ∀ nd ∈ l1 ++ l2, nd.id ≠ st.n.id := by
    intro nd hnd1 heq
    simp only [List.map_append, List.map_cons, List.map_nil, List.append_assoc,
      List.singleton_append] at hnd5
    have h5 := (List.nodup_append.1 hnd5).2.1
    have h6 := (List.nodup_cons.1 h5).1
    apply h6
    rw [← heq, ← List.map_append]
    exact List.mem_map_of_mem _ hnd1
  refine ⟨e4, ?_, ?_, ?_, ?_, ?_⟩
  · show s4.closedlist ++ [s4.n] = st.closedlist ++ [st.n]
    rw [G.closed_eq, e4]
  · intro nd hnd1
    have hnd2 : nd ∈ l1 ++ l2 := hnd1
    refine ⟨G.new nd ?_, hne nd hnd2⟩
    rw [hl, e4]
    simp only [List.mem_append, List.mem_cons] at hnd2 ⊢
    tauto
  · intro nd hnd1 hid
    have h1 := G.old nd hnd1
    rw [hl, e4] at h1
    show nd ∈ l1 ++ l2
    simp only [List.mem_append, List.mem_cons] at h1 ⊢
    rcases h1 with h1 | h1 | h1
    · exact Or.inl h1
    · exact absurd (by rw [h1]) hid
    · exact Or.inr h1
  · show ((s4.closedlist ++ [s4.n] ++ (l1 ++ l2)).map pathnode.id).Nodup
    rw [G.closed_eq, e4]; exact hnd5
  · intro x y hd hs
    have := hids _ (nb x y hd hs)
    show _ ∈ ((s4.closedlist ++ [s4.n] ++ (l1 ++ l2)).map pathnode.id)
    rw [G.closed_eq, e4]; exact this

theorem explore4 (gr : Grid) (dx dy : Int) (st : PFState)
    (hfit : gr.width * gr.height ≤ 32768) (hwf : WF gr st.n)
    (hnd : ((st.closedlist ++ st.openlist).map pathnode.id).Nodup) :
    ∃ s4, expand gr dx dy st = movetoclosedlist s4 s4.n.id ∧ Grew gr dx dy st s4 ∧
      ∀ x y, Dir x y → issolid gr (st.n.x + x) (st.n.y + y) = false →
        (child gr dx dy st.n x y).id ∈ (s4.closedlist ++ s4.openlist).map pathnode.id := by
  have d1 : Dir 0 (-1) := Or.inl ⟨rfl, rfl⟩
  have d2 : Dir 1 0 := Or.inr (Or.inl ⟨rfl, rfl⟩)
  have d3 : Dir 0 1 := Or.inr (Or.inr (Or.inl ⟨rfl, rfl⟩))
  have d4 : Dir (-1) 0 := Or.inr (Or.inr (Or.inr ⟨rfl, rfl⟩))
  have hexp : expand gr dx dy st =
      movetoclosedlist
        (explore gr dx dy (explore gr dx dy (explore gr dx dy
          (explore gr dx dy st 0 (-1)) 1 0) 0 1) (-1) 0)
        (explore gr dx dy (explore gr dx dy (explore gr dx dy
          (explore gr dx dy st 0 (-1)) 1 0) 0 1) (-1) 0).n.id := rfl
  rw [hexp]
  obtain ⟨g1, n1⟩ := explore_step gr dx dy st 0 (-1) hfit hwf d1 hnd
  generalize explore gr dx dy st 0 (-1) = s1 at g1 n1 ⊢
  have w1 : WF gr s1.n := by rw [g1.n_eq]; exact hwf
  obtain ⟨g2, n2⟩ := explore_step gr dx dy s1 1 0 hfit w1 d2 g1.nodup
  generalize explore gr dx dy s1 1 0 = s2 at g2 n2 ⊢
  have w2 : WF gr s2.n := by rw [g2.n_eq]; exact w1
  obtain ⟨g3, n3⟩ := explore_step gr dx dy s2 0 1 hfit w2 d3 g2.nodup
  generalize explore gr dx dy s2 0 1 = s3 at g3 n3 ⊢
  have w3 : WF gr s3.n := by rw [g3.n_eq]; exact w2
  obtain ⟨g4, n4⟩ := explore_step gr dx dy s3 (-1) 0 hfit w3 d4 g3.nodup
  generalize explore gr dx dy s3 (-1) 0 = s4 at g4 n4 ⊢
  have e1 : s1.n = st.n := g1.n_eq
  have e2 : s2.n = st.n := g2.n_eq.trans e1
  have e3 : s3.n = st.n := g3.n_eq.trans e2
  rw [e1] at n2
  rw [e2] at n3
  rw [e3] at n4
  refine ⟨s4, rfl, g1.trans (g2.trans (g3.trans g4)), ?_⟩
  intro x y hd hs
  rcases hd with ⟨rfl, rfl⟩ | ⟨rfl, rfl⟩ | ⟨rfl, rfl⟩ | ⟨rfl, rfl⟩
  · exact (g2.trans (g3.trans g4)).ids_mono (n1 hs)
  · exact (g3.trans g4).ids_mono (n2 hs)
  · exact g4.ids_mono (n3 hs)
  · exact n4 hs

theorem expand_spec (gr : Grid) (dx dy : Int) (st : PFState)
    (hfit : gr.width * gr.height ≤ 32768) (hwf : WF gr st.n) (hn : st.n ∈ st.openlist)
    (hnd : ((st.closedlist ++ st.openlist).map pathnode.id).Nodup) :
    Expanded gr dx dy st (expand gr dx dy st) := by
  obtain ⟨s4, he, G, nb⟩ := explore4 gr dx dy st hfit hwf hnd
  rw [he]
  exact expand_spec_aux gr dx dy st s4 hn G nb

theorem Kid.facts {gr : Grid} {dx dy : Int} {n nd : pathnode} (h : Kid gr dx dy n nd) :
    WF gr nd ∧ nd.p = n.id ∧ manhattan_cost n.x n.y nd.x nd.y = 1 ∧
      gr.tiles nd.id.toNat = 0 ∧ nd.f = n.f + 1 + manhattan_cost nd.x nd.y dx dy := by
  obtain ⟨x, y, hd, rfl, hs⟩ := h
  obtain ⟨hb, ht⟩ := (issolid_false_iff gr _ _).1 hs
  refine ⟨⟨hb, rfl⟩, rfl, ?_, ht, rfl⟩
  simp only [child, mknode, manhattan_cost]
  rcases hd with ⟨rfl, rfl⟩ | ⟨rfl, rfl⟩ | ⟨rfl, rfl⟩ | ⟨rfl, rfl⟩ <;> omega

theorem LoopInv.of_expanded {gr : Grid} {src dx dy : Int} {st st2 : PFState} (hI : LoopInv gr src st)
    (hn : st.n ∈ st.openlist) (hE : Expanded gr dx dy st st2) : LoopInv gr src st2 := by
  have hwn : WF gr st.n := hI.wf _ (by simp [hn])
  refine ⟨?_, hE.nodup, ?_, ?_, ?_⟩
  · intro nd hnd
    rw [hE.closed_eq] at hnd
    simp only [List.mem_append, List.mem_singleton] at hnd
    rcases hnd with (h | h) | h
    · exact hI.wf nd (by simp [h])
    · rw [h]; exact hwn
    · rcases (hE.open_sub nd h).1 with h1 | h1
      · exact hI.wf nd (by simp [h1])
      · exact h1.facts.1
  · rw [hE.closed_eq]
    exact Ordered.snoc hI.ord (hI.par _ hn)
  · intro nd hnd
    rw [hE.closed_eq]
    rcases (hE.open_sub nd hnd).1 with h1 | h1
    · exact (hI.par nd h1).parent_mono (fun u hu => by simp [hu])
    · obtain ⟨-, h2, h3, h4, -⟩ := h1.facts
      exact Or.inr ⟨st.n, by simp, h2.symm, h3, h4⟩
  · rw [hE.n_eq, hE.closed_eq]; simp

theorem cheapestScan_bound : ∀ (l : List pathnode) (i : Nat) (cost : Int) (idx : Nat),
    cheapestScan l i cost idx = idx ∨
      (i ≤ cheapestScan l i cost idx ∧ cheapestScan l i cost idx < i + l.length) := by
  intro l
  induction l with
  | nil => intro i cost idx; left; rfl
  | cons a t ih =>
    intro i cost idx
    unfold cheapestScan
    simp only [List.length_cons]
    split
    · rcases ih (i + 1) a.f i with h | h
      · right; rw [h]; omega
      · right; omega
    · rcases ih (i + 1) cost idx with h | h
      · left; exact h
      · right; omega

theorem findcheapest_mem {op : List pathnode} {n : pathnode}
    (h : findcheapestopenlist op = some n) : n ∈ op := by
  unfold findcheapestopenlist at h
  exact List.get?_mem h

theorem findcheapest_some {op : List pathnode} (h : op ≠ []) :
    ∃ n, findcheapestopenlist op = some n := by
  cases op with
  | nil => exact absurd rfl h
  | cons a t =>
    unfold findcheapestopenlist
    have hb := cheapestScan_bound t 1 a.f 0
    have he : cheapestScan (a :: t) 0 (-1) 0 = cheapestScan t 1 a.f 0 := by
      simp [cheapestScan]
    rw [he]
    have hlt : cheapestScan t 1 a.f 0 < (a :: t).length := by
      simp only [List.length_cons]; omega
    exact ⟨(a :: t).get ⟨_, hlt⟩, List.get?_eq_get hlt⟩

/-- The state the main loop returns comes from a loop-head state satisfying
any property that the loop body preserves: either the loop condition failed
there, or the cheapest open node was the target. -/
theorem searchLoop_result (gr : Grid) (dx dy dest : Int) (P : PFState → Prop)
    (hstep : ∀ st n, P st → st.n.id ≠ dest → findcheapestopenlist st.openlist = some n →
      n.id ≠ dest → P (expand gr dx dy { st with n := n })) :
    ∀ fuel st st2, P st → searchLoop gr dx dy dest fuel st = some st2 →
      ∃ st1, P st1 ∧
        ((st2 = st1 ∧ (st1.n.id = dest ∨ st1.openlist = [])) ∨
         (∃ n, findcheapestopenlist st1.openlist = some n ∧ n.id = dest ∧
            st1.n.id ≠ dest ∧ st2 = { st1 with n := n })) := by
  intro fuel
  induction fuel with
  | zero => intro st st2 _ h; simp [searchLoop] at h
  | succ k ih =>
    intro st st2 hP h
    unfold searchLoop at h
    by_cases hc : (st.n.id != dest && decide (st.openlist.length > 0)) = true
    · rw [if_pos hc] at h
      simp only [Bool.and_eq_true, bne_iff_ne, ne_eq, decide_eq_true_eq] at hc
      cases hf : findcheapestopenlist st.openlist with
      | none => rw [hf] at h; cases h
      | some n =>
        rw [hf] at h
        simp only at h
        by_cases hd : (n.id == dest) = true
        · rw [if_pos hd] at h
          refine ⟨st, hP, Or.inr ⟨n, hf, by simpa using hd, hc.1, ?_⟩⟩
          exact (Option.some.inj h).symm
        · rw [if_neg hd] at h
          exact ih _ st2 (hstep st n hP hc.1 hf (by simpa using hd)) h
    · rw [if_neg hc] at h
      refine ⟨st, hP, Or.inl ⟨(Option.some.inj h).symm, ?_⟩⟩
      simp only [Bool.and_eq_true, bne_iff_ne, ne_eq, decide_eq_true_eq, not_and,
        not_lt, Nat.le_zero, List.length_eq_zero] at hc
      by_cases he : st.n.id = dest
      · exact Or.inl he
      · exact Or.inr (hc he)

theorem LoopInv.loop_step {gr : Grid} {src : Int} (dx dy : Int)
    (hfit : gr.width * gr.height ≤ 32768)
    {st : PFState} {n : pathnode} (hI : LoopInv gr src st)
    (hf : findcheapestopenlist st.openlist = some n) :
    LoopInv gr src (expand gr dx dy { st with n := n }) ∧
      Expanded gr dx dy { st with n := n } (expand gr dx dy { st with n := n }) := by
  have hn : n ∈ st.openlist := findcheapest_mem hf
  have hI1 : LoopInv gr src { st with n := n } :=
    ⟨hI.wf, hI.nodup, hI.ord, hI.par, by simp [hn]⟩
  have hE := expand_spec gr dx dy { st with n := n } hfit (hI.wf n (by simp [hn])) hn hI.nodup
  exact ⟨hI1.of_expanded hn hE, hE⟩

theorem retraceLoop_mono (st : PFState) : ∀ (fuel k : Nat) (prev : Int) (acc r : List Int),
    retraceLoop st fuel prev acc = some r → retraceLoop st (fuel + k) prev acc = some r := by
  intro fuel
  induction fuel with
  | zero => intro k prev acc r h; simp [retraceLoop] at h
  | succ j ih =>
    intro k prev acc r h
    have e : j + 1 + k = (j + k) + 1 := by omega
    rw [e]
    by_cases hp : prev = -1
    · subst hp
      rw [retraceLoop_stop] at h ⊢
      exact h
    · rw [retraceLoop_go _ _ _ _ hp] at h ⊢
      exact ih k _ _ r h

theorem pathfinder_eq (gr : Grid) (fuel : Nat) (src dest : Int) :
    pathfinder gr fuel src dest =
      match searchLoop gr (destx gr dest) (desty gr dest) dest fuel (initState gr src dest) with
      | none => none
      | some st => retracepath st fuel dest := by
  unfold pathfinder
  simp only [addnode, List.nil_append, findcheapestopenlist, cheapestScan, true_or, if_true,
    List.get?_cons_zero]
  rfl

theorem srcnode_wf {gr : Grid} {src : Int} (dest : Int) (hfit : gr.width * gr.height ≤ 32768)
    (hs : inRange gr src) : WF gr (srcnode gr src dest) ∧ (srcnode gr src dest).id = src ∧
      (srcnode gr src dest).x = src % gr.width ∧ (srcnode gr src dest).y = src / gr.width := by
  obtain ⟨h0, h1⟩ := hs
  have hfit2 : (gr.width : Int) * gr.height ≤ 32768 := by exact_mod_cast hfit
  have hw : (0 : Int) < gr.width := by
    rcases Nat.eq_zero_or_pos gr.width with h | h
    · rw [h] at h1; simp at h1; omega
    · exact_mod_cast h
  have e1 : Int.tmod src gr.width = src % gr.width := Int.tmod_eq_emod h0 (by omega)
  have e2 : Int.tdiv src gr.width = src / gr.width := Int.tdiv_eq_ediv h0 (by omega)
  have a0 : 0 ≤ src % gr.width := Int.emod_nonneg _ (by omega)
  have a1 : src % gr.width < gr.width := Int.emod_lt_of_pos _ hw
  have b0 : 0 ≤ src / gr.width := Int.ediv_nonneg h0 (by omega)
  have b1 : src / gr.width < gr.height :=
    Int.ediv_lt_of_lt_mul hw (by rw [mul_comm]; exact h1)
  have b2 : src / gr.width ≤ src := Int.ediv_le_self _ h0
  have a2 : src % gr.width ≤ src := by
    have h3 := Int.ediv_add_emod' src gr.width
    have h4 := mul_nonneg b0 (le_of_lt hw)
    omega
  have w1 : wrap16 (src % gr.width) = src % gr.width := wrap16_id (by omega) (by omega)
  have w2 : wrap16 (src / gr.width) = src / gr.width := wrap16_id (by omega) (by omega)
  have hx : (srcnode gr src dest).x = src % gr.width := by
    simp only [srcnode, mknode, e1, w1]
  have hy : (srcnode gr src dest).y = src / gr.width := by
    simp only [srcnode, mknode, e2, w2]
  refine ⟨⟨?_, ?_⟩, rfl, hx, hy⟩
  · rw [hx, hy]; exact ⟨a0, a1, b0, b1⟩
  · rw [hx, hy]
    show src = _
    exact (Int.ediv_add_emod' src gr.width).symm

theorem initState_inv {gr : Grid} {src : Int} (dest : Int)
    (hfit : gr.width * gr.height ≤ 32768) (hs : inRange gr src) :
    LoopInv gr src (initState gr src dest) := by
  obtain ⟨hw, hid, -, -⟩ := srcnode_wf dest hfit hs
  refine ⟨?_, by simp [initState], Ordered.nil, ?_, by simp [initState]⟩
  · intro nd hnd
    simp only [initState, List.nil_append, List.mem_singleton] at hnd
    rw [hnd]; exact hw
  · intro nd hnd
    simp only [initState, List.mem_singleton] at hnd
    rw [hnd]
    exact Or.inl ⟨rfl, hid⟩

/-- The loop-head invariant holds in whatever state the main loop returns. -/
theorem searchLoop_inv {gr : Grid} {src : Int} (dest : Int)
    (hfit : gr.width * gr.height ≤ 32768) (hs : inRange gr src) {fuel : Nat} {st2 : PFState}
    (h : searchLoop gr (destx gr dest) (desty gr dest) dest fuel (initState gr src dest)
      = some st2) :
    LoopInv gr src st2 ∧ (st2.n.id = dest ∨ st2.openlist = []) := by
  obtain ⟨st1, hI, hcase⟩ := searchLoop_result gr (destx gr dest) (desty gr dest) dest
    (LoopInv gr src) (fun st n hI _ hf _ => (hI.loop_step _ _ hfit hf).1) fuel _ st2
    (initState_inv dest hfit hs) h
  rcases hcase with ⟨rfl, hc⟩ | ⟨n, hf, hnd, -, rfl⟩
  · exact ⟨hI, hc⟩
  · refine ⟨⟨hI.wf, hI.nodup, hI.ord, hI.par, ?_⟩, Or.inl hnd⟩
    have := findcheapest_mem hf
    simp [this]

/-- Partial correctness of the whole function: a non-empty result is a route
from `src` to `dest`. -/
theorem pathfinder_route {gr : Grid} {src dest : Int} {fuel : Nat} {r : List Int}
    (hfit : gr.width * gr.height ≤ 32768) (hs : inRange gr src)
    (h : pathfinder gr fuel src dest = some r) (hne : r ≠ []) : RouteTo gr src dest r := by
  rw [pathfinder_eq] at h
  cases hl : searchLoop gr (destx gr dest) (desty gr dest) dest fuel (initState gr src dest) with
  | none => rw [hl] at h; cases h
  | some st =>
    rw [hl] at h
    simp only at h
    obtain ⟨hI, -⟩ := searchLoop_inv dest hfit hs hl
    unfold retracepath at h
    by_cases hd : (st.n.id == dest) = true
    · rw [if_pos hd] at h
      have hd2 : st.n.id = dest := by simpa using hd
      have hidne : st.n.id ≠ -1 := by have := (hI.wf _ hI.nmem).id_nonneg; omega
      have hord : Ordered gr src (st.closedlist ++ st.openlist) := hI.ord.append _ hI.par
      obtain ⟨r2, hr2, hroute, -⟩ := retrace_ordered st hI.wf hI.nodup _ hord [] (by simp)
        st.n hI.nmem ((st.closedlist ++ st.openlist).length + 1) [] (le_refl _)
      rw [retraceLoop_go _ _ _ _ hidne, hd2] at hr2
      have h1 := retraceLoop_mono st _ ((st.closedlist ++ st.openlist).length) _ _ _ h
      have h2 := retraceLoop_mono st _ fuel _ _ _ hr2
      rw [Nat.add_comm] at h2
      rw [h1] at h2
      have : r = r2 := by simpa using h2
      rw [this, ← hd2]
      exact hroute
    · rw [if_neg hd] at h
      exact absurd (Option.some.inj h).symm hne

theorem LoopInv.length_le {gr : Grid} {src : Int} {st : PFState} (hI : LoopInv gr src st) :
    (st.closedlist ++ st.openlist).length ≤ gr.width * gr.height := by
  have h1 : ((st.closedlist ++ st.openlist).map pathnode.id).toFinset ⊆
      Finset.Ico (0 : Int) (gr.width * gr.height) := by
    intro c hc
    simp only [List.mem_toFinset, List.mem_map] at hc
    obtain ⟨nd, hnd, rfl⟩ := hc
    have := (hI.wf nd hnd).inRange
    simp only [Finset.mem_Ico]
    exact this
  have h2 := Finset.card_le_card h1
  rw [List.toFinset_card_of_nodup hI.nodup, Int.card_Ico, List.length_map] at h2
  have h3 : ((gr.width : Int) * gr.height - 0).toNat = gr.width * gr.height := by
    rw [sub_zero]
    exact_mod_cast Int.toNat_natCast (gr.width * gr.height)
  rw [h3] at h2
  exact h2

/-- The main loop returns: every pass moves one more cell to the closed list. -/
theorem searchLoop_total {gr : Grid} {src : Int} (dx dy dest : Int)
    (hfit : gr.width * gr.height ≤ 32768) :
    ∀ (fuel : Nat) (st : PFState), LoopInv gr src st →
      gr.width * gr.height + 1 ≤ fuel + st.closedlist.length →
      ∃ st2, searchLoop gr dx dy dest fuel st = some st2 := by
  intro fuel
  induction fuel with
  | zero =>
    intro st hI hle
    have := hI.length_le
    simp only [List.length_append] at this
    omega
  | succ k ih =>
    intro st hI hle
    unfold searchLoop
    by_cases hc : (st.n.id != dest && decide (st.openlist.length > 0)) = true
    · rw [if_pos hc]
      simp only [Bool.and_eq_true, bne_iff_ne, ne_eq, decide_eq_true_eq] at hc
      have hne : st.openlist ≠ [] := by
        intro h0; rw [h0] at hc; simp at hc
      obtain ⟨n, hf⟩ := findcheapest_some hne
      rw [hf]
      simp only
      by_cases hd : (n.id == dest) = true
      · rw [if_pos hd]; exact ⟨_, rfl⟩
      · rw [if_neg hd]
        obtain ⟨hI2, hE⟩ := hI.loop_step dx dy hfit hf
        apply ih _ hI2
        rw [hE.closed_eq]
        simp only [List.length_append, List.length_singleton]
        omega
    · rw [if_neg hc]; exact ⟨_, rfl⟩

theorem retracepath_some {gr : Grid} {src dest : Int} {st : PFState} (fuel : Nat)
    (hI : LoopInv gr src st) (hd : st.n.id = dest)
    (hf : (st.closedlist ++ st.openlist).length ≤ fuel) :
    ∃ r, retracepath st fuel dest = some r ∧ RouteTo gr src dest r := by
  have hidne : st.n.id ≠ -1 := by have := (hI.wf _ hI.nmem).id_nonneg; omega
  have hord : Ordered gr src (st.closedlist ++ st.openlist) := hI.ord.append _ hI.par
  obtain ⟨r2, hr2, hroute, -⟩ := retrace_ordered st hI.wf hI.nodup _ hord [] (by simp)
    st.n hI.nmem ((st.closedlist ++ st.openlist).length + 1) [] (le_refl _)
  rw [retraceLoop_go _ _ _ _ hidne, hd] at hr2
  obtain ⟨k, rfl⟩ : ∃ k, fuel = (st.closedlist ++ st.openlist).length + k :=
    ⟨fuel - (st.closedlist ++ st.openlist).length, by omega⟩
  have h2 := retraceLoop_mono st _ k _ _ _ hr2
  refine ⟨r2, ?_, by rw [← hd]; exact hroute⟩
  unfold retracepath
  rw [if_pos (by simpa using hd), h2]
  simp

/-- Total correctness of `pathfinder`: with more fuel than the level has cells
it returns, and the result is either empty or a route from `src` to `dest`. -/
theorem pathfinder_total {gr : Grid} {src : Int} (dest : Int) {fuel : Nat}
    (hfit : gr.width * gr.height ≤ 32768) (hs : inRange gr src)
    (hfuel : gr.width * gr.height + 1 ≤ fuel) :
    ∃ r, pathfinder gr fuel src dest = some r ∧ (r = [] ∨ RouteTo gr src dest r) := by
  obtain ⟨st2, hl⟩ := searchLoop_total (destx gr dest) (desty gr dest) dest hfit fuel
    (initState gr src dest) (initState_inv dest hfit hs) (by omega)
  obtain ⟨hI, -⟩ := searchLoop_inv dest hfit hs hl
  rw [pathfinder_eq, hl]
  simp only
  by_cases hd : st2.n.id = dest
  · have hlen := hI.length_le
    obtain ⟨r, hr, hroute⟩ := retracepath_some fuel hI hd (by omega)
    exact ⟨r, hr, Or.inr hroute⟩
  · refine ⟨[], ?_, Or.inl rfl⟩
    unfold retracepath
    rw [if_neg (by simpa using hd)]

theorem chain_step_tail {gr : Grid} : ∀ (r : List Int), List.Chain' (step gr) r →
    ∀ c ∈ r.tail, gr.tiles c.toNat = 0 := by
  intro r
  induction r with
  | nil => intro _ c hc; cases hc
  | cons a t ih =>
    intro h c hc
    cases t with
    | nil => cases hc
    | cons b t2 =>
      rw [List.chain'_cons] at h
      simp only [List.tail_cons, List.mem_cons] at hc
      rcases hc with hc | hc
      · rw [hc]; exact h.1.2
      · exact ih h.2 c (by simpa using hc)

theorem step_enclosed {gr : Grid} {a dest : Int} (h : step gr a dest) (he : Enclosed gr dest) :
    gr.tiles a.toNat ≠ 0 := by
  obtain ⟨⟨⟨a0, a1⟩, ⟨d0, d1⟩, hadj⟩, -⟩ := h
  have hw : (0 : Int) < gr.width := by
    rcases Nat.eq_zero_or_pos gr.width with h | h
    · rw [h] at a1; simp at a1; omega
    · exact_mod_cast h
  have hdir : Dir (a % gr.width - dest % gr.width) (a / gr.width - dest / gr.width) := by
    unfold Dir; omega
  have hs := he _ _ hdir
  have e1 : dest % gr.width + (a % gr.width - dest % gr.width) = a % gr.width := by ring
  have e2 : dest / gr.width + (a / gr.width - dest / gr.width) = a / gr.width := by ring
  rw [e1, e2] at hs
  intro ht
  have hb : InB gr (a % gr.width) (a / gr.width) :=
    ⟨Int.emod_nonneg _ (by omega), Int.emod_lt_of_pos _ hw, Int.ediv_nonneg a0 (by omega),
      Int.ediv_lt_of_lt_mul hw (by rw [mul_comm]; exact a1)⟩
  have hf : issolid gr (a % gr.width) (a / gr.width) = false := by
    rw [issolid_false_iff]
    refine ⟨hb, ?_⟩
    rw [Int.ediv_add_emod']; exact ht
  rw [hf] at hs
  cases hs

/-- An enclosed target that the source does not touch cannot be reached. -/
theorem not_connected_of_enclosed {gr : Grid} {src dest : Int} (he : Enclosed gr dest)
    (hne : src ≠ dest) (hadj : ¬ adjacent gr src dest) : ¬ Connected gr src dest := by
  rintro ⟨r, hh, hl, hc⟩
  obtain ⟨q, rfl⟩ : ∃ q, r = q ++ [dest] := by
    rcases List.eq_nil_or_concat r with h | ⟨q, b, h⟩
    · rw [h] at hh; cases hh
    · rw [h] at hl
      simp only [List.concat_eq_append, List.getLast?_append, List.getLast?_singleton,
        Option.or, Option.some.injEq] at hl
      subst hl
      exact ⟨q, by simpa using h⟩
  rcases List.eq_nil_or_concat q with h | ⟨q2, a, h⟩
  · subst h
    simp only [List.nil_append, List.head?_cons, Option.some.injEq] at hh
    exact hne hh.symm
  · rw [List.concat_eq_append] at h
    subst h
    rw [List.chain'_append] at hc
    obtain ⟨hc1, -, hc3⟩ := hc
    have hstep : step gr a dest := hc3 a (by simp) dest (by simp)
    have hta := step_enclosed hstep he
    rcases List.eq_nil_or_concat q2 with h | ⟨q3, b, h⟩
    · subst h
      simp only [List.nil_append, List.singleton_append, List.head?_cons,
        Option.some.injEq] at hh
      subst hh
      exact hadj hstep.1
    · rw [List.concat_eq_append] at h
      subst h
      rw [List.chain'_append] at hc1
      have hstep2 : step gr b a := hc1.2.2 b (by simp) a (by simp)
      exact hta hstep2.2

theorem manhattan_cost_eq (x1 y1 x2 y2 : Int) :
    manhattan_cost x1 y1 x2 y2 = (mdist x1 y1 x2 y2 : Int) := by
  unfold manhattan_cost mdist; push_cast; rfl

theorem LB_succ_ge (h0 m : Nat) : LB h0 m + 1 ≤ LB h0 (m + 1) := by
  show LB h0 m + 1 ≤ LB h0 m + 1 + max ((h0 : Int) - (m + 1)) 0
  have := le_max_right ((h0 : Int) - (m + 1)) 0
  omega

theorem LB_succ_le (h0 m : Nat) (k : Int) (hk0 : 0 ≤ k) (hk : (h0 : Int) - (m + 1) ≤ k) :
    LB h0 (m + 1) ≤ LB h0 m + 1 + k := by
  show LB h0 m + 1 + max ((h0 : Int) - (m + 1)) 0 ≤ LB h0 m + 1 + k
  have := max_le hk hk0
  omega

theorem LB_succ_eq (h0 m : Nat) (h : m + 1 ≤ h0) :
    LB h0 (m + 1) = LB h0 m + 1 + ((h0 : Int) - (m + 1)) := by
  show LB h0 m + 1 + max ((h0 : Int) - (m + 1)) 0 = _
  rw [max_eq_left (by omega)]

theorem LB_lt {h0 : Nat} : ∀ {m k : Nat}, m < k → LB h0 m < LB h0 k := by
  intro m k h
  induction k with
  | zero => omega
  | succ j ih =>
    have h1 := LB_succ_ge h0 j
    rcases Nat.lt_succ_iff_lt_or_eq.1 h with h2 | h2
    · have := ih h2; omega
    · subst h2; omega

theorem LB_le (h0 : Nat) {m k : Nat} (h : m ≤ k) : LB h0 m ≤ LB h0 k := by
  rcases Nat.lt_or_eq_of_le h with h1 | h1
  · exact le_of_lt (LB_lt h1)
  · rw [h1]

theorem cell_mod {w x : Int} (y : Int) (hx0 : 0 ≤ x) (hx : x < w) : (y * w + x) % w = x := by
  rw [Int.add_comm, Int.add_mul_emod_self]
  exact Int.emod_eq_of_lt hx0 hx

theorem cell_div {w x : Int} (y : Int) (hx0 : 0 ≤ x) (hx : x < w) : (y * w + x) / w = y := by
  have hw : w ≠ 0 := by omega
  rw [Int.add_comm, Int.add_mul_ediv_right _ _ hw, Int.ediv_eq_zero_of_lt hx0 hx]
  simp

theorem WF.wf_coords {gr : Grid} {nd : pathnode} (h : WF gr nd) {x y : Int}
    (hb : InB gr x y) (hid : nd.id = y * gr.width + x) : nd.x = x ∧ nd.y = y := by
  have h1 := h.mod
  have h2 := h.div
  rw [hid] at h1 h2
  rw [cell_mod y hb.1 hb.2.1] at h1
  rw [cell_div y hb.1 hb.2.1] at h2
  exact ⟨h1.symm, h2.symm⟩

theorem abs_tri (s v t : Int) : (s - t).natAbs ≤ (s - v).natAbs + (v - t).natAbs := by omega

theorem pred1_gt {s v t : Int} (h : (s - v).natAbs + (v - t).natAbs = (s - t).natAbs)
    (hlt : s < v) :
    (s - (v - 1)).natAbs + 1 = (s - v).natAbs ∧ ((v - 1) - t).natAbs = (v - t).natAbs + 1 := by
  omega

theorem pred1_lt {s v t : Int} (h : (s - v).natAbs + (v - t).natAbs = (s - t).natAbs)
    (hlt : v < s) :
    (s - (v + 1)).natAbs + 1 = (s - v).natAbs ∧ ((v + 1) - t).natAbs = (v - t).natAbs + 1 := by
  omega

theorem mdist_triangle (a b c d e f : Int) : mdist a b e f ≤ mdist a b c d + mdist c d e f := by
  unfold mdist
  have h1 := abs_tri a c e
  have h2 := abs_tri b d f
  generalize (a - e).natAbs = A at *
  generalize (b - f).natAbs = B at *
  generalize (a - c).natAbs = C at *
  generalize (b - d).natAbs = D at *
  generalize (c - e).natAbs = E at *
  generalize (d - f).natAbs = F at *
  omega

theorem mdist_zero {a b c d : Int} (h : mdist a b c d = 0) : c = a ∧ d = b := by
  unfold mdist at h; omega

theorem mdist_dir_right (a b c d : Int) {x y : Int} (hd : Dir x y) :
    mdist a b (c + x) (d + y) + 1 = mdist a b c d ∨ mdist a b (c + x) (d + y) = mdist a b c d + 1 := by
  unfold mdist
  rcases hd with ⟨rfl, rfl⟩ | ⟨rfl, rfl⟩ | ⟨rfl, rfl⟩ | ⟨rfl, rfl⟩
  · simp only [add_zero]
    generalize (a - c).natAbs = A at *
    omega
  · simp only [add_zero]
    generalize (b - d).natAbs = A at *
    omega
  · simp only [add_zero]
    generalize (a - c).natAbs = A at *
    omega
  · simp only [add_zero]
    generalize (b - d).natAbs = A at *
    omega

theorem mdist_dir_left (a b c d : Int) {x y : Int} (hd : Dir x y) :
    mdist (c + x) (d + y) a b + 1 = mdist c d a b ∨ mdist (c + x) (d + y) a b = mdist c d a b + 1 := by
  unfold mdist
  rcases hd with ⟨rfl, rfl⟩ | ⟨rfl, rfl⟩ | ⟨rfl, rfl⟩ | ⟨rfl, rfl⟩
  · simp only [add_zero]
    generalize (c - a).natAbs = A at *
    omega
  · simp only [add_zero]
    generalize (d - b).natAbs = A at *
    omega
  · simp only [add_zero]
    generalize (c - a).natAbs = A at *
    omega
  · simp only [add_zero]
    generalize (d - b).natAbs = A at *
    omega

theorem pred_cell {gr : Grid} {sx sy tx ty vx vy : Int} {k : Nat} (hsrc : InB gr sx sy)
    (hb : InB gr vx vy) (hm : mdist sx sy vx vy = k + 1)
    (hR : mdist sx sy vx vy + mdist vx vy tx ty = mdist sx sy tx ty) :
    ∃ x y, Dir x y ∧ InB gr (vx - x) (vy - y) ∧ mdist sx sy (vx - x) (vy - y) = k ∧
      mdist sx sy (vx - x) (vy - y) + mdist (vx - x) (vy - y) tx ty = mdist sx sy tx ty := by
  obtain ⟨a0, a1, b0, b1⟩ := hb
  obtain ⟨c0, c1, d0, d1⟩ := hsrc
  unfold mdist at hm hR ⊢
  have t1 := abs_tri sx vx tx
  have t2 := abs_tri sy vy ty
  have hX : (sx - vx).natAbs + (vx - tx).natAbs = (sx - tx).natAbs := by
    generalize (sx - vx).natAbs = A at *
    generalize (vx - tx).natAbs = B at *
    generalize (sx - tx).natAbs = C at *
    generalize (sy - vy).natAbs = D at *
    generalize (vy - ty).natAbs = E at *
    generalize (sy - ty).natAbs = F at *
    omega
  have hY : (sy - vy).natAbs + (vy - ty).natAbs = (sy - ty).natAbs := by
    generalize (sx - vx).natAbs = A at *
    generalize (vx - tx).natAbs = B at *
    generalize (sx - tx).natAbs = C at *
    generalize (sy - vy).natAbs = D at *
    generalize (vy - ty).natAbs = E at *
    generalize (sy - ty).natAbs = F at *
    omega
  have hz : vx = sx → (sx - vx).natAbs = 0 := by intro h; rw [h]; simp
  by_cases h1 : sx < vx
  · obtain ⟨p1, p2⟩ := pred1_gt hX h1
    refine ⟨1, 0, Or.inr (Or.inl ⟨rfl, rfl⟩), ⟨by omega, by omega, by omega, by omega⟩, ?_, ?_⟩
    · simp only [sub_zero]
      generalize (sx - (vx - 1)).natAbs = A at *
      generalize (sx - vx).natAbs = B at *
      generalize (sy - vy).natAbs = D at *
      omega
    · simp only [sub_zero]
      generalize (sx - (vx - 1)).natAbs = A at *
      generalize (vx - 1 - tx).natAbs = A2 at *
      generalize (sx - vx).natAbs = B at *
      generalize (vx - tx).natAbs = B2 at *
      generalize (sx - tx).natAbs = C at *
      generalize (sy - vy).natAbs = D at *
      generalize (vy - ty).natAbs = E at *
      generalize (sy - ty).natAbs = F at *
      omega
  · by_cases h2 : vx < sx
    · obtain ⟨p1, p2⟩ := pred1_lt hX h2
      refine ⟨-1, 0, Or.inr (Or.inr (Or.inr ⟨rfl, rfl⟩)),
        ⟨by omega, by omega, by omega, by omega⟩, ?_, ?_⟩
      · simp only [sub_zero, sub_neg_eq_add]
        generalize (sx - (vx + 1)).natAbs = A at *
        generalize (sx - vx).natAbs = B at *
        generalize (sy - vy).natAbs = D at *
        omega
      · simp only [sub_zero, sub_neg_eq_add]
        generalize (sx - (vx + 1)).natAbs = A at *
        generalize (vx + 1 - tx).natAbs = A2 at *
        generalize (sx - vx).natAbs = B at *
        generalize (vx - tx).natAbs = B2 at *
        generalize (sx - tx).natAbs = C at *
        generalize (sy - vy).natAbs = D at *
        generalize (vy - ty).natAbs = E at *
        generalize (sy - ty).natAbs = F at *
        omega
    · have hxe : vx = sx := by omega
      have hx0 := hz hxe
      by_cases h3 : sy < vy
      · obtain ⟨p1, p2⟩ := pred1_gt hY h3
        refine ⟨0, 1, Or.inr (Or.inr (Or.inl ⟨rfl, rfl⟩)),
          ⟨by omega, by omega, by omega, by omega⟩, ?_, ?_⟩
        · simp only [sub_zero]
          generalize (sy - (vy - 1)).natAbs = A at *
          generalize (sx - vx).natAbs = B at *
          generalize (sy - vy).natAbs = D at *
          omega
        · simp only [sub_zero]
          generalize (sy - (vy - 1)).natAbs = A at *
          generalize (vy - 1 - ty).natAbs = A2 at *
          generalize (sx - vx).natAbs = B at *
          generalize (vx - tx).natAbs = B2 at *
          generalize (sx - tx).natAbs = C at *
          generalize (sy - vy).natAbs = D at *
          generalize (vy - ty).natAbs = E at *
          generalize (sy - ty).natAbs = F at *
          omega
      · have h4 : vy < sy := by
          rcases lt_trichotomy vy sy with h | h | h
          · exact h
          · exfalso
            have : (sy - vy).natAbs = 0 := by rw [h]; simp
            omega
          · exact absurd h h3
        obtain ⟨p1, p2⟩ := pred1_lt hY h4
        refine ⟨0, -1, Or.inl ⟨rfl, rfl⟩, ⟨by omega, by omega, by omega, by omega⟩, ?_, ?_⟩
        · simp only [sub_zero, sub_neg_eq_add]
          generalize (sy - (vy + 1)).natAbs = A at *
          generalize (sx - vx).natAbs = B at *
          generalize (sy - vy).natAbs = D at *
          omega
        · simp only [sub_zero, sub_neg_eq_add]
          generalize (sy - (vy + 1)).natAbs = A at *
          generalize (vy + 1 - ty).natAbs = A2 at *
          generalize (sx - vx).natAbs = B at *
          generalize (vx - tx).natAbs = B2 at *
          generalize (sx - tx).natAbs = C at *
          generalize (sy - vy).natAbs = D at *
          generalize (vy - ty).natAbs = E at *
          generalize (sy - ty).natAbs = F at *
          omega

/-- Every cell between source and target whose monotone cost is below the
cost of all open nodes has been expanded. -/
theorem frontier_closed {gr : Grid} {src sx sy tx ty : Int} {st : PFState} (hI : LoopInv gr src st)
    (hC : CostInv gr sx sy tx ty st) (hsrc : InB gr sx sy) :
    ∀ (m : Nat) (vx vy : Int), InB gr vx vy → mdist sx sy vx vy = m →
      mdist sx sy vx vy + mdist vx vy tx ty = mdist sx sy tx ty →
      (∀ nd ∈ st.openlist, LB (mdist sx sy tx ty) m < nd.f) →
      vy * gr.width + vx ∈ st.closedlist.map pathnode.id := by
  have key : ∀ (m : Nat) (vx vy : Int), InB gr vx vy → mdist sx sy vx vy = m →
      mdist sx sy vx vy + mdist vx vy tx ty = mdist sx sy tx ty →
      (∀ nd ∈ st.openlist, LB (mdist sx sy tx ty) m < nd.f) →
      vy * gr.width + vx ∈ (st.closedlist ++ st.openlist).map pathnode.id →
      vy * gr.width + vx ∈ st.closedlist.map pathnode.id := by
    intro m vx vy hb hm hR hlt hin
    simp only [List.map_append, List.mem_append, List.mem_map] at hin
    rcases hin with ⟨u, hu, hid⟩ | ⟨u, hu, hid⟩
    · exact List.mem_map.2 ⟨u, hu, hid⟩
    · exfalso
      have hwf := hI.wf u (by simp [hu])
      obtain ⟨e1, e2⟩ := hwf.wf_coords hb hid
      have h1 := hC.exact u (by simp [hu]) (by rw [e1, e2]; exact hR)
      have h2 := hlt u hu
      rw [e1, e2, hm] at h1
      omega
  intro m
  induction m with
  | zero =>
    intro vx vy hb hm hR hlt
    apply key 0 vx vy hb hm hR hlt
    have hx : vx = sx ∧ vy = sy := by unfold mdist at hm; omega
    rw [hx.1, hx.2]
    exact hC.srcin
  | succ k ih =>
    intro vx vy hb hm hR hlt
    apply key (k + 1) vx vy hb hm hR hlt
    obtain ⟨a0, a1, b0, b1⟩ := hb
    obtain ⟨x, y, hd, hb2, hm2, hR2⟩ := pred_cell hsrc ⟨a0, a1, b0, b1⟩ hm hR
    have hcl := ih (vx - x) (vy - y) hb2 hm2 hR2
      (fun nd hnd => lt_trans (LB_lt (Nat.lt_succ_self k)) (hlt nd hnd))
    obtain ⟨u, hu, hid⟩ := List.mem_map.1 hcl
    obtain ⟨e1, e2⟩ := (hI.wf u (by simp [hu])).wf_coords hb2 hid
    have := hC.closure u hu x y hd (by rw [e1, e2]; simpa using ⟨a0, a1, b0, b1⟩)
    rw [e1, e2] at this
    simpa using this

theorem Expanded.mem_mono {gr : Grid} {dx dy : Int} {st st2 : PFState}
    (hE : Expanded gr dx dy st st2) (hn : st.n ∈ st.openlist)
    (hnd : ((st.closedlist ++ st.openlist).map pathnode.id).Nodup) :
    ∀ nd ∈ st.closedlist ++ st.openlist, nd ∈ st2.closedlist ++ st2.openlist := by
  intro nd h
  rw [hE.closed_eq]
  simp only [List.mem_append, List.mem_singleton] at h ⊢
  rcases h with h | h
  · exact Or.inl (Or.inl h)
  · by_cases hid : nd.id = st.n.id
    · have : nd = st.n := eq_of_id_eq hnd (by simp [h]) (by simp [hn]) hid
      exact Or.inl (Or.inr this)
    · exact Or.inr (hE.open_sup nd h hid)

theorem Expanded.mono_ids {gr : Grid} {dx dy : Int} {st st2 : PFState}
    (hE : Expanded gr dx dy st st2) (hn : st.n ∈ st.openlist)
    (hnd : ((st.closedlist ++ st.openlist).map pathnode.id).Nodup) {c : Int}
    (hc : c ∈ (st.closedlist ++ st.openlist).map pathnode.id) :
    c ∈ (st2.closedlist ++ st2.openlist).map pathnode.id := by
  obtain ⟨nd, h1, h2⟩ := List.mem_map.1 hc
  exact List.mem_map.2 ⟨nd, hE.mem_mono hn hnd nd h1, h2⟩

theorem Expanded.old_or_new {gr : Grid} {dx dy : Int} {st st2 : PFState}
    (hE : Expanded gr dx dy st st2) (hn : st.n ∈ st.openlist)
    (hnd : ((st.closedlist ++ st.openlist).map pathnode.id).Nodup) :
    ∀ nd ∈ st2.closedlist ++ st2.openlist, nd ∈ st.closedlist ++ st.openlist ∨
      (Kid gr dx dy st.n nd ∧ nd.id ∉ (st.closedlist ++ st.openlist).map pathnode.id) := by
  intro nd h
  by_cases hold : nd ∈ st.closedlist ++ st.openlist
  · exact Or.inl hold
  · right
    have hk : Kid gr dx dy st.n nd := by
      rw [hE.closed_eq] at h
      simp only [List.mem_append, List.mem_singleton] at h hold
      rcases h with (h | h) | h
      · exact absurd (Or.inl h) hold
      · rw [h] at hold; exact absurd (Or.inr hn) hold
      · rcases (hE.open_sub nd h).1 with h1 | h1
        · exact absurd (Or.inr h1) hold
        · exact h1
    refine ⟨hk, ?_⟩
    intro hc
    obtain ⟨m, hm1, hm2⟩ := List.mem_map.1 hc
    have hm3 := hE.mem_mono hn hnd m hm1
    have : m = nd := eq_of_id_eq hE.nodup hm3 h hm2
    rw [this] at hm1
    exact hold hm1

theorem Kid.kid_coords {gr : Grid} {dx dy : Int} {n nd : pathnode} (h : Kid gr dx dy n nd) :
    ∃ x y, Dir x y ∧ nd.x = n.x + x ∧ nd.y = n.y + y ∧ InB gr nd.x nd.y ∧
      nd.id = nd.y * gr.width + nd.x := by
  obtain ⟨x, y, hd, rfl, hs⟩ := h
  exact ⟨x, y, hd, rfl, rfl, ((issolid_false_iff gr _ _).1 hs).1, rfl⟩

/-- A new node between source and target was reached from a node between
source and target that is one move closer to the source. -/
theorem kid_in_R {gr : Grid} {src sx sy tx ty dx dy : Int} {st : PFState} {n nd : pathnode}
    (hI : LoopInv gr src st) (hC : CostInv gr sx sy tx ty st) (hsrc : InB gr sx sy)
    (hn : n ∈ st.openlist) (hmin : ∀ x ∈ st.openlist, n.f ≤ x.f)
    (hk : Kid gr dx dy n nd) (hnew : nd.id ∉ (st.closedlist ++ st.openlist).map pathnode.id)
    (hR : mdist sx sy nd.x nd.y + mdist nd.x nd.y tx ty = mdist sx sy tx ty) :
    mdist sx sy n.x n.y + mdist n.x n.y tx ty = mdist sx sy tx ty ∧
      mdist sx sy n.x n.y + 1 = mdist sx sy nd.x nd.y := by
  obtain ⟨x, y, hd, hx, hy, hb, hid⟩ := hk.kid_coords
  have hS := mdist_dir_right sx sy n.x n.y hd
  have hT := mdist_dir_left tx ty n.x n.y hd
  rw [← hx, ← hy] at hS hT
  have tri := mdist_triangle sx sy n.x n.y tx ty
  rcases hS with h1 | h1
  swap
  · exact ⟨by omega, by omega⟩
  · exfalso
    have hpos : mdist sx sy nd.x nd.y ≠ 0 := by
      intro h0
      have hxy : nd.x = sx ∧ nd.y = sy := by unfold mdist at h0; omega
      apply hnew
      rw [hid, hxy.1, hxy.2]
      exact hC.srcin
    obtain ⟨k, hk1⟩ : ∃ k, mdist sx sy nd.x nd.y = k + 1 :=
      ⟨mdist sx sy nd.x nd.y - 1, by omega⟩
    obtain ⟨x2, y2, hd2, hb2, hm2, hR2⟩ := pred_cell hsrc hb hk1 hR
    have hlow := hC.lower n (by simp [hn])
    have hlt : ∀ z ∈ st.openlist, LB (mdist sx sy tx ty) k < z.f := by
      intro z hz
      have h2 := hmin z hz
      have h3 : LB (mdist sx sy tx ty) k < LB (mdist sx sy tx ty) (mdist sx sy n.x n.y) :=
        LB_lt (by omega)
      omega
    have hcl := frontier_closed hI hC hsrc k _ _ hb2 hm2 hR2 hlt
    obtain ⟨u, hu, huid⟩ := List.mem_map.1 hcl
    obtain ⟨e1, e2⟩ := (hI.wf u (by simp [hu])).wf_coords hb2 huid
    have := hC.closure u hu x2 y2 hd2 (by rw [e1, e2]; simpa using hb)
    rw [e1, e2] at this
    apply hnew
    rw [hid]
    simpa using this

theorem LB_nonneg (h0 m : Nat) : 0 ≤ LB h0 m := by
  have h1 : LB h0 0 ≤ LB h0 m := LB_le h0 (Nat.zero_le m)
  have h2 : LB h0 0 = (h0 : Int) := rfl
  omega

theorem cheapestScan_min : ∀ (l pre : List pathnode) (cost : Int) (idx : Nat) (m : pathnode),
    (pre ++ l).get? idx = some m → m.f = cost → cost ≠ -1 → (∀ nd ∈ pre, cost ≤ nd.f) →
    (∀ nd ∈ l, nd.f ≠ -1) →
    ∃ m2, (pre ++ l).get? (cheapestScan l pre.length cost idx) = some m2 ∧
      ∀ nd ∈ pre ++ l, m2.f ≤ nd.f := by
  intro l
  induction l with
  | nil =>
    intro pre cost idx m hget hm _ hpre _
    refine ⟨m, by simpa [cheapestScan] using hget, ?_⟩
    intro nd hnd
    rw [hm]
    exact hpre nd (by simpa using hnd)
  | cons a t ih =>
    intro pre cost idx m hget hm hc hpre hl
    have hassoc : pre ++ a :: t = (pre ++ [a]) ++ t := by simp
    have hlen : (pre ++ [a]).length = pre.length + 1 := by simp
    unfold cheapestScan
    by_cases hlt : cost = -1 ∨ a.f < cost
    · rw [if_pos hlt]
      have hlt2 : a.f < cost := by
        rcases hlt with h | h
        · exact absurd h hc
        · exact h
      have hga : (pre ++ [a] ++ t).get? pre.length = some a := by
        rw [List.append_assoc, List.get?_eq_getElem?,
          List.getElem?_append_right (le_refl _)]
        simp
      have := ih (pre ++ [a]) a.f pre.length a hga rfl (hl a (by simp))
        (by
          intro nd hnd
          simp only [List.mem_append, List.mem_singleton] at hnd
          rcases hnd with h | h
          · have := hpre nd h; omega
          · rw [h])
        (fun nd hnd => hl nd (by simp [hnd]))
      rw [hlen, ← hassoc] at this
      exact this
    · rw [if_neg hlt]
      have hge : cost ≤ a.f := by
        by_contra hcon
        exact hlt (Or.inr (by omega))
      have := ih (pre ++ [a]) cost idx m (by rw [← hassoc]; exact hget) hm hc
        (by
          intro nd hnd
          simp only [List.mem_append, List.mem_singleton] at hnd
          rcases hnd with h | h
          · exact hpre nd h
          · rw [h]; exact hge)
        (fun nd hnd => hl nd (by simp [hnd]))
      rw [hlen, ← hassoc] at this
      exact this

/-- The node `findcheapestopenlist` returns has the least `f` of the open list. -/
theorem findcheapest_min {op : List pathnode} {n : pathnode} (hf : ∀ nd ∈ op, nd.f ≠ -1)
    (h : findcheapestopenlist op = some n) : ∀ nd ∈ op, n.f ≤ nd.f := by
  cases op with
  | nil => simp [findcheapestopenlist] at h
  | cons a t =>
    unfold findcheapestopenlist at h
    have he : cheapestScan (a :: t) 0 (-1) 0 = cheapestScan t 1 a.f 0 := by
      simp [cheapestScan]
    rw [he] at h
    obtain ⟨m2, h1, h2⟩ := cheapestScan_min t [a] a.f 0 a (by simp) rfl (hf a (by simp))
      (by intro nd hnd; simp only [List.mem_singleton] at hnd; rw [hnd])
      (fun nd hnd => hf nd (by simp [hnd]))
    simp only [List.singleton_append, List.length_singleton] at h1 h2
    rw [h] at h1
    have : n = m2 := Option.some.inj h1
    rw [this]
    exact h2

/-- One pass through the loop body keeps the cost invariant on a level
without obstacles. -/
theorem CostInv.cost_step {gr : Grid} {src sx sy tx ty : Int} {st st2 : PFState} {n : pathnode}
    (hopen : ∀ x y, InB gr x y → issolid gr x y = false) (hsrc : InB gr sx sy)
    (hI : LoopInv gr src st) (hC : CostInv gr sx sy tx ty st)
    (hf : findcheapestopenlist st.openlist = some n) (hnd : n.id ≠ ty * gr.width + tx)
    (hE : Expanded gr tx ty { st with n := n } st2) : CostInv gr sx sy tx ty st2 := by
  have hn : n ∈ st.openlist := findcheapest_mem hf
  have hmin : ∀ z ∈ st.openlist, n.f ≤ z.f := by
    apply findcheapest_min _ hf
    intro z hz
    have h1 := hC.lower z (by simp [hz])
    have h2 := LB_nonneg (mdist sx sy tx ty) (mdist sx sy z.x z.y)
    omega
  have hon := hE.old_or_new hn hI.nodup
  have hmono := hE.mem_mono hn hI.nodup
  have hnin : n ∈ st2.closedlist ++ st2.openlist := hmono n (by simp [hn])
  have hkid : ∀ nd, Kid gr tx ty n nd →
      nd.id ∉ (st.closedlist ++ st.openlist).map pathnode.id →
      LB (mdist sx sy tx ty) (mdist sx sy nd.x nd.y) ≤ nd.f ∧
      (mdist sx sy nd.x nd.y + mdist nd.x nd.y tx ty = mdist sx sy tx ty →
        nd.f = LB (mdist sx sy tx ty) (mdist sx sy nd.x nd.y) ∧
        mdist sx sy n.x n.y + mdist n.x n.y tx ty = mdist sx sy tx ty ∧
        mdist sx sy n.x n.y + 1 = mdist sx sy nd.x nd.y) := by
    intro nd hk hnew
    obtain ⟨-, -, -, -, hfnd⟩ := hk.facts
    rw [manhattan_cost_eq] at hfnd
    obtain ⟨x, y, hd, hx, hy, hb, hid⟩ := hk.kid_coords
    have hS := mdist_dir_right sx sy n.x n.y hd
    rw [← hx, ← hy] at hS
    have tri := mdist_triangle sx sy nd.x nd.y tx ty
    have hlow := hC.lower n (by simp [hn])
    constructor
    · rcases hS with h1 | h1
      · have := LB_le (mdist sx sy tx ty) (show mdist sx sy nd.x nd.y ≤ mdist sx sy n.x n.y
          by omega)
        omega
      · have := LB_succ_le (mdist sx sy tx ty) (mdist sx sy n.x n.y) (mdist nd.x nd.y tx ty)
          (by omega) (by omega)
        rw [h1]
        omega
    · intro hR
      obtain ⟨r1, r2⟩ := kid_in_R hI hC hsrc hn hmin hk hnew hR
      refine ⟨?_, r1, r2⟩
      have e1 := hC.exact n (by simp [hn]) r1
      have e2 := LB_succ_eq (mdist sx sy tx ty) (mdist sx sy n.x n.y) (by omega)
      rw [← r2, e2, hfnd, e1]
      omega
  refine ⟨?_, ?_, ?_, ?_, ?_, ?_⟩
  · intro nd hnd2 hR
    rcases hon nd hnd2 with h | ⟨hk, hnew⟩
    · exact hC.exact nd h hR
    · exact ((hkid nd hk hnew).2 hR).1
  · intro nd hnd2
    rcases hon nd hnd2 with h | ⟨hk, hnew⟩
    · exact hC.lower nd h
    · exact (hkid nd hk hnew).1
  · intro u hu x y hd hb
    rw [hE.closed_eq] at hu
    simp only [List.mem_append, List.mem_singleton] at hu
    rcases hu with hu | hu
    · exact hE.mono_ids hn hI.nodup (hC.closure u hu x y hd hb)
    · subst hu
      exact hE.nbr x y hd (hopen _ _ hb)
  · exact hE.mono_ids hn hI.nodup hC.srcin
  · rw [hE.closed_eq]
    simp only [List.map_append, List.map_cons, List.map_nil, List.mem_append,
      List.mem_singleton, not_or]
    exact ⟨hC.destout, fun h => hnd h.symm⟩
  · intro nd hnd2 hR
    rcases hon nd hnd2 with h | ⟨hk, hnew⟩
    · rcases hC.parentR nd h hR with h1 | ⟨u, hu, h1⟩
      · exact Or.inl h1
      · exact Or.inr ⟨u, hmono u hu, h1⟩
    · obtain ⟨-, r1, r2⟩ := (hkid nd hk hnew).2 hR
      exact Or.inr ⟨n, hnin, hk.facts.2.1.symm, r1, r2⟩

/-- Following the parent links from a node between source and target takes
as many moves as its Manhattan distance from the source. -/
theorem retrace_length {gr : Grid} {src sx sy tx ty : Int} {st : PFState}
    (hI : LoopInv gr src st) (hC : CostInv gr sx sy tx ty st) :
    ∀ (m : Nat) (nd : pathnode), nd ∈ st.closedlist ++ st.openlist →
      mdist sx sy nd.x nd.y + mdist nd.x nd.y tx ty = mdist sx sy tx ty →
      mdist sx sy nd.x nd.y = m → ∀ (fuel : Nat) (acc : List Int), m + 2 ≤ fuel →
      ∃ r, retraceLoop st fuel nd.id acc = some (r ++ acc) ∧ r.length = m + 1 := by
  intro m
  induction m with
  | zero =>
    intro nd hnd hR hm fuel acc hfuel
    have hid : nd.id ≠ -1 := by have := (hI.wf nd hnd).id_nonneg; omega
    obtain ⟨k, rfl⟩ : ∃ k, fuel = k + 2 := ⟨fuel - 2, by omega⟩
    rw [retraceLoop_go st (k + 1) nd.id acc hid, findparent_mem hI.nodup hnd]
    rcases hC.parentR nd hnd hR with ⟨hp, -, -⟩ | ⟨u, -, -, -, hu⟩
    · rw [hp, retraceLoop_stop]
      exact ⟨[nd.id], by simp, by simp⟩
    · omega
  | succ j ih =>
    intro nd hnd hR hm fuel acc hfuel
    have hid : nd.id ≠ -1 := by have := (hI.wf nd hnd).id_nonneg; omega
    obtain ⟨k, rfl⟩ : ∃ k, fuel = k + 1 := ⟨fuel - 1, by omega⟩
    rw [retraceLoop_go st k nd.id acc hid, findparent_mem hI.nodup hnd]
    rcases hC.parentR nd hnd hR with ⟨-, hx, hy⟩ | ⟨u, hu, hup, hRu, hdu⟩
    · exfalso
      rw [hx, hy] at hm
      simp [mdist] at hm
    · obtain ⟨r, hr, hlen⟩ := ih u hu hRu (by omega) k (nd.id :: acc) (by omega)
      rw [← hup, hr]
      exact ⟨r ++ [nd.id], by simp, by simp [hlen]⟩

theorem inRange_coords {gr : Grid} {c : Int} (hfit : gr.width * gr.height ≤ 32768)
    (hc : inRange gr c) :
    wrap16 (Int.tmod c gr.width) = c % gr.width ∧ wrap16 (Int.tdiv c gr.width) = c / gr.width ∧
      InB gr (c % gr.width) (c / gr.width) ∧ c = (c / gr.width) * gr.width + c % gr.width := by
  obtain ⟨h0, h1⟩ := hc
  have hfit2 : (gr.width : Int) * gr.height ≤ 32768 := by exact_mod_cast hfit
  have hw : (0 : Int) < gr.width := by
    rcases Nat.eq_zero_or_pos gr.width with h | h
    · rw [h] at h1; simp at h1; omega
    · exact_mod_cast h
  have e1 : Int.tmod c gr.width = c % gr.width := Int.tmod_eq_emod h0 (by omega)
  have e2 : Int.tdiv c gr.width = c / gr.width := Int.tdiv_eq_ediv h0 (by omega)
  have a0 : 0 ≤ c % gr.width := Int.emod_nonneg _ (by omega)
  have a1 : c % gr.width < gr.width := Int.emod_lt_of_pos _ hw
  have b0 : 0 ≤ c / gr.width := Int.ediv_nonneg h0 (by omega)
  have b1 : c / gr.width < gr.height :=
    Int.ediv_lt_of_lt_mul hw (by rw [mul_comm]; exact h1)
  have b2 : c / gr.width ≤ c := Int.ediv_le_self _ h0
  have h3 := Int.ediv_add_emod' c gr.width
  have a2 : c % gr.width ≤ c := by
    have h4 := mul_nonneg b0 (le_of_lt hw)
    omega
  refine ⟨?_, ?_, ⟨a0, a1, b0, b1⟩, h3.symm⟩
  · rw [e1]; exact wrap16_id (by omega) (by omega)
  · rw [e2]; exact wrap16_id (by omega) (by omega)

theorem issolid_open {gr : Grid} (hzero : ∀ i, i < gr.width * gr.height → gr.tiles i = 0) :
    ∀ x y, InB gr x y → issolid gr x y = false := by
  intro x y hb
  rw [issolid_false_iff]
  refine ⟨hb, hzero _ ?_⟩
  obtain ⟨h1, h2⟩ := cell_range hb.1 hb.2.1 hb.2.2.1 hb.2.2.2
  have : ((y * gr.width + x).toNat : Int) = y * gr.width + x := Int.toNat_of_nonneg h1
  have h3 : ((y * gr.width + x).toNat : Int) < ((gr.width * gr.height : Nat) : Int) := by
    rw [this]; push_cast; exact h2
  exact_mod_cast h3

theorem mdist_self (a b : Int) : mdist a b a b = 0 := by simp [mdist]

theorem initState_cost {gr : Grid} {src dest : Int} (hfit : gr.width * gr.height ≤ 32768)
    (hs : inRange gr src) (hd : inRange gr dest) :
    CostInv gr (src % gr.width) (src / gr.width) (dest % gr.width) (dest / gr.width)
      (initState gr src dest) := by
  obtain ⟨-, hid, hx, hy⟩ := srcnode_wf dest hfit hs
  obtain ⟨d1, d2, -, -⟩ := inRange_coords hfit hd
  obtain ⟨-, -, -, s4⟩ := inRange_coords hfit hs
  have hf : (srcnode gr src dest).f =
      (mdist (src % gr.width) (src / gr.width) (dest % gr.width) (dest / gr.width) : Int) := by
    have : (srcnode gr src dest).f = 0 + manhattan_cost (srcnode gr src dest).x
        (srcnode gr src dest).y (destx gr dest) (desty gr dest) := rfl
    rw [this, hx, hy, manhattan_cost_eq]
    unfold destx desty
    rw [d1, d2]; simp
  have hmem : ∀ nd ∈ (initState gr src dest).closedlist ++ (initState gr src dest).openlist,
      nd = srcnode gr src dest := by
    intro nd hnd
    simpa [initState] using hnd
  refine ⟨?_, ?_, ?_, ?_, ?_, ?_⟩
  · intro nd hnd _
    rw [hmem nd hnd, hx, hy, mdist_self, hf]; rfl
  · intro nd hnd
    rw [hmem nd hnd, hx, hy, mdist_self, hf]
    exact le_of_eq rfl
  · intro u hu; simp [initState] at hu
  · simp only [initState, List.nil_append, List.map_cons, List.map_nil, List.mem_singleton]
    rw [hid]; exact s4.symm
  · simp [initState]
  · intro nd hnd _
    rw [hmem nd hnd]
    exact Or.inl ⟨rfl, hx, hy⟩

/-- On a level without obstacles the search ends at the target, and the
route it returns has one cell per move of a shortest path, plus one. -/
theorem pathfinder_open_length {gr : Grid} {src dest : Int} {fuel : Nat}
    (hfit : gr.width * gr.height ≤ 32768)
    (hzero : ∀ i, i < gr.width * gr.height → gr.tiles i = 0)
    (hs : inRange gr src) (hd : inRange gr dest)
    (hfuel : gr.width * gr.height + 1 ≤ fuel) :
    ∃ r, pathfinder gr fuel src dest = some r ∧
      r.length = mdist (src % gr.width) (src / gr.width) (dest % gr.width) (dest / gr.width) + 1 := by
  obtain ⟨-, -, hsb, hsid⟩ := inRange_coords hfit hs
  obtain ⟨d1, d2, hdb, hdid⟩ := inRange_coords hfit hd
  have hdx : destx gr dest = dest % gr.width := d1
  have hdy : desty gr dest = dest / gr.width := d2
  have hopen := issolid_open hzero
  obtain ⟨st2, hl⟩ := searchLoop_total (destx gr dest) (desty gr dest) dest hfit fuel
    (initState gr src dest) (initState_inv dest hfit hs) (by omega)
  obtain ⟨st1, ⟨hI1, hC1⟩, hcase⟩ := searchLoop_result gr (destx gr dest) (desty gr dest) dest
    (fun st => LoopInv gr src st ∧
      CostInv gr (src % gr.width) (src / gr.width) (dest % gr.width) (dest / gr.width) st)
    (by
      intro st n ⟨hI, hC⟩ _ hf hne
      obtain ⟨hI2, hE⟩ := hI.loop_step (destx gr dest) (desty gr dest) hfit hf
      refine ⟨hI2, ?_⟩
      rw [hdx, hdy] at hE
      rw [hdx, hdy]
      exact hC.cost_step hopen hsb hI hf (by rw [← hdid]; exact hne) hE)
    fuel _ st2 ⟨initState_inv dest hfit hs, initState_cost hfit hs hd⟩ hl
  have hfin : LoopInv gr src st2 ∧
      CostInv gr (src % gr.width) (src / gr.width) (dest % gr.width) (dest / gr.width) st2 ∧
      st2.n.id = dest := by
    rcases hcase with ⟨rfl, hc⟩ | ⟨n, hf, hnid, -, rfl⟩
    · refine ⟨hI1, hC1, ?_⟩
      rcases hc with hc | hc
      · exact hc
      · exfalso
        have := frontier_closed hI1 hC1 hsb _ _ _ hdb rfl (by rw [mdist_self]; rfl)
          (by intro nd hnd; rw [hc] at hnd; cases hnd)
        rw [← hdid] at this
        exact hC1.destout (by rw [← hdid]; exact this)
    · have hn := findcheapest_mem hf
      exact ⟨⟨hI1.wf, hI1.nodup, hI1.ord, hI1.par, by simp [hn]⟩,
        ⟨hC1.exact, hC1.lower, hC1.closure, hC1.srcin, hC1.destout, hC1.parentR⟩, hnid⟩
  obtain ⟨hI, hC, hnid⟩ := hfin
  have hlen := hI.length_le
  obtain ⟨r, hr, -⟩ := retracepath_some fuel hI hnid (by omega)
  refine ⟨r, by rw [pathfinder_eq, hl]; exact hr, ?_⟩
  obtain ⟨e1, e2⟩ := (hI.wf _ hI.nmem).wf_coords hdb (by rw [hnid]; exact hdid)
  obtain ⟨r2, hr2, hlen2⟩ := retrace_length hI hC _ st2.n hI.nmem
    (by rw [e1, e2, mdist_self]; rfl) rfl
    (fuel + (mdist (src % gr.width) (src / gr.width) st2.n.x st2.n.y + 2)) [] (by omega)
  have hidne : st2.n.id ≠ -1 := by have := (hI.wf _ hI.nmem).id_nonneg; omega
  rw [show fuel + (mdist (src % gr.width) (src / gr.width) st2.n.x st2.n.y + 2)
      = (fuel + (mdist (src % gr.width) (src / gr.width) st2.n.x st2.n.y + 1)) + 1 by omega,
    retraceLoop_go _ _ _ _ hidne, hnid] at hr2
  unfold retracepath at hr
  rw [if_pos (by simpa using hnid)] at hr
  have h3 := retraceLoop_mono st2 _
    (mdist (src % gr.width) (src / gr.width) st2.n.x st2.n.y + 1) _ _ _ hr
  rw [h3] at hr2
  have : r = r2 := by simpa using hr2
  rw [this, hlen2, e1, e2]

/-- C1: on a level whose cell ids fit `int16_t` and whose cells all have tile
value 0, for in-bounds source and destination cells, `pathfinder` returns a
route whose number of cells is the Manhattan distance between the two cells
plus 1. -/
theorem pathfinder_open_grid (gr : Grid) (fuel : Nat) (src dest : Int)
    (hfit : gr.width * gr.height ≤ 32768)
    (hzero : ∀ i, i < gr.width * gr.height → gr.tiles i = 0)
    (hs : inRange gr src) (hd : inRange gr dest)
    (hfuel : gr.width * gr.height + 1 ≤ fuel) :
    ∃ r, pathfinder gr fuel src dest = some r ∧
      (r.length : Int) =
        manhattan_cost (src % gr.width) (src / gr.width) (dest % gr.width) (dest / gr.width)
          + 1 := by
  obtain ⟨r, h1, h2⟩ := pathfinder_open_length hfit hzero hs hd hfuel
  refine ⟨r, h1, ?_⟩
  rw [manhattan_cost_eq, h2]
  push_cast
  rfl

/-- Corner to corner across the three by three open level. -/
theorem pathfinder_open_grid_witness :
    openGrid3.width * openGrid3.height ≤ 32768 ∧
    (∀ i, i < openGrid3.width * openGrid3.height → openGrid3.tiles i = 0) ∧
    inRange openGrid3 0 ∧ inRange openGrid3 8 ∧
    openGrid3.width * openGrid3.height + 1 ≤ 10 ∧
    ∃ r, pathfinder openGrid3 10 0 8 = some r ∧
      (r.length : Int) =
        manhattan_cost (0 % openGrid3.width) (0 / openGrid3.width) (8 % openGrid3.width)
          (8 / openGrid3.width) + 1 :=
  ⟨by decide, fun _ _ => rfl, by decide, by decide, by decide,
    pathfinder_open_grid openGrid3 10 0 8 (by decide) (fun _ _ => rfl) (by decide) (by decide)
      (by decide)⟩

/-- C2, as amended: on a level whose cell ids fit `int16_t`, a non-empty
result of `pathfinder` for an in-range `src` starts with `src`, ends with
`dest`, moves between 4-adjacent in-bounds cells only, has tile value 0 at
every cell after the first, and visits no cell twice. -/
theorem pathfinder_route_valid (gr : Grid) (fuel : Nat) (src dest : Int) (r : List Int)
    (hfit : gr.width * gr.height ≤ 32768) (hs : inRange gr src)
    (h : pathfinder gr fuel src dest = some r) (hne : r ≠ []) :
    r.head? = some src ∧ r.getLast? = some dest ∧ List.Chain' (adjacent gr) r ∧
      (∀ c ∈ r.tail, gr.tiles c.toNat = 0) ∧ r.Nodup := by
  obtain ⟨h1, h2, h3, h4⟩ := pathfinder_route hfit hs h hne
  exact ⟨h1, h2, h3.imp (fun _ _ hab => hab.1), chain_step_tail r h3, h4⟩

/-- The route found across the three by three open level. -/
theorem pathfinder_route_valid_witness :
    openGrid3.width * openGrid3.height ≤ 32768 ∧ inRange openGrid3 0 ∧
    pathfinder openGrid3 10 0 8 = some [0, 1, 2, 5, 8] ∧
    ([0, 1, 2, 5, 8] : List Int).head? = some 0 ∧
    ([0, 1, 2, 5, 8] : List Int).getLast? = some 8 ∧
    List.Chain' (adjacent openGrid3) [0, 1, 2, 5, 8] ∧
    (∀ c ∈ ([0, 1, 2, 5, 8] : List Int).tail, openGrid3.tiles c.toNat = 0) ∧
    ([0, 1, 2, 5, 8] : List Int).Nodup :=
  ⟨by decide, by decide, by decide,
    pathfinder_route_valid openGrid3 10 0 8 [0, 1, 2, 5, 8] (by decide) (by decide)
      (by decide) (by decide)⟩

/-- C2, as stated, fails on a level with more than 32768 cells: the id of the
cell in column 128 of row 128 is narrowed to `-32768`, which is no cell. -/
theorem pathfinder_route_int16_wrap :
    inRange bigGrid 32767 ∧ inRange bigGrid 32513 ∧
    pathfinder bigGrid 10 32767 32513 = some [32767, -32768, 32513] ∧
    ¬ List.Chain' (adjacent bigGrid) [32767, -32768, 32513] := by
  refine ⟨by decide, by decide, by decide, ?_⟩
  intro h
  rw [List.chain'_cons] at h
  exact absurd h.1.2.1.1 (by decide)

/-- C3, as amended: on a level whose cell ids fit `int16_t`, for an in-range
`src`, `pathfinder` returns the empty route when no chain of moves to
4-adjacent in-bounds cells of tile value 0 leads from `src` to `dest` (the
tile of `src` itself is never tested), in particular when `dest` differs from
`src`, is fully enclosed, and `src` is not one of its four neighbours. -/
theorem pathfinder_unreachable_empty (gr : Grid) (fuel : Nat) (src dest : Int)
    (hfit : gr.width * gr.height ≤ 32768) (hs : inRange gr src)
    (hfuel : gr.width * gr.height + 1 ≤ fuel)
    (hno : ¬ Connected gr src dest ∨
      (src ≠ dest ∧ Enclosed gr dest ∧ ¬ adjacent gr src dest)) :
    pathfinder gr fuel src dest = some [] := by
  have hnc : ¬ Connected gr src dest := by
    rcases hno with h | ⟨h1, h2, h3⟩
    · exact h
    · exact not_connected_of_enclosed h2 h1 h3
  obtain ⟨r, hr, hcase⟩ := pathfinder_total dest hfit hs hfuel
  rcases hcase with rfl | ⟨h1, h2, h3, -⟩
  · exact hr
  · exact absurd ⟨r, h1, h2, h3⟩ hnc

theorem wallGrid_enclosed : Enclosed wallGrid 2 := by
  intro x y hd
  rcases hd with ⟨rfl, rfl⟩ | ⟨rfl, rfl⟩ | ⟨rfl, rfl⟩ | ⟨rfl, rfl⟩ <;> decide

/-- The target behind the wall of the three-cell row. -/
theorem pathfinder_unreachable_empty_witness :
    wallGrid.width * wallGrid.height ≤ 32768 ∧ inRange wallGrid 0 ∧
    wallGrid.width * wallGrid.height + 1 ≤ 10 ∧
    ((0 : Int) ≠ 2 ∧ Enclosed wallGrid 2 ∧ ¬ adjacent wallGrid 0 2) ∧
    pathfinder wallGrid 10 0 2 = some [] :=
  ⟨by decide, by decide, by decide, ⟨by decide, wallGrid_enclosed, by decide⟩,
    pathfinder_unreachable_empty wallGrid 10 0 2 (by decide) (by decide) (by decide)
      (Or.inr ⟨by decide, wallGrid_enclosed, by decide⟩)⟩

theorem solidSrcGrid_enclosed : Enclosed solidSrcGrid 1 := by
  intro x y hd
  rcases hd with ⟨rfl, rfl⟩ | ⟨rfl, rfl⟩ | ⟨rfl, rfl⟩ | ⟨rfl, rfl⟩ <;> decide

/-- C3, as stated, fails when the source is itself a solid neighbour of the
target: the target is fully enclosed, and still the route is not empty. -/
theorem pathfinder_enclosed_solid_src :
    inRange solidSrcGrid 0 ∧ inRange solidSrcGrid 1 ∧ (0 : Int) ≠ 1 ∧
    Enclosed solidSrcGrid 1 ∧ solidSrcGrid.tiles 0 ≠ 0 ∧
    pathfinder solidSrcGrid 3 0 1 = some [0, 1] :=
  ⟨by decide, by decide, by decide, solidSrcGrid_enclosed, by decide, by decide⟩

/-- C4, as amended: when the source equals the destination, `pathfinder`
returns the one-element route holding that cell. -/
theorem pathfinder_same_cell (gr : Grid) (fuel : Nat) (src : Int) (hfuel : 1 ≤ fuel) :
    pathfinder gr fuel src src = some [src] := by
  obtain ⟨k, rfl⟩ : ∃ k, fuel = k + 1 := ⟨fuel - 1, by omega⟩
  rw [pathfinder_eq]
  have h1 : searchLoop gr (destx gr src) (desty gr src) src (k + 1) (initState gr src src)
      = some (initState gr src src) := by
    unfold searchLoop
    simp [initState, srcnode, mknode]
  rw [h1]
  simp only
  have h2 : findparent (initState gr src src) src = -1 := by
    unfold findparent
    simp [initState, srcnode, mknode]
  unfold retracepath
  rw [if_pos (by simp [initState, srcnode, mknode]), h2, retraceLoop_stop]

/-- The same-cell request on a level of one cell. -/
theorem pathfinder_same_cell_witness :
    1 ≤ 1 ∧ pathfinder unitGrid 1 0 0 = some [0] :=
  ⟨by decide, pathfinder_same_cell unitGrid 1 0 (by decide)⟩

/-- C4, as stated, fails: the route for equal source and destination is not
empty. -/
theorem pathfinder_same_cell_nonempty :
    pathfinder unitGrid 5 0 0 = some [0] ∧ pathfinder unitGrid 5 0 0 ≠ some [] :=
  ⟨by decide, by decide⟩

/-- C16 at the failing input: on the row of three free cells, searching from
cell 0 for cell 2, `explore` adds cell 1 with `g = 3`, which is the `f` of its
parent plus 1, while the parent has `g = 0`; `h` is the Manhattan distance 1
and `f` is `g + h = 4`. -/
theorem explore_cost_from_f :
    (explore rowGrid3 2 0 (initState rowGrid3 0 2) 1 0).openlist =
      [⟨0, 0, 0, -1, 0, 2, 2⟩, ⟨1, 1, 0, 0, 3, 1, 4⟩] := by
  decide

set_option maxRecDepth 100000 in
/-- C17: on the level `detourGrid` the route returned from cell 18 to cell 16
has 13 cells, while the route through the cells 19, 20, 13, 6, 5, 4, 3, 2 and 9
has 11 cells. -/
theorem pathfinder_detour :
    pathfinder detourGrid 36 18 16 =
      some [18, 25, 24, 31, 30, 29, 22, 21, 14, 7, 8, 9, 16] ∧
    RouteTo detourGrid 18 16 [18, 19, 20, 13, 6, 5, 4, 3, 2, 9, 16] ∧
    [18, 19, 20, 13, 6, 5, 4, 3, 2, 9, 16].length <
      [18, 25, 24, 31, 30, 29, 22, 21, 14, 7, 8, 9, 16].length := by
  refine ⟨by decide, ⟨rfl, rfl, ?_, by decide⟩, by decide⟩
  simp only [List.chain'_cons, List.chain'_singleton, and_true]
  decide

theorem wrap16_add (a b : Int) : wrap16 (wrap16 a + b) = wrap16 (a + b) := by
  unfold wrap16; omega

/-- What `explore` does from a current node inside the level, whatever the
size of the level: only the cell id is narrowed. -/
theorem explore_eqW (gr : Grid) (dx dy : Int) (st : PFState) (x y : Int)
    (hw : gr.width ≤ 255) (hh : gr.height ≤ 255) (hn : WFw gr st.n) (hd : Dir x y) :
    explore gr dx dy st x y =
      if issolid gr (st.n.x + x) (st.n.y + y) = false ∧
          isopen st (wrap16 ((st.n.y + y) * gr.width + (st.n.x + x))) = false ∧
          isclosed st (wrap16 ((st.n.y + y) * gr.width + (st.n.x + x))) = false then
        { st with openlist := st.openlist ++ [childW gr dx dy st.n x y] }
      else st := by
  obtain ⟨⟨hx0, hx1, hy0, hy1⟩, hid⟩ := hn
  have hx : x = 0 ∨ x = 1 ∨ x = -1 := by rcases hd with h | h | h | h <;> omega
  have hy : y = 0 ∨ y = 1 ∨ y = -1 := by rcases hd with h | h | h | h <;> omega
  have e1 : wrap16 (st.n.x + x) = st.n.x + x := wrap16_id (by omega) (by omega)
  have e2 : wrap16 (st.n.y + y) = st.n.y + y := wrap16_id (by omega) (by omega)
  have e3 : wrap16 (st.n.id + (x + y * gr.width))
      = wrap16 ((st.n.y + y) * gr.width + (st.n.x + x)) := by
    rw [hid, wrap16_add]
    congr 1
    ring
  unfold explore
  simp only [e1, e2, e3]
  by_cases hc1 : issolid gr (st.n.x + x) (st.n.y + y) = false ∧
        isopen st (wrap16 ((st.n.y + y) * gr.width + (st.n.x + x))) = false ∧
        isclosed st (wrap16 ((st.n.y + y) * gr.width + (st.n.x + x))) = false
  · obtain ⟨c1, c2, c3⟩ := hc1
    simp [c1, c2, c3, addnode, childW]
  · rw [if_neg hc1]
    have : ¬ ((!issolid gr (st.n.x + x) (st.n.y + y) &&
        !isopen st (wrap16 ((st.n.y + y) * gr.width + (st.n.x + x))) &&
        !isclosed st (wrap16 ((st.n.y + y) * gr.width + (st.n.x + x)))) = true) := by
      intro hh2
      simp only [Bool.and_eq_true, Bool.not_eq_true'] at hh2
      exact hc1 ⟨hh2.1.1, hh2.1.2, hh2.2⟩
    rw [if_neg this]

theorem GrewW.same {gr : Grid} {dx dy : Int} {st : PFState}
    (h : ((st.closedlist ++ st.openlist).map pathnode.id).Nodup) : GrewW gr dx dy st st :=
  ⟨rfl, rfl, fun _ h => h, fun _ h => Or.inl h, h⟩

theorem GrewW.chain {gr : Grid} {dx dy : Int} {a b c : PFState}
    (h1 : GrewW gr dx dy a b) (h2 : GrewW gr dx dy b c) : GrewW gr dx dy a c := by
  refine ⟨h2.n_eq.trans h1.n_eq, h2.closed_eq.trans h1.closed_eq,
    fun nd h => h2.old nd (h1.old nd h), ?_, h2.nodup⟩
  intro nd h
  rcases h2.new nd h with h3 | h3
  · exact h1.new nd h3
  · rw [h1.n_eq] at h3; exact Or.inr h3

theorem GrewW.ids_monoW {gr : Grid} {dx dy : Int} {a b : PFState} (h : GrewW gr dx dy a b)
    {c : Int} (hc : c ∈ (a.closedlist ++ a.openlist).map pathnode.id) :
    c ∈ (b.closedlist ++ b.openlist).map pathnode.id := by
  simp only [List.map_append, List.mem_append, List.mem_map] at hc ⊢
  rcases hc with ⟨nd, h1, h2⟩ | ⟨nd, h1, h2⟩
  · exact Or.inl ⟨nd, by rw [h.closed_eq]; exact h1, h2⟩
  · exact Or.inr ⟨nd, h.old nd h1, h2⟩

/-- One call of `explore` on a level of any size: the open list grows by at
most the neighbour asked for, and afterwards that neighbour, when free, is on
one of the lists. -/
theorem explore_stepW (gr : Grid) (dx dy : Int) (st : PFState) (x y : Int)
    (hw : gr.width ≤ 255) (hh : gr.height ≤ 255) (hn : WFw gr st.n) (hd : Dir x y)
    (hnd : ((st.closedlist ++ st.openlist).map pathnode.id).Nodup) :
    GrewW gr dx dy st (explore gr dx dy st x y) ∧
    (issolid gr (st.n.x + x) (st.n.y + y) = false →
      (childW gr dx dy st.n x y).id ∈
        ((explore gr dx dy st x y).closedlist ++
          (explore gr dx dy st x y).openlist).map pathnode.id) := by
  rw [explore_eqW gr dx dy st x y hw hh hn hd]
  by_cases hc : issolid gr (st.n.x + x) (st.n.y + y) = false ∧
      isopen st (wrap16 ((st.n.y + y) * gr.width + (st.n.x + x))) = false ∧
      isclosed st (wrap16 ((st.n.y + y) * gr.width + (st.n.x + x))) = false
  · rw [if_pos hc]
    obtain ⟨c1, c2, c3⟩ := hc
    rw [isopen_false_iff] at c2
    rw [isclosed_false_iff] at c3
    refine ⟨⟨rfl, rfl, fun nd h => by simp [h], ?_, ?_⟩, ?_⟩
    · intro nd h
      simp only [List.mem_append, List.mem_singleton] at h
      rcases h with h | h
      · exact Or.inl h
      · exact Or.inr ⟨x, y, hd, h, c1⟩
    · simp only [List.map_append, List.map_cons, List.map_nil] at hnd ⊢
      rw [← List.append_assoc, List.nodup_append]
      refine ⟨hnd, by simp, ?_⟩
      intro a ha hb
      simp only [List.mem_singleton] at hb
      subst hb
      simp only [List.mem_append] at ha
      rcases ha with ha | ha
      · exact c3 ha
      · exact c2 ha
    · intro _
      simp [childW, mknode]
  · rw [if_neg hc]
    refine ⟨GrewW.same hnd, ?_⟩
    intro hs
    have : ¬ (isopen st (wrap16 ((st.n.y + y) * gr.width + (st.n.x + x))) = false ∧
      isclosed st (wrap16 ((st.n.y + y) * gr.width + (st.n.x + x))) = false) :=
      fun h => hc ⟨hs, h⟩
    rw [isopen_false_iff, isclosed_false_iff] at this
    simp only [List.map_append, List.mem_append]
    have hid : (childW gr dx dy st.n x y).id
        = wrap16 ((st.n.y + y) * gr.width + (st.n.x + x)) := rfl
    rw [hid]
    by_contra hcon
    push_neg at hcon
    exact this ⟨hcon.2, hcon.1⟩

theorem expand_spec_auxW (gr : Grid) (dx dy : Int) (st s4 : PFState)
    (hn : st.n ∈ st.openlist) (G : GrewW gr dx dy st s4)
    (nb : ∀ x y, Dir x y → issolid gr (st.n.x + x) (st.n.y + y) = false →
      (childW gr dx dy st.n x y).id ∈ (s4.closedlist ++ s4.openlist).map pathnode.id) :
    ExpandedW gr dx dy st (movetoclosedlist s4 s4.n.id) := by
  have e4 : s4.n = st.n := G.n_eq
  have hn4 : s4.n ∈ s4.openlist := by rw [e4]; exact G.old _ hn
  obtain ⟨l1, l2, hl, hm⟩ := movetoclosed_spec s4 hn4 G.nodup
  rw [hm]
  have hnd4 := G.nodup
  rw [hl, G.closed_eq, e4] at hnd4
  have hperm : ((st.closedlist ++ [st.n] ++ (l1 ++ l2)).map pathnode.id).Perm
      ((st.closedlist ++ (l1 ++ st.n :: l2)).map pathnode.id) := by
    simp only [List.map_append, List.map_cons, List.map_nil, List.append_assoc,
      List.singleton_append]
    exact List.Perm.append_left _ List.perm_middle.symm
  have hnd5 : ((st.closedlist ++ [st.n] ++ (l1 ++ l2)).map pathnode.id).Nodup :=
    hperm.nodup_iff.2 hnd4
  have hids : ∀ c, c ∈ (s4.closedlist ++ s4.openlist).map pathnode.id →
      c ∈ ((st.closedlist ++ [st.n]) ++ (l1 ++ l2)).map pathnode.id := by
    intro c hc
    rw [hl, G.closed_eq, e4] at hc
    exact hperm.mem_iff.2 hc
  have hne : ∀ nd ∈ l1 ++ l2, nd.id ≠ st.n.id := by
    intro nd hnd1 heq
    simp only [List.map_append, List.map_cons, List.map_nil, List.append_assoc,
      List.singleton_append] at hnd5
    have h5 := (List.nodup_append.1 hnd5).2.1
    have h6 := (List.nodup_cons.1 h5).1
    apply h6
    rw [← heq, ← List.map_append]
    exact List.mem_map_of_mem _ hnd1
  refine ⟨e4, ?_, ?_, ?_, ?_, ?_⟩
  · show s4.closedlist ++ [s4.n] = st.closedlist ++ [st.n]
    rw [G.closed_eq, e4]
  · intro nd hnd1
    have hnd2 : nd ∈ l1 ++ l2 := hnd1
    refine ⟨G.new nd ?_, hne nd hnd2⟩
    rw [hl, e4]
    simp only [List.mem_append, List.mem_cons] at hnd2 ⊢
    tauto
  · intro nd hnd1 hid
    have h1 := G.old nd hnd1
    rw [hl, e4] at h1
    show nd ∈ l1 ++ l2
    simp only [List.mem_append, List.mem_cons] at h1 ⊢
    rcases h1 with h1 | h1 | h1
    · exact Or.inl h1
    · exact absurd (by rw [h1]) hid
    · exact Or.inr h1
  · show ((s4.closedlist ++ [s4.n] ++ (l1 ++ l2)).map pathnode.id).Nodup
    rw [G.closed_eq, e4]; exact hnd5
  · intro x y hd hs
    have := hids _ (nb x y hd hs)
    show _ ∈ ((s4.closedlist ++ [s4.n] ++ (l1 ++ l2)).map pathnode.id)
    rw [G.closed_eq, e4]; exact this

theorem expand_specW (gr : Grid) (dx dy : Int) (st : PFState)
    (hw : gr.width ≤ 255) (hh : gr.height ≤ 255) (hwf : WFw gr st.n) (hn : st.n ∈ st.openlist)
    (hnd : ((st.closedlist ++ st.openlist).map pathnode.id).Nodup) :
    ExpandedW gr dx dy st (expand gr dx dy st) := by
  have d1 : Dir 0 (-1) := Or.inl ⟨rfl, rfl⟩
  have d2 : Dir 1 0 := Or.inr (Or.inl ⟨rfl, rfl⟩)
  have d3 : Dir 0 1 := Or.inr (Or.inr (Or.inl ⟨rfl, rfl⟩))
  have d4 : Dir (-1) 0 := Or.inr (Or.inr (Or.inr ⟨rfl, rfl⟩))
  have hexp : expand gr dx dy st =
      movetoclosedlist
        (explore gr dx dy (explore gr dx dy (explore gr dx dy
          (explore gr dx dy st 0 (-1)) 1 0) 0 1) (-1) 0)
        (explore gr dx dy (explore gr dx dy (explore gr dx dy
          (explore gr dx dy st 0 (-1)) 1 0) 0 1) (-1) 0).n.id := rfl
  rw [hexp]
  obtain ⟨g1, n1⟩ := explore_stepW gr dx dy st 0 (-1) hw hh hwf d1 hnd
  generalize explore gr dx dy st 0 (-1) = s1 at g1 n1 ⊢
  have w1 : WFw gr s1.n := by rw [g1.n_eq]; exact hwf
  obtain ⟨g2, n2⟩ := explore_stepW gr dx dy s1 1 0 hw hh w1 d2 g1.nodup
  generalize explore gr dx dy s1 1 0 = s2 at g2 n2 ⊢
  have w2 : WFw gr s2.n := by rw [g2.n_eq]; exact w1
  obtain ⟨g3, n3⟩ := explore_stepW gr dx dy s2 0 1 hw hh w2 d3 g2.nodup
  generalize explore gr dx dy s2 0 1 = s3 at g3 n3 ⊢
  have w3 : WFw gr s3.n := by rw [g3.n_eq]; exact w2
  obtain ⟨g4, n4⟩ := explore_stepW gr dx dy s3 (-1) 0 hw hh w3 d4 g3.nodup
  generalize explore gr dx dy s3 (-1) 0 = s4 at g4 n4 ⊢
  have e1 : s1.n = st.n := g1.n_eq
  have e2 : s2.n = st.n := g2.n_eq.trans e1
  have e3 : s3.n = st.n := g3.n_eq.trans e2
  rw [e1] at n2
  rw [e2] at n3
  rw [e3] at n4
  refine expand_spec_auxW gr dx dy st s4 hn (g1.chain (g2.chain (g3.chain g4))) ?_
  intro x y hd hs
  rcases hd with ⟨rfl, rfl⟩ | ⟨rfl, rfl⟩ | ⟨rfl, rfl⟩ | ⟨rfl, rfl⟩
  · exact (g2.chain (g3.chain g4)).ids_monoW (n1 hs)
  · exact (g3.chain g4).ids_monoW (n2 hs)
  · exact g4.ids_monoW (n3 hs)
  · exact n4 hs


theorem ParentW.parent_monoW {src : Int} {l l2 : List pathnode} {nd : pathnode}
    (h : ParentW src l nd) (hs : ∀ u ∈ l, u ∈ l2) : ParentW src l2 nd := by
  rcases h with h | ⟨u, hu, h⟩
  · exact Or.inl h
  · exact Or.inr ⟨u, hs u hu, h⟩

theorem OrderedW.appendW {src : Int} {K : List pathnode} (hK : OrderedW src K) :
    ∀ M : List pathnode, (∀ nd ∈ M, ParentW src K nd) → OrderedW src (K ++ M) := by
  intro M
  induction M using List.reverseRecOn with
  | nil => intro _; simpa using hK
  | append_singleton M a ih =>
    intro h
    have h1 : OrderedW src (K ++ M) := ih (fun nd hnd => h nd (by simp [hnd]))
    have h2 : ParentW src (K ++ M) a :=
      (h a (by simp)).parent_monoW (fun u hu => by simp [hu])
    have := OrderedW.snoc h1 h2
    simpa [List.append_assoc] using this

theorem KidW.factsW {gr : Grid} {dx dy : Int} {n nd : pathnode} (h : KidW gr dx dy n nd) :
    WFw gr nd ∧ nd.p = n.id := by
  obtain ⟨x, y, hd, rfl, hs⟩ := h
  obtain ⟨hb, -⟩ := (issolid_false_iff gr _ _).1 hs
  exact ⟨⟨hb, rfl⟩, rfl⟩

theorem ExpandedW.ids_keep {gr : Grid} {dx dy : Int} {st st2 : PFState}
    (hE : ExpandedW gr dx dy st st2) {c : Int}
    (hc : c ∈ (st.closedlist ++ st.openlist).map pathnode.id) :
    c ∈ (st2.closedlist ++ st2.openlist).map pathnode.id := by
  simp only [List.map_append, List.mem_append, List.mem_map] at hc ⊢
  rcases hc with ⟨nd, h1, h2⟩ | ⟨nd, h1, h2⟩
  · exact Or.inl ⟨nd, by rw [hE.closed_eq]; simp [h1], h2⟩
  · by_cases hid : nd.id = st.n.id
    · exact Or.inl ⟨st.n, by rw [hE.closed_eq]; simp, by rw [← h2, hid]⟩
    · exact Or.inr ⟨nd, hE.open_sup nd h1 hid, h2⟩

theorem ReachInv.of_expandedW {gr : Grid} {src dest dx dy : Int} {st st2 : PFState}
    (hI : ReachInv gr src dest st) (hn : st.n ∈ st.openlist) (hd : st.n.id ≠ dest)
    (hE : ExpandedW gr dx dy st st2) : ReachInv gr src dest st2 := by
  have hwn : WFw gr st.n := hI.wf _ (by simp [hn])
  refine ⟨?_, hE.nodup, ?_, ?_, ?_, ?_, hE.ids_keep hI.srcin, ?_⟩
  · intro nd hnd
    rw [hE.closed_eq] at hnd
    simp only [List.mem_append, List.mem_singleton] at hnd
    rcases hnd with (h | h) | h
    · exact hI.wf nd (by simp [h])
    · rw [h]; exact hwn
    · rcases (hE.open_sub nd h).1 with h1 | h1
      · exact hI.wf nd (by simp [h1])
      · exact h1.factsW.1
  · rw [hE.closed_eq]
    exact OrderedW.snoc hI.ord (hI.par _ hn)
  · intro nd hnd
    rw [hE.closed_eq]
    rcases (hE.open_sub nd hnd).1 with h1 | h1
    · exact (hI.par nd h1).parent_monoW (fun u hu => by simp [hu])
    · exact Or.inr ⟨st.n, by simp, h1.factsW.2.symm⟩
  · rw [hE.n_eq, hE.closed_eq]; simp
  · intro u hu x y hdir hs
    rw [hE.closed_eq] at hu
    simp only [List.mem_append, List.mem_singleton] at hu
    rcases hu with hu | hu
    · exact hE.ids_keep (hI.closure u hu x y hdir hs)
    · rw [hu] at hs ⊢
      exact hE.nbr x y hdir hs
  · rw [hE.closed_eq]
    simp only [List.map_append, List.map_cons, List.map_nil, List.mem_append,
      List.mem_singleton, not_or]
    exact ⟨hI.destout, fun h => hd h.symm⟩

theorem ReachInv.loop_stepW {gr : Grid} {src dest : Int} (dx dy : Int)
    (hw : gr.width ≤ 255) (hh : gr.height ≤ 255)
    {st : PFState} {n : pathnode} (hI : ReachInv gr src dest st)
    (hf : findcheapestopenlist st.openlist = some n) (hd : n.id ≠ dest) :
    ReachInv gr src dest (expand gr dx dy { st with n := n }) ∧
      ExpandedW gr dx dy { st with n := n } (expand gr dx dy { st with n := n }) := by
  have hn : n ∈ st.openlist := findcheapest_mem hf
  have hI1 : ReachInv gr src dest { st with n := n } :=
    ⟨hI.wf, hI.nodup, hI.ord, hI.par, by simp [hn], hI.closure, hI.srcin, hI.destout⟩
  have hE := expand_specW gr dx dy { st with n := n } hw hh (hI.wf n (by simp [hn])) hn hI.nodup
  exact ⟨hI1.of_expandedW hn hd hE, hE⟩


theorem WFw.id_ne {gr : Grid} {nd : pathnode} (hw : gr.width ≤ 255) (hh : gr.height ≤ 255)
    (h : WFw gr nd) : nd.id ≠ -1 := by
  obtain ⟨⟨a, b, c, d⟩, e⟩ := h
  have h1 : nd.y * gr.width ≤ 254 * 255 := by
    have : nd.y * gr.width ≤ 254 * gr.width := mul_le_mul_of_nonneg_right (by omega) (by omega)
    omega
  have h2 : 0 ≤ nd.y * gr.width := mul_nonneg c (by omega)
  rw [e]
  unfold wrap16
  omega

/-- The cell of a node is determined by its narrowed id: a level has fewer
than 65536 cells. -/
theorem WFw.cell_eq {gr : Grid} {nd : pathnode} (hw : gr.width ≤ 255) (hh : gr.height ≤ 255)
    (h : WFw gr nd) {a : Int} (ha : inRange gr a) (hid : nd.id = wrap16 a) :
    nd.y * gr.width + nd.x = a := by
  obtain ⟨⟨x0, x1, y0, y1⟩, e⟩ := h
  obtain ⟨a0, a1⟩ := ha
  have h1 : nd.y * gr.width ≤ 254 * 255 := by
    have : nd.y * gr.width ≤ 254 * gr.width := mul_le_mul_of_nonneg_right (by omega) (by omega)
    omega
  have h2 : 0 ≤ nd.y * gr.width := mul_nonneg y0 (by omega)
  have h3 : (gr.width : Int) * gr.height ≤ 255 * 255 := by
    have : (gr.width : Int) * gr.height ≤ 255 * gr.height :=
      mul_le_mul_of_nonneg_right (by omega) (by omega)
    omega
  rw [e] at hid
  unfold wrap16 at hid
  omega

theorem ReachInv.length_leW {gr : Grid} {src dest : Int} {st : PFState}
    (hI : ReachInv gr src dest st) :
    (st.closedlist ++ st.openlist).length ≤ gr.width * gr.height := by
  have h1 : ((st.closedlist ++ st.openlist).map pathnode.id).toFinset ⊆
      (Finset.Ico (0 : Int) (gr.width * gr.height)).image wrap16 := by
    intro c hc
    simp only [List.mem_toFinset, List.mem_map] at hc
    obtain ⟨nd, hnd, rfl⟩ := hc
    obtain ⟨⟨x0, x1, y0, y1⟩, e⟩ := hI.wf nd hnd
    simp only [Finset.mem_image, Finset.mem_Ico]
    exact ⟨nd.y * gr.width + nd.x, cell_range x0 x1 y0 y1, e.symm⟩
  have h2 := (Finset.card_le_card h1).trans Finset.card_image_le
  rw [List.toFinset_card_of_nodup hI.nodup, Int.card_Ico, List.length_map] at h2
  have h3 : ((gr.width : Int) * gr.height - 0).toNat = gr.width * gr.height := by
    rw [sub_zero]
    exact_mod_cast Int.toNat_natCast (gr.width * gr.height)
  rw [h3] at h2
  exact h2

/-- The main loop returns on a level of any size, as long as the target is not
reached: every pass moves one more cell to the closed list. -/
theorem searchLoop_totalW {gr : Grid} {src : Int} (dx dy dest : Int)
    (hw : gr.width ≤ 255) (hh : gr.height ≤ 255) :
    ∀ (fuel : Nat) (st : PFState), ReachInv gr src dest st →
      gr.width * gr.height + 1 ≤ fuel + st.closedlist.length →
      ∃ st2, searchLoop gr dx dy dest fuel st = some st2 := by
  intro fuel
  induction fuel with
  | zero =>
    intro st hI hle
    have := hI.length_leW
    simp only [List.length_append] at this
    omega
  | succ k ih =>
    intro st hI hle
    unfold searchLoop
    by_cases hc : (st.n.id != dest && decide (st.openlist.length > 0)) = true
    · rw [if_pos hc]
      simp only [Bool.and_eq_true, bne_iff_ne, ne_eq, decide_eq_true_eq] at hc
      have hne : st.openlist ≠ [] := by
        intro h0; rw [h0] at hc; simp at hc
      obtain ⟨n, hf⟩ := findcheapest_some hne
      rw [hf]
      simp only
      by_cases hd : (n.id == dest) = true
      · rw [if_pos hd]; exact ⟨_, rfl⟩
      · rw [if_neg hd]
        obtain ⟨hI2, hE⟩ := hI.loop_stepW dx dy hw hh hf (by simpa using hd)
        apply ih _ hI2
        rw [hE.closed_eq]
        simp only [List.length_append, List.length_singleton]
        omega
    · rw [if_neg hc]; exact ⟨_, rfl⟩

/-- Walking the parent links from a node of an ordered list ends at the source
node, on a level of any size. -/
theorem retrace_orderedW {gr : Grid} {src : Int} (st : PFState)
    (hw : gr.width ≤ 255) (hh : gr.height ≤ 255)
    (hwf : ∀ nd ∈ st.closedlist ++ st.openlist, WFw gr nd)
    (hnd : ((st.closedlist ++ st.openlist).map pathnode.id).Nodup) :
    ∀ K, OrderedW src K → ∀ rest, st.closedlist ++ st.openlist = K ++ rest →
    ∀ nd ∈ K, ∀ fuel acc, K.length + 1 ≤ fuel →
      ∃ r, retraceLoop st fuel nd.id acc = some (r ++ acc) ∧ r.head? = some src ∧
        r.getLast? = some nd.id := by
  intro K hK
  induction hK with
  | nil => intro rest _ nd h; cases h
  | @snoc l x hl hp ih =>
    intro rest hL nd hmem fuel acc hfuel
    simp only [List.length_append, List.length_singleton] at hfuel
    rcases List.mem_append.1 hmem with h1 | h1
    · exact ih (x :: rest) (by simpa using hL) nd h1 fuel acc (by omega)
    · have hx : nd = x := by simpa using h1
      subst hx
      have hxL : nd ∈ st.closedlist ++ st.openlist := by rw [hL]; simp
      have hid : nd.id ≠ -1 := (hwf nd hxL).id_ne hw hh
      obtain ⟨k, rfl⟩ : ∃ k, fuel = k + 1 := ⟨fuel - 1, by omega⟩
      rw [retraceLoop_go st k nd.id acc hid, findparent_mem hnd hxL]
      rcases hp with ⟨hp1, hp2⟩ | ⟨u, hu, hup⟩
      · obtain ⟨j, rfl⟩ : ∃ j, k = j + 1 := ⟨k - 1, by omega⟩
        rw [hp1, retraceLoop_stop]
        exact ⟨[nd.id], by simp, by simp [hp2], by simp⟩
      · obtain ⟨r, hr, hh1, -⟩ :=
          ih (nd :: rest) (by simpa using hL) u hu k (nd.id :: acc) (by omega)
        rw [← hup, hr]
        have hrne : r ≠ [] := by intro h0; rw [h0] at hh1; cases hh1
        refine ⟨r ++ [nd.id], by simp, ?_, by simp⟩
        rw [List.head?_append_of_ne_nil _ hrne]; exact hh1


theorem inRange_cell {gr : Grid} {c : Int} (hc : inRange gr c) :
    InB gr (c % gr.width) (c / gr.width) ∧ c / gr.width * gr.width + c % gr.width = c := by
  obtain ⟨h0, h1⟩ := hc
  have hw : (0 : Int) < gr.width := by
    rcases Nat.eq_zero_or_pos gr.width with h | h
    · rw [h] at h1; simp at h1; omega
    · exact_mod_cast h
  exact ⟨⟨Int.emod_nonneg _ (by omega), Int.emod_lt_of_pos _ hw, Int.ediv_nonneg h0 (by omega),
    Int.ediv_lt_of_lt_mul hw (by rw [mul_comm]; exact h1)⟩, Int.ediv_add_emod' c gr.width⟩

theorem srcnode_wfW {gr : Grid} {src : Int} (dest : Int) (hw : gr.width ≤ 255)
    (hs : inRange gr src) (h16 : src < 32768) :
    WFw gr (srcnode gr src dest) ∧ (srcnode gr src dest).id = src ∧
      (srcnode gr src dest).p = -1 := by
  obtain ⟨⟨a0, a1, b0, b1⟩, hc⟩ := inRange_cell hs
  have h0 := hs.1
  have e1 : Int.tmod src gr.width = src % gr.width := Int.tmod_eq_emod h0 (by omega)
  have e2 : Int.tdiv src gr.width = src / gr.width := Int.tdiv_eq_ediv h0 (by omega)
  have b2 : src / gr.width ≤ src := Int.ediv_le_self _ h0
  have w1 : wrap16 (src % gr.width) = src % gr.width := wrap16_id (by omega) (by omega)
  have w2 : wrap16 (src / gr.width) = src / gr.width := wrap16_id (by omega) (by omega)
  have hx : (srcnode gr src dest).x = src % gr.width := by
    simp only [srcnode, mknode, e1, w1]
  have hy : (srcnode gr src dest).y = src / gr.width := by
    simp only [srcnode, mknode, e2, w2]
  refine ⟨⟨?_, ?_⟩, rfl, rfl⟩
  · rw [hx, hy]; exact ⟨a0, a1, b0, b1⟩
  · show src = wrap16 ((srcnode gr src dest).y * gr.width + (srcnode gr src dest).x)
    rw [hx, hy, hc]
    exact (wrap16_id (by omega) (by omega)).symm

theorem initState_reach {gr : Grid} {src : Int} (dest : Int) (hw : gr.width ≤ 255)
    (hs : inRange gr src) (h16 : src < 32768) :
    ReachInv gr src dest (initState gr src dest) := by
  obtain ⟨hwf, hid, hp⟩ := srcnode_wfW dest hw hs h16
  refine ⟨?_, by simp [initState], OrderedW.nil, ?_, by simp [initState], ?_, ?_, ?_⟩
  · intro nd hnd
    simp only [initState, List.nil_append, List.mem_singleton] at hnd
    rw [hnd]; exact hwf
  · intro nd hnd
    simp only [initState, List.mem_singleton] at hnd
    rw [hnd]
    exact Or.inl ⟨hp, hid⟩
  · intro u hu
    simp [initState] at hu
  · simp [initState, hid]
  · simp [initState]

/-- A move of a route goes to one of the four neighbours `explore` looks at,
and that neighbour is not solid. -/
theorem step_dir {gr : Grid} {a b : Int} (h : step gr a b) :
    ∃ x y, Dir x y ∧ issolid gr (a % gr.width + x) (a / gr.width + y) = false ∧
      (a / gr.width + y) * gr.width + (a % gr.width + x) = b := by
  obtain ⟨⟨ha, hb, hadj⟩, ht⟩ := h
  obtain ⟨hib, hcb⟩ := inRange_cell hb
  refine ⟨b % gr.width - a % gr.width, b / gr.width - a / gr.width, ?_, ?_, ?_⟩
  · unfold Dir; omega
  · rw [issolid_false_iff]
    have e1 : a % gr.width + (b % gr.width - a % gr.width) = b % gr.width := by ring
    have e2 : a / gr.width + (b / gr.width - a / gr.width) = b / gr.width := by ring
    rw [e1, e2, hcb]
    exact ⟨hib, ht⟩
  · have e1 : a % gr.width + (b % gr.width - a % gr.width) = b % gr.width := by ring
    have e2 : a / gr.width + (b / gr.width - a / gr.width) = b / gr.width := by ring
    rw [e1, e2, hcb]

/-- With an empty open list, every cell a chain of moves reaches from a closed
cell is closed. -/
theorem closed_chain {gr : Grid} {src dest : Int} {st : PFState}
    (hw : gr.width ≤ 255) (hh : gr.height ≤ 255)
    (hI : ReachInv gr src dest st) (ho : st.openlist = []) :
    ∀ (r : List Int), List.Chain' (step gr) r → ∀ a, r.head? = some a → inRange gr a →
      wrap16 a ∈ st.closedlist.map pathnode.id →
      ∀ c ∈ r, wrap16 c ∈ st.closedlist.map pathnode.id := by
  intro r
  induction r with
  | nil => intro _ a h; cases h
  | cons a0 t ih =>
    intro hch a hhead ha hmem c hc
    simp only [List.head?_cons, Option.some.injEq] at hhead
    subst hhead
    rcases List.mem_cons.1 hc with hc | hc
    · rw [hc]; exact hmem
    · cases t with
      | nil => cases hc
      | cons b t2 =>
        rw [List.chain'_cons] at hch
        obtain ⟨x, y, hd, hs, hcell⟩ := step_dir hch.1
        obtain ⟨u, hu, huid⟩ := List.mem_map.1 hmem
        have hcu := (hI.wf u (by simp [hu])).cell_eq hw hh ha huid
        obtain ⟨hia, hca⟩ := inRange_cell ha
        have hw0 : (0 : Int) < gr.width := by have := hia.2.1; have := hia.1; omega
        have hux : u.x = a0 % gr.width := by
          have hu1 := (hI.wf u (by simp [hu])).1
          have : (u.y * gr.width + u.x) % gr.width = u.x := by
            rw [Int.add_comm, Int.add_mul_emod_self]
            exact Int.emod_eq_of_lt hu1.1 hu1.2.1
          rw [← this, hcu]
        have huy : u.y = a0 / gr.width := by
          have hu1 := (hI.wf u (by simp [hu])).1
          have : (u.y * gr.width + u.x) / gr.width = u.y := by
            rw [Int.add_comm, Int.add_mul_ediv_right _ _ (by omega),
              Int.ediv_eq_zero_of_lt hu1.1 hu1.2.1]
            simp
          rw [← this, hcu]
        have hcl := hI.closure u hu x y hd (by rw [hux, huy]; exact hs)
        rw [hux, huy, hcell, ho, List.append_nil] at hcl
        exact ih hch.2 b rfl hch.1.1.2.1 hcl c hc

theorem retracepath_someW {gr : Grid} {src dest : Int} {st : PFState} (fuel : Nat)
    (hw : gr.width ≤ 255) (hh : gr.height ≤ 255)
    (hI : ReachInv gr src dest st) (hd : st.n.id = dest)
    (hf : (st.closedlist ++ st.openlist).length ≤ fuel) :
    ∃ r, retracepath st fuel dest = some r ∧ r.head? = some src ∧ r.getLast? = some dest := by
  have hidne : st.n.id ≠ -1 := (hI.wf _ hI.nmem).id_ne hw hh
  have hord : OrderedW src (st.closedlist ++ st.openlist) := hI.ord.appendW _ hI.par
  obtain ⟨r2, hr2, hhead, hlast⟩ := retrace_orderedW st hw hh hI.wf hI.nodup _ hord [] (by simp)
    st.n hI.nmem ((st.closedlist ++ st.openlist).length + 1) [] (le_refl _)
  rw [retraceLoop_go _ _ _ _ hidne, hd] at hr2
  obtain ⟨k, rfl⟩ : ∃ k, fuel = (st.closedlist ++ st.openlist).length + k :=
    ⟨fuel - (st.closedlist ++ st.openlist).length, by omega⟩
  have h2 := retraceLoop_mono st _ k _ _ _ hr2
  refine ⟨r2, ?_, hhead, by rw [← hd]; exact hlast⟩
  unfold retracepath
  rw [if_pos (by simpa using hd), h2]
  simp

/-- C18: completeness of `pathfinder`. On every level (`gs.width` and
`gs.height` are `uint8_t`, `src` and `dest` are `int16_t` cell ids of the
level), when a chain of moves to 4-adjacent in-bounds cells of tile value 0
leads from `src` to `dest`, the function returns, with more fuel than the level
has cells, a route that is not empty, starts with `src` and ends with `dest`.
The tile of `src` itself plays no part, and neither does `src != dest`. -/
theorem pathfinder_complete (gr : Grid) (fuel : Nat) (src dest : Int)
    (hw : gr.width ≤ 255) (hh : gr.height ≤ 255)
    (hs : inRange gr src) (hs16 : src < 32768) (hd : inRange gr dest) (hd16 : dest < 32768)
    (hc : Connected gr src dest)
    (hfuel : gr.width * gr.height + 1 ≤ fuel) :
    ∃ r, pathfinder gr fuel src dest = some r ∧ r ≠ [] ∧ r.head? = some src ∧
      r.getLast? = some dest := by
  have hI0 := initState_reach dest hw hs hs16
  obtain ⟨st2, hl⟩ := searchLoop_totalW (destx gr dest) (desty gr dest) dest hw hh fuel
    (initState gr src dest) hI0 (by omega)
  obtain ⟨st1, hI, hcase⟩ := searchLoop_result gr (destx gr dest) (desty gr dest) dest
    (ReachInv gr src dest)
    (fun st n hI _ hf hnd => (hI.loop_stepW _ _ hw hh hf hnd).1) fuel _ st2 hI0 hl
  have hfound : ReachInv gr src dest st2 ∧ st2.n.id = dest := by
    rcases hcase with ⟨rfl, hc1 | hc1⟩ | ⟨n, hf, hnd, -, rfl⟩
    · exact ⟨hI, hc1⟩
    · exfalso
      obtain ⟨r, hhead, hlast, hch⟩ := hc
      have hsrc : wrap16 src ∈ st2.closedlist.map pathnode.id := by
        have := hI.srcin
        rw [hc1, List.append_nil] at this
        rw [wrap16_id (by have := hs.1; omega) hs16]
        exact this
      have hmem : dest ∈ r := List.mem_of_getLast?_eq_some hlast
      have := closed_chain hw hh hI hc1 r hch src hhead hs hsrc dest hmem
      rw [wrap16_id (by have := hd.1; omega) hd16] at this
      exact hI.destout this
    · refine ⟨⟨hI.wf, hI.nodup, hI.ord, hI.par, ?_, hI.closure, hI.srcin, hI.destout⟩, hnd⟩
      have := findcheapest_mem hf
      simp [this]
  obtain ⟨hI2, hd2⟩ := hfound
  have hlen := hI2.length_leW
  obtain ⟨r, hr, hhead, hlast⟩ := retracepath_someW fuel hw hh hI2 hd2 (by omega)
  refine ⟨r, ?_, ?_, hhead, hlast⟩
  · rw [pathfinder_eq, hl]
    exact hr
  · intro h0
    rw [h0] at hhead
    cases hhead

/-- The level of two cells with a solid source cell: the route from cell 0 to
cell 1 is found. -/
theorem pathfinder_complete_witness :
    solidSrcGrid.width ≤ 255 ∧ solidSrcGrid.height ≤ 255 ∧ inRange solidSrcGrid 0 ∧
    (0 : Int) < 32768 ∧ inRange solidSrcGrid 1 ∧ (1 : Int) < 32768 ∧
    Connected solidSrcGrid 0 1 ∧ solidSrcGrid.width * solidSrcGrid.height + 1 ≤ 3 ∧
    ∃ r, pathfinder solidSrcGrid 3 0 1 = some r ∧ r ≠ [] ∧ r.head? = some 0 ∧
      r.getLast? = some 1 :=
  have hc : Connected solidSrcGrid 0 1 :=
    ⟨[0, 1], rfl, rfl, by simp only [List.chain'_cons, List.chain'_singleton, and_true]; decide⟩
  ⟨by decide, by decide, by decide, by decide, by decide, by decide, hc, by decide,
    pathfinder_complete solidSrcGrid 3 0 1 (by decide) (by decide) (by decide) (by decide)
      (by decide) (by decide) hc (by decide)⟩

/-- Walking the parent links from a node of an ordered list visits no id
twice, on a level of any size. -/
theorem retrace_nodupW {gr : Grid} {src : Int} (st : PFState)
    (hw : gr.width ≤ 255) (hh : gr.height ≤ 255)
    (hwf : ∀ nd ∈ st.closedlist ++ st.openlist, WFw gr nd)
    (hnd : ((st.closedlist ++ st.openlist).map pathnode.id).Nodup) :
    ∀ K, OrderedW src K → ∀ rest, st.closedlist ++ st.openlist = K ++ rest →
    ∀ nd ∈ K, ∀ fuel acc, K.length + 1 ≤ fuel →
      ∃ r, retraceLoop st fuel nd.id acc = some (r ++ acc) ∧ r.Nodup ∧
        ∀ c ∈ r, c ∈ K.map pathnode.id := by
  intro K hK
  induction hK with
  | nil => intro rest _ nd h; cases h
  | @snoc l x hl hp ih =>
    intro rest hL nd hmem fuel acc hfuel
    simp only [List.length_append, List.length_singleton] at hfuel
    rcases List.mem_append.1 hmem with h1 | h1
    · obtain ⟨r, hr, hnodup, hsub⟩ :=
        ih (x :: rest) (by simpa using hL) nd h1 fuel acc (by omega)
      refine ⟨r, hr, hnodup, fun c hc => ?_⟩
      have := hsub c hc
      simp only [List.map_append, List.mem_append]
      exact Or.inl this
    · have hx : nd = x := by simpa using h1
      subst hx
      have hxL : nd ∈ st.closedlist ++ st.openlist := by rw [hL]; simp
      have hid : nd.id ≠ -1 := (hwf nd hxL).id_ne hw hh
      obtain ⟨k, rfl⟩ : ∃ k, fuel = k + 1 := ⟨fuel - 1, by omega⟩
      rw [retraceLoop_go st k nd.id acc hid, findparent_mem hnd hxL]
      rcases hp with ⟨hp1, -⟩ | ⟨u, hu, hup⟩
      · obtain ⟨j, rfl⟩ : ∃ j, k = j + 1 := ⟨k - 1, by omega⟩
        rw [hp1, retraceLoop_stop]
        refine ⟨[nd.id], by simp, by simp, ?_⟩
        intro c hc
        simp only [List.mem_singleton] at hc
        subst hc
        simp
      · obtain ⟨r, hr, hnodup, hsub⟩ :=
          ih (nd :: rest) (by simpa using hL) u hu k (nd.id :: acc) (by omega)
        rw [← hup, hr]
        refine ⟨r ++ [nd.id], by simp, ?_, ?_⟩
        · rw [List.nodup_append]
          refine ⟨hnodup, by simp, ?_⟩
          intro a ha hb
          simp only [List.mem_singleton] at hb
          subst hb
          have h3 := hsub _ ha
          rw [hL] at hnd
          simp only [List.map_append, List.map_cons, List.map_nil] at hnd
          have h4 := (List.nodup_append.1 (List.nodup_append.1 hnd).1).2.2
          exact h4 h3 (by simp)
        · intro c hc
          simp only [List.mem_append, List.mem_singleton] at hc
          simp only [List.map_append, List.map_cons, List.map_nil, List.mem_append,
            List.mem_singleton]
          rcases hc with hc | hc
          · exact Or.inl (hsub c hc)
          · exact Or.inr hc

theorem loopHead_inv {gr : Grid} {src dest : Int} (hw : gr.width ≤ 255) (hh : gr.height ≤ 255)
    (hs : inRange gr src) (h16 : src < 32768) :
    ∀ {k : Nat} {st : PFState}, LoopHead gr src dest k st →
      ReachInv gr src dest st ∧ st.closedlist.length = k := by
  intro k st h
  induction h with
  | init => exact ⟨initState_reach dest hw hs h16, rfl⟩
  | @step k st n _ _ _ hf hnd ih =>
    obtain ⟨hI2, hE⟩ := ih.1.loop_stepW (destx gr dest) (desty gr dest) hw hh hf hnd
    refine ⟨hI2, ?_⟩
    rw [hE.closed_eq, List.length_append, ih.2]
    rfl

/-- What one pass through the loop body keeps: every node on a list stays on a
list as the record it was, and a node that is new on the open list has an id
that was on neither list. -/
theorem ExpandedW.keeps {gr : Grid} {dx dy : Int} {st st2 : PFState}
    (hE : ExpandedW gr dx dy st st2)
    (hnd : ((st.closedlist ++ st.openlist).map pathnode.id).Nodup) (hn : st.n ∈ st.openlist) :
    (∀ nd ∈ st.closedlist ++ st.openlist, nd ∈ st2.closedlist ++ st2.openlist) ∧
    (∀ nd ∈ st2.openlist,
      nd ∈ st.openlist ∨ nd.id ∉ (st.closedlist ++ st.openlist).map pathnode.id) := by
  have hkeep : ∀ nd ∈ st.closedlist ++ st.openlist, nd ∈ st2.closedlist ++ st2.openlist := by
    intro nd h
    rw [hE.closed_eq]
    simp only [List.mem_append, List.mem_singleton] at h ⊢
    rcases h with h | h
    · exact Or.inl (Or.inl h)
    · by_cases hid : nd.id = st.n.id
      · have : nd = st.n := eq_of_id_eq hnd (by simp [h]) (by simp [hn]) hid
        exact Or.inl (Or.inr this)
      · exact Or.inr (hE.open_sup nd h hid)
  refine ⟨hkeep, ?_⟩
  intro nd h2
  by_cases hmem : nd.id ∈ (st.closedlist ++ st.openlist).map pathnode.id
  · left
    obtain ⟨nd1, h1, hid⟩ := List.mem_map.1 hmem
    have heq : nd1 = nd :=
      eq_of_id_eq hE.nodup (hkeep nd1 h1) (by simp [h2]) hid
    subst heq
    rcases List.mem_append.1 h1 with hc | ho
    · exfalso
      have hnd2 := hE.nodup
      rw [List.map_append, List.nodup_append] at hnd2
      exact hnd2.2.2 (List.mem_map_of_mem _ (by rw [hE.closed_eq]; simp [hc]))
        (List.mem_map_of_mem _ h2)
    · exact ho
  · exact Or.inr hmem

/-- The search returns on a level of any size, and the route it returns holds
no id twice. -/
theorem pathfinder_totalW {gr : Grid} {src : Int} (dest : Int) {fuel : Nat}
    (hw : gr.width ≤ 255) (hh : gr.height ≤ 255)
    (hs : inRange gr src) (h16 : src < 32768) (hfuel : gr.width * gr.height + 1 ≤ fuel) :
    ∃ r, pathfinder gr fuel src dest = some r ∧ r.Nodup := by
  have hI0 := initState_reach dest hw hs h16
  obtain ⟨st2, hl⟩ := searchLoop_totalW (destx gr dest) (desty gr dest) dest hw hh fuel
    (initState gr src dest) hI0 (by omega)
  obtain ⟨st1, hI, hcase⟩ := searchLoop_result gr (destx gr dest) (desty gr dest) dest
    (ReachInv gr src dest)
    (fun st n hI _ hf hnd => (hI.loop_stepW _ _ hw hh hf hnd).1) fuel _ st2 hI0 hl
  have hI2 : ReachInv gr src dest st2 := by
    rcases hcase with ⟨rfl, -⟩ | ⟨n, hf, -, -, rfl⟩
    · exact hI
    · refine ⟨hI.wf, hI.nodup, hI.ord, hI.par, ?_, hI.closure, hI.srcin, hI.destout⟩
      have := findcheapest_mem hf
      simp [this]
  rw [pathfinder_eq, hl]
  simp only
  unfold retracepath
  by_cases hd : st2.n.id = dest
  · rw [if_pos (by simpa using hd)]
    have hidne : st2.n.id ≠ -1 := (hI2.wf _ hI2.nmem).id_ne hw hh
    have hord : OrderedW src (st2.closedlist ++ st2.openlist) := hI2.ord.appendW _ hI2.par
    obtain ⟨r2, hr2, hnodup, -⟩ := retrace_nodupW st2 hw hh hI2.wf hI2.nodup _ hord []
      (by simp) st2.n hI2.nmem ((st2.closedlist ++ st2.openlist).length + 1) [] (le_refl _)
    rw [retraceLoop_go _ _ _ _ hidne, hd] at hr2
    have hlen := hI2.length_leW
    obtain ⟨k, rfl⟩ : ∃ k, fuel = (st2.closedlist ++ st2.openlist).length + k :=
      ⟨fuel - (st2.closedlist ++ st2.openlist).length, by omega⟩
    have h2 := retraceLoop_mono st2 _ k _ _ _ hr2
    rw [h2]
    exact ⟨_, rfl, by simpa using hnodup⟩
  · rw [if_neg (by simpa using hd)]
    exact ⟨[], rfl, List.nodup_nil⟩

/-- C29: the search on a level with `uint8_t` dimensions from a cell `src` of
the level. At every head of the main loop no id is on the lists twice, and the
number of passes made is the length of the closed list, at most
`width*height`. A pass moves the chosen node from the open to the closed list,
keeps every node on the lists as the record it was (parent and costs
included), and adds to the open list only nodes whose id was on neither list.
With more fuel than the level has cells the function returns, and the route
read off the parent links holds no id twice. -/
theorem pathfinder_terminates (gr : Grid) (src dest : Int)
    (hw : gr.width ≤ 255) (hh : gr.height ≤ 255) (hs : inRange gr src) (h16 : src < 32768) :
    (∀ k st, LoopHead gr src dest k st →
      ((st.closedlist ++ st.openlist).map pathnode.id).Nodup ∧
      st.closedlist.length = k ∧ k ≤ gr.width * gr.height) ∧
    (∀ k st n, LoopHead gr src dest k st → findcheapestopenlist st.openlist = some n →
      n.id ≠ dest →
      n ∈ st.openlist ∧
      (expand gr (destx gr dest) (desty gr dest) { st with n := n }).closedlist
        = st.closedlist ++ [n] ∧
      (∀ nd ∈ st.closedlist ++ st.openlist,
        nd ∈ (expand gr (destx gr dest) (desty gr dest) { st with n := n }).closedlist ++
          (expand gr (destx gr dest) (desty gr dest) { st with n := n }).openlist) ∧
      (∀ nd ∈ (expand gr (destx gr dest) (desty gr dest) { st with n := n }).openlist,
        nd ∈ st.openlist ∨ nd.id ∉ (st.closedlist ++ st.openlist).map pathnode.id)) ∧
    (∀ fuel, gr.width * gr.height + 1 ≤ fuel →
      ∃ r, pathfinder gr fuel src dest = some r ∧ r.Nodup) := by
  refine ⟨?_, ?_, fun fuel hf => pathfinder_totalW dest hw hh hs h16 hf⟩
  · intro k st h
    obtain ⟨hI, hk⟩ := loopHead_inv hw hh hs h16 h
    refine ⟨hI.nodup, hk, ?_⟩
    have := hI.length_leW
    simp only [List.length_append] at this
    omega
  · intro k st n h hf hnd
    obtain ⟨hI, -⟩ := loopHead_inv hw hh hs h16 h
    have hn : n ∈ st.openlist := findcheapest_mem hf
    obtain ⟨-, hE⟩ := hI.loop_stepW (destx gr dest) (desty gr dest) hw hh hf hnd
    obtain ⟨h1, h2⟩ := hE.keeps hI.nodup hn
    exact ⟨hn, hE.closed_eq, h1, h2⟩

/-- The search from cell 18 to cell 16 on the level `detourGrid`. -/
theorem pathfinder_terminates_witness :
    detourGrid.width ≤ 255 ∧ detourGrid.height ≤ 255 ∧ inRange detourGrid 18 ∧
    (18 : Int) < 32768 ∧ detourGrid.width * detourGrid.height + 1 ≤ 36 ∧
    ∃ r, pathfinder detourGrid 36 18 16 = some r ∧ r.Nodup :=
  ⟨by decide, by decide, by decide, by decide, by decide,
    (pathfinder_terminates detourGrid 18 16 (by decide) (by decide) (by decide)
      (by decide)).2.2 36 (by decide)⟩

theorem issolid_index (gr : Grid) (x y : Int)
    (hb : ¬ (x < 0 ∨ x ≥ gr.width ∨ y < 0 ∨ y ≥ gr.height)) :
    0 ≤ y * gr.width + x ∧ (y * gr.width + x).toNat < gr.width * gr.height ∧
      issolid gr x y = (gr.tiles ((y * gr.width + x).toNat) != 0) := by
  have hb2 : 0 ≤ x ∧ x < gr.width ∧ 0 ≤ y ∧ y < gr.height := by omega
  obtain ⟨h1, h2⟩ := cell_range hb2.1 hb2.2.1 hb2.2.2.1 hb2.2.2.2
  refine ⟨h1, ?_, ?_⟩
  · have : ((y * gr.width + x).toNat : Int) < ((gr.width * gr.height : Nat) : Int) := by
      rw [Int.toNat_of_nonneg h1]
      push_cast
      exact h2
    exact_mod_cast this
  · unfold issolid
    rw [if_neg hb]

theorem issolid_congr (gr : Grid) (tiles2 : Nat → Nat)
    (h : ∀ i, i < gr.width * gr.height → tiles2 i = gr.tiles i) (x y : Int) :
    issolid ⟨gr.width, gr.height, tiles2⟩ x y = issolid gr x y := by
  by_cases hb : x < 0 ∨ x ≥ gr.width ∨ y < 0 ∨ y ≥ gr.height
  · unfold issolid
    simp only [hb, if_true]
  · obtain ⟨-, h2, h3⟩ := issolid_index gr x y hb
    rw [h3]
    unfold issolid
    simp only [hb, if_false]
    rw [h _ h2]

theorem explore_congr (gr : Grid) (tiles2 : Nat → Nat)
    (h : ∀ i, i < gr.width * gr.height → tiles2 i = gr.tiles i) (dx dy : Int) (st : PFState)
    (x y : Int) :
    explore ⟨gr.width, gr.height, tiles2⟩ dx dy st x y = explore gr dx dy st x y := by
  unfold explore
  simp only [issolid_congr gr tiles2 h]

theorem expand_congr (gr : Grid) (tiles2 : Nat → Nat)
    (h : ∀ i, i < gr.width * gr.height → tiles2 i = gr.tiles i) (dx dy : Int) (st : PFState) :
    expand ⟨gr.width, gr.height, tiles2⟩ dx dy st = expand gr dx dy st := by
  unfold expand
  simp only [explore_congr gr tiles2 h]

theorem searchLoop_congr (gr : Grid) (tiles2 : Nat → Nat)
    (h : ∀ i, i < gr.width * gr.height → tiles2 i = gr.tiles i) (dx dy dest : Int) :
    ∀ (fuel : Nat) (st : PFState),
      searchLoop ⟨gr.width, gr.height, tiles2⟩ dx dy dest fuel st =
        searchLoop gr dx dy dest fuel st := by
  intro fuel
  induction fuel with
  | zero => intro st; rfl
  | succ k ih =>
    intro st
    unfold searchLoop
    simp only [expand_congr gr tiles2 h, ih]

theorem pathfinder_congr (gr : Grid) (tiles2 : Nat → Nat)
    (h : ∀ i, i < gr.width * gr.height → tiles2 i = gr.tiles i) (fuel : Nat) (src dest : Int) :
    pathfinder ⟨gr.width, gr.height, tiles2⟩ fuel src dest = pathfinder gr fuel src dest := by
  unfold pathfinder
  simp only [searchLoop_congr gr tiles2 h]

/-- One pass through the head of the main loop: `findcheapestopenlist` is
called only under the test `openlist.size()>0`, and returns a node of the
list. -/
theorem searchLoop_unfold (gr : Grid) (dx dy dest : Int) (k : Nat) (st : PFState) :
    (st.n.id ≠ dest → st.openlist ≠ [] →
      ∃ n ∈ st.openlist, findcheapestopenlist st.openlist = some n ∧
        searchLoop gr dx dy dest (k + 1) st =
          if n.id = dest then some { st with n := n }
          else searchLoop gr dx dy dest k (expand gr dx dy { st with n := n })) ∧
    (¬ (st.n.id ≠ dest ∧ st.openlist ≠ []) → searchLoop gr dx dy dest (k + 1) st = some st) := by
  constructor
  · intro h1 h2
    obtain ⟨n, hf⟩ := findcheapest_some h2
    refine ⟨n, findcheapest_mem hf, hf, ?_⟩
    have hlen : st.openlist.length > 0 := List.length_pos.2 h2
    rw [searchLoop]
    have hg : (st.n.id != dest && decide (st.openlist.length > 0)) = true := by
      simp [h1, hlen]
    rw [if_pos hg, hf]
    simp only [beq_iff_eq]
  · intro h
    rw [searchLoop]
    have : ¬ ((st.n.id != dest && decide (st.openlist.length > 0)) = true) := by
      intro hc
      simp only [Bool.and_eq_true, bne_iff_ne, ne_eq, decide_eq_true_eq] at hc
      exact h ⟨hc.1, List.length_pos.1 hc.2⟩
    rw [if_neg this]

/-- C30: for every level and every `src` and `dest`, in the level or not:
`issolid` reads the tile array only after its bounds test, at an index inside
`[0, width*height)`, so that the result of `pathfinder` is the same on every
tile array that agrees with the level inside that range; the first call of
`findcheapestopenlist` is on the list that holds the source node, and every
call in the main loop is made under the test `openlist.size()>0` and returns a
node of the list. -/
theorem pathfinder_safe (gr : Grid) :
    (∀ x y : Int, ¬ (x < 0 ∨ x ≥ gr.width ∨ y < 0 ∨ y ≥ gr.height) →
      0 ≤ y * gr.width + x ∧ (y * gr.width + x).toNat < gr.width * gr.height ∧
        issolid gr x y = (gr.tiles ((y * gr.width + x).toNat) != 0)) ∧
    (∀ (tiles2 : Nat → Nat) (fuel : Nat) (src dest : Int),
      (∀ i, i < gr.width * gr.height → tiles2 i = gr.tiles i) →
      pathfinder ⟨gr.width, gr.height, tiles2⟩ fuel src dest = pathfinder gr fuel src dest) ∧
    (∀ (fuel : Nat) (src dest : Int),
      findcheapestopenlist (initState gr src dest).openlist = some (srcnode gr src dest) ∧
      pathfinder gr fuel src dest =
        match searchLoop gr (destx gr dest) (desty gr dest) dest fuel (initState gr src dest) with
        | none => none
        | some st => retracepath st fuel dest) ∧
    (∀ (dx dy dest : Int) (k : Nat) (st : PFState),
      (st.n.id ≠ dest → st.openlist ≠ [] →
        ∃ n ∈ st.openlist, findcheapestopenlist st.openlist = some n ∧
          searchLoop gr dx dy dest (k + 1) st =
            if n.id = dest then some { st with n := n }
            else searchLoop gr dx dy dest k (expand gr dx dy { st with n := n })) ∧
      (¬ (st.n.id ≠ dest ∧ st.openlist ≠ []) →
        searchLoop gr dx dy dest (k + 1) st = some st)) := by
  refine ⟨issolid_index gr, fun tiles2 fuel src dest h => pathfinder_congr gr tiles2 h fuel src dest,
    fun fuel src dest => ⟨?_, pathfinder_eq gr fuel src dest⟩,
    fun dx dy dest k st => searchLoop_unfold gr dx dy dest k st⟩
  simp [initState, findcheapestopenlist, cheapestScan]

/-- The level `detourGrid` with its tile array continued by solid tiles
behind the last cell: the route is the same. -/
theorem pathfinder_safe_witness :
    pathfinder ⟨7, 5, fun i => if i < 35 then detourGrid.tiles i else 9⟩ 36 18 16 =
      pathfinder detourGrid 36 18 16 :=
  (pathfinder_safe detourGrid).2.1 (fun i => if i < 35 then detourGrid.tiles i else 9) 36 18 16
    (fun i hi => by
      have h : i < 35 := hi
      simp [h])

/-- The scan of `findcheapestopenlist` keeps the first index of the lowest cost
seen so far. -/
theorem cheapestScan_first : ∀ (l pre : List pathnode) (cost : Int) (idx : Nat) (m : pathnode),
    pre[idx]? = some m → m.f = cost → cost ≠ -1 → (∀ nd ∈ pre, cost ≤ nd.f) →
    (∀ (j : Nat) (nd : pathnode), j < idx → pre[j]? = some nd → cost < nd.f) →
    (∀ nd ∈ l, nd.f ≠ -1) →
    ∃ m2, (pre ++ l)[cheapestScan l pre.length cost idx]? = some m2 ∧
      (∀ nd ∈ pre ++ l, m2.f ≤ nd.f) ∧
      (∀ (j : Nat) (nd : pathnode), j < cheapestScan l pre.length cost idx → (pre ++ l)[j]? = some nd →
        m2.f < nd.f) := by
  intro l
  induction l with
  | nil =>
    intro pre cost idx m hget hm _ hpre hfirst _
    refine ⟨m, by simpa [cheapestScan] using hget, ?_, ?_⟩
    · intro nd hnd
      rw [hm]; exact hpre nd (by simpa using hnd)
    · intro j nd hj hnd
      rw [hm]
      exact hfirst j nd (by simpa [cheapestScan] using hj) (by simpa using hnd)
  | cons a t ih =>
    intro pre cost idx m hget hm hc hpre hfirst hl
    have hidx : idx < pre.length := by
      by_contra hcon
      rw [List.getElem?_eq_none (by omega)] at hget
      cases hget
    have hlen : (pre ++ [a]).length = pre.length + 1 := by simp
    have happ : pre ++ a :: t = (pre ++ [a]) ++ t := by simp
    unfold cheapestScan
    by_cases hlt : cost = -1 ∨ a.f < cost
    · rw [if_pos hlt]
      have hlt2 : a.f < cost := by
        rcases hlt with h | h
        · exact absurd h hc
        · exact h
      have := ih (pre ++ [a]) a.f pre.length a (by simp) rfl (hl a (by simp))
        (by
          intro nd hnd
          rcases List.mem_append.1 hnd with h | h
          · have := hpre nd h; omega
          · simp only [List.mem_singleton] at h; rw [h])
        (by
          intro j nd hj hnd
          rw [List.getElem?_append_left hj] at hnd
          have := hpre nd (List.getElem?_mem hnd)
          omega)
        (fun nd hnd => hl nd (by simp [hnd]))
      rw [hlen, ← happ] at this
      exact this
    · rw [if_neg hlt]
      have hge : cost ≤ a.f := by
        by_contra hcon
        exact hlt (Or.inr (by omega))
      have := ih (pre ++ [a]) cost idx m
        (by rw [List.getElem?_append_left hidx]; exact hget) hm hc
        (by
          intro nd hnd
          rcases List.mem_append.1 hnd with h | h
          · exact hpre nd h
          · simp only [List.mem_singleton] at h; rw [h]; exact hge)
        (by
          intro j nd hj hnd
          rw [List.getElem?_append_left (by omega)] at hnd
          exact hfirst j nd hj hnd)
        (fun nd hnd => hl nd (by simp [hnd]))
      rw [hlen, ← happ] at this
      exact this

/-- What `findcheapestopenlist` returns on a list of non-negative costs: the
first node of the lowest cost. -/
theorem findcheapest_first {op : List pathnode} (hne : op ≠ []) (hf : ∀ nd ∈ op, 0 ≤ nd.f) :
    ∃ i n, findcheapestopenlist op = some n ∧ op[i]? = some n ∧
      (∀ nd ∈ op, n.f ≤ nd.f) ∧ (∀ (j : Nat) (nd : pathnode), j < i → op[j]? = some nd → n.f < nd.f) := by
  cases op with
  | nil => exact absurd rfl hne
  | cons a t =>
    have he : cheapestScan (a :: t) 0 (-1) 0 = cheapestScan t 1 a.f 0 := by
      simp [cheapestScan]
    have ha := hf a (by simp)
    obtain ⟨m2, h1, h2, h3⟩ := cheapestScan_first t [a] a.f 0 a (by simp) rfl (by omega)
      (by intro nd hnd; simp only [List.mem_singleton] at hnd; rw [hnd])
      (by intro j nd hj; omega)
      (fun nd hnd => by have := hf nd (by simp [hnd]); omega)
    simp only [List.singleton_append, List.length_singleton] at h1 h2 h3
    refine ⟨cheapestScan t 1 a.f 0, m2, ?_, h1, h2, h3⟩
    unfold findcheapestopenlist
    rw [he, List.get?_eq_getElem?]
    exact h1

theorem mknode_f_nonneg (dx dy id x y prev acc : Int) (h : 0 ≤ acc) :
    0 ≤ (mknode dx dy id x y prev acc).f := by
  show 0 ≤ acc + manhattan_cost x y dx dy
  unfold manhattan_cost
  omega

theorem explore_nonneg (gr : Grid) (dx dy : Int) (st : PFState) (x y : Int)
    (ho : ∀ nd ∈ st.openlist, 0 ≤ nd.f) (hn : 0 ≤ st.n.f) :
    (∀ nd ∈ (explore gr dx dy st x y).openlist, 0 ≤ nd.f) ∧
      (explore gr dx dy st x y).n = st.n := by
  unfold explore
  simp only []
  split
  · refine ⟨?_, rfl⟩
    intro nd hnd
    simp only [addnode, List.mem_append, List.mem_singleton] at hnd
    rcases hnd with h | h
    · exact ho nd h
    · rw [h]; exact mknode_f_nonneg _ _ _ _ _ _ _ (by omega)
  · exact ⟨ho, rfl⟩

theorem movetoclosed_open_sub (st : PFState) (id : Int) :
    ∀ nd ∈ (movetoclosedlist st id).openlist, nd ∈ st.openlist := by
  intro nd hnd
  unfold movetoclosedlist at hnd
  split at hnd
  · exact List.mem_of_mem_eraseP hnd
  · exact hnd

theorem expand_nonneg (gr : Grid) (dx dy : Int) (st : PFState)
    (ho : ∀ nd ∈ st.openlist, 0 ≤ nd.f) (hn : 0 ≤ st.n.f) :
    ∀ nd ∈ (expand gr dx dy st).openlist, 0 ≤ nd.f := by
  obtain ⟨o1, n1⟩ := explore_nonneg gr dx dy st 0 (-1) ho hn
  obtain ⟨o2, n2⟩ := explore_nonneg gr dx dy _ 1 0 o1 (by rw [n1]; exact hn)
  obtain ⟨o3, n3⟩ := explore_nonneg gr dx dy _ 0 1 o2 (by rw [n2, n1]; exact hn)
  obtain ⟨o4, -⟩ := explore_nonneg gr dx dy _ (-1) 0 o3 (by rw [n3, n2, n1]; exact hn)
  intro nd hnd
  exact o4 nd (movetoclosed_open_sub _ _ nd hnd)

/-- At the head of the main loop no node of the open list has a negative
cost. -/
theorem loopHead_nonneg {gr : Grid} {src dest : Int} :
    ∀ {k : Nat} {st : PFState}, LoopHead gr src dest k st → ∀ nd ∈ st.openlist, 0 ≤ nd.f := by
  intro k st h
  induction h with
  | init =>
    intro nd hnd
    simp only [initState, List.mem_singleton] at hnd
    rw [hnd]
    exact mknode_f_nonneg _ _ _ _ _ _ _ (le_refl _)
  | @step k st n _ _ _ hf _ ih =>
    exact expand_nonneg gr _ _ _ ih (ih n (findcheapest_mem hf))

theorem searchLoop_mono (gr : Grid) (dx dy dest : Int) : ∀ (fuel k : Nat) (st st2 : PFState),
    searchLoop gr dx dy dest fuel st = some st2 →
    searchLoop gr dx dy dest (fuel + k) st = some st2 := by
  intro fuel
  induction fuel with
  | zero => intro k st st2 h; simp [searchLoop] at h
  | succ j ih =>
    intro k st st2 h
    have e : j + 1 + k = (j + k) + 1 := by omega
    rw [e]
    unfold searchLoop at h ⊢
    split
    · rename_i hc
      rw [if_pos hc] at h
      cases hfc : findcheapestopenlist st.openlist with
      | none => rw [hfc] at h; cases h
      | some n =>
        rw [hfc] at h
        simp only at h ⊢
        split
        · rename_i hd
          rw [if_pos hd] at h
          exact h
        · rename_i hd
          rw [if_neg hd] at h
          exact ih k _ _ h
    · rename_i hc
      rw [if_neg hc] at h
      exact h

theorem retracepath_mono (st : PFState) (fuel k : Nat) (dest : Int) (r : List Int)
    (h : retracepath st fuel dest = some r) : retracepath st (fuel + k) dest = some r := by
  unfold retracepath at h ⊢
  split
  · rename_i hd
    rw [if_pos hd] at h
    exact retraceLoop_mono st _ k _ _ _ h
  · rename_i hd
    rw [if_neg hd] at h
    exact h

theorem pathfinder_mono (gr : Grid) (fuel k : Nat) (src dest : Int) (r : List Int)
    (h : pathfinder gr fuel src dest = some r) : pathfinder gr (fuel + k) src dest = some r := by
  rw [pathfinder_eq] at h ⊢
  cases hl : searchLoop gr (destx gr dest) (desty gr dest) dest fuel (initState gr src dest) with
  | none => rw [hl] at h; cases h
  | some st =>
    rw [hl] at h
    rw [searchLoop_mono gr _ _ dest fuel k _ st hl]
    exact retracepath_mono st fuel k dest r h

/-- C33: on a non-empty open list whose costs are not negative,
`findcheapestopenlist` returns the node with the lowest index among the nodes
of minimal `f`: no node has a lower cost, and every node before it has a
strictly higher one. The lists the search hands to it are of this kind: at the
head of the main loop no cost on the open list is negative. The route is then
a function of the level, the source and the target only: two runs that return
give the same route whatever the fuel of the embedding, and tile arrays that
agree on the cells of the level give the same result. -/
theorem findcheapest_tiebreak (gr : Grid) (src dest : Int) :
    (∀ op : List pathnode, op ≠ [] → (∀ nd ∈ op, 0 ≤ nd.f) →
      ∃ i n, findcheapestopenlist op = some n ∧ op[i]? = some n ∧
        (∀ nd ∈ op, n.f ≤ nd.f) ∧ (∀ (j : Nat) (nd : pathnode), j < i → op[j]? = some nd → n.f < nd.f)) ∧
    (∀ k st, LoopHead gr src dest k st → ∀ nd ∈ st.openlist, 0 ≤ nd.f) ∧
    (∀ fuel1 fuel2 r1 r2, pathfinder gr fuel1 src dest = some r1 →
      pathfinder gr fuel2 src dest = some r2 → r1 = r2) ∧
    (∀ (tiles2 : Nat → Nat) (fuel : Nat),
      (∀ i, i < gr.width * gr.height → tiles2 i = gr.tiles i) →
      pathfinder ⟨gr.width, gr.height, tiles2⟩ fuel src dest = pathfinder gr fuel src dest) := by
  refine ⟨fun op hne hf => findcheapest_first hne hf, fun k st h => loopHead_nonneg h, ?_,
    fun tiles2 fuel h => pathfinder_congr gr tiles2 h fuel src dest⟩
  intro fuel1 fuel2 r1 r2 h1 h2
  rcases Nat.le_total fuel1 fuel2 with hle | hle
  · obtain ⟨k, rfl⟩ : ∃ k, fuel2 = fuel1 + k := ⟨fuel2 - fuel1, by omega⟩
    rw [pathfinder_mono gr fuel1 k src dest r1 h1] at h2
    exact Option.some.inj h2
  · obtain ⟨k, rfl⟩ : ∃ k, fuel1 = fuel2 + k := ⟨fuel1 - fuel2, by omega⟩
    rw [pathfinder_mono gr fuel2 k src dest r2 h2] at h1
    exact (Option.some.inj h1).symm

/-- The theorem `findcheapest_tiebreak` at `tieList`, where the second node
wins over the third, and at two runs of the search across `detourGrid`. -/
theorem findcheapest_tiebreak_witness :
    tieList ≠ [] ∧ (∀ nd ∈ tieList, 0 ≤ nd.f) ∧
    findcheapestopenlist tieList = some ⟨8, 2, 1, 7, 1, 1, 2⟩ ∧
    (∃ i n, findcheapestopenlist tieList = some n ∧ tieList[i]? = some n ∧
      (∀ nd ∈ tieList, n.f ≤ nd.f) ∧ (∀ (j : Nat) (nd : pathnode), j < i → tieList[j]? = some nd → n.f < nd.f)) ∧
    pathfinder detourGrid 36 18 16 = pathfinder detourGrid 50 18 16 :=
  ⟨by decide, by decide, by decide,
    (findcheapest_tiebreak detourGrid 18 16).1 tieList (by decide) (by decide),
    by
      cases h1 : pathfinder detourGrid 36 18 16 with
      | none => exact absurd h1 (by decide)
      | some r1 =>
        cases h2 : pathfinder detourGrid 50 18 16 with
        | none => exact absurd h2 (by decide)
        | some r2 =>
          exact congrArg some ((findcheapest_tiebreak detourGrid 18 16).2.2.1 36 50 r1 r2 h1 h2)⟩

/-- Every node the search puts on a list, the source node apart, sits on a cell
that `issolid` has found free. -/
theorem searchLoop_free {gr : Grid} {src : Int} (dest : Int)
    (hw : gr.width ≤ 255) (hh : gr.height ≤ 255) (hs : inRange gr src) (h16 : src < 32768)
    {fuel : Nat} {st2 : PFState}
    (h : searchLoop gr (destx gr dest) (desty gr dest) dest fuel (initState gr src dest)
      = some st2) :
    ReachInv gr src dest st2 ∧
      ∀ nd ∈ st2.closedlist ++ st2.openlist, nd.id = src ∨ issolid gr nd.x nd.y = false := by
  obtain ⟨st1, hP, hcase⟩ := searchLoop_result gr (destx gr dest) (desty gr dest) dest
    (fun st => ReachInv gr src dest st ∧
      ∀ nd ∈ st.closedlist ++ st.openlist, nd.id = src ∨ issolid gr nd.x nd.y = false)
    (fun st n hI _ hf hnd => by
      obtain ⟨hI2, hE⟩ := hI.1.loop_stepW (destx gr dest) (desty gr dest) hw hh hf hnd
      refine ⟨hI2, ?_⟩
      intro nd hmem
      rw [hE.closed_eq] at hmem
      simp only [List.mem_append, List.mem_singleton] at hmem
      rcases hmem with (h1 | h1) | h1
      · exact hI.2 nd (by simp [h1])
      · rw [h1]; exact hI.2 n (by simp [findcheapest_mem hf])
      · rcases (hE.open_sub nd h1).1 with h2 | ⟨x, y, -, rfl, hsol⟩
        · exact hI.2 nd (by simp [h2])
        · exact Or.inr hsol)
    fuel _ st2
    ⟨initState_reach dest hw hs h16, by
      intro nd hnd
      simp only [initState, List.nil_append, List.mem_singleton] at hnd
      left; rw [hnd]; rfl⟩ h
  rcases hcase with ⟨rfl, -⟩ | ⟨n, hf, -, -, rfl⟩
  · exact hP
  · refine ⟨⟨hP.1.wf, hP.1.nodup, hP.1.ord, hP.1.par, ?_, hP.1.closure, hP.1.srcin,
      hP.1.destout⟩, hP.2⟩
    have := findcheapest_mem hf
    simp [this]

/-- Every id of a route after the first is the narrowed id of a cell of the
level whose tile value is 0. -/
theorem pathfinder_cells {gr : Grid} {src dest : Int} {fuel : Nat} {r : List Int}
    (hw : gr.width ≤ 255) (hh : gr.height ≤ 255) (hs : inRange gr src) (h16 : src < 32768)
    (h : pathfinder gr fuel src dest = some r) :
    ∀ c ∈ r.tail, ∃ x y : Int, InB gr x y ∧ c = wrap16 (y * gr.width + x) ∧
      gr.tiles ((y * gr.width + x).toNat) = 0 := by
  rw [pathfinder_eq] at h
  cases hl : searchLoop gr (destx gr dest) (desty gr dest) dest fuel (initState gr src dest) with
  | none => rw [hl] at h; cases h
  | some st =>
    rw [hl] at h
    simp only at h
    obtain ⟨hI, hfree⟩ := searchLoop_free dest hw hh hs h16 hl
    unfold retracepath at h
    by_cases hd : (st.n.id == dest) = true
    · rw [if_pos hd] at h
      have hd2 : st.n.id = dest := by simpa using hd
      have hidne : st.n.id ≠ -1 := (hI.wf _ hI.nmem).id_ne hw hh
      have hord : OrderedW src (st.closedlist ++ st.openlist) := hI.ord.appendW _ hI.par
      obtain ⟨r2, hr2, hnodup, hsub⟩ := retrace_nodupW st hw hh hI.wf hI.nodup _ hord []
        (by simp) st.n hI.nmem ((st.closedlist ++ st.openlist).length + 1) [] (le_refl _)
      obtain ⟨r3, hr3, hhead, -⟩ := retrace_orderedW st hw hh hI.wf hI.nodup _ hord []
        (by simp) st.n hI.nmem ((st.closedlist ++ st.openlist).length + 1) [] (le_refl _)
      have e23 : r3 = r2 := by
        rw [hr2] at hr3
        simpa using hr3.symm
      subst e23
      rw [retraceLoop_go _ _ _ _ hidne, hd2] at hr2
      have h1 := retraceLoop_mono st _ ((st.closedlist ++ st.openlist).length) _ _ _ h
      have h2 := retraceLoop_mono st _ fuel _ _ _ hr2
      rw [Nat.add_comm] at h2
      rw [h1] at h2
      have e : r = r3 := by simpa using h2
      subst e
      intro c hc
      cases r with
      | nil => cases hc
      | cons a t =>
        simp only [List.head?_cons, Option.some.injEq] at hhead
        subst hhead
        simp only [List.tail_cons] at hc
        have hne : c ≠ a := by
          intro hca
          rw [hca] at hc
          exact (List.nodup_cons.1 hnodup).1 hc
        obtain ⟨nd, hnd, hid⟩ := List.mem_map.1 (hsub c (by simp [hc]))
        rcases hfree nd hnd with h3 | h3
        · exact absurd (hid.symm.trans h3) hne
        · obtain ⟨hb, ht⟩ := (issolid_false_iff gr _ _).1 h3
          exact ⟨nd.x, nd.y, hb, by rw [← hid]; exact (hI.wf nd hnd).2, ht⟩
    · rw [if_neg hd] at h
      have : r = [] := by simpa using h.symm
      subst this
      intro c hc
      cases hc

/-! ## timeline.h -/

theorem timeline_call_stopped (w : TLWorld) (h : w.tl.running = false) :
    timeline_call w = w := by
  unfold timeline_call
  simp [h]

theorem ticks_stopped (w : TLWorld) (h : w.tl.running = false) : ∀ k, ticks k w = w := by
  intro k
  induction k with
  | zero => rfl
  | succ j ih => show timeline_call (ticks j w) = w; rw [ih, timeline_call_stopped w h]

theorem ticks_add (w : TLWorld) : ∀ j k, ticks (k + j) w = ticks j (ticks k w) := by
  intro j
  induction j with
  | zero => intro k; rfl
  | succ i ih => intro k; show timeline_call (ticks (k + i) w) = timeline_call _; rw [ih]

theorem singleShot_wait (N a k : Nat) (tr : List TLEvent) (hk : k < N) (hN : N < U64) :
    timeline_call ⟨⟨[⟨N, some a, false⟩], k, none, true, 0, 1⟩, tr⟩ =
      ⟨⟨[⟨N, some a, false⟩], k + 1, none, true, 0, 1⟩, tr⟩ := by
  have h1 : ¬ N ≤ k := by omega
  have h2 : (k + 1) % U64 = k + 1 := Nat.mod_eq_of_lt (by omega)
  simp [timeline_call, callItems, callCallback, h1, h2]

theorem singleShot_fire (N a : Nat) (tr : List TLEvent) :
    timeline_call ⟨⟨[⟨N, some a, false⟩], N, none, true, 0, 1⟩, tr⟩ =
      ⟨⟨[⟨N, some a, true⟩], (N + 1) % U64, none, false, 1, 1⟩, tr ++ [TLEvent.func 0 a]⟩ := by
  have h3 : (1 : Nat) % U64 = 1 := by decide
  simp [timeline_call, callItems, callCallback, h3]

theorem singleShot_ticks (tl0 : timelineobj) (N a : Nat) (hN : N < U64) :
    ∀ k, k ≤ N → ticks k (singleShot tl0 N a) = ⟨⟨[⟨N, some a, false⟩], k, none, true, 0, 1⟩, []⟩ := by
  intro k
  induction k with
  | zero => intro _; rfl
  | succ j ih =>
    intro hj
    show timeline_call (ticks j _) = _
    rw [ih (by omega), singleShot_wait N a j [] (by omega) hN]

theorem looping_wait (N a p lp : Nat) (tr : List TLEvent) (hp : p < N) (hN : N < U64) :
    timeline_call ⟨⟨[⟨N, some a, false⟩], p, none, true, lp, 0⟩, tr⟩ =
      ⟨⟨[⟨N, some a, false⟩], p + 1, none, true, lp, 0⟩, tr⟩ := by
  have h1 : ¬ N ≤ p := by omega
  have h2 : (p + 1) % U64 = p + 1 := Nat.mod_eq_of_lt (by omega)
  simp [timeline_call, callItems, callCallback, h1, h2]

theorem looping_fire (N a lp : Nat) (tr : List TLEvent) :
    timeline_call ⟨⟨[⟨N, some a, false⟩], N, none, true, lp, 0⟩, tr⟩ =
      ⟨⟨[⟨N, some a, false⟩], 1, none, true, (lp + 1) % U64, 0⟩,
        tr ++ [TLEvent.func 0 a]⟩ := by
  have h3 : (1 : Nat) % U64 = 1 := by decide
  simp [timeline_call, callItems, callCallback, h3]

theorem looping_ticks (tl0 : timelineobj) (N a : Nat) (h1 : 1 ≤ N) (hN : N < U64) :
    ∀ q r, r < N → ∃ lp, ticks (1 + q * N + r) (looping tl0 N a) =
      ⟨⟨[⟨N, some a, false⟩], r + 1, none, true, lp, 0⟩,
        List.replicate q (TLEvent.func 0 a)⟩ := by
  intro q
  induction q with
  | zero =>
    intro r
    induction r with
    | zero =>
      intro _
      refine ⟨0, ?_⟩
      have e : 1 + 0 * N + 0 = 0 + 1 := by omega
      rw [e]
      show timeline_call (⟨⟨[⟨N, some a, false⟩], 0, none, true, 0, 0⟩, []⟩) = _
      rw [looping_wait N a 0 0 [] (by omega) hN]
      rfl
    | succ j ih =>
      intro hj
      obtain ⟨lp, h⟩ := ih (by omega)
      refine ⟨lp, ?_⟩
      show timeline_call (ticks (1 + 0 * N + j) _) = _
      rw [h, looping_wait N a (j + 1) lp _ (by omega) hN]
  | succ q ihq =>
    intro r
    induction r with
    | zero =>
      intro _
      obtain ⟨lp, h⟩ := ihq (N - 1) (by omega)
      refine ⟨(lp + 1) % U64, ?_⟩
      have e : 1 + (q + 1) * N + 0 = (1 + q * N + (N - 1)) + 1 := by
        rw [Nat.succ_mul]; omega
      rw [e]
      show timeline_call (ticks (1 + q * N + (N - 1)) _) = _
      rw [h]
      have e2 : N - 1 + 1 = N := by omega
      rw [e2, looping_fire, List.replicate_succ']
    | succ j ih =>
      intro hj
      obtain ⟨lp, h⟩ := ih (by omega)
      refine ⟨lp, ?_⟩
      show timeline_call (ticks (1 + (q + 1) * N + j) _) = _
      rw [h, looping_wait N a (j + 1) lp _ (by omega) hN]

theorem pow2_eq (e : Int) : pow2 e = (2 : ℚ) ^ e := by
  unfold pow2
  by_cases h : 0 ≤ e
  · rw [if_pos h]
    obtain ⟨n, rfl⟩ := Int.eq_ofNat_of_zero_le h
    simp
  · rw [if_neg h]
    obtain ⟨n, hn⟩ : ∃ n : Nat, e = -(n : Int) := ⟨(-e).toNat, by omega⟩
    subst hn
    simp

theorem pow2_le (a b : Int) : pow2 a ≤ pow2 b ↔ a ≤ b := by
  rw [pow2_eq, pow2_eq]
  exact zpow_le_zpow_iff_right₀ (by norm_num)

theorem percentage_ten :
    (List.range 11).map (fun k => percentage k 10) =
      [0, 10, 20, 15728641 / 524288, 40, 50, 15728641 / 262144, 70, 80, 90, 100] := by
  decide!

theorem callItems_fst (pos size : Nat) (running : Bool) : ∀ (items : List timelineitem) (i : Nat),
    (callItems pos size running i items).1 = items.map (fireItem pos) := by
  intro items
  induction items with
  | nil => intro i; rfl
  | cons it rest ih =>
    intro i
    simp only [callItems, List.map_cons, ih (i + 1)]
    rfl

theorem callItems_remain (pos size : Nat) : ∀ (items : List timelineitem) (i : Nat),
    i + items.length ≤ size →
    ((callItems pos size true i items).2.2 = 0 ↔
      ∀ it ∈ items, (fireItem pos it).done = true) := by
  intro items
  induction items with
  | nil => intro i _; simp [callItems]
  | cons it rest ih =>
    intro i hle
    simp only [List.length_cons] at hle
    have h1 : size - 1 ≥ i := by omega
    simp only [callItems, List.mem_cons, forall_eq_or_imp, Nat.add_eq_zero]
    rw [ih (i + 1) (by omega)]
    have : (if (true && decide (size - 1 ≥ i) &&
          !(if (!it.done && decide (it.frame ≤ pos)) = true then
              ({ it with done := true } : timelineitem) else it).done) = true then 1 else 0) = 0 ↔
        (fireItem pos it).done = true := by
      unfold fireItem
      simp only [Bool.true_and, h1, decide_True]
      cases h : (if (!it.done && decide (it.frame ≤ pos)) = true then
              ({ it with done := true } : timelineitem) else it).done <;> simp
    rw [this]

theorem callItems_count (pos size : Nat) (running : Bool) (j f : Nat) :
    ∀ (items : List timelineitem) (i : Nat),
    List.count (TLEvent.func j f) (callItems pos size running i items).2.1 =
      match items.get? (j - i) with
      | some it =>
        if i ≤ j ∧ it.done = false ∧ it.frame ≤ pos ∧ it.func = some f then 1 else 0
      | none => 0 := by
  intro items
  induction items with
  | nil => intro i; simp [callItems]
  | cons it rest ih =>
    intro i
    simp only [callItems, List.count_append, ih (i + 1)]
    by_cases hij : i = j
    · subst hij
      simp only [Nat.sub_self, List.get?_cons_zero, le_refl, true_and]
      have hz : i - (i + 1) = 0 := by omega
      rw [hz]
      have hrest : (match rest.get? 0 with
          | some it2 =>
            if i + 1 ≤ i ∧ it2.done = false ∧ it2.frame ≤ pos ∧ it2.func = some f then 1 else 0
          | none => 0) = 0 := by
        cases rest.get? 0 with
        | none => rfl
        | some it2 => simp
      rw [hrest]
      cases hd : it.done <;> cases hf : it.func <;> by_cases hp : it.frame ≤ pos <;>
        simp [hd, hf, hp, List.count_cons, List.count_nil]
    · have hev : List.count (TLEvent.func j f)
          (if (!it.done && decide (it.frame ≤ pos)) = true then
            match it.func with
            | some f2 => [TLEvent.func i f2]
            | none => []
          else []) = 0 := by
        split
        · cases it.func with
          | none => simp
          | some f2 =>
            simp only [List.count_cons, List.count_nil, zero_add, beq_iff_eq,
              TLEvent.func.injEq]
            rw [if_neg (fun h => hij h.1)]
        · simp
      rw [hev, zero_add]
      by_cases hlt : i < j
      · obtain ⟨d, hd⟩ : ∃ d, j - i = d + 1 := ⟨j - i - 1, by omega⟩
        have hd2 : j - (i + 1) = d := by omega
        rw [hd, hd2, List.get?_cons_succ]
        cases rest.get? d with
        | none => rfl
        | some it2 =>
          have e1 : (i + 1 ≤ j) = True := by simp; omega
          have e2 : (i ≤ j) = True := by simp; omega
          simp only [e1, e2]
      · have hz1 : j - (i + 1) = 0 := by omega
        have hz2 : j - i = 0 := by omega
        rw [hz1, hz2, List.get?_cons_zero]
        have e2 : ¬ i ≤ j := by omega
        cases rest.get? 0 with
        | none => simp [e2]
        | some it2 =>
          have e1 : ¬ i + 1 ≤ j := by omega
          simp [e1, e2]

theorem tick_continue (w : TLWorld) (hr : w.tl.running = true) (hp : ¬ passDone w) :
    timeline_call w =
      ⟨{ w.tl with timeline := w.tl.timeline.map (fireItem w.tl.timelinepos),
                   timelinepos := (w.tl.timelinepos + 1) % U64 }, traceAfter w⟩ := by
  have h1 := callItems_remain w.tl.timelinepos w.tl.timeline.length w.tl.timeline 0 (by omega)
  have h2 : ¬ (callItems w.tl.timelinepos w.tl.timeline.length true 0 w.tl.timeline).2.2 = 0 :=
    fun h => hp (h1.1 h)
  unfold timeline_call traceAfter
  simp only [hr, Bool.not_true, Bool.false_eq_true, if_false, callItems_fst, h2]

theorem tick_reset (w : TLWorld) (hr : w.tl.running = true) (hp : passDone w)
    (hl : w.tl.loop = 0 ∨ (w.tl.looped + 1) % U64 < w.tl.loop) :
    timeline_call w =
      ⟨{ w.tl with timeline := (w.tl.timeline.map (fireItem w.tl.timelinepos)).map
                      (fun it => { it with done := false }),
                   looped := (w.tl.looped + 1) % U64,
                   timelinepos := (0 + 1) % U64 }, traceAfter w⟩ := by
  have h1 := callItems_remain w.tl.timelinepos w.tl.timeline.length w.tl.timeline 0 (by omega)
  have h2 : (callItems w.tl.timelinepos w.tl.timeline.length true 0 w.tl.timeline).2.2 = 0 :=
    h1.2 hp
  unfold timeline_call traceAfter
  simp only [hr, Bool.not_true, Bool.false_eq_true, if_false, callItems_fst, h2, if_true, hl]

theorem tick_stop (w : TLWorld) (hr : w.tl.running = true) (hp : passDone w)
    (hl : ¬ (w.tl.loop = 0 ∨ (w.tl.looped + 1) % U64 < w.tl.loop)) :
    timeline_call w =
      ⟨{ w.tl with timeline := w.tl.timeline.map (fireItem w.tl.timelinepos),
                   looped := (w.tl.looped + 1) % U64,
                   running := false,
                   timelinepos := (w.tl.timelinepos + 1) % U64 }, traceAfter w⟩ := by
  have h1 := callItems_remain w.tl.timelinepos w.tl.timeline.length w.tl.timeline 0 (by omega)
  have h2 : (callItems w.tl.timelinepos w.tl.timeline.length true 0 w.tl.timeline).2.2 = 0 :=
    h1.2 hp
  unfold timeline_call traceAfter
  simp only [hr, Bool.not_true, Bool.false_eq_true, if_false, callItems_fst, h2, if_true, hl]

theorem count_callCallback (tl : timelineobj) (i f : Nat) :
    List.count (TLEvent.func i f) (callCallback tl) = 0 := by
  unfold callCallback
  cases tl.callback with
  | none => simp
  | some cb =>
    simp only
    split
    · split <;> simp
    · simp

theorem fireItem_shape (pos : Nat) (it : timelineitem) :
    (fireItem pos it).frame = it.frame ∧ (fireItem pos it).func = it.func := by
  unfold fireItem; split <;> exact ⟨rfl, rfl⟩

theorem fireItem_done (pos : Nat) (it : timelineitem) :
    (fireItem pos it).done = (it.done || decide (it.frame ≤ pos)) := by
  unfold fireItem
  cases hd : it.done <;> by_cases hp : it.frame ≤ pos <;> simp [hd, hp]

/-- The number of runs of the function of item `i` in the trace after one
more tick. -/
theorem count_traceAfter (w : TLWorld) (i f : Nat) (it : timelineitem)
    (hi : w.tl.timeline.get? i = some it) (hf : it.func = some f) :
    List.count (TLEvent.func i f) (traceAfter w) =
      List.count (TLEvent.func i f) w.trace +
        (if it.done = false ∧ it.frame ≤ w.tl.timelinepos then 1 else 0) := by
  unfold traceAfter
  rw [List.count_append, List.count_append, count_callCallback, callItems_count]
  simp only [Nat.sub_zero, hi, Nat.zero_le, true_and, hf, and_true, Nat.add_zero]

theorem get?_map_eq {α β : Type} (f : α → β) (l : List α) (i : Nat) :
    (l.map f).get? i = (l.get? i).map f := by
  simp [List.get?_eq_getElem?]

theorem mod_U64 {n : Nat} (h : n < U64) : n % U64 = n := Nat.mod_eq_of_lt h

/-- One call of `timeline_call` keeps the invariant of a bounded run. -/
theorem SchedInv.tick {sched : List (Nat × Option Nat)} {L : Nat} {w : TLWorld}
    (hI : SchedInv sched L w) (hL1 : 1 ≤ L) (hL2 : L < U64) :
    SchedInv sched L (timeline_call w) := by
  cases hr : w.tl.running with
  | false => rw [timeline_call_stopped w hr]; exact hI
  | true =>
    have hlt := hI.run hr
    have hmod : (w.tl.looped + 1) % U64 = w.tl.looped + 1 := mod_U64 (by omega)
    have hshape : (w.tl.timeline.map (fireItem w.tl.timelinepos)).map
        (fun it => (it.frame, it.func)) = sched := by
      rw [List.map_map, ← hI.shape]
      apply List.map_congr_left
      intro it _
      simp [(fireItem_shape w.tl.timelinepos it).1, (fireItem_shape w.tl.timelinepos it).2]
    by_cases hp : passDone w
    · have hcount : ∀ i it f, w.tl.timeline.get? i = some it → it.func = some f →
          List.count (TLEvent.func i f) (traceAfter w) = w.tl.looped + 1 := by
        intro i it f hi hf
        rw [count_traceAfter w i f it hi hf, hI.cnt i it f hi hf]
        have hd := hp it (List.get?_mem hi)
        rw [fireItem_done] at hd
        cases hdn : it.done <;> by_cases hfr : it.frame ≤ w.tl.timelinepos <;>
          simp [hdn, hfr, hr] at hd ⊢
      by_cases hl : w.tl.looped + 1 < L
      · rw [tick_reset w hr hp (by rw [hmod, hI.loopL]; exact Or.inr hl)]
        refine ⟨?_, hI.loopL, ?_, ?_, ?_⟩
        · show ((w.tl.timeline.map (fireItem w.tl.timelinepos)).map
            (fun it => { it with done := false })).map (fun it => (it.frame, it.func)) = sched
          rw [List.map_map, ← hshape]
          apply List.map_congr_left
          intro it _
          rfl
        · intro i it2 f hi2 hf2
          have hi3 : ((w.tl.timeline.map (fireItem w.tl.timelinepos)).map
            (fun it => ({ it with done := false } : timelineitem))).get? i = some it2 := hi2
          rw [List.map_map, get?_map_eq] at hi3
          cases hget : w.tl.timeline.get? i with
          | none => rw [hget] at hi3; cases hi3
          | some it =>
            rw [hget] at hi3
            simp only [Option.map_some', Function.comp_apply, Option.some.injEq] at hi3
            subst hi3
            have hf3 : it.func = some f := by
              rw [← (fireItem_shape w.tl.timelinepos it).2]; exact hf2
            show List.count (TLEvent.func i f) (traceAfter w) = (w.tl.looped + 1) % U64 + _
            rw [hcount i it f hget hf3, hmod]
            simp
        · intro _
          show (w.tl.looped + 1) % U64 < L
          rw [hmod]; exact hl
        · intro h; exact absurd h (by simp [hr])
      · rw [tick_stop w hr hp (by rw [hmod, hI.loopL]; omega)]
        refine ⟨hshape, hI.loopL, ?_, ?_, ?_⟩
        · intro i it2 f hi2 hf2
          have hi3 : (w.tl.timeline.map (fireItem w.tl.timelinepos)).get? i = some it2 := hi2
          rw [get?_map_eq] at hi3
          cases hget : w.tl.timeline.get? i with
          | none => rw [hget] at hi3; cases hi3
          | some it =>
            rw [hget] at hi3
            simp only [Option.map_some', Option.some.injEq] at hi3
            subst hi3
            have hf3 : it.func = some f := by
              rw [← (fireItem_shape w.tl.timelinepos it).2]; exact hf2
            show List.count (TLEvent.func i f) (traceAfter w) = (w.tl.looped + 1) % U64 + _
            rw [hcount i it f hget hf3, hmod]
            simp
        · intro h; cases h
        · intro _
          show (w.tl.looped + 1) % U64 = L
          rw [hmod]; omega
    · rw [tick_continue w hr hp]
      refine ⟨hshape, hI.loopL, ?_, fun _ => hlt, ?_⟩
      · intro i it2 f hi2 hf2
        have hi3 : (w.tl.timeline.map (fireItem w.tl.timelinepos)).get? i = some it2 := hi2
        rw [get?_map_eq] at hi3
        cases hget : w.tl.timeline.get? i with
        | none => rw [hget] at hi3; cases hi3
        | some it =>
          rw [hget] at hi3
          simp only [Option.map_some', Option.some.injEq] at hi3
          subst hi3
          have hf3 : it.func = some f := by
            rw [← (fireItem_shape w.tl.timelinepos it).2]; exact hf2
          show List.count (TLEvent.func i f) (traceAfter w) = w.tl.looped + _
          rw [count_traceAfter w i f it hget hf3, hI.cnt i it f hget hf3, fireItem_done]
          cases hdn : it.done <;> by_cases hfr : it.frame ≤ w.tl.timelinepos <;>
            simp [hdn, hfr, hr]
      · intro h
        have : w.tl.running = false := h
        rw [hr] at this; cases this

theorem SchedInv.ticks {sched : List (Nat × Option Nat)} {L : Nat} {w : TLWorld}
    (hI : SchedInv sched L w) (hL1 : 1 ≤ L) (hL2 : L < U64) :
    ∀ k, SchedInv sched L (BeeKind.ticks k w) := by
  intro k
  induction k with
  | zero => exact hI
  | succ j ih => exact ih.tick hL1 hL2

theorem ticks_succ_left (w : TLWorld) (j : Nat) :
    ticks (j + 1) w = ticks j (timeline_call w) := by
  have := ticks_add w j 1
  rw [Nat.add_comm] at this
  exact this

/-- A running pass comes to its end: after some ticks the timeline has either
stopped or completed one more loop. -/
theorem pass_completes {sched : List (Nat × Option Nat)} {L : Nat} (hL1 : 1 ≤ L)
    (hL2 : L < U64) (hfr : ∀ e ∈ sched, e.1 < U64) :
    ∀ (d : Nat) (w : TLWorld), SchedInv sched L w → w.tl.running = true →
      U64 - w.tl.timelinepos ≤ d →
      ∃ j, (ticks j w).tl.running = false ∨
        ((ticks j w).tl.running = true ∧ (ticks j w).tl.looped = w.tl.looped + 1) := by
  have hframe : ∀ (w : TLWorld), SchedInv sched L w → ∀ it ∈ w.tl.timeline, it.frame < U64 := by
    intro w hI it hit
    have : (it.frame, it.func) ∈ sched := by
      rw [← hI.shape]; exact List.mem_map_of_mem _ hit
    exact hfr _ this
  have hdone : ∀ (w : TLWorld), SchedInv sched L w → w.tl.running = true → passDone w →
      ∃ j, (ticks j w).tl.running = false ∨
        ((ticks j w).tl.running = true ∧ (ticks j w).tl.looped = w.tl.looped + 1) := by
    intro w hI hr hp
    have hlt := hI.run hr
    have hmod : (w.tl.looped + 1) % U64 = w.tl.looped + 1 := mod_U64 (by omega)
    refine ⟨1, ?_⟩
    have e1 : ticks 1 w = timeline_call w := rfl
    rw [e1]
    by_cases hl : w.tl.looped + 1 < L
    · right
      rw [tick_reset w hr hp (by rw [hmod, hI.loopL]; exact Or.inr hl)]
      exact ⟨hr, hmod⟩
    · left
      rw [tick_stop w hr hp (by rw [hmod, hI.loopL]; omega)]
  intro d
  induction d with
  | zero =>
    intro w hI hr hd
    apply hdone w hI hr
    intro it hit
    rw [fireItem_done]
    have := hframe w hI it hit
    have h2 : it.frame ≤ w.tl.timelinepos := by omega
    simp [h2]
  | succ d ih =>
    intro w hI hr hd
    by_cases hp : passDone w
    · exact hdone w hI hr hp
    · have hex : ∃ it ∈ w.tl.timeline, w.tl.timelinepos < it.frame := by
        unfold passDone at hp
        push_neg at hp
        obtain ⟨it, hit, hnd⟩ := hp
        refine ⟨it, hit, ?_⟩
        rw [fireItem_done] at hnd
        by_contra hcon
        have : it.frame ≤ w.tl.timelinepos := by omega
        simp [this] at hnd
      obtain ⟨it, hit, hlt⟩ := hex
      have hfrm := hframe w hI it hit
      have hmod : (w.tl.timelinepos + 1) % U64 = w.tl.timelinepos + 1 := mod_U64 (by omega)
      have hstep := tick_continue w hr hp
      have hI2 := hI.tick hL1 hL2
      obtain ⟨j, hj⟩ := ih (timeline_call w) hI2 (by rw [hstep]; exact hr)
        (by rw [hstep]; show U64 - (w.tl.timelinepos + 1) % U64 ≤ d; rw [hmod]; omega)
      refine ⟨j + 1, ?_⟩
      rw [ticks_succ_left]
      have hlp : (timeline_call w).tl.looped = w.tl.looped := by rw [hstep]
      rw [hlp] at hj
      exact hj

/-- A bounded run stops. -/
theorem run_stops {sched : List (Nat × Option Nat)} {L : Nat} (hL1 : 1 ≤ L)
    (hL2 : L < U64) (hfr : ∀ e ∈ sched, e.1 < U64) :
    ∀ (n : Nat) (w : TLWorld), SchedInv sched L w → L - w.tl.looped ≤ n →
      ∃ T, (ticks T w).tl.running = false := by
  intro n
  induction n with
  | zero =>
    intro w hI hn
    cases hr : w.tl.running with
    | false => exact ⟨0, hr⟩
    | true => have := hI.run hr; omega
  | succ n ih =>
    intro w hI hn
    cases hr : w.tl.running with
    | false => exact ⟨0, hr⟩
    | true =>
      obtain ⟨j, hj⟩ := pass_completes hL1 hL2 hfr (U64 - w.tl.timelinepos) w hI hr (le_refl _)
      rcases hj with hj | ⟨-, hj⟩
      · exact ⟨j, hj⟩
      · obtain ⟨T, hT⟩ := ih (ticks j w) (hI.ticks hL1 hL2 j) (by rw [hj]; omega)
        refine ⟨j + T, ?_⟩
        rw [ticks_add]
        exact hT

theorem scheduleAll_eq : ∀ (sched : List (Nat × Option Nat)) (tl : timelineobj),
    scheduleAll tl sched =
      { tl with timeline := tl.timeline ++ sched.map (fun e => ⟨e.1, e.2, false⟩) } := by
  intro sched
  induction sched with
  | nil => intro tl; simp [scheduleAll]
  | cons e rest ih =>
    intro tl
    simp [scheduleAll, ih, timeline_add]

theorem bounded_inv (tl0 : timelineobj) (sched : List (Nat × Option Nat)) (cb : Option Nat)
    (L : Nat) (hL1 : 1 ≤ L) : SchedInv sched L (bounded tl0 sched cb L) := by
  have htl : (bounded tl0 sched cb L).tl.timeline =
      sched.map (fun e => ⟨e.1, e.2, false⟩) := by
    simp [bounded, timeline_begin, timeline_addcallback, scheduleAll_eq, timeline_reset]
  refine ⟨?_, rfl, ?_, fun _ => by show 0 < L; omega, fun h => by cases h⟩
  · rw [htl, List.map_map]
    have : ((fun it : timelineitem => (it.frame, it.func)) ∘
        fun e : Nat × Option Nat => (⟨e.1, e.2, false⟩ : timelineitem)) = id := by
      funext e; rfl
    rw [this, List.map_id]
  · intro i it f hi _
    rw [htl, get?_map_eq] at hi
    cases hget : sched.get? i with
    | none => rw [hget] at hi; cases hi
    | some e =>
      rw [hget] at hi
      simp only [Option.map_some', Option.some.injEq] at hi
      subst hi
      simp [bounded, timeline_begin]

/-- C5: after `timeline_reset`, `timeline_add(N, action)` and
`timeline_begin(1)`, the first `N` calls of `timeline_call` do not run the
action, the call entered with `timelinepos == N` runs it exactly once and
leaves `running` false, and no later call runs it again. -/
theorem timeline_single_shot (tl0 : timelineobj) (N a : Nat) (hN : N < U64) :
    (∀ k, k ≤ N → (ticks k (singleShot tl0 N a)).trace = [] ∧
      (ticks k (singleShot tl0 N a)).tl.timelinepos = k ∧
      (ticks k (singleShot tl0 N a)).tl.running = true) ∧
    (∀ k, N + 1 ≤ k → (ticks k (singleShot tl0 N a)).trace = [TLEvent.func 0 a] ∧
      (ticks k (singleShot tl0 N a)).tl.running = false) := by
  have hfire : ticks (N + 1) (singleShot tl0 N a) =
      ⟨⟨[⟨N, some a, true⟩], (N + 1) % U64, none, false, 1, 1⟩, [TLEvent.func 0 a]⟩ := by
    show timeline_call (ticks N _) = _
    rw [singleShot_ticks tl0 N a hN N (le_refl _), singleShot_fire]
    rfl
  constructor
  · intro k hk
    rw [singleShot_ticks tl0 N a hN k hk]
    exact ⟨rfl, rfl, rfl⟩
  · intro k hk
    obtain ⟨j, rfl⟩ : ∃ j, k = (N + 1) + j := ⟨k - (N + 1), by omega⟩
    rw [ticks_add, hfire, ticks_stopped _ rfl]
    exact ⟨rfl, rfl⟩

/-- The single-shot schedule with the action at frame 5. -/
theorem timeline_single_shot_witness :
    5 < U64 ∧
    ((∀ k, k ≤ 5 → (ticks k (singleShot staleTimeline 5 1)).trace = [] ∧
      (ticks k (singleShot staleTimeline 5 1)).tl.timelinepos = k ∧
      (ticks k (singleShot staleTimeline 5 1)).tl.running = true) ∧
    (∀ k, 5 + 1 ≤ k → (ticks k (singleShot staleTimeline 5 1)).trace = [TLEvent.func 0 1] ∧
      (ticks k (singleShot staleTimeline 5 1)).tl.running = false)) :=
  ⟨by decide, timeline_single_shot staleTimeline 5 1 (by decide)⟩

/-- C6: after `timeline_reset`, `timeline_add(N, action)` with `N >= 1` and
`timeline_begin(0)`, `running` is true after every call of `timeline_call`,
and after `k` calls the action has run exactly `(k-1)/N` times: it runs in
call `N + 1` and then in every `N`-th call after that, for ever (after
`1 + q*N + r` calls with `r < N` it has run `q` times). -/
theorem timeline_loop_forever (tl0 : timelineobj) (N a : Nat) (h1 : 1 ≤ N) (hN : N < U64) :
    (∀ k, (ticks k (looping tl0 N a)).tl.running = true ∧
      (ticks k (looping tl0 N a)).trace = List.replicate ((k - 1) / N) (TLEvent.func 0 a)) ∧
    (∀ q r, r < N →
      (ticks (1 + q * N + r) (looping tl0 N a)).trace = List.replicate q (TLEvent.func 0 a)) ∧
    (∀ q, (ticks (q * N + N) (looping tl0 N a)).trace.length = q ∧
      (ticks (q * N + N + 1) (looping tl0 N a)).trace.length = q + 1) := by
  have hqr : ∀ q r, r < N →
      (ticks (1 + q * N + r) (looping tl0 N a)).tl.running = true ∧
      (ticks (1 + q * N + r) (looping tl0 N a)).trace = List.replicate q (TLEvent.func 0 a) := by
    intro q r hr
    obtain ⟨lp, h⟩ := looping_ticks tl0 N a h1 hN q r hr
    rw [h]
    exact ⟨rfl, rfl⟩
  refine ⟨?_, fun q r hr => (hqr q r hr).2, ?_⟩
  · intro k
    cases k with
    | zero => exact ⟨rfl, by simp; rfl⟩
    | succ j =>
      have hj : 1 + (j / N) * N + j % N = j + 1 := by
        have := Nat.div_add_mod j N
        rw [Nat.mul_comm] at this
        omega
      have := hqr (j / N) (j % N) (Nat.mod_lt _ (by omega))
      rw [hj] at this
      simpa using this
  · intro q
    have e1 : q * N + N = 1 + q * N + (N - 1) := by omega
    have e2 : q * N + N + 1 = 1 + (q + 1) * N + 0 := by rw [Nat.succ_mul]; omega
    constructor
    · rw [e1, (hqr q (N - 1) (by omega)).2]
      simp
    · rw [e2, (hqr (q + 1) 0 (by omega)).2]
      simp

/-- The looping schedule with the action at frame 2. -/
theorem timeline_loop_forever_witness :
    1 ≤ 2 ∧ 2 < U64 ∧
    ((∀ k, (ticks k (looping staleTimeline 2 1)).tl.running = true ∧
      (ticks k (looping staleTimeline 2 1)).trace
        = List.replicate ((k - 1) / 2) (TLEvent.func 0 1)) ∧
    (∀ q r, r < 2 →
      (ticks (1 + q * 2 + r) (looping staleTimeline 2 1)).trace
        = List.replicate q (TLEvent.func 0 1)) ∧
    (∀ q, (ticks (q * 2 + 2) (looping staleTimeline 2 1)).trace.length = q ∧
      (ticks (q * 2 + 2 + 1) (looping staleTimeline 2 1)).trace.length = q + 1)) :=
  ⟨by decide, by decide, timeline_loop_forever staleTimeline 2 1 (by decide) (by decide)⟩

/-- C7: for every loop count `L >= 1` and every schedule, after
`timeline_begin(L)` there is a tick `T` before which the timeline is running
with fewer than `L` completed passes, and from which on it is stopped with
`L` completed passes and an unchanging trace; at every moment the action of
every item has run once per completed pass, plus once if the item is done in
the pass under way, so exactly `L` times in total from tick `T` on. -/
theorem timeline_bounded_loops (tl0 : timelineobj) (sched : List (Nat × Option Nat))
    (cb : Option Nat) (L : Nat) (hL1 : 1 ≤ L) (hL2 : L < U64)
    (hfr : ∀ e ∈ sched, e.1 < U64) :
    ∃ T,
      (∀ k, k < T → (ticks k (bounded tl0 sched cb L)).tl.running = true ∧
        (ticks k (bounded tl0 sched cb L)).tl.looped < L) ∧
      (∀ k, T ≤ k → (ticks k (bounded tl0 sched cb L)).tl.running = false ∧
        (ticks k (bounded tl0 sched cb L)).tl.looped = L ∧
        (ticks k (bounded tl0 sched cb L)).trace = (ticks T (bounded tl0 sched cb L)).trace) ∧
      (∀ k i fr f, sched.get? i = some (fr, some f) →
        List.count (TLEvent.func i f) (ticks k (bounded tl0 sched cb L)).trace =
          (ticks k (bounded tl0 sched cb L)).tl.looped +
            (if (ticks k (bounded tl0 sched cb L)).tl.running = true ∧
                doneAt (ticks k (bounded tl0 sched cb L)).tl i = true then 1 else 0)) ∧
      (∀ k i fr f, T ≤ k → sched.get? i = some (fr, some f) →
        List.count (TLEvent.func i f) (ticks k (bounded tl0 sched cb L)).trace = L) := by
  have hI := (bounded_inv tl0 sched cb L hL1).ticks hL1 hL2
  obtain ⟨T0, hT0⟩ := run_stops hL1 hL2 hfr _ (bounded tl0 sched cb L)
    (bounded_inv tl0 sched cb L hL1) (le_refl _)
  have hex : ∃ T, (ticks T (bounded tl0 sched cb L)).tl.running = false := ⟨T0, hT0⟩
  have hstop := Nat.find_spec hex
  have hafter : ∀ k, Nat.find hex ≤ k →
      ticks k (bounded tl0 sched cb L) = ticks (Nat.find hex) (bounded tl0 sched cb L) := by
    intro k hk
    obtain ⟨j, rfl⟩ : ∃ j, k = Nat.find hex + j := ⟨k - Nat.find hex, by omega⟩
    rw [ticks_add, ticks_stopped _ hstop]
  have hcount : ∀ k i fr f, sched.get? i = some (fr, some f) →
      List.count (TLEvent.func i f) (ticks k (bounded tl0 sched cb L)).trace =
        (ticks k (bounded tl0 sched cb L)).tl.looped +
          (if (ticks k (bounded tl0 sched cb L)).tl.running = true ∧
              doneAt (ticks k (bounded tl0 sched cb L)).tl i = true then 1 else 0) := by
    intro k i fr f hs
    have hsh := (hI k).shape
    have hg : ((ticks k (bounded tl0 sched cb L)).tl.timeline.map
        (fun it => (it.frame, it.func))).get? i = some (fr, some f) := by rw [hsh]; exact hs
    rw [get?_map_eq] at hg
    cases hget : (ticks k (bounded tl0 sched cb L)).tl.timeline.get? i with
    | none => rw [hget] at hg; cases hg
    | some it =>
      rw [hget] at hg
      simp only [Option.map_some', Option.some.injEq, Prod.mk.injEq] at hg
      rw [(hI k).cnt i it f hget hg.2]
      unfold doneAt
      rw [hget]
  refine ⟨Nat.find hex, ?_, ?_, hcount, ?_⟩
  · intro k hk
    have h1 := Nat.find_min hex hk
    have h2 : (ticks k (bounded tl0 sched cb L)).tl.running = true := by
      cases h : (ticks k (bounded tl0 sched cb L)).tl.running with
      | false => exact absurd h h1
      | true => rfl
    exact ⟨h2, (hI k).run h2⟩
  · intro k hk
    rw [hafter k hk]
    exact ⟨hstop, (hI _).stop hstop, rfl⟩
  · intro k i fr f hk hs
    rw [hcount k i fr f hs, hafter k hk, hstop, (hI _).stop hstop]
    simp

/-- Two loops over the three-item schedule. -/
theorem timeline_bounded_loops_witness :
    1 ≤ 2 ∧ 2 < U64 ∧ (∀ e ∈ demoSchedule, e.1 < U64) ∧
    ∃ T,
      (∀ k, k < T → (ticks k (bounded staleTimeline demoSchedule none 2)).tl.running = true ∧
        (ticks k (bounded staleTimeline demoSchedule none 2)).tl.looped < 2) ∧
      (∀ k, T ≤ k → (ticks k (bounded staleTimeline demoSchedule none 2)).tl.running = false ∧
        (ticks k (bounded staleTimeline demoSchedule none 2)).tl.looped = 2 ∧
        (ticks k (bounded staleTimeline demoSchedule none 2)).trace
          = (ticks T (bounded staleTimeline demoSchedule none 2)).trace) ∧
      (∀ k i fr f, demoSchedule.get? i = some (fr, some f) →
        List.count (TLEvent.func i f) (ticks k (bounded staleTimeline demoSchedule none 2)).trace =
          (ticks k (bounded staleTimeline demoSchedule none 2)).tl.looped +
            (if (ticks k (bounded staleTimeline demoSchedule none 2)).tl.running = true ∧
                doneAt (ticks k (bounded staleTimeline demoSchedule none 2)).tl i = true
              then 1 else 0)) ∧
      (∀ k i fr f, T ≤ k → demoSchedule.get? i = some (fr, some f) →
        List.count (TLEvent.func i f) (ticks k (bounded staleTimeline demoSchedule none 2)).trace
          = 2) :=
  ⟨by decide, by decide, by decide,
    timeline_bounded_loops staleTimeline demoSchedule none 2 (by decide) (by decide)
      (by decide)⟩

/-- C14: with `running` false, `timeline_call` leaves every field of the
timeline as it was (items with their fired flags, `timelinepos`, `looped`,
`loop`, `callback`, `running`) and calls nothing: the trace of calls is the one
before the call. -/
theorem timeline_call_not_running (w : TLWorld) (h : w.tl.running = false) :
    (timeline_call w).tl = w.tl ∧ (timeline_call w).trace = w.trace := by
  rw [timeline_call_stopped w h]
  exact ⟨rfl, rfl⟩

/-- A stopped timeline that still has an item to run and a callback. -/
theorem timeline_call_not_running_witness :
    stoppedWorld.tl.running = false ∧
    (timeline_call stoppedWorld).tl = stoppedWorld.tl ∧
    (timeline_call stoppedWorld).trace = stoppedWorld.trace :=
  ⟨rfl, timeline_call_not_running stoppedWorld rfl⟩

theorem callItems_done (pos size : Nat) (running : Bool) :
    ∀ (items : List timelineitem) (i : Nat), (∀ it ∈ items, it.done = true) →
      callItems pos size running i items = (items, [], 0) := by
  intro items
  induction items with
  | nil => intro i _; rfl
  | cons it rest ih =>
    intro i h
    have hd : it.done = true := h it (by simp)
    simp only [callItems, ih (i + 1) (fun it2 h2 => h it2 (by simp [h2])), hd]
    simp [hd]

/-- C28: `timeline_begin` leaves the fired flags as they are. When every item
has fired already, the tick after `timeline_begin(L)` runs no action (the trace
grows by the call of the callback at most), and with `L == 1` it sets `running`
back to false. -/
theorem begin_keeps_flags (tl : timelineobj) (L : Nat) (tr : List TLEvent)
    (hdone : ∀ it ∈ tl.timeline, it.done = true) :
    (timeline_begin tl L).timeline = tl.timeline ∧
    (timeline_call ⟨timeline_begin tl L, tr⟩).trace =
      tr ++ callCallback (timeline_begin tl L) ∧
    (∀ i f, List.count (TLEvent.func i f) (timeline_call ⟨timeline_begin tl L, tr⟩).trace =
      List.count (TLEvent.func i f) tr) ∧
    (L = 1 → (timeline_call ⟨timeline_begin tl L, tr⟩).tl.running = false) := by
  have hc : ∀ pos size running, callItems pos size running 0 tl.timeline = (tl.timeline, [], 0) :=
    fun pos size running => callItems_done pos size running tl.timeline 0 hdone
  have htr : (timeline_call ⟨timeline_begin tl L, tr⟩).trace =
      tr ++ callCallback (timeline_begin tl L) := by
    unfold timeline_call
    simp only [timeline_begin, Bool.not_true, Bool.false_eq_true, if_false, hc,
      List.append_nil]
  refine ⟨rfl, htr, ?_, ?_⟩
  · intro i f
    rw [htr, List.count_append, count_callCallback]
    rfl
  · intro hL
    subst hL
    unfold timeline_call
    simp only [timeline_begin, Bool.not_true, Bool.false_eq_true, if_false, hc, if_true]
    have h1 : ¬ ((1 : Nat) = 0 ∨ (0 + 1) % U64 < 1) := by decide
    simp only [h1, if_false]

/-- The timeline of a completed single-shot run, begun again for one loop. -/
theorem begin_keeps_flags_witness :
    (∀ it ∈ spentTimeline.timeline, it.done = true) ∧
    (timeline_begin spentTimeline 1).timeline = spentTimeline.timeline ∧
    (timeline_call ⟨timeline_begin spentTimeline 1, []⟩).trace =
      [] ++ callCallback (timeline_begin spentTimeline 1) ∧
    (∀ i f, List.count (TLEvent.func i f)
        (timeline_call ⟨timeline_begin spentTimeline 1, []⟩).trace =
      List.count (TLEvent.func i f) []) ∧
    ((1 : Nat) = 1 → (timeline_call ⟨timeline_begin spentTimeline 1, []⟩).tl.running = false) :=
  ⟨by decide, begin_keeps_flags spentTimeline 1 [] (by decide)⟩

example : spentTimeline = ⟨[⟨3, some 7, true⟩], 4, none, false, 1, 1⟩ := by decide

example : (ticks 4 (bounded staleTimeline demoSchedule none 0)).tl.looped = 1 := by decide
example : (ticks 3 (bounded staleTimeline demoSchedule none 0)).tl.looped = 0 := by decide
example : (ticks 7 (bounded staleTimeline demoSchedule none 0)).tl.looped = 2 := by decide
example : (ticks 6 (bounded staleTimeline demoSchedule none 0)).tl.looped = 1 := by decide
example : (ticks 7 (bounded staleTimeline demoSchedule none 0)).tl.timelinepos = 1 := by decide

/-! ## main.cpp: entity bookkeeping -/

theorem countchars_fold (tileids : List Nat) : ∀ (chars : List gamechar) (acc : Nat),
    acc + chars.length < U32 →
    chars.foldl (fun found c => if tileids.count c.id > 0 then (found + 1) % U32 else found) acc
      = acc + (chars.filter (fun c => decide (tileids.count c.id > 0))).length := by
  intro chars
  induction chars with
  | nil => intro acc _; simp
  | cons c rest ih =>
    intro acc h
    simp only [List.length_cons] at h
    simp only [List.foldl_cons, List.filter_cons]
    by_cases hc : tileids.count c.id > 0
    · have hm : (acc + 1) % U32 = acc + 1 := Nat.mod_eq_of_lt (by omega)
      simp only [hc, if_true, hm, decide_True, List.length_cons]
      rw [ih (acc + 1) (by omega)]
      omega
    · simp only [hc, if_false, decide_False]
      rw [ih acc (by omega)]
      simp

theorem countchars_eq (chars : List gamechar) (tileids : List Nat) (h : chars.length < U32) :
    countchars chars tileids =
      (chars.filter (fun c => decide (tileids.count c.id > 0))).length := by
  unfold countchars
  rw [countchars_fold tileids chars 0 (by omega)]
  simp

theorem count_pair_pos (a b v : Nat) : List.count v [a, b] > 0 ↔ v = a ∨ v = b := by
  simp only [gt_iff_lt, List.count_pos_iff, List.mem_cons, List.mem_singleton,
    List.not_mem_nil, or_false]

theorem purgeLoop_eq {α : Type} (del : α → Bool) : ∀ (i : Nat) (l : List α), i ≤ l.length →
    purgeLoop del i l = (l.take i).filter (fun c => !del c) ++ l.drop i := by
  intro i
  induction i with
  | zero => intro l _; simp [purgeLoop]
  | succ i ih =>
    intro l hi
    have hlt : i < l.length := by omega
    have hget : l.get? i = some (l.get ⟨i, hlt⟩) := List.get?_eq_get hlt
    have htake : l.take (i + 1) = l.take i ++ [l.get ⟨i, hlt⟩] := by
      rw [List.take_succ, List.getElem?_eq_getElem hlt]
      rfl
    have hdrop : l.drop i = l.get ⟨i, hlt⟩ :: l.drop (i + 1) := by
      rw [List.drop_eq_getElem_cons hlt]; rfl
    unfold purgeLoop
    rw [hget]
    simp only
    have hfilter : (l.take (i + 1)).filter (fun c => !del c) =
        (l.take i).filter (fun c => !del c) ++
          (if del (l.get ⟨i, hlt⟩) = true then [] else [l.get ⟨i, hlt⟩]) := by
      rw [htake, List.filter_append, List.filter_cons, List.filter_nil]
      cases del (l.get ⟨i, hlt⟩) <;> rfl
    rw [hfilter]
    by_cases hd : del (l.get ⟨i, hlt⟩) = true
    · have hlen : i ≤ (l.eraseIdx i).length := by
        rw [List.eraseIdx_eq_take_drop_succ, List.length_append, List.length_take,
          List.length_drop]
        omega
      rw [if_pos hd, if_pos hd, ih _ hlen, List.eraseIdx_eq_take_drop_succ]
      have h1 : (List.take i l ++ List.drop (i + 1) l).take i = l.take i := by
        rw [List.take_append_of_le_length (by rw [List.length_take]; omega)]
        rw [List.take_take]; simp
      have h2 : (List.take i l ++ List.drop (i + 1) l).drop i = l.drop (i + 1) := by
        rw [List.drop_append_of_le_length (by rw [List.length_take]; omega)]
        rw [List.drop_take]; simp
      rw [h1, h2, List.append_nil]
    · rw [if_neg hd, if_neg hd, ih l (by omega), hdrop, List.append_assoc]
      rfl

theorem purge_all {α : Type} (del : α → Bool) (l : List α) :
    purgeLoop del l.length l = l.filter (fun c => !del c) := by
  rw [purgeLoop_eq del l.length l (le_refl _)]
  simp

theorem countchars_pair (chars : List gamechar) (a b : Nat) (h : chars.length < U32) :
    countchars chars [a, b] = (chars.filter (fun c => decide (c.id = a ∨ c.id = b))).length := by
  rw [countchars_eq chars [a, b] h]
  congr 1
  apply List.filter_congr
  intro c _
  by_cases hc : c.id = a ∨ c.id = b
  · simp only [hc, decide_True, decide_eq_true_eq]; exact (count_pair_pos a b c.id).2 hc
  · simp only [hc, decide_False, decide_eq_false_iff_not]
    exact fun h2 => hc ((count_pair_pos a b c.id).1 h2)

theorem countchars_zero_iff (chars : List gamechar) (a b : Nat) (h : chars.length < U32) :
    countchars chars [a, b] = 0 ↔ ∀ c ∈ chars, c.id ≠ a ∧ c.id ≠ b := by
  rw [countchars_pair chars a b h, List.length_eq_zero, List.filter_eq_nil_iff]
  constructor
  · intro h2 c hc
    have := h2 c hc
    simp only [decide_eq_true_eq, not_or] at this
    exact this
  · intro h2 c hc
    have := h2 c hc
    simp only [decide_eq_true_eq, not_or]
    exact this

theorem length_filter_not {α : Type} (p : α → Bool) : ∀ (l : List α),
    (l.filter (fun c => !p c)).length + l.countP p = l.length := by
  intro l
  induction l with
  | nil => rfl
  | cons a t ih =>
    cases h : p a
    · simp only [List.filter_cons, h, Bool.not_false, if_true, List.length_cons,
        List.countP_cons, Bool.false_eq_true, if_false]
      omega
    · simp only [List.filter_cons, h, Bool.not_true, Bool.false_eq_true, if_false,
        List.length_cons, List.countP_cons, if_true]
      omega

/-- C9: for an entity collection (of fewer than 2^32 entities, the range of the
loop counter of `countchars`) and a level index with `level+5 <= 255`,
`islevelcompleted()` is true exactly when no entity has id 55 or 56, none has
id 53 or 54, and at least `level+5` entities have id 51 or 52; so without
predators and drifters it is true for `level+5` foragers and false for
`level+4`. -/
theorem islevelcompleted_iff (chars : List gamechar) (level : Nat)
    (hlen : chars.length < U32) (hlv : level + 5 ≤ 255) :
    (islevelcompleted chars level = true ↔
      (∀ c ∈ chars, c.id ≠ 55 ∧ c.id ≠ 56) ∧ (∀ c ∈ chars, c.id ≠ 53 ∧ c.id ≠ 54) ∧
      level + 5 ≤ (chars.filter (fun c => decide (c.id = 51 ∨ c.id = 52))).length) ∧
    ((∀ c ∈ chars, c.id ≠ 55 ∧ c.id ≠ 56) → (∀ c ∈ chars, c.id ≠ 53 ∧ c.id ≠ 54) →
      (chars.filter (fun c => decide (c.id = 51 ∨ c.id = 52))).length = level + 5 →
      islevelcompleted chars level = true) ∧
    ((chars.filter (fun c => decide (c.id = 51 ∨ c.id = 52))).length = level + 4 →
      islevelcompleted chars level = false) := by
  have hmod : (level + 5) % 256 = level + 5 := Nat.mod_eq_of_lt (by omega)
  have hiff : islevelcompleted chars level = true ↔
      (∀ c ∈ chars, c.id ≠ 55 ∧ c.id ≠ 56) ∧ (∀ c ∈ chars, c.id ≠ 53 ∧ c.id ≠ 54) ∧
      level + 5 ≤ (chars.filter (fun c => decide (c.id = 51 ∨ c.id = 52))).length := by
    unfold islevelcompleted
    rw [Bool.and_eq_true, Bool.and_eq_true, beq_iff_eq, beq_iff_eq, decide_eq_true_eq, hmod,
      countchars_zero_iff chars 55 56 hlen, countchars_zero_iff chars 53 54 hlen,
      countchars_pair chars 51 52 hlen, and_assoc]
  refine ⟨hiff, fun h1 h2 h3 => hiff.2 ⟨h1, h2, by omega⟩, ?_⟩
  intro h4
  cases hc : islevelcompleted chars level with
  | false => rfl
  | true =>
    have := (hiff.1 hc).2.2
    omega

/-- Level 0 with five foragers and nothing else is completed. -/
theorem islevelcompleted_iff_witness :
    fiveBees.length < U32 ∧ 0 + 5 ≤ 255 ∧ islevelcompleted fiveBees 0 = true :=
  ⟨by decide, by decide,
    (islevelcompleted_iff fiveBees 0 (by decide) (by decide)).2.1 (by decide) (by decide)
      (by decide)⟩

/-- C10: the purge pass at the end of `updatecharAI`, and the identical pass
over the shots in `guncheck`, returns the input filtered by "not `del`": the
flagged entries are removed, the others keep their state and their order, so
flagging one entity of `M` leaves `M-1`. -/
theorem purge_is_filter (chars : List gamechar) (shots : List shot)
    (hc : chars.length < U32) (hs : shots.length < U32) :
    purgechars chars = chars.filter (fun c => !c.del) ∧
    purgeshots shots = shots.filter (fun s => !s.del) ∧
    (purgechars chars).length + chars.countP gamechar.del = chars.length ∧
    (chars.countP gamechar.del = 1 → (purgechars chars).length = chars.length - 1) := by
  have h1 : purgechars chars = chars.filter (fun c => !c.del) := by
    unfold purgechars
    rw [Nat.mod_eq_of_lt hc, purge_all]
  have h2 : purgeshots shots = shots.filter (fun s => !s.del) := by
    unfold purgeshots
    rw [Nat.mod_eq_of_lt hs, purge_all]
  have h3 := length_filter_not gamechar.del chars
  refine ⟨h1, h2, by rw [h1]; exact h3, ?_⟩
  intro h4
  rw [h1]
  omega

/-- Purging three entities with the middle one flagged, and two shots with
the first one flagged. -/
theorem purge_is_filter_witness :
    threeChars.length < U32 ∧ twoShots.length < U32 ∧
    purgechars threeChars = [mkchar 51 false, mkchar 55 false] ∧
    purgeshots twoShots = [mkshot 5 false] ∧
    (purgechars threeChars).length = threeChars.length - 1 :=
  ⟨by decide, by decide,
    (purge_is_filter threeChars twoShots (by decide) (by decide)).1.trans (by decide),
    (purge_is_filter threeChars twoShots (by decide) (by decide)).2.1.trans (by decide),
    (purge_is_filter threeChars twoShots (by decide) (by decide)).2.2.2 (by decide)⟩

/-! ## main.cpp: message box and level change -/

/-- C12: `showmessagebox(text, t)` makes the message the active box, the queue
unchanged, when no box is active and the state is `STATEPLAYING`; in every
other case it appends `(text, t)` to the end of the queue and leaves the active
box as it was. One of the two happens on every call, so no request is
dropped. -/
theorem showmessagebox_spec (gs : gamestate) (text : String) (t : Nat) :
    (gs.msgboxtime = 0 ∧ gs.state = STATEPLAYING →
      showmessagebox gs text t = { gs with msgboxtext := text, msgboxtime := t }) ∧
    (¬ (gs.msgboxtime = 0 ∧ gs.state = STATEPLAYING) →
      showmessagebox gs text t = { gs with msgqueue := gs.msgqueue ++ [⟨text, t⟩] }) ∧
    (((showmessagebox gs text t).msgboxtext = text ∧
        (showmessagebox gs text t).msgboxtime = t ∧
        (showmessagebox gs text t).msgqueue = gs.msgqueue) ∨
      (showmessagebox gs text t).msgqueue = gs.msgqueue ++ [⟨text, t⟩]) := by
  unfold showmessagebox
  refine ⟨fun h => by rw [if_pos h], fun h => by rw [if_neg h], ?_⟩
  by_cases h : gs.msgboxtime = 0 ∧ gs.state = STATEPLAYING
  · rw [if_pos h]; exact Or.inl ⟨rfl, rfl, rfl⟩
  · rw [if_neg h]; exact Or.inr rfl

/-- A call with no box on show, and a call while a box is on show. -/
theorem showmessagebox_spec_witness :
    (idleState.msgboxtime = 0 ∧ idleState.state = STATEPLAYING) ∧
    showmessagebox idleState "[45]Race" 90 =
      { idleState with msgboxtext := "[45]Race", msgboxtime := 90 } ∧
    ¬ (playingState.msgboxtime = 0 ∧ playingState.state = STATEPLAYING) ∧
    showmessagebox playingState "[45]Race" 90 =
      { playingState with msgqueue := playingState.msgqueue ++ [⟨"[45]Race", 90⟩] } :=
  ⟨by decide, (showmessagebox_spec idleState "[45]Race" 90).1 (by decide), by decide,
    (showmessagebox_spec playingState "[45]Race" 90).2.1 (by decide)⟩

/-- C13: while `msgboxtime > 0`, `drawmsgbox` takes 1 off `msgboxtime` and
changes nothing else (the icon tag of the text on show being a number, as in
every message of the program); with `msgboxtime == 0`, the state `STATEPLAYING`
and a queue `m :: rest`, the front entry `m` becomes the active box and the
queue becomes `rest`; with `msgboxtime == 0` otherwise nothing changes. The
queue therefore changes only when `msgboxtime == 0` in state `STATEPLAYING`. -/
theorem drawmsgbox_spec (gs : gamestate) :
    (0 < gs.msgboxtime → msgboxicon gs.msgboxtext ≠ none →
      drawmsgbox gs = some { gs with msgboxtime := gs.msgboxtime - 1 }) ∧
    (gs.msgboxtime = 0 → gs.state = STATEPLAYING → ∀ m rest, gs.msgqueue = m :: rest →
      drawmsgbox gs = some { gs with msgboxtext := m.msgboxtext,
                                     msgboxtime := m.msgboxtime, msgqueue := rest }) ∧
    (gs.msgboxtime = 0 → gs.state ≠ STATEPLAYING ∨ gs.msgqueue = [] →
      drawmsgbox gs = some gs) ∧
    (∀ gs2, drawmsgbox gs = some gs2 → gs2.msgqueue ≠ gs.msgqueue →
      gs.msgboxtime = 0 ∧ gs.state = STATEPLAYING) := by
  have h1 : 0 < gs.msgboxtime → msgboxicon gs.msgboxtext ≠ none →
      drawmsgbox gs = some { gs with msgboxtime := gs.msgboxtime - 1 } := by
    intro h0 hi
    unfold drawmsgbox
    rw [if_pos h0]
    cases hm : msgboxicon gs.msgboxtext with
    | none => exact absurd hm hi
    | some v => rfl
  have h2 : gs.msgboxtime = 0 → gs.state = STATEPLAYING → ∀ m rest, gs.msgqueue = m :: rest →
      drawmsgbox gs = some { gs with msgboxtext := m.msgboxtext,
                                     msgboxtime := m.msgboxtime, msgqueue := rest } := by
    intro h0 hs m rest hq
    unfold drawmsgbox showmessagebox
    rw [if_neg (by omega), if_pos ⟨hs, by rw [hq]; simp⟩]
    simp only [hq, List.head?_cons]
    rw [if_pos ⟨h0, hs⟩]
    simp [hq]
  have h3 : gs.msgboxtime = 0 → gs.state ≠ STATEPLAYING ∨ gs.msgqueue = [] →
      drawmsgbox gs = some gs := by
    intro h0 hc
    unfold drawmsgbox
    rw [if_neg (by omega), if_neg]
    rintro ⟨hs, hl⟩
    rcases hc with hc | hc
    · exact hc hs
    · rw [hc] at hl; simp at hl
  refine ⟨h1, h2, h3, ?_⟩
  intro gs2 hd hne
  by_cases h0 : 0 < gs.msgboxtime
  · exfalso
    cases hm : msgboxicon gs.msgboxtext with
    | none =>
      unfold drawmsgbox at hd
      rw [if_pos h0, hm] at hd
      cases hd
    | some v =>
      rw [h1 h0 (by rw [hm]; simp)] at hd
      apply hne
      rw [← Option.some.inj hd]
  · have h00 : gs.msgboxtime = 0 := by omega
    refine ⟨h00, ?_⟩
    by_contra hs
    rw [h3 h00 (Or.inl hs)] at hd
    apply hne
    rw [← Option.some.inj hd]

/-- A call while a hint is on show, and a call that takes the next message off
the queue. -/
theorem drawmsgbox_spec_witness :
    0 < playingState.msgboxtime ∧ msgboxicon playingState.msgboxtext ≠ none ∧
    drawmsgbox playingState = some { playingState with msgboxtime := 11 } ∧
    idleState.msgboxtime = 0 ∧ idleState.state = STATEPLAYING ∧
    idleState.msgqueue = [⟨"[53]Remove all threats", 90⟩, ⟨"[51]2 more bees needed", 90⟩] ∧
    drawmsgbox idleState =
      some { idleState with msgboxtext := "[53]Remove all threats", msgboxtime := 90,
                            msgqueue := [⟨"[51]2 more bees needed", 90⟩] } :=
  ⟨by decide, by decide, (drawmsgbox_spec playingState).1 (by decide) (by decide),
    by decide, by decide, by decide,
    (drawmsgbox_spec idleState).2.1 (by decide) (by decide) _ _ rfl⟩

/-- C15: `newlevel(level)` with `level >= levels.size()` changes nothing: the
level, the state, the message box, the queue and the timeline are those before
the call. -/
theorem newlevel_out_of_range (nlevels : Nat) (g : Game) (level : Nat)
    (h : nlevels ≤ level) : newlevel nlevels g level = g := by
  unfold newlevel
  rw [if_pos h]

/-- A request for level 7 of 7 levels during play. -/
theorem newlevel_out_of_range_witness :
    7 ≤ 7 ∧ newlevel 7 playingGame 7 = playingGame :=
  ⟨by decide, newlevel_out_of_range 7 playingGame 7 (by decide)⟩

theorem draws_countdown (gs : gamestate) (hi : msgboxicon gs.msgboxtext ≠ none) :
    ∀ k, k ≤ gs.msgboxtime → draws k gs = some { gs with msgboxtime := gs.msgboxtime - k } := by
  intro k
  induction k with
  | zero => intro _; rfl
  | succ k ih =>
    intro hk
    show (draws k gs).bind drawmsgbox = _
    rw [ih (by omega)]
    show drawmsgbox _ = _
    unfold drawmsgbox
    have h1 : gs.msgboxtime - k > 0 := by omega
    simp only [h1, if_true]
    cases hm : msgboxicon gs.msgboxtext with
    | none => exact absurd hm hi
    | some v =>
      show some _ = some _
      congr 2

/-- C38: message order is not first-in-first-out. With no active box, the state
`STATEPLAYING` and messages waiting in the queue, `showmessagebox(m, t)` with
`t > 0` makes `m` the active box at once and leaves the queue as it is. When
the icon tag of `m` is a number, the next `t` calls of `drawmsgbox` show `m`,
counting its time down, with the queue untouched; only the call after them
takes the first waiting message off the queue and makes it the active box. -/
theorem showmessagebox_jumps_queue (gs : gamestate) (m : String) (t : Nat)
    (h0 : gs.msgboxtime = 0) (hs : gs.state = STATEPLAYING) (hq : gs.msgqueue ≠ [])
    (ht : 0 < t) :
    showmessagebox gs m t = { gs with msgboxtext := m, msgboxtime := t } ∧
    (showmessagebox gs m t).msgboxtime > 0 ∧
    (showmessagebox gs m t).msgqueue = gs.msgqueue ∧
    (showmessagebox gs m t).msgqueue ≠ [] ∧
    (msgboxicon m ≠ none →
      (∀ k, k ≤ t → draws k (showmessagebox gs m t) =
        some { gs with msgboxtext := m, msgboxtime := t - k }) ∧
      (∀ q rest, gs.msgqueue = q :: rest →
        draws (t + 1) (showmessagebox gs m t) =
          some { gs with msgboxtext := q.msgboxtext, msgboxtime := q.msgboxtime,
                         msgqueue := rest })) := by
  have e : showmessagebox gs m t = { gs with msgboxtext := m, msgboxtime := t } := by
    unfold showmessagebox
    rw [if_pos ⟨h0, hs⟩]
  refine ⟨e, by rw [e]; exact ht, by rw [e], by rw [e]; exact hq, ?_⟩
  intro hi
  have hc := draws_countdown { gs with msgboxtext := m, msgboxtime := t } hi
  refine ⟨fun k hk => by rw [e]; exact hc k hk, ?_⟩
  intro q rest hqr
  show (draws t (showmessagebox gs m t)).bind drawmsgbox = _
  rw [e, hc t (le_refl _)]
  show drawmsgbox _ = _
  unfold drawmsgbox showmessagebox
  simp [hs, hqr]

/-- The theorem `showmessagebox_jumps_queue` at `idleState`, where two messages
wait in the queue. -/
theorem showmessagebox_jumps_queue_witness :
    idleState.msgboxtime = 0 ∧ idleState.state = STATEPLAYING ∧ idleState.msgqueue ≠ [] ∧
    showmessagebox idleState "[45]Race" 90 =
      { idleState with msgboxtext := "[45]Race", msgboxtime := 90 } :=
  ⟨by decide, by decide, by decide,
    (showmessagebox_jumps_queue idleState "[45]Race" 90 (by decide) (by decide) (by decide)
      (by decide)).1⟩

/-! ## main.cpp: character AI -/

/-- C11: the pass of the collision scan of a non-dwelling zombee over a bee it
overlaps that has no pollen changes nothing: the pollen of the two entities and
the dwell of the zombee are what they were, as is every other entity. -/
theorem zombee_steal_nothing (g : Game) (id id2 : Nat)
    (hz : (charAt g id).id = 53 ∨ (charAt g id).id = 54) (hd : (charAt g id).dwell = 0)
    (hb : (charAt g id2).id = 51 ∨ (charAt g id2).id = 52)
    (ho : overlap (charAt g id).x (charAt g id).y 16 16 (charAt g id2).x (charAt g id2).y 16 16
      = true)
    (hp : (charAt g id2).pollen = 0) :
    zombeevisit g id id2 = g ∧
      (charAt (zombeevisit g id id2) id2).pollen = (charAt g id2).pollen ∧
      (charAt (zombeevisit g id id2) id).pollen = (charAt g id).pollen ∧
      (charAt (zombeevisit g id id2) id).dwell = 0 := by
  have h : zombeevisit g id id2 = g := by
    unfold zombeevisit
    simp only [hd, ho, hp, and_true]
    rw [if_pos (by tauto), if_pos hb, if_neg (by decide)]
  rw [h]
  exact ⟨rfl, rfl, rfl, hd⟩

/-- The zombee of `robGame` over its bee. -/
theorem zombee_steal_nothing_witness :
    ((charAt robGame 0).id = 53 ∨ (charAt robGame 0).id = 54) ∧ (charAt robGame 0).dwell = 0 ∧
    ((charAt robGame 1).id = 51 ∨ (charAt robGame 1).id = 52) ∧
    overlap (charAt robGame 0).x (charAt robGame 0).y 16 16
      (charAt robGame 1).x (charAt robGame 1).y 16 16 = true ∧
    (charAt robGame 1).pollen = 0 ∧
    zombeevisit robGame 0 1 = robGame ∧
      (charAt (zombeevisit robGame 0 1) 1).pollen = (charAt robGame 1).pollen ∧
      (charAt (zombeevisit robGame 0 1) 0).pollen = (charAt robGame 0).pollen ∧
      (charAt (zombeevisit robGame 0 1) 0).dwell = 0 :=
  ⟨by decide!, by decide!, by decide!, by decide!, by decide!,
    zombee_steal_nothing robGame 0 1 (by decide!) (by decide!) (by decide!) (by decide!)
      (by decide!)⟩

/-- C19 at the failing input: the toadstool at index 0 of `hatchGame` is
processed, then the grub at index 1 turns into a zombee and `updatecharAI` is
left by `return`; the toadstool marked for deletion before the pass is still in
the collection after it, where the purge would have removed it. -/
theorem hatch_keeps_flagged :
    (updatecharAI halves notiles 400 hatchGame).map (fun g => g.gs.chars.map gamechar.del)
      = some [true, false, false] ∧
    (purgechars hatchChars).map gamechar.del = [false, false] := by
  decide!

/-- C20 at the failing input: the grub at index 1 of `hatchGame` turns into a
zombee without moving, and the zombee after it is not processed in this pass:
its hurt timer is still 60 and its dwell still 20, where a pass through the loop
body for it takes each down by one. The toadstool before the grub has been
processed. -/
theorem hatch_skips_later :
    (updatecharAI halves notiles 400 hatchGame).map (fun g => g.gs.chars) =
      some [{ mkchar 31 true with x := 160, y := 64, htime := 59, growtime := 399 },
            { mkchar 53 false with x := 32, y := 64, health := 10, hs := 1 / 4, dwell := 150 },
            { mkchar 53 false with x := 96, y := 32, htime := 60, health := 9, dwell := 20 }] ∧
    (charstep halves notiles 400 hatchGame 2).map (fun r => (charAt r.1 2, r.2)) =
      some ({ mkchar 53 false with x := 96, y := 32, htime := 59, health := 9, dwell := 19 },
        false) := by
  decide!

/-- C21 at the failing input: the grub of `ledgeGame` finds a ledge ahead and
turns around (speed negated, flip toggled), but its x position after the pass
is 24.25, the position of the step it was not to take, and not 24. -/
theorem grub_turn_moves :
    (updatecharAI halves ledgeTiles 10 ledgeGame).map (fun g => g.gs.chars) =
      some [{ mkchar 55 false with x := 97 / 4, y := 16, hs := -(1 / 4), flip := true, health := 5 }] ∧
    (charAt ledgeGame 0).x = 24 := by
  decide!

/-- C23 at the failing input: the nearest target of the zombee of `trackGame`
is at (80, 32), its tracked destination is (64, 32): no route is requested, the
pending route and the tracked destination stay as they were, and the zombee
takes one step along the old route. -/
theorem zombee_keeps_stale_route :
    findnearestchar trackGame 16 32 [36, 51, 52] = 1 ∧
    ((charAt trackGame 1).x, (charAt trackGame 1).y) = (80, 32) ∧
    zombeecase notiles 400 trackGame 0 =
      some (setchar trackGame 0 fun c => { c with x := 65 / 4, hs := 1 / 4 }) ∧
    reroute notiles 400 trackGame 0 1 = some trackGame := by
  decide!

theorem findnearestLoop_spec (x y : ℚ) (tileids : List Nat) :
    ∀ (l : List gamechar) (i0 : Nat) (c0 : ℚ) (charid0 : Int),
      (findnearestLoop x y tileids l i0 c0 charid0 = charid0 ∧
        ∀ c ∈ l, tileids.count c.id > 0 → c0 ≤ dist2 x y c) ∨
      (∃ j, ∃ hj : j < l.length,
        findnearestLoop x y tileids l i0 c0 charid0 = wrap16 ((i0 + j : Nat) : Int) ∧
        tileids.count (l.get ⟨j, hj⟩).id > 0 ∧ dist2 x y (l.get ⟨j, hj⟩) < c0 ∧
        ∀ c ∈ l, tileids.count c.id > 0 → dist2 x y (l.get ⟨j, hj⟩) ≤ dist2 x y c) := by
  intro l
  induction l with
  | nil => intro i0 c0 charid0; left; exact ⟨rfl, fun c hc => by cases hc⟩
  | cons a t ih =>
    intro i0 c0 charid0
    unfold findnearestLoop
    by_cases hc : tileids.count a.id > 0 ∧ (x - a.x) ^ 2 + (y - a.y) ^ 2 < c0
    · rw [if_pos hc]
      right
      have hd : dist2 x y a = (x - a.x) ^ 2 + (y - a.y) ^ 2 := rfl
      rcases ih (i0 + 1) ((x - a.x) ^ 2 + (y - a.y) ^ 2) (wrap16 i0) with ⟨h1, h2⟩ | ⟨j, hj, h1, h2, h3, h4⟩
      · refine ⟨0, by simp, ?_, hc.1, hc.2, ?_⟩
        · rw [h1]; simp
        · intro c hcm hcc
          show dist2 x y a ≤ dist2 x y c
          rcases List.mem_cons.1 hcm with rfl | hcm
          · exact le_refl _
          · rw [hd]; exact h2 c hcm hcc
      · refine ⟨j + 1, by simp [hj], ?_, by simpa using h2, ?_, ?_⟩
        · rw [h1]; congr 2; omega
        · have : dist2 x y (t.get ⟨j, hj⟩) < c0 := lt_trans h3 hc.2
          simpa using this
        · intro c hcm hcc
          have e : (a :: t).get ⟨j + 1, by simp [hj]⟩ = t.get ⟨j, hj⟩ := rfl
          rw [e]
          rcases List.mem_cons.1 hcm with rfl | hcm
          · rw [hd]; exact le_of_lt h3
          · exact h4 c hcm hcc
    · rw [if_neg hc]
      have hd : dist2 x y a = (x - a.x) ^ 2 + (y - a.y) ^ 2 := rfl
      rcases ih (i0 + 1) c0 charid0 with ⟨h1, h2⟩ | ⟨j, hj, h1, h2, h3, h4⟩
      · left
        refine ⟨h1, ?_⟩
        intro c hcm hcc
        rcases List.mem_cons.1 hcm with rfl | hcm
        · rw [hd]
          by_contra hlt
          exact hc ⟨hcc, lt_of_not_le hlt⟩
        · exact h2 c hcm hcc
      · right
        refine ⟨j + 1, by simp [hj], ?_, by simpa using h2, by simpa using h3, ?_⟩
        · rw [h1]; congr 2; omega
        · intro c hcm hcc
          have e : (a :: t).get ⟨j + 1, by simp [hj]⟩ = t.get ⟨j, hj⟩ := rfl
          rw [e]
          rcases List.mem_cons.1 hcm with rfl | hcm
          · rw [hd]
            by_contra hlt
            have h5 : (x - c.x) ^ 2 + (y - c.y) ^ 2 < dist2 x y (t.get ⟨j, hj⟩) :=
              lt_of_not_le hlt
            exact hc ⟨hcc, lt_trans h5 h3⟩
          · exact h4 c hcm hcc

/-- What `findnearestchar` returns: `-1` when no entity of the kind is within
reach, else the index of a nearest one. -/
theorem findnearestchar_spec (g : Game) (x y : ℚ) (tileids : List Nat)
    (hlen : g.gs.chars.length ≤ 32767) :
    (InReach g x y tileids → Nearest g x y tileids (findnearestchar g x y tileids) ∧
      findnearestchar g x y tileids ≠ -1) ∧
    (¬ InReach g x y tileids → findnearestchar g x y tileids = -1) := by
  have hsp := findnearestLoop_spec x y tileids g.gs.chars 0 (reach2 g) (-1)
  have hfn : findnearestchar g x y tileids =
      findnearestLoop x y tileids g.gs.chars 0 (reach2 g) (-1) := rfl
  rcases hsp with ⟨h1, h2⟩ | ⟨j, hj, h1, h2, h3, h4⟩
  · constructor
    · rintro ⟨c, hc, hcc, hlt⟩
      exact absurd hlt (not_lt.2 (h2 c hc hcc))
    · intro _; rw [hfn, h1]
  · have hw : wrap16 ((0 + j : Nat) : Int) = (j : Int) := by
      rw [Nat.zero_add]
      exact wrap16_id (by omega) (by omega)
    have hget : charAt g j = g.gs.chars.get ⟨j, hj⟩ := by
      unfold charAt
      rw [List.getD_eq_getElem _ _ hj]
      rfl
    constructor
    · intro _
      refine ⟨⟨j, hj, by rw [hfn, h1, hw], by rw [hget]; exact h2, ?_⟩, ?_⟩
      · intro c hc hcc
        rw [hget]; exact h4 c hc hcc
      · rw [hfn, h1, hw]; omega
    · intro hn
      exact absurd ⟨_, List.get_mem _ _ _, h2, h3⟩ hn

/-- C22 (as stated, refuted): an idle bee (no route, dwell 0) carrying two
units of pollen, with a hive two tiles away and a flower eight tiles away. The
nearest depot exists (index 1), yet the AI pass sends the bee to the flower:
its tracked destination becomes the position of the flower and its route ends
at the cell of the flower. -/
theorem bee_prefers_flower :
    (charAt forageGame 0).id = 51 ∧ (charAt forageGame 0).dwell = 0 ∧
    (charAt forageGame 0).path = [] ∧ (charAt forageGame 0).pollen = 2 ∧
    findnearestchar forageGame 32 32 [36, 37] = 1 ∧
    ((charAt forageGame 1).x, (charAt forageGame 1).y) = (64, 32) ∧
    ((charAt forageGame 2).id, (charAt forageGame 2).x, (charAt forageGame 2).y) = (32, 160, 32) ∧
    (updatecharAI halves notiles 60 forageGame).map
      (fun g => ((charAt g 0).dx, (charAt g 0).dy, (charAt g 0).path.getLast?)) =
      some (160, 32, some (cellof 12 160 32)) := by
  decide!

/-- C22 (amended): the target choice of a bee, in a collection of at most 32767
entities. With less than five units of pollen and a flower within reach, the
bee hands the nearest flower to the re-route test, whether or not it carries
pollen and whether or not a hive exists. Otherwise, with pollen and a hive
within reach, it hands over the nearest hive. Otherwise it asks for a route to
the player when its route is empty, and dwells when that route has at most one
node. An idle bee reaches this choice after its scan of the entities, when it
is still not dwelling. -/
theorem bee_target_choice (rnd : Nat → ℚ) (tiles : Nat → Nat) (fuel : Nat) (g : Game) (id : Nat)
    (hlen : g.gs.chars.length ≤ 32767) :
    let c := charAt g id
    (InReach g c.x c.y [32, 33] → c.pollen < 5 →
      Nearest g c.x c.y [32, 33] (findnearestchar g c.x c.y [32, 33]) ∧
      beetarget tiles fuel g id =
        reroute tiles fuel g id (findnearestchar g c.x c.y [32, 33])) ∧
    (¬ (InReach g c.x c.y [32, 33] ∧ c.pollen < 5) →
      InReach g c.x c.y [36, 37] → c.pollen > 0 →
      Nearest g c.x c.y [36, 37] (findnearestchar g c.x c.y [36, 37]) ∧
      beetarget tiles fuel g id =
        reroute tiles fuel g id (findnearestchar g c.x c.y [36, 37])) ∧
    (¬ (InReach g c.x c.y [32, 33] ∧ c.pollen < 5) →
      ¬ (InReach g c.x c.y [36, 37] ∧ c.pollen > 0) →
      beetarget tiles fuel g id =
        if c.path.length = 0 then
          match pathfinder (gridOf g tiles) fuel (cellof g.gs.width c.x c.y)
              (cellof g.gs.width g.gs.x g.gs.y) with
          | none => none
          | some p =>
            if (charAt (setchar g id fun c => { c with path := p }) id).path.length ≤ 1 then
              some (setchar (setchar g id fun c => { c with path := p }) id
                fun c => { c with dwell := 2 * 30 })
            else some (setchar g id fun c => { c with path := p })
        else some g) ∧
    (c.dwell = 0 → c.path = [] →
      beecase rnd tiles fuel g id =
        (beescan rnd id fuel 0 g).bind fun g1 =>
          if (charAt g1 id).dwell = 0 then beetarget tiles fuel g1 id else some g1) := by
  intro c
  have hf := findnearestchar_spec g c.x c.y [32, 33] hlen
  have hh := findnearestchar_spec g c.x c.y [36, 37] hlen
  refine ⟨?_, ?_, ?_, ?_⟩
  · intro hr hp
    obtain ⟨hn, hne⟩ := hf.1 hr
    refine ⟨hn, ?_⟩
    unfold beetarget
    simp only []
    rw [if_pos (⟨hne, hp⟩ : findnearestchar g c.x c.y [32, 33] ≠ -1 ∧ c.pollen < 5), if_pos hne]
  · intro hnf hr hp
    obtain ⟨hn, hne⟩ := hh.1 hr
    refine ⟨hn, ?_⟩
    have hno : ¬ (findnearestchar g c.x c.y [32, 33] ≠ -1 ∧ c.pollen < 5) := by
      rintro ⟨h1, h2⟩
      by_cases hr2 : InReach g c.x c.y [32, 33]
      · exact hnf ⟨hr2, h2⟩
      · exact h1 (hf.2 hr2)
    unfold beetarget
    simp only []
    rw [if_neg hno, if_pos (⟨hne, hp⟩ : findnearestchar g c.x c.y [36, 37] ≠ -1 ∧ c.pollen > 0),
      if_pos hne]
  · intro hnf hnh
    have hno : ¬ (findnearestchar g c.x c.y [32, 33] ≠ -1 ∧ c.pollen < 5) := by
      rintro ⟨h1, h2⟩
      by_cases hr2 : InReach g c.x c.y [32, 33]
      · exact hnf ⟨hr2, h2⟩
      · exact h1 (hf.2 hr2)
    have hnoh : ¬ (findnearestchar g c.x c.y [36, 37] ≠ -1 ∧ c.pollen > 0) := by
      rintro ⟨h1, h2⟩
      by_cases hr2 : InReach g c.x c.y [36, 37]
      · exact hnh ⟨hr2, h2⟩
      · exact h1 (hh.2 hr2)
    unfold beetarget
    simp only []
    rw [if_neg hno, if_neg hnoh, if_neg (by simp)]
  · intro hd hp
    unfold beecase
    have hd2 : (charAt g id).dwell = 0 := hd
    have hp2 : (charAt g id).path = [] := hp
    rw [if_neg (by omega), if_neg (by rw [hp2]; simp)]
    cases beescan rnd id fuel 0 g <;> rfl

/-- The theorem `bee_target_choice` at the bee of `forageGame`, which has less
than five units of pollen and a flower within reach. -/
theorem bee_target_choice_witness :
    forageGame.gs.chars.length ≤ 32767 ∧
    beetarget notiles 60 forageGame 0 =
      reroute notiles 60 forageGame 0
        (findnearestchar forageGame (charAt forageGame 0).x (charAt forageGame 0).y [32, 33]) :=
  ⟨by decide,
    ((bee_target_choice halves notiles 60 forageGame 0 (by decide)).1
      ⟨(charAt forageGame 2), by decide, by decide, by decide!⟩ (by decide)).2⟩

theorem charAt_congr {g g2 : Game} (h : g2.gs.chars = g.gs.chars) (i : Nat) :
    charAt g2 i = charAt g i := by
  unfold charAt; rw [h]

theorem setchar_path (g : Game) (j : Nat) (f : gamechar → gamechar)
    (hf : ∀ c, (f c).path = c.path) (i : Nat) :
    (charAt (setchar g j f) i).path = (charAt g i).path := by
  unfold charAt setchar
  simp only [List.getD_eq_getElem?_getD, List.getElem?_set]
  by_cases hji : j = i
  · subst hji
    by_cases hj : j < g.gs.chars.length
    · simp [hj, hf, charAt, List.getD_eq_getElem?_getD]
    · simp [hj, List.getElem?_eq_none (not_lt.1 hj)]
  · simp [hji]

theorem rng_charAt (rnd : Nat → ℚ) (g : Game) (i : Nat) : charAt (rng rnd g).2 i = charAt g i :=
  rfl

theorem generateparticles_chars (rnd : Nat → ℚ) (cx cy mt : ℚ) (r gg b : Nat) :
    ∀ (n : Nat) (g : Game), (generateparticles rnd cx cy mt r gg b n g).gs.chars = g.gs.chars := by
  intro n
  induction n with
  | zero => intro g; rfl
  | succ n ih => intro g; unfold generateparticles; rw [ih]

theorem generateparticles_charAt (rnd : Nat → ℚ) (cx cy mt : ℚ) (r gg b n : Nat) (g : Game)
    (i : Nat) : charAt (generateparticles rnd cx cy mt r gg b n g) i = charAt g i :=
  charAt_congr (generateparticles_chars rnd cx cy mt r gg b n g) i

theorem showmessagebox_chars (gs : gamestate) (text : String) (t : Nat) :
    (showmessagebox gs text t).chars = gs.chars := by
  unfold showmessagebox; split <;> rfl

theorem showmessagebox_charAt (g : Game) (text : String) (t : Nat) (i : Nat) :
    charAt { g with gs := showmessagebox g.gs text t } i = charAt g i :=
  charAt_congr (showmessagebox_chars g.gs text t) i

theorem eatplant_path (rnd : Nat → ℚ) (g : Game) (id2 big : Nat) (i : Nat) :
    (charAt (eatplant rnd g id2 big) i).path = (charAt g i).path := by
  unfold eatplant
  simp only []
  split
  · split
    · simp only [setchar_path, rng_charAt, implies_true]
    · simp only [setchar_path, implies_true]
  · simp only [setchar_path, implies_true]

theorem append_newbee_path (g : Game) (x y : ℚ) (i : Nat) :
    (charAt { g with gs := { g.gs with chars := g.gs.chars ++ [newbee x y] } } i).path =
      (charAt g i).path := by
  unfold charAt
  simp only [List.getD_eq_getElem?_getD]
  by_cases hi : i < g.gs.chars.length
  · rw [List.getElem?_append_left hi]
  · rw [List.getElem?_append_right (by omega)]
    rw [List.getElem?_eq_none (by omega : g.gs.chars.length ≤ i)]
    by_cases h0 : i - g.gs.chars.length = 0
    · rw [h0]; rfl
    · rw [List.getElem?_eq_none (by simp; omega)]

theorem hivedeposit_path (rnd : Nat → ℚ) (g : Game) (id id2 : Nat) (i : Nat) :
    (charAt (hivedeposit rnd g id id2) i).path = (charAt g i).path := by
  unfold hivedeposit
  simp only []
  split
  · split
    · split
      · split
        · simp only [showmessagebox_charAt, generateparticles_charAt, append_newbee_path,
            setchar_path, implies_true]
        · simp only [generateparticles_charAt, append_newbee_path, setchar_path, implies_true]
      · simp only [showmessagebox_charAt, generateparticles_charAt, append_newbee_path,
          setchar_path, implies_true]
    · simp only [setchar_path, implies_true]
  · rfl

theorem beevisit_path (rnd : Nat → ℚ) (g : Game) (id id2 : Nat) (i : Nat) :
    (charAt (beevisit rnd g id id2) i).path = (charAt g i).path := by
  unfold beevisit
  simp only []
  split
  · split
    · simp only [eatplant_path, setchar_path, implies_true]
    · exact hivedeposit_path rnd g id id2 i
  · rfl

theorem beescan_path (rnd : Nat → ℚ) (id : Nat) (i : Nat) :
    ∀ (k id2 : Nat) (g g1 : Game), beescan rnd id k id2 g = some g1 →
      (charAt g1 i).path = (charAt g i).path := by
  intro k
  induction k with
  | zero => intro id2 g g1 h; simp [beescan] at h
  | succ k ih =>
    intro id2 g g1 h
    unfold beescan at h
    split at h
    · rw [ih _ _ _ h, beevisit_path]
    · cases h; rfl

/-- C24 (as stated, refuted): a zombee that is not dwelling, with three route
nodes pending, whose nearest target (the bee at index 1) lies at a position
that differs in both coordinates from its tracked destination. The re-route
replaces the pending route by the result of a pathfinder call, and the AI pass
leaves the zombee on the new route; with no fuel for the pathfinder the case
of the zombee has no result, which is how a call shows. -/
theorem zombee_reroutes_midway :
    (charAt chaseGame 0).id = 53 ∧ (charAt chaseGame 0).dwell = 0 ∧
    (charAt chaseGame 0).path = [42, 43, 44] ∧
    findnearestchar chaseGame 16 32 [36, 51, 52] = 1 ∧
    (reroute notiles 400 chaseGame 0 1).map (fun g => (charAt g 0).path) =
      pathfinder (gridOf chaseGame notiles) 400 (cellof 20 16 32) (cellof 20 80 48) ∧
    pathfinder (gridOf chaseGame notiles) 400 (cellof 20 16 32) (cellof 20 80 48) =
      some [41, 42, 43, 44, 45, 65] ∧
    (updatecharAI halves notiles 400 chaseGame).map (fun g => (charAt g 0).path) =
      some [42, 43, 44, 45, 65] ∧
    zombeecase notiles 0 chaseGame 0 = none := by
  decide!

/-- C24 (amended): a bee that is dwelling only counts its dwell down, and a
bee that is not dwelling and has route nodes pending only follows its route:
neither result depends on a pathfinder call. A bee that is not dwelling and
has no route runs its scan of the entities, which leaves its route empty, and
only then comes to the target choice, where the pathfinder calls are. A zombee
that is dwelling only counts its dwell down. -/
theorem bee_route_guard (rnd : Nat → ℚ) (tiles : Nat → Nat) (fuel : Nat) (g : Game) (id : Nat) :
    ((charAt g id).dwell > 0 →
      beecase rnd tiles fuel g id = some (setchar g id fun c => { c with dwell := c.dwell - 1 })) ∧
    ((charAt g id).dwell ≤ 0 → (charAt g id).path ≠ [] →
      beecase rnd tiles fuel g id = some (setchar g id (beefollow g.gs.width))) ∧
    ((charAt g id).dwell ≤ 0 → (charAt g id).path = [] →
      ∀ g1, beescan rnd id fuel 0 g = some g1 →
        (charAt g1 id).path = [] ∧
        beecase rnd tiles fuel g id =
          if (charAt g1 id).dwell = 0 then beetarget tiles fuel g1 id else some g1) ∧
    ((charAt g id).dwell ≠ 0 →
      zombeecase tiles fuel g id = some (setchar g id fun c => { c with dwell := c.dwell - 1 })) := by
  refine ⟨?_, ?_, ?_, ?_⟩
  · intro hd
    unfold beecase
    rw [if_pos hd]
  · intro hd hp
    unfold beecase
    rw [if_neg (by omega), if_pos (List.length_pos.2 hp)]
  · intro hd hp g1 hs
    refine ⟨by rw [beescan_path rnd id id fuel 0 g g1 hs, hp], ?_⟩
    unfold beecase
    rw [if_neg (by omega), if_neg (by rw [hp]; simp), hs]
  · intro hd
    unfold zombeecase
    rw [if_neg hd]

/-- The theorem `bee_route_guard` at the dwelling bee of `trackGame`. -/
theorem bee_route_guard_witness :
    (charAt trackGame 1).dwell > 0 ∧
    beecase halves notiles 0 trackGame 1 =
      some (setchar trackGame 1 fun c => { c with dwell := c.dwell - 1 }) :=
  ⟨by decide, (bee_route_guard halves notiles 0 trackGame 1).1 (by decide)⟩

theorem setchar_length (g : Game) (j : Nat) (f : gamechar → gamechar) :
    (setchar g j f).gs.chars.length = g.gs.chars.length := by
  simp [setchar]

theorem charAt_setchar_self (g : Game) (j : Nat) (f : gamechar → gamechar)
    (h : j < g.gs.chars.length) : charAt (setchar g j f) j = f (charAt g j) := by
  have e : charAt g j = g.gs.chars[j] := by
    unfold charAt
    simp [List.getD_eq_getElem?_getD, h]
  unfold setchar
  rw [e]
  unfold charAt
  simp [List.getD_eq_getElem?_getD, List.getElem?_set, h]

theorem charAt_setchar_ne (g : Game) (j : Nat) (f : gamechar → gamechar) (i : Nat)
    (h : i ≠ j) : charAt (setchar g j f) i = charAt g i := by
  unfold charAt setchar
  simp [List.getD_eq_getElem?_getD, List.getElem?_set, Ne.symm h]

theorem countP_set_same (d : gamechar) : ∀ (l : List gamechar) (j : Nat) (b : gamechar),
    isbee b = isbee (l.getD j d) → (l.set j b).countP isbee = l.countP isbee := by
  intro l
  induction l with
  | nil => intro j b _; rfl
  | cons a t ih =>
    intro j b h
    cases j with
    | zero =>
      simp only [List.set_cons_zero, List.countP_cons]
      have : isbee b = isbee a := by simpa using h
      rw [this]
    | succ j =>
      simp only [List.set_cons_succ, List.countP_cons]
      rw [ih j b (by simpa using h)]

theorem countP_set_le : ∀ (l : List gamechar) (j : Nat) (b : gamechar),
    isbee b = false → (l.set j b).countP isbee ≤ l.countP isbee := by
  intro l
  induction l with
  | nil => intro j b _; simp
  | cons a t ih =>
    intro j b h
    cases j with
    | zero =>
      simp only [List.set_cons_zero, List.countP_cons, h]
      simp
    | succ j =>
      simp only [List.set_cons_succ, List.countP_cons]
      have := ih j b h
      omega

theorem nbees_setchar_same (g : Game) (j : Nat) (f : gamechar → gamechar)
    (hf : ∀ c, (f c).id = c.id) : nbees (setchar g j f) = nbees g := by
  unfold nbees setchar
  apply countP_set_same (mkchar 0 false)
  unfold isbee
  rw [hf]
  rfl

theorem nbees_setchar_le (g : Game) (j : Nat) (f : gamechar → gamechar)
    (h : isbee (f (charAt g j)) = false) : nbees (setchar g j f) ≤ nbees g := by
  unfold nbees setchar
  exact countP_set_le _ _ _ h

theorem nbees_congr {g g2 : Game} (h : g2.gs.chars = g.gs.chars) : nbees g2 = nbees g := by
  unfold nbees; rw [h]

theorem nbees_rng (rnd : Nat → ℚ) (g : Game) : nbees (rng rnd g).2 = nbees g := rfl

theorem nbees_particles (rnd : Nat → ℚ) (cx cy mt : ℚ) (r gg b n : Nat) (g : Game) :
    nbees (generateparticles rnd cx cy mt r gg b n g) = nbees g :=
  nbees_congr (generateparticles_chars rnd cx cy mt r gg b n g)

theorem nbees_msgbox (g : Game) (text : String) (t : Nat) :
    nbees { g with gs := showmessagebox g.gs text t } = nbees g :=
  nbees_congr (showmessagebox_chars g.gs text t)

theorem setchar_id (g : Game) (j : Nat) (f : gamechar → gamechar)
    (hf : ∀ c, (f c).id = c.id) (i : Nat) :
    (charAt (setchar g j f) i).id = (charAt g i).id := by
  by_cases hij : i = j
  · subst hij
    by_cases hl : i < g.gs.chars.length
    · rw [charAt_setchar_self g i f hl, hf]
    · have : setchar g i f = g := by
        unfold setchar
        rw [List.set_eq_of_length_le (by omega)]
      rw [this]
  · rw [charAt_setchar_ne g j f i hij]

theorem countfold_mod (tileids : List Nat) : ∀ (chars : List gamechar) (acc : Nat),
    acc < U32 →
    chars.foldl (fun found c => if tileids.count c.id > 0 then (found + 1) % U32 else found) acc
      = (acc + chars.countP (fun c => decide (tileids.count c.id > 0))) % U32 := by
  intro chars
  induction chars with
  | nil => intro acc h; simp [Nat.mod_eq_of_lt h]
  | cons c rest ih =>
    intro acc h
    simp only [List.foldl_cons, List.countP_cons]
    by_cases hc : tileids.count c.id > 0
    · simp only [hc, if_true, decide_True]
      rw [ih _ (Nat.mod_lt _ (by unfold U32; norm_num))]
      rw [Nat.add_mod, Nat.mod_mod, ← Nat.add_mod]
      congr 1
      omega
    · simp only [hc, if_false, decide_False]
      rw [ih acc h]
      simp

/-- The counter of `countchars` for the bees is the number of bees, modulo
`2^32`. -/
theorem countchars_bees (g : Game) : countchars g.gs.chars [51, 52] = nbees g % U32 := by
  unfold countchars nbees
  rw [countfold_mod [51, 52] g.gs.chars 0 (by unfold U32; norm_num), Nat.zero_add]
  congr 1
  apply List.countP_congr
  intro c _
  unfold isbee
  simp only [decide_eq_true_eq]
  exact count_pair_pos 51 52 c.id

theorem countchars_bees_le {g : Game} (h : nbees g ≤ 20) :
    countchars g.gs.chars [51, 52] = nbees g := by
  rw [countchars_bees]
  exact Nat.mod_eq_of_lt (lt_of_le_of_lt h (by unfold U32; norm_num))

theorem beefollow_id (w : Nat) (c : gamechar) : (beefollow w c).id = c.id := by
  unfold beefollow
  simp only [apply_ite gamechar.id, ite_self]

theorem zombeefollow_id (w : Nat) (c : gamechar) : (zombeefollow w c).id = c.id := by
  unfold zombeefollow
  simp only [apply_ite gamechar.id, ite_self]

theorem eatplant_nbees (rnd : Nat → ℚ) (g : Game) (id2 big : Nat) (hbig : big = 30 ∨ big = 32) :
    nbees (eatplant rnd g id2 big) ≤ nbees g := by
  unfold eatplant
  simp only []
  split
  · split
    · refine le_trans (nbees_setchar_le _ _ _ ?_) ?_
      · unfold isbee
        show decide (big + 1 = 51 ∨ big + 1 = 52) = false
        rcases hbig with h | h <;> rw [h] <;> decide
      · simp only [nbees_setchar_same, nbees_rng, implies_true, le_refl]
    · simp only [nbees_setchar_same, implies_true, le_refl]
  · simp only [nbees_setchar_same, implies_true, le_refl]

theorem nbees_push (g : Game) (x y : ℚ) :
    nbees { g with gs := { g.gs with chars := g.gs.chars ++ [newbee x y] } } = nbees g + 1 := by
  unfold nbees
  simp only [List.countP_append, List.countP_singleton]
  rfl

theorem hivedeposit_cap (rnd : Nat → ℚ) (g : Game) (id id2 : Nat) (h : nbees g ≤ 20) :
    nbees (hivedeposit rnd g id id2) ≤ 20 := by
  unfold hivedeposit
  simp only []
  split
  · split
    · rename_i hc
      have h3 : nbees (setchar (setchar (setchar g id fun c => { c with dwell := 2 * 30 }) id2
          fun c => { c with pollen := c.pollen +
            (charAt (setchar g id fun c => { c with dwell := 2 * 30 }) id).pollen }) id
          fun c => { c with pollen := 0 }) = nbees g := by
        simp only [nbees_setchar_same, implies_true]
      have hlt := hc.2
      rw [countchars_bees_le (by rw [h3]; exact h), h3] at hlt
      have hlt2 : nbees g + 1 ≤ 20 := by
        unfold MAXBEES at hlt
        omega
      split
      · split
        · simp only [nbees_msgbox, nbees_particles, nbees_push, nbees_setchar_same, implies_true]
          exact hlt2
        · simp only [nbees_particles, nbees_push, nbees_setchar_same, implies_true]
          exact hlt2
      · simp only [nbees_msgbox, nbees_particles, nbees_push, nbees_setchar_same, implies_true]
        exact hlt2
    · simp only [nbees_setchar_same, implies_true]
      exact h
  · exact h

theorem beevisit_cap (rnd : Nat → ℚ) (g : Game) (id id2 : Nat) (h : nbees g ≤ 20) :
    nbees (beevisit rnd g id id2) ≤ 20 := by
  unfold beevisit
  simp only []
  split
  · split
    · refine le_trans (eatplant_nbees rnd _ id2 32 (Or.inr rfl)) ?_
      simp only [nbees_setchar_same, implies_true]
      exact h
    · exact hivedeposit_cap rnd g id id2 h
  · exact h

theorem beescan_cap (rnd : Nat → ℚ) (id : Nat) : ∀ (k id2 : Nat) (g g1 : Game),
    nbees g ≤ 20 → beescan rnd id k id2 g = some g1 → nbees g1 ≤ 20 := by
  intro k
  induction k with
  | zero => intro id2 g g1 _ h; simp [beescan] at h
  | succ k ih =>
    intro id2 g g1 hc h
    unfold beescan at h
    split at h
    · exact ih _ _ _ (beevisit_cap rnd g id id2 hc) h
    · cases h; exact hc

theorem reroute_nbees (tiles : Nat → Nat) (fuel : Nat) (g : Game) (id : Nat) (nid : Int)
    (g1 : Game) (h : reroute tiles fuel g id nid = some g1) : nbees g1 = nbees g := by
  unfold reroute at h
  simp only [] at h
  split at h
  · split at h
    · cases h
    · cases h
      simp only [nbees_setchar_same, implies_true]
  · cases h; rfl

theorem beetarget_nbees (tiles : Nat → Nat) (fuel : Nat) (g : Game) (id : Nat)
    (g1 : Game) (h : beetarget tiles fuel g id = some g1) : nbees g1 = nbees g := by
  unfold beetarget at h
  simp only [] at h
  split_ifs at h
  all_goals first
    | exact reroute_nbees tiles fuel g id _ g1 h
    | (cases h; rfl)
    | (split at h
       · cases h
       · split at h <;> (cases h; simp only [nbees_setchar_same, implies_true]))

theorem beecase_cap (rnd : Nat → ℚ) (tiles : Nat → Nat) (fuel : Nat) (g : Game) (id : Nat)
    (g1 : Game) (hc : nbees g ≤ 20) (h : beecase rnd tiles fuel g id = some g1) :
    nbees g1 ≤ 20 := by
  unfold beecase at h
  split at h
  · cases h
    simp only [nbees_setchar_same, implies_true]
    exact hc
  · split at h
    · cases h
      rw [nbees_setchar_same _ _ _ (beefollow_id _)]
      exact hc
    · cases hs : beescan rnd id fuel 0 g with
      | none => rw [hs] at h; cases h
      | some g2 =>
        rw [hs] at h
        simp only at h
        have h2 := beescan_cap rnd id fuel 0 g g2 hc hs
        split at h
        · rw [beetarget_nbees tiles fuel g2 id g1 h]; exact h2
        · cases h; exact h2

theorem zombeevisit_nbees (g : Game) (id id2 : Nat) :
    nbees (zombeevisit g id id2) ≤ nbees g := by
  unfold zombeevisit
  simp only []
  split
  · split
    · split
      · simp only [nbees_setchar_same, implies_true, le_refl]
      · exact le_refl _
    · split
      · rename_i h36
        have hb : nbees (setchar g id2 fun c => { c with id := (c.id + 1) % 256 }) ≤ nbees g := by
          apply nbees_setchar_le
          unfold isbee
          show decide (((charAt g id2).id + 1) % 256 = 51 ∨ ((charAt g id2).id + 1) % 256 = 52) = false
          rw [h36]
          decide
        simp only [nbees_setchar_same, implies_true]
        split
        · simp only [nbees_setchar_same, implies_true]
          exact hb
        · exact hb
      · exact le_refl _
  · exact le_refl _

theorem zombeescan_nbees (id : Nat) : ∀ (k id2 : Nat) (g : Game),
    nbees (zombeescan id k id2 g) ≤ nbees g := by
  intro k
  induction k with
  | zero => intro id2 g; exact le_refl _
  | succ k ih =>
    intro id2 g
    unfold zombeescan
    exact le_trans (ih _ _) (zombeevisit_nbees g id id2)

theorem zombeecase_nbees (tiles : Nat → Nat) (fuel : Nat) (g : Game) (id : Nat) (g1 : Game)
    (h : zombeecase tiles fuel g id = some g1) : nbees g1 ≤ nbees g := by
  unfold zombeecase at h
  split at h
  · simp only [] at h
    have hscan := zombeescan_nbees id g.gs.chars.length 0 g
    split at h
    · cases h
    · rename_i g2 hr
      have h2 : nbees g2 ≤ nbees g := by
        split at hr
        · rw [reroute_nbees tiles fuel _ id _ g2 hr]; exact hscan
        · cases hr
          simp only [nbees_setchar_same, implies_true]
          exact hscan
      split at h
      · cases h
        rw [nbees_setchar_same _ _ _ (zombeefollow_id _)]
        exact h2
      · cases h; exact h2
  · cases h
    simp only [nbees_setchar_same, implies_true, le_refl]

theorem grubscan_nbees (rnd : Nat → ℚ) (id : Nat) : ∀ (k id2 : Nat) (g : Game),
    nbees (grubscan rnd id k id2 g).1 ≤ nbees g := by
  intro k
  induction k with
  | zero => intro id2 g; exact le_refl _
  | succ k ih =>
    intro id2 g
    unfold grubscan
    simp only []
    split
    · refine le_trans (eatplant_nbees rnd _ id2 30 (Or.inl rfl)) ?_
      simp only [nbees_setchar_same, implies_true, le_refl]
    · exact ih _ _

theorem grubmove_nbees (tiles : Nat → Nat) (g : Game) (id : Nat) :
    nbees (grubmove tiles g id) = nbees g := by
  unfold grubmove
  simp only []
  split_ifs <;> simp only [nbees_setchar_same, implies_true]

theorem grubcase_nbees (rnd : Nat → ℚ) (tiles : Nat → Nat) (g : Game) (id : Nat) :
    nbees (grubcase rnd tiles g id).1 ≤ nbees g := by
  have hscan := grubscan_nbees rnd id g.gs.chars.length 0 g
  unfold grubcase
  by_cases h1 : (charAt g id).dwell > 0
  · rw [if_pos h1]
    simp only [nbees_setchar_same, implies_true, le_refl]
  · rw [if_neg h1]
    simp only [apply_ite Prod.fst, apply_ite nbees, nbees_particles, grubmove_nbees]
    split_ifs
    all_goals first
      | (with_reducible exact hscan)
      | (simp only [nbees_setchar_same, nbees_rng, implies_true]
         with_reducible exact hscan)
      | (refine le_trans (nbees_setchar_le _ _ _ rfl) ?_
         simp only [nbees_setchar_same, nbees_rng, implies_true]
         with_reducible exact hscan)

theorem plantcase_nbees (g : Game) (id : Nat)
    (h : (charAt g id).id = 31 ∨ (charAt g id).id = 33) : nbees (plantcase g id) ≤ nbees g := by
  unfold plantcase
  simp only []
  split
  · refine le_trans (nbees_setchar_le _ _ _ ?_) ?_
    · unfold isbee
      show decide ((charAt _ id).id - 1 = 51 ∨ (charAt _ id).id - 1 = 52) = false
      simp only [setchar_id, implies_true]
      rcases h with h | h <;> rw [h] <;> decide
    · simp only [nbees_setchar_same, implies_true, le_refl]
  · simp only [nbees_setchar_same, implies_true, le_refl]

theorem charstep_cap (rnd : Nat → ℚ) (tiles : Nat → Nat) (fuel : Nat) (g : Game) (id : Nat)
    (r : Game × Bool) (hc : nbees g ≤ 20) (h : charstep rnd tiles fuel g id = some r) :
    nbees r.1 ≤ 20 := by
  unfold charstep at h
  simp only [] at h
  have h1 : nbees (if (charAt g id).htime > 0 then
      setchar g id fun c => { c with htime := c.htime - 1 } else g) ≤ 20 := by
    split
    · simp only [nbees_setchar_same, implies_true]; exact hc
    · exact hc
  generalize (if (charAt g id).htime > 0 then
      setchar g id fun c => { c with htime := c.htime - 1 } else g) = g1 at h h1
  split at h
  · rename_i ht
    cases h
    exact le_trans (plantcase_nbees g1 id ht) h1
  · split at h
    · cases hb : beecase rnd tiles fuel g1 id with
      | none => rw [hb] at h; cases h
      | some g2 =>
        rw [hb] at h
        cases h
        exact beecase_cap rnd tiles fuel g1 id g2 h1 hb
    · split at h
      · cases hz : zombeecase tiles fuel g1 id with
        | none => rw [hz] at h; cases h
        | some g2 =>
          rw [hz] at h
          cases h
          exact le_trans (zombeecase_nbees tiles fuel g1 id g2 hz) h1
      · split at h
        · cases h
          exact le_trans (grubcase_nbees rnd tiles g1 id) h1
        · cases h
          exact h1

theorem ailoop_cap (rnd : Nat → ℚ) (tiles : Nat → Nat) (fuel : Nat) :
    ∀ (k id : Nat) (g : Game) (r : Game × Bool), nbees g ≤ 20 →
      ailoop rnd tiles fuel k id g = some r → nbees r.1 ≤ 20 := by
  intro k
  induction k with
  | zero => intro id g r _ h; simp [ailoop] at h
  | succ k ih =>
    intro id g r hc h
    unfold ailoop at h
    split at h
    · cases hs : charstep rnd tiles fuel g id with
      | none => rw [hs] at h; cases h
      | some p =>
        rw [hs] at h
        have hp := charstep_cap rnd tiles fuel g id p hc hs
        obtain ⟨g1, b⟩ := p
        cases b with
        | true => simp only at h; cases h; exact hp
        | false => simp only at h; exact ih _ _ _ hp h
    · cases h; exact hc

theorem purgechars_nbees (g : Game) :
    nbees { g with gs := { g.gs with chars := purgechars g.gs.chars } } ≤ nbees g := by
  unfold nbees purgechars
  show (purgeLoop gamechar.del (g.gs.chars.length % U32) g.gs.chars).countP isbee ≤ _
  rw [purgeLoop_eq gamechar.del _ _ (Nat.mod_le _ _)]
  have e : g.gs.chars.countP isbee =
      (g.gs.chars.take (g.gs.chars.length % U32)).countP isbee +
        (g.gs.chars.drop (g.gs.chars.length % U32)).countP isbee := by
    rw [← List.countP_append, List.take_append_drop]
  rw [e, List.countP_append]
  have := List.Sublist.countP_le isbee
    (List.filter_sublist (p := fun c => !gamechar.del c)
      (g.gs.chars.take (g.gs.chars.length % U32)))
  omega

theorem updatecharAI_cap (rnd : Nat → ℚ) (tiles : Nat → Nat) (fuel : Nat) (g g2 : Game)
    (hc : nbees g ≤ 20) (h : updatecharAI rnd tiles fuel g = some g2) : nbees g2 ≤ 20 := by
  unfold updatecharAI at h
  cases hl : ailoop rnd tiles fuel fuel 0 g with
  | none => rw [hl] at h; cases h
  | some p =>
    rw [hl] at h
    have hp := ailoop_cap rnd tiles fuel fuel 0 g p hc hl
    obtain ⟨g1, b⟩ := p
    cases b with
    | true => simp only at h; cases h; exact hp
    | false =>
      simp only at h
      cases h
      exact le_trans (purgechars_nbees g1) hp

theorem countchars_setchar_same (g : Game) (j : Nat) (f : gamechar → gamechar)
    (hf : ∀ c, (f c).id = c.id) :
    countchars (setchar g j f).gs.chars [51, 52] = countchars g.gs.chars [51, 52] := by
  rw [countchars_bees, countchars_bees, nbees_setchar_same g j f hf]

/-- C36: hive spawning respects the population cap. In `hivedeposit`, with `g3`
the game after the transfer of the pollen of the bee to the hive: a new bee is
pushed exactly when the bee had pollen, the pollen of the hive after the
transfer is above 10 and `countchars({51,52})` is below `MAXBEES = 20`; the
collection is then that of `g3` with 10 taken off the pollen of the hive, and
the new bee at its end; in every other case the collection keeps its length.
Hence, for a collection of fewer than `2^32` entities with at most 20 bees, the
collection after `updatecharAI` has at most 20 bees, whatever deposits the pass
has made. -/
theorem hive_spawn_cap (rnd : Nat → ℚ) (tiles : Nat → Nat) (fuel : Nat) (g : Game) :
    (∀ id id2,
      let g3 := setchar (setchar (setchar g id fun c => { c with dwell := 2 * 30 }) id2
        fun c => { c with pollen := c.pollen +
          (charAt (setchar g id fun c => { c with dwell := 2 * 30 }) id).pollen }) id
        fun c => { c with pollen := 0 }
      ((charAt g id).pollen > 0 ∧ (charAt g3 id2).pollen > 10 ∧
          countchars g.gs.chars [51, 52] < MAXBEES →
        (hivedeposit rnd g id id2).gs.chars =
          (setchar g3 id2 fun c => { c with pollen := c.pollen - 10 }).gs.chars ++
            [newbee (charAt g3 id2).x (charAt g3 id2).y]) ∧
      (¬ ((charAt g id).pollen > 0 ∧ (charAt g3 id2).pollen > 10 ∧
          countchars g.gs.chars [51, 52] < MAXBEES) →
        (hivedeposit rnd g id id2).gs.chars.length = g.gs.chars.length)) ∧
    (∀ g2, g.gs.chars.length < U32 → countchars g.gs.chars [51, 52] ≤ MAXBEES →
      updatecharAI rnd tiles fuel g = some g2 →
      countchars g2.gs.chars [51, 52] ≤ MAXBEES ∧
      g2.gs.chars.countP (fun c => decide (c.id = 51 ∨ c.id = 52)) ≤ 20) := by
  constructor
  · intro id id2 g3
    have hcount : countchars g3.gs.chars [51, 52] = countchars g.gs.chars [51, 52] := by
      show countchars (setchar _ _ _).gs.chars _ = _
      simp only [countchars_setchar_same, implies_true]
    constructor
    · rintro ⟨h1, h2, h3⟩
      unfold hivedeposit
      simp only []
      rw [if_pos h1, if_pos ⟨h2, by rw [hcount]; exact h3⟩]
      split_ifs
      · show (showmessagebox _ _ _).chars = _
        rw [showmessagebox_chars, generateparticles_chars]
      · exact generateparticles_chars _ _ _ _ _ _ _ _ _
      · show (showmessagebox _ _ _).chars = _
        rw [showmessagebox_chars, generateparticles_chars]
    · intro hn
      unfold hivedeposit
      simp only []
      by_cases h1 : (charAt g id).pollen > 0
      · rw [if_pos h1, if_neg (fun hc => hn ⟨h1, hc.1, by rw [← hcount]; exact hc.2⟩)]
        simp only [setchar_length]
      · rw [if_neg h1]
  · intro g2 hlen h20 h
    have hb : nbees g ≤ 20 := by
      have e : countchars g.gs.chars [51, 52] = nbees g := by
        rw [countchars_bees]
        apply Nat.mod_eq_of_lt
        exact lt_of_le_of_lt (List.countP_le_length _) hlen
      rw [← e]
      exact h20
    have h2 := updatecharAI_cap rnd tiles fuel g g2 hb h
    refine ⟨?_, h2⟩
    rw [countchars_bees_le h2]
    exact h2

/-- The theorem `hive_spawn_cap` at the deposit of the bee of `depositGame`,
which spawns a bee, and at the AI pass over the five dwelling bees of
`wonGame`. -/
theorem hive_spawn_cap_witness :
    ((hivedeposit halves depositGame 0 1).gs.chars.map
      (fun c => (c.id, c.pollen, c.dwell))) = [(51, 0, 60), (36, 2, 0), (51, 0, 150)] ∧
    wonGame.gs.chars.length < U32 ∧ countchars wonGame.gs.chars [51, 52] ≤ MAXBEES ∧
    countchars
      ({ wonGame with gs := { wonGame.gs with
          chars := wonChars.map fun c => { c with dwell := 29 } } } : Game).gs.chars [51, 52]
      ≤ MAXBEES :=
  ⟨by
      rw [((hive_spawn_cap halves notiles 10 depositGame).1 0 1).1
        ⟨by decide!, by decide!, by decide!⟩]
      decide!,
    by unfold U32; decide, by decide,
    ((hive_spawn_cap halves notiles 10 wonGame).2 _ (by unfold U32; decide) (by decide)
      (by decide!)).1⟩

/-! ## main.cpp: player movement -/

theorem overlap_false_iff (ax ay aw ah bx byy bw bh : ℚ) :
    overlap ax ay aw ah bx byy bw bh = false ↔
      (ax < bx ∧ ax + aw ≤ bx) ∨ (ax > bx ∧ bx + bw ≤ ax) ∨
      (ay < byy ∧ ay + ah ≤ byy) ∨ (ay > byy ∧ byy + bh ≤ ay) := by
  unfold overlap
  by_cases h1 : ax < bx ∧ ax + aw ≤ bx
  · simp [h1]
  · by_cases h2 : ax > bx ∧ bx + bw ≤ ax
    · simp [h2]
    · by_cases h3 : ay < byy ∧ ay + ah ≤ byy
      · rw [if_neg h1, if_neg h2, if_pos h3]; simp [h3]
      · by_cases h4 : ay > byy ∧ byy + bh ≤ ay
        · rw [if_neg h1, if_neg h2, if_neg h3, if_pos h4]; simp [h4]
        · rw [if_neg h1, if_neg h2, if_neg h3, if_neg h4]; simp [h1, h2, h3, h4]

theorem floor_le_self (v : ℚ) : ((Rat.floor v : Int) : ℚ) ≤ v :=
  Rat.le_floor.1 (le_refl _)

/-- A hit box at an integer height that overlaps no tile after a move by `v`
overlaps none after a move by the floor of `v`. -/
theorem overlap_floor (ax aw ah bx bw : ℚ) (a b : Int) (v : ℚ)
    (h : overlap ax ((a : ℚ) + v + 6) aw ah bx ((b : ℚ) * 16) bw 16 = false) :
    overlap ax ((a : ℚ) + ((Rat.floor v : Int) : ℚ) + 6) aw ah bx ((b : ℚ) * 16) bw 16 = false := by
  rw [overlap_false_iff] at h ⊢
  have hfl := floor_le_self v
  rcases h with h | h | h | h
  · exact Or.inl h
  · exact Or.inr (Or.inl h)
  · right; right; left
    constructor <;> linarith [h.1, h.2]
  · right; right; right
    have h2 : ((b * 16 + 16 - a - 6 : Int) : ℚ) ≤ v := by push_cast; linarith [h.2]
    have h3 := Rat.le_floor.2 h2
    have h4 : ((b * 16 + 16 - a - 6 : Int) : ℚ) ≤ ((Rat.floor v : Int) : ℚ) := Int.cast_le.2 h3
    push_cast at h4
    constructor <;> linarith

theorem collide_false_iff (g : Game) (tiles : Nat → Nat) (px py pw ph : ℚ) :
    collide g tiles px py pw ph = false ↔
      ¬ px ≤ -3 ∧ ¬ px + 5 ≥ g.gs.width * 16 ∧
      ∀ y < g.gs.height, ∀ x < g.gs.width, tiles (y * g.gs.width + x) > 1 →
        overlap px py pw ph (x * 16) (y * 16) 16 16 = false := by
  unfold collide
  by_cases h1 : px ≤ -3
  · simp [h1]
  · by_cases h2 : px + 5 ≥ g.gs.width * 16
    · simp [h1, h2]
    · rw [if_neg h1, if_neg h2]
      simp only [h1, h2, not_false_eq_true, true_and, List.any_eq_false, List.mem_range,
        Bool.and_eq_true, decide_eq_true_eq, not_and, Bool.not_eq_true]

theorem playercollide_floor (g : Game) (tiles : Nat → Nat) (x : ℚ) (Y : Int) (v : ℚ)
    (h : playercollide g tiles x ((Y : ℚ) + v) = false) :
    playercollide g tiles x ((Y : ℚ) + ((Math_floor v : Int) : ℚ)) = false := by
  unfold playercollide at h ⊢
  rw [collide_false_iff] at h ⊢
  refine ⟨h.1, h.2.1, ?_⟩
  intro yy hyy xx hxx ht
  have h3 := h.2.2 yy hyy xx hxx ht
  have e : ((yy : ℚ)) = (((yy : Int)) : ℚ) := by push_cast; rfl
  rw [e] at h3 ⊢
  exact overlap_floor _ _ _ _ _ Y yy v h3

theorem playercollide_congr {g g2 : Game} (tiles : Nat → Nat) (hw : g2.gs.width = g.gs.width)
    (hh : g2.gs.height = g.gs.height) (x y : ℚ) :
    playercollide g2 tiles x y = playercollide g tiles x y := by
  unfold playercollide collide
  rw [hw, hh]

theorem floor_int (H : Int) : Math_floor (H : ℚ) = H := by
  show Int.floor ((H : Int) : ℚ) = H
  exact Int.floor_intCast H

theorem floor_zero : Math_floor 0 = 0 := by
  have := floor_int 0
  simpa using this

/-- The walk along the x axis, started at a free position: some number `k` of
single steps, at most `n`, each to a free position. -/
theorem slidex_spec (tiles : Nat → Nat) (d : ℚ) : ∀ (n : Nat) (g : Game),
    playercollide g tiles g.gs.x g.gs.y = false →
    ∃ k : Nat, k ≤ n ∧
      slidex tiles d n g = { g with gs := { g.gs with x := g.gs.x + k * d } } ∧
      ∀ j : Nat, j ≤ k → playercollide g tiles (g.gs.x + j * d) g.gs.y = false := by
  intro n
  induction n with
  | zero =>
    intro g hfree
    refine ⟨0, le_refl _, ?_, ?_⟩
    · simp [slidex]
    · intro j hj
      have : j = 0 := by omega
      subst this
      simpa using hfree
  | succ n ih =>
    intro g hfree
    unfold slidex
    by_cases hc : playercollide g tiles (g.gs.x + d) g.gs.y = false
    · rw [if_pos hc]
      obtain ⟨k, hk, he, hj⟩ := ih { g with gs := { g.gs with x := g.gs.x + d } } hc
      refine ⟨k + 1, by omega, ?_, ?_⟩
      · rw [he]
        have e : g.gs.x + d + (k : ℚ) * d = g.gs.x + ((k + 1 : Nat) : ℚ) * d := by
          push_cast; ring
        simp only [e]
      · intro j hjk
        cases j with
        | zero => simpa using hfree
        | succ j =>
          have h1 := hj j (by omega)
          have e : g.gs.x + d + (j : ℚ) * d = g.gs.x + ((j + 1 : Nat) : ℚ) * d := by
            push_cast; ring
          rw [← e]
          exact h1
    · rw [if_neg hc]
      refine ⟨0, by omega, by simp, ?_⟩
      intro j hj
      have : j = 0 := by omega
      subst this
      simpa using hfree

/-- The walk along the y axis, started at a free position: some number `k` of
single steps, at most `n`, each to a free position. -/
theorem slidey_spec (tiles : Nat → Nat) (d : ℚ) : ∀ (n : Nat) (g : Game),
    playercollide g tiles g.gs.x g.gs.y = false →
    ∃ k : Nat, k ≤ n ∧
      slidey tiles d n g = { g with gs := { g.gs with y := g.gs.y + k * d } } ∧
      ∀ j : Nat, j ≤ k → playercollide g tiles g.gs.x (g.gs.y + j * d) = false := by
  intro n
  induction n with
  | zero =>
    intro g hfree
    refine ⟨0, le_refl _, ?_, ?_⟩
    · simp [slidey]
    · intro j hj
      have : j = 0 := by omega
      subst this
      simpa using hfree
  | succ n ih =>
    intro g hfree
    unfold slidey
    by_cases hc : playercollide g tiles g.gs.x (g.gs.y + d) = false
    · rw [if_pos hc]
      obtain ⟨k, hk, he, hj⟩ := ih { g with gs := { g.gs with y := g.gs.y + d } } hc
      refine ⟨k + 1, by omega, ?_, ?_⟩
      · rw [he]
        have e : g.gs.y + d + (k : ℚ) * d = g.gs.y + ((k + 1 : Nat) : ℚ) * d := by
          push_cast; ring
        simp only [e]
      · intro j hjk
        cases j with
        | zero => simpa using hfree
        | succ j =>
          have h1 := hj j (by omega)
          have e : g.gs.y + d + (j : ℚ) * d = g.gs.y + ((j + 1 : Nat) : ℚ) * d := by
            push_cast; ring
          rw [← e]
          exact h1
    · rw [if_neg hc]
      refine ⟨0, by omega, by simp, ?_⟩
      intro j hj
      have : j = 0 := by omega
      subst this
      simpa using hfree

/-- The x axis of `collisioncheck` from a free position, with an integer
`gs.hs`. -/
theorem collisionx_spec (tiles : Nat → Nat) (g : Game) (H : Int) (hh : g.gs.hs = H)
    (hfree : playercollide g tiles g.gs.x g.gs.y = false) :
    playercollide g tiles (collisionx tiles g).gs.x g.gs.y = false ∧
    (collisionx tiles g).gs.y = g.gs.y ∧ (collisionx tiles g).gs.vs = g.gs.vs ∧
    (collisionx tiles g).gs.width = g.gs.width ∧
    (collisionx tiles g).gs.height = g.gs.height ∧
    (g.gs.hs ≠ 0 → playercollide g tiles (g.gs.x + g.gs.hs) g.gs.y = true →
      (collisionx tiles g).gs.hs = 0 ∧
      ∃ k : Nat, k ≤ 16 ∧
        (collisionx tiles g).gs.x = g.gs.x + k * (if g.gs.hs > 0 then 1 else -1) ∧
        ∀ j : Nat, j ≤ k →
          playercollide g tiles (g.gs.x + j * (if g.gs.hs > 0 then 1 else -1)) g.gs.y = false) := by
  by_cases hc : g.gs.hs ≠ 0 ∧ playercollide g tiles (g.gs.x + g.gs.hs) g.gs.y = true
  · obtain ⟨k, hk, he, hj⟩ := slidex_spec tiles (if g.gs.hs > 0 then 1 else -1) 16 g hfree
    have hx : (collisionx tiles g).gs.x = g.gs.x + k * (if g.gs.hs > 0 then 1 else -1) := by
      unfold collisionx
      simp only [if_pos hc, he, floor_zero]
      simp
    have hrest : (collisionx tiles g).gs.y = g.gs.y ∧ (collisionx tiles g).gs.vs = g.gs.vs ∧
        (collisionx tiles g).gs.width = g.gs.width ∧
        (collisionx tiles g).gs.height = g.gs.height ∧ (collisionx tiles g).gs.hs = 0 := by
      refine ⟨?_, ?_, ?_, ?_, ?_⟩ <;> simp [collisionx, hc, he]
    refine ⟨by rw [hx]; exact hj k (le_refl _), hrest.1, hrest.2.1, hrest.2.2.1, hrest.2.2.2.1, ?_⟩
    intro _ _
    exact ⟨hrest.2.2.2.2, k, hk, hx, hj⟩
  · have hx : (collisionx tiles g).gs.x = g.gs.x + g.gs.hs := by
      unfold collisionx
      simp only [if_neg hc]
      rw [hh, floor_int]
    have hrest : (collisionx tiles g).gs.y = g.gs.y ∧ (collisionx tiles g).gs.vs = g.gs.vs ∧
        (collisionx tiles g).gs.width = g.gs.width ∧
        (collisionx tiles g).gs.height = g.gs.height := by
      refine ⟨?_, ?_, ?_, ?_⟩ <;> simp [collisionx, hc]
    refine ⟨?_, hrest.1, hrest.2.1, hrest.2.2.1, hrest.2.2.2, fun h1 h2 => absurd ⟨h1, h2⟩ hc⟩
    rw [hx]
    by_cases h0 : g.gs.hs = 0
    · rw [h0, add_zero]; exact hfree
    · by_contra hcol
      exact hc ⟨h0, by simpa using hcol⟩

/-- The y axis of `collisioncheck` from a free position at an integer height. -/
theorem collisiony_spec (tiles : Nat → Nat) (g : Game) (Y : Int) (hy : g.gs.y = Y)
    (hfree : playercollide g tiles g.gs.x g.gs.y = false) :
    playercollide g tiles g.gs.x (collisiony tiles g).gs.y = false ∧
    (collisiony tiles g).gs.x = g.gs.x ∧ (collisiony tiles g).gs.hs = g.gs.hs ∧
    (collisiony tiles g).gs.width = g.gs.width ∧
    (collisiony tiles g).gs.height = g.gs.height ∧
    (g.gs.vs ≠ 0 → playercollide g tiles g.gs.x (g.gs.y + g.gs.vs) = true →
      (collisiony tiles g).gs.vs = 0 ∧
      ∃ k : Nat, k ≤ 16 ∧
        (collisiony tiles g).gs.y = g.gs.y + k * (if g.gs.vs > 0 then 1 else -1) ∧
        ∀ j : Nat, j ≤ k →
          playercollide g tiles g.gs.x (g.gs.y + j * (if g.gs.vs > 0 then 1 else -1)) = false) := by
  by_cases hc : g.gs.vs ≠ 0 ∧ playercollide g tiles g.gs.x (g.gs.y + g.gs.vs) = true
  · obtain ⟨k, hk, he, hj⟩ := slidey_spec tiles (if g.gs.vs > 0 then 1 else -1) 16 g hfree
    have hx : (collisiony tiles g).gs.y = g.gs.y + k * (if g.gs.vs > 0 then 1 else -1) := by
      unfold collisiony
      simp only [if_pos hc, he, floor_zero]
      simp
    have hrest : (collisiony tiles g).gs.x = g.gs.x ∧ (collisiony tiles g).gs.hs = g.gs.hs ∧
        (collisiony tiles g).gs.width = g.gs.width ∧
        (collisiony tiles g).gs.height = g.gs.height ∧ (collisiony tiles g).gs.vs = 0 := by
      refine ⟨?_, ?_, ?_, ?_, ?_⟩ <;> simp [collisiony, hc, he]
    refine ⟨by rw [hx]; exact hj k (le_refl _), hrest.1, hrest.2.1, hrest.2.2.1, hrest.2.2.2.1, ?_⟩
    intro _ _
    exact ⟨hrest.2.2.2.2, k, hk, hx, hj⟩
  · have hx : (collisiony tiles g).gs.y = g.gs.y + Math_floor g.gs.vs := by
      unfold collisiony
      simp only [if_neg hc]
    have hrest : (collisiony tiles g).gs.x = g.gs.x ∧ (collisiony tiles g).gs.hs = g.gs.hs ∧
        (collisiony tiles g).gs.width = g.gs.width ∧
        (collisiony tiles g).gs.height = g.gs.height := by
      refine ⟨?_, ?_, ?_, ?_⟩ <;> simp [collisiony, hc]
    refine ⟨?_, hrest.1, hrest.2.1, hrest.2.2.1, hrest.2.2.2, fun h1 h2 => absurd ⟨h1, h2⟩ hc⟩
    rw [hx]
    by_cases h0 : g.gs.vs = 0
    · rw [h0, floor_zero]
      simpa using hfree
    · rw [hy]
      apply playercollide_floor
      rw [← hy]
      by_contra hcol
      exact hc ⟨h0, by simpa using hcol⟩

/-- C25: collision-resolved movement never ends inside an obstacle. For every
level (tile array, width and height), every player position that is free, with
an integer `gs.y`, and every integer `gs.hs` (`gs.x` and `gs.vs` are arbitrary),
the position after `collisioncheck` is free. On an axis whose attempted move
collides, the velocity of that axis is 0 afterwards and the player has advanced
by some number `k` of single pixels, at most 16, in the direction of the move,
through free positions only. The attempted move along the y axis starts from
the x position the first half has produced. -/
theorem collisioncheck_free (tiles : Nat → Nat) (g : Game) (Y H : Int)
    (hy : g.gs.y = Y) (hh : g.gs.hs = H)
    (hfree : playercollide g tiles g.gs.x g.gs.y = false) :
    playercollide (collisioncheck tiles g) tiles (collisioncheck tiles g).gs.x
      (collisioncheck tiles g).gs.y = false ∧
    (g.gs.hs ≠ 0 → playercollide g tiles (g.gs.x + g.gs.hs) g.gs.y = true →
      (collisioncheck tiles g).gs.hs = 0 ∧
      ∃ k : Nat, k ≤ 16 ∧
        (collisioncheck tiles g).gs.x = g.gs.x + k * (if g.gs.hs > 0 then 1 else -1) ∧
        ∀ j : Nat, j ≤ k →
          playercollide g tiles (g.gs.x + j * (if g.gs.hs > 0 then 1 else -1)) g.gs.y = false) ∧
    (g.gs.vs ≠ 0 →
      playercollide g tiles (collisioncheck tiles g).gs.x (g.gs.y + g.gs.vs) = true →
      (collisioncheck tiles g).gs.vs = 0 ∧
      ∃ k : Nat, k ≤ 16 ∧
        (collisioncheck tiles g).gs.y = g.gs.y + k * (if g.gs.vs > 0 then 1 else -1) ∧
        ∀ j : Nat, j ≤ k →
          playercollide g tiles (collisioncheck tiles g).gs.x
            (g.gs.y + j * (if g.gs.vs > 0 then 1 else -1)) = false) := by
  obtain ⟨a1, a2, a3, a4, a5, a6⟩ := collisionx_spec tiles g H hh hfree
  have hfree2 : playercollide (collisionx tiles g) tiles (collisionx tiles g).gs.x
      (collisionx tiles g).gs.y = false := by
    rw [playercollide_congr tiles a4 a5, a2]; exact a1
  obtain ⟨b1, b2, b3, b4, b5, b6⟩ :=
    collisiony_spec tiles (collisionx tiles g) Y (by rw [a2]; exact hy) hfree2
  have hcx : (collisioncheck tiles g).gs.x = (collisionx tiles g).gs.x := b2
  have hcg : ∀ x y, playercollide (collisioncheck tiles g) tiles x y = playercollide g tiles x y :=
    fun x y => (playercollide_congr tiles b4 b5 x y).trans (playercollide_congr tiles a4 a5 x y)
  have hxg : ∀ x y, playercollide (collisionx tiles g) tiles x y = playercollide g tiles x y :=
    fun x y => playercollide_congr tiles a4 a5 x y
  refine ⟨?_, ?_, ?_⟩
  · rw [hcg, hcx, ← hxg]
    exact b1
  · intro h1 h2
    obtain ⟨c1, k, hk, c2, c3⟩ := a6 h1 h2
    exact ⟨b3.trans c1, k, hk, hcx.trans c2, c3⟩
  · intro h1 h2
    rw [hcx, ← hxg, ← a2, ← a3] at h2
    obtain ⟨c1, k, hk, c2, c3⟩ := b6 (by rw [a3]; exact h1) h2
    refine ⟨c1, k, hk, ?_, ?_⟩
    · rw [← a2, ← a3]; exact c2
    · intro j hj
      rw [hcx, ← hxg, ← a2, ← a3]
      exact c3 j hj

/-- The theorem `collisioncheck_free` at the player of `roomGame`, who is
stopped by the wall after two pixels and by the floor after three. -/
theorem collisioncheck_free_witness :
    roomGame.gs.y = ((30 : Int) : ℚ) ∧ roomGame.gs.hs = ((3 : Int) : ℚ) ∧
    playercollide roomGame roomTiles roomGame.gs.x roomGame.gs.y = false ∧
    playercollide roomGame roomTiles (roomGame.gs.x + roomGame.gs.hs) roomGame.gs.y = true ∧
    ((collisioncheck roomTiles roomGame).gs.x, (collisioncheck roomTiles roomGame).gs.y,
      (collisioncheck roomTiles roomGame).gs.hs, (collisioncheck roomTiles roomGame).gs.vs) =
      (54, 33, 0, 0) ∧
    playercollide (collisioncheck roomTiles roomGame) roomTiles
      (collisioncheck roomTiles roomGame).gs.x (collisioncheck roomTiles roomGame).gs.y = false :=
  ⟨by decide!, by decide!, by decide!, by decide!, by decide!,
    (collisioncheck_free roomTiles roomGame 30 3 (by decide!) (by decide!) (by decide!)).1⟩

/-- For rectangles of positive width and height, `overlap` is the meeting of
the half-open boxes. -/
theorem overlap_true_iff (ax ay aw ah bx byy bw bh : ℚ)
    (haw : 0 < aw) (hah : 0 < ah) (hbw : 0 < bw) (hbh : 0 < bh) :
    overlap ax ay aw ah bx byy bw bh = true ↔
      ax < bx + bw ∧ bx < ax + aw ∧ ay < byy + bh ∧ byy < ay + ah := by
  rw [← Bool.not_eq_false, overlap_false_iff]
  constructor
  · intro h
    refine ⟨?_, ?_, ?_, ?_⟩ <;> by_contra hc <;> apply h
    · exact Or.inr (Or.inl ⟨by linarith, by linarith⟩)
    · exact Or.inl ⟨by linarith, by linarith⟩
    · exact Or.inr (Or.inr (Or.inr ⟨by linarith, by linarith⟩))
    · exact Or.inr (Or.inr (Or.inl ⟨by linarith, by linarith⟩))
  · rintro ⟨h1, h2, h3, h4⟩ (h | h | h | h) <;> linarith [h.2]

/-- C32: for rectangles of positive width and height, `overlap` is true exactly
when the half-open boxes meet, that is when `ax < bx+bw`, `bx < ax+aw`,
`ay < by+bh` and `by < ay+ah`; rectangles that touch along an edge do not
overlap; and `overlap` does not change when its two rectangles change
places. -/
theorem overlap_half_open (ax ay aw ah bx byy bw bh : ℚ)
    (haw : 0 < aw) (hah : 0 < ah) (hbw : 0 < bw) (hbh : 0 < bh) :
    (overlap ax ay aw ah bx byy bw bh = true ↔
      ax < bx + bw ∧ bx < ax + aw ∧ ay < byy + bh ∧ byy < ay + ah) ∧
    (ax + aw = bx ∨ bx + bw = ax ∨ ay + ah = byy ∨ byy + bh = ay →
      overlap ax ay aw ah bx byy bw bh = false) ∧
    overlap ax ay aw ah bx byy bw bh = overlap bx byy bw bh ax ay aw ah := by
  have k1 := overlap_true_iff ax ay aw ah bx byy bw bh haw hah hbw hbh
  have k2 := overlap_true_iff bx byy bw bh ax ay aw ah hbw hbh haw hah
  refine ⟨k1, ?_, ?_⟩
  · intro h
    rw [← Bool.not_eq_true, k1]
    rintro ⟨h1, h2, h3, h4⟩
    rcases h with h | h | h | h <;> linarith
  · rw [Bool.eq_iff_iff, k1, k2]
    constructor <;> rintro ⟨h1, h2, h3, h4⟩ <;> exact ⟨h2, h1, h4, h3⟩

/-- The theorem `overlap_half_open` at two tiles side by side, which touch along
an edge. -/
theorem overlap_half_open_witness :
    (0 : ℚ) < 16 ∧ overlap 0 0 16 16 16 0 16 16 = false :=
  ⟨by norm_num,
    (overlap_half_open 0 0 16 16 16 0 16 16 (by norm_num) (by norm_num) (by norm_num)
      (by norm_num)).2.1 (Or.inl (by norm_num))⟩

theorem collide_true_iff (g : Game) (tiles : Nat → Nat) (px py pw ph : ℚ) :
    collide g tiles px py pw ph = true ↔
      px ≤ -3 ∨ px + 5 ≥ g.gs.width * 16 ∨
      ∃ y, y < g.gs.height ∧ ∃ x, x < g.gs.width ∧ tiles (y * g.gs.width + x) > 1 ∧
        overlap px py pw ph (x * 16) (y * 16) 16 16 = true := by
  rw [← Bool.not_eq_false, collide_false_iff]
  constructor
  · intro h
    by_contra hc
    push_neg at hc
    apply h
    refine ⟨not_le.2 hc.1, not_le.2 hc.2.1, ?_⟩
    intro y hy x hx ht
    have := hc.2.2 y hy x hx ht
    simpa using this
  · rintro (h | h | ⟨y, hy, x, hx, ht, ho⟩) ⟨h1, h2, h3⟩
    · exact h1 h
    · exact h2 h
    · rw [h3 y hy x hx ht] at ho
      cases ho

/-- A box of 8 by 8 pixels in the middle of the cell `(x, y)` overlaps the tile
of that cell and no other. -/
theorem probe_overlap (x y x2 y2 : Nat) :
    overlap ((x : ℚ) * 16 + 4) ((y : ℚ) * 16 + 4) 8 8 ((x2 : ℚ) * 16) ((y2 : ℚ) * 16) 16 16 = true ↔
      x2 = x ∧ y2 = y := by
  rw [overlap_true_iff _ _ _ _ _ _ _ _ (by norm_num) (by norm_num) (by norm_num) (by norm_num)]
  constructor
  · rintro ⟨h1, h2, h3, h4⟩
    have a1 : x * 16 + 4 < x2 * 16 + 16 := by exact_mod_cast h1
    have a2 : x2 * 16 < x * 16 + 4 + 8 := by exact_mod_cast h2
    have a3 : y * 16 + 4 < y2 * 16 + 16 := by exact_mod_cast h3
    have a4 : y2 * 16 < y * 16 + 4 + 8 := by exact_mod_cast h4
    omega
  · rintro ⟨rfl, rfl⟩
    refine ⟨?_, ?_, ?_, ?_⟩ <;> linarith

/-- The tile test of `collide` at the cell `(x, y)`, through a box in the middle
of the cell. -/
theorem collide_probe (g : Game) (tiles : Nat → Nat) (x y : Nat) (hx : x < g.gs.width)
    (hy : y < g.gs.height) :
    collide g tiles ((x : ℚ) * 16 + 4) ((y : ℚ) * 16 + 4) 8 8 = true ↔
      tiles (y * g.gs.width + x) > 1 := by
  rw [collide_true_iff]
  have hx0 : (0 : ℚ) ≤ x := Nat.cast_nonneg x
  have hxw : (x : ℚ) + 1 ≤ g.gs.width := by exact_mod_cast hx
  constructor
  · rintro (h | h | ⟨y2, -, x2, -, ht, ho⟩)
    · linarith
    · linarith
    · obtain ⟨rfl, rfl⟩ := (probe_overlap x y x2 y2).1 ho
      exact ht
  · intro ht
    exact Or.inr (Or.inr ⟨y, hy, x, hx, ht, (probe_overlap x y x y).2 ⟨rfl, rfl⟩⟩)

/-- C34: the two solidity tests. For a cell inside the level `issolid` is true
exactly when the tile value is not 0, and every id of a route after its first
is the id of a cell of tile value 0 (on a level with `uint8_t` dimensions, from
a source cell of the level): a cell of value 1 is never entered. `collide` is
true exactly at the left and right edges of the level and when the box overlaps
a tile of value above 1, so a box away from the edges that overlaps only cells
of value 0 or 1 does not collide. At a cell inside the level the two tests,
`collide` taken on a box in the middle of the cell, differ exactly when the
tile value is 1. -/
theorem solidity_differs_on_one (g : Game) (tiles : Nat → Nat) :
    (∀ x y : Int, InB (gridOf g tiles) x y →
      (issolid (gridOf g tiles) x y = true ↔ tiles ((y * g.gs.width + x).toNat) ≠ 0)) ∧
    (g.gs.width ≤ 255 → g.gs.height ≤ 255 →
      ∀ (fuel : Nat) (src dest : Int) (r : List Int),
        inRange (gridOf g tiles) src → src < 32768 →
        pathfinder (gridOf g tiles) fuel src dest = some r →
        ∀ c ∈ r.tail, ∃ x y : Int, InB (gridOf g tiles) x y ∧
          c = wrap16 (y * g.gs.width + x) ∧ tiles ((y * g.gs.width + x).toNat) = 0 ∧
          tiles ((y * g.gs.width + x).toNat) ≠ 1) ∧
    (∀ px py pw ph : ℚ, collide g tiles px py pw ph = true ↔
      px ≤ -3 ∨ px + 5 ≥ g.gs.width * 16 ∨
      ∃ y, y < g.gs.height ∧ ∃ x, x < g.gs.width ∧ tiles (y * g.gs.width + x) > 1 ∧
        overlap px py pw ph (x * 16) (y * 16) 16 16 = true) ∧
    (∀ px py pw ph : ℚ, -3 < px → px + 5 < g.gs.width * 16 →
      (∀ y, y < g.gs.height → ∀ x, x < g.gs.width →
        overlap px py pw ph (x * 16) (y * 16) 16 16 = true → tiles (y * g.gs.width + x) ≤ 1) →
      collide g tiles px py pw ph = false) ∧
    (∀ x y : Nat, x < g.gs.width → y < g.gs.height →
      (collide g tiles ((x : ℚ) * 16 + 4) ((y : ℚ) * 16 + 4) 8 8 = true ↔
        tiles (y * g.gs.width + x) > 1) ∧
      (issolid (gridOf g tiles) x y ≠ collide g tiles ((x : ℚ) * 16 + 4) ((y : ℚ) * 16 + 4) 8 8 ↔
        tiles (y * g.gs.width + x) = 1)) := by
  have hsol : ∀ x y : Int, InB (gridOf g tiles) x y →
      (issolid (gridOf g tiles) x y = true ↔ tiles ((y * g.gs.width + x).toNat) ≠ 0) := by
    intro x y hb
    rw [← Bool.not_eq_false, issolid_false_iff]
    constructor
    · intro h ht
      exact h ⟨hb, ht⟩
    · intro h hc
      exact h hc.2
  refine ⟨hsol, ?_, collide_true_iff g tiles, ?_, ?_⟩
  · intro hw hh fuel src dest r hs h16 h c hc
    obtain ⟨x, y, hb, hid, ht⟩ := pathfinder_cells hw hh hs h16 h c hc
    have ht2 : tiles ((y * g.gs.width + x).toNat) = 0 := ht
    exact ⟨x, y, hb, hid, ht2, by rw [ht2]; decide⟩
  · intro px py pw ph h1 h2 hall
    rw [collide_false_iff]
    refine ⟨not_le.2 h1, not_le.2 h2, ?_⟩
    intro y hy x hx ht
    by_contra ho
    have := hall y hy x hx (by simpa using ho)
    omega
  · intro x y hx hy
    have hp := collide_probe g tiles x y hx hy
    refine ⟨hp, ?_⟩
    have hb : InB (gridOf g tiles) (x : Int) (y : Int) :=
      ⟨by omega, by exact_mod_cast hx, by omega, by exact_mod_cast hy⟩
    have hs := hsol x y hb
    have hidx : (((y : Int) * (g.gs.width : Int) + (x : Int)).toNat) = y * g.gs.width + x := by
      have : ((y : Int) * (g.gs.width : Int) + (x : Int)) = ((y * g.gs.width + x : Nat) : Int) := by
        push_cast; rfl
      rw [this, Int.toNat_ofNat]
    rw [hidx] at hs
    rw [Ne, Bool.eq_iff_iff, hs, hp]
    omega

/-- The theorem `solidity_differs_on_one` at the cell of value 1 of `oneTiles`
on the level of `ledgeGame`: `issolid` is true there, `collide` is false. -/
theorem solidity_differs_on_one_witness :
    1 < ledgeGame.gs.width ∧ 1 < ledgeGame.gs.height ∧
    oneTiles (1 * ledgeGame.gs.width + 1) = 1 ∧
    issolid (gridOf ledgeGame oneTiles) ((1 : Nat) : Int) ((1 : Nat) : Int) ≠
      collide ledgeGame oneTiles (((1 : Nat) : ℚ) * 16 + 4) (((1 : Nat) : ℚ) * 16 + 4) 8 8 :=
  ⟨by decide, by decide, by decide,
    ((solidity_differs_on_one ledgeGame oneTiles).2.2.2.2 1 1 (by decide) (by decide)).2.2
      (by decide)⟩

/-! ## main.cpp: game loop -/

theorem hints_queued (t : Nat) : ∀ (hints : List String) (gs : gamestate),
    gs.state ≠ STATEPLAYING →
    hints.foldl (fun s h => showmessagebox s h t) gs =
      { gs with msgqueue := gs.msgqueue ++ hints.map (fun h => ⟨h, t⟩) } := by
  intro hints
  induction hints with
  | nil => intro gs _; simp
  | cons a rest ih =>
    intro gs hs
    rw [List.foldl_cons]
    have e : showmessagebox gs a t = { gs with msgqueue := gs.msgqueue ++ [⟨a, t⟩] } := by
      unfold showmessagebox
      rw [if_neg (fun h => hs h.2)]
    rw [e, ih { gs with msgqueue := gs.msgqueue ++ [⟨a, t⟩] } hs]
    simp

/-- C40 fails on the code: `jammagame_initialise` returns 0, empties the
entity, shot, particle and message collections, sets the level index to 0 and
starts the intro sequence on the timeline (one item without action at frame
300, the intro callback, loop count 1, `timelinepos` 0), but it leaves
`gs.state` as it was: called in the state `STATEPLAYING`, the game is still in
that state afterwards, not in `STATEINTRO`. -/
theorem initialise_keeps_state :
    (∀ g : Game,
      (jammagame_initialise g).1 = 0 ∧
      (jammagame_initialise g).2.gs.chars = [] ∧ (jammagame_initialise g).2.gs.shots = [] ∧
      (jammagame_initialise g).2.gs.particles = [] ∧
      (jammagame_initialise g).2.gs.msgqueue = [] ∧
      (jammagame_initialise g).2.gs.msgboxtime = 0 ∧
      (jammagame_initialise g).2.gs.level = 0 ∧
      (jammagame_initialise g).2.tl = ⟨[⟨300, none, false⟩], 0, some intro_label, true, 0, 1⟩ ∧
      (jammagame_initialise g).2.gs.state = g.gs.state) ∧
    playingGame.gs.state = STATEPLAYING ∧
    (jammagame_initialise playingGame).2.gs.state = STATEPLAYING ∧
    (jammagame_initialise playingGame).2.gs.state ≠ STATEINTRO := by
  refine ⟨fun g => ⟨rfl, rfl, rfl, rfl, rfl, rfl, rfl, rfl, rfl⟩, by decide, by decide, by decide⟩

/-- C39: the end of `update`, on a level table that fits the `uint8_t` level
index. When `update` runs in the state `STATEPLAYING`, the update calls return
and the level is completed when the test is made, still in that state: on a
level that is not the last one the level index goes up by one, the state is
`STATENEWLEVEL`, the message queue holds the hints of the new level and nothing
else, and the timeline holds the single item `startplaying` at frame 90,
running from position 0 with loop count 1; on the last level the state is
`STATECOMPLETE` and the timeline holds a single item without action at frame
300, with the callback `endgame`, running with loop count 0. In any other
state `update` changes nothing. -/
theorem update_level_completed (mv sp : Game → Game) (rnd : Nat → ℚ) (tiles : Nat → Nat)
    (fuel nlevels : Nat) (g : Game) (hn : nlevels ≤ 255) :
    (∀ g2 g3, g.gs.state = STATEPLAYING →
      updatecharAI rnd tiles fuel (mv g) = some g2 → updateplayerchar tiles fuel g2 = some g3 →
      (sp g3).gs.state = STATEPLAYING →
      islevelcompleted (sp g3).gs.chars (sp g3).gs.level = true →
      ((sp g3).gs.level + 1 < nlevels →
        ∃ r, update mv sp rnd tiles fuel nlevels g = some r ∧
          r.gs.level = (sp g3).gs.level + 1 ∧ r.gs.state = STATENEWLEVEL ∧
          r.gs.msgqueue = (levelhints ((sp g3).gs.level + 1)).map (fun h => ⟨h, 90⟩) ∧
          r.gs.msgboxtime = 0 ∧
          r.tl = ⟨[⟨90, some startplaying_label, false⟩], 0, none, true, 0, 1⟩) ∧
      ((sp g3).gs.level + 1 = nlevels →
        ∃ r, update mv sp rnd tiles fuel nlevels g = some r ∧
          r.gs.level = (sp g3).gs.level ∧ r.gs.state = STATECOMPLETE ∧
          r.tl = ⟨[⟨300, none, false⟩], 0, some endgame_label, true, 0, 0⟩)) ∧
    (g.gs.state ≠ STATEPLAYING → update mv sp rnd tiles fuel nlevels g = some g) := by
  constructor
  · intro g2 g3 hs h2 h3 hs3 hc
    have hu : update mv sp rnd tiles fuel nlevels g = some (levelcheck nlevels (sp g3)) := by
      unfold update
      rw [if_pos hs, h2]
      simp only [h3]
    constructor
    · intro hlt
      refine ⟨_, hu, ?_⟩
      have hm : ((sp g3).gs.level + 1) % 256 = (sp g3).gs.level + 1 :=
        Nat.mod_eq_of_lt (by omega)
      unfold levelcheck
      simp only [hs3, hc, and_self, if_true, hm]
      rw [if_neg (by omega)]
      unfold newlevel
      simp only []
      rw [if_neg (by omega)]
      rw [hints_queued]
      · refine ⟨rfl, rfl, ?_, rfl, rfl⟩
        simp [FPS]
      · show STATENEWLEVEL ≠ STATEPLAYING
        decide
    · intro he
      refine ⟨_, hu, ?_⟩
      have hm : ((sp g3).gs.level + 1) % 256 = (sp g3).gs.level + 1 :=
        Nat.mod_eq_of_lt (by omega)
      unfold levelcheck
      simp only [hs3, hc, and_self, if_true, hm]
      rw [if_pos he]
      exact ⟨rfl, rfl, rfl⟩
  · intro hs
    unfold update
    rw [if_neg hs]

/-- The theorem `update_level_completed` at `wonGame`, on level 0 of 7, with
nothing done by `updatemovements` and `checkspawn`. -/
theorem update_level_completed_witness :
    (7 : Nat) ≤ 255 ∧ wonGame.gs.state = STATEPLAYING ∧
    ∃ r, update (fun g => g) (fun g => g) halves notiles 10 7 wonGame = some r ∧
      r.gs.level = 1 ∧ r.gs.state = STATENEWLEVEL ∧
      r.gs.msgqueue = [⟨"[45]Watch out for gravity toggles", 90⟩] ∧
      r.gs.msgboxtime = 0 ∧
      r.tl = ⟨[⟨90, some startplaying_label, false⟩], 0, none, true, 0, 1⟩ :=
  ⟨by decide, by decide,
    ((update_level_completed (fun g => g) (fun g => g) halves notiles 10 7 wonGame
      (by decide)).1
      { wonGame with gs := { wonGame.gs with chars := wonChars.map fun c => { c with dwell := 29 } } }
      { wonGame with gs := { wonGame.gs with chars := wonChars.map fun c => { c with dwell := 29 } } }
      (by decide) (by decide!) (by decide!) (by decide) (by decide)).1 (by decide)⟩

/-- C31 fails on the code. For a gravity toggle placed at the cell `(x, y)` the
index computed for the tile above it is `(y-1)*width+x`, which is negative for
every toggle in the top row of a level. On `toggleGame`, where the toggle is at
column 3 of the top row of a level 20 tiles wide and the player stands on it,
the index is `-17`: the read is outside of the tile array, and
`updateplayerchar` has no defined result. -/
theorem toggle_top_row_index :
    (∀ (w x y : Nat),
      toggleindex w { mkchar 0 false with x := (x : ℚ) * 16, y := (y : ℚ) * 16 } =
        ((y : Int) - 1) * w + x) ∧
    (∀ (w x : Nat), x < w →
      toggleindex w { mkchar 0 false with x := (x : ℚ) * 16, y := ((0 : Nat) : ℚ) * 16 } < 0) ∧
    (charAt toggleGame 0).id = 0 ∧
    ((charAt toggleGame 0).x, (charAt toggleGame 0).y) = (3 * 16, 0 * 16) ∧
    overlap (toggleGame.gs.x + 5) (toggleGame.gs.y + 6) 5 9
      (charAt toggleGame 0).x (charAt toggleGame 0).y 16 16 = true ∧
    toggleindex toggleGame.gs.width (charAt toggleGame 0) = -17 ∧
    tileat toggleGame notiles (-17) = none ∧
    playervisit notiles toggleGame 0 = none ∧
    updateplayerchar notiles 5 toggleGame = none := by
  have h1 : ∀ (w x y : Nat),
      toggleindex w { mkchar 0 false with x := (x : ℚ) * 16, y := (y : ℚ) * 16 } =
        ((y : Int) - 1) * w + x := by
    intro w x y
    unfold toggleindex
    have e1 : ((y : ℚ) * 16 - 16) / 16 = (((y : Int) - 1 : Int) : ℚ) := by
      push_cast; ring
    have e2 : ((x : ℚ) * 16) / 16 = (((x : Int)) : ℚ) := by
      push_cast; ring
    show Math_floor (((y : ℚ) * 16 - 16) / 16) * (w : Int) + Math_floor (((x : ℚ) * 16) / 16) = _
    rw [e1, e2, floor_int, floor_int]
  refine ⟨h1, ?_, by decide, by decide!, by decide!, by decide!, by decide, by decide!,
    by decide!⟩
  intro w x hx
  rw [h1]
  push_cast
  omega

theorem setshot_length (g : Game) (i : Nat) (f : shot → shot) :
    (setshot g i f).gs.shots.length = g.gs.shots.length := by
  simp [setshot]

theorem shotAt_setshot_self (g : Game) (i : Nat) (f : shot → shot)
    (h : i < g.gs.shots.length) : shotAt (setshot g i f) i = f (shotAt g i) := by
  have e : shotAt g i = g.gs.shots[i] := by
    unfold shotAt
    simp [List.getD_eq_getElem?_getD, h]
  unfold setshot
  rw [e]
  unfold shotAt
  simp [List.getD_eq_getElem?_getD, List.getElem?_set, h]

theorem shotAt_setshot_ne (g : Game) (i : Nat) (f : shot → shot) (k : Nat) (h : k ≠ i) :
    shotAt (setshot g i f) k = shotAt g k := by
  unfold shotAt setshot
  simp [List.getD_eq_getElem?_getD, List.getElem?_set, Ne.symm h]

theorem charAt_setshot (g : Game) (i : Nat) (f : shot → shot) (j : Nat) :
    charAt (setshot g i f) j = charAt g j := rfl

theorem setshot_chars (g : Game) (i : Nat) (f : shot → shot) :
    (setshot g i f).gs.chars = g.gs.chars := rfl

theorem shotAt_setchar (g : Game) (j : Nat) (f : gamechar → gamechar) (i : Nat) :
    shotAt (setchar g j f) i = shotAt g i := rfl

theorem generateparticles_shots (rnd : Nat → ℚ) (cx cy mt : ℚ) (r gg b : Nat) :
    ∀ (n : Nat) (g : Game), (generateparticles rnd cx cy mt r gg b n g).gs.shots = g.gs.shots := by
  intro n
  induction n with
  | zero => intro g; rfl
  | succ n ih => intro g; unfold generateparticles; rw [ih]

theorem shotAt_particles (rnd : Nat → ℚ) (cx cy mt : ℚ) (r gg b n : Nat) (g : Game) (i : Nat) :
    shotAt (generateparticles rnd cx cy mt r gg b n g) i = shotAt g i := by
  unfold shotAt
  rw [generateparticles_shots]

/-- What the end of a damage case leaves: the shot spent, with three frames to
live, and the entities as they were. -/
theorem shotspent_spec (rnd : Nat → ℚ) (g : Game) (i id : Nat) (mt : ℚ) (many few r gg b : Nat)
    (hi : i < g.gs.shots.length) :
    shotAt (shotspent rnd g i id mt many few r gg b) i = { shotAt g i with dir := 0, ttl := 3 } ∧
    (∀ k, k ≠ i → shotAt (shotspent rnd g i id mt many few r gg b) k = shotAt g k) ∧
    (∀ j, charAt (shotspent rnd g i id mt many few r gg b) j = charAt g j) ∧
    (shotspent rnd g i id mt many few r gg b).gs.shots.length = g.gs.shots.length ∧
    (shotspent rnd g i id mt many few r gg b).gs.chars = g.gs.chars := by
  unfold shotspent
  simp only []
  have hl : i < (generateparticles rnd ((charAt g id).x + 8) ((charAt g id).y + 8) mt r gg b
      (if (charAt g id).health ≤ 0 then many else few) g).gs.shots.length := by
    rw [generateparticles_shots]; exact hi
  refine ⟨?_, ?_, ?_, ?_, ?_⟩
  · rw [shotAt_setshot_self _ _ _ (by rw [setshot_length]; exact hl),
      shotAt_setshot_self _ _ _ hl, shotAt_particles]
  · intro k hk
    rw [shotAt_setshot_ne _ _ _ _ hk, shotAt_setshot_ne _ _ _ _ hk, shotAt_particles]
  · intro j
    rw [charAt_setshot, charAt_setshot, generateparticles_charAt]
  · rw [setshot_length, setshot_length, generateparticles_shots]
  · rw [setshot_chars, setshot_chars, generateparticles_chars]

theorem setchar_shots (g : Game) (j : Nat) (f : gamechar → gamechar) :
    (setchar g j f).gs.shots = g.gs.shots := rfl

theorem rng_gs (rnd : Nat → ℚ) (g : Game) : (rng rnd g).2.gs = g.gs := rfl

theorem shothurt_spec (g : Game) (id : Nat) (hid : id < g.gs.chars.length) :
    charAt (shothurt g id) id =
      { charAt g id with htime := 2 * 30, health := (charAt g id).health - 1 } ∧
    (∀ j, j ≠ id → charAt (shothurt g id) j = charAt g j) ∧
    (shothurt g id).gs.chars.length = g.gs.chars.length ∧
    (shothurt g id).gs.shots = g.gs.shots := by
  unfold shothurt
  simp only []
  refine ⟨?_, ?_, ?_, ?_⟩
  · rw [charAt_setchar_self _ _ _ (by rw [setchar_length]; exact hid),
      charAt_setchar_self _ _ _ hid]
  · intro j hj
    rw [charAt_setchar_ne _ _ _ _ hj, charAt_setchar_ne _ _ _ _ hj]
  · rw [setchar_length, setchar_length]
  · rw [setchar_shots, setchar_shots]

theorem shotkill_spec (g : Game) (id : Nat) (hid : id < g.gs.chars.length) :
    (charAt (shotkill g id) id).health = (charAt g id).health ∧
    (charAt (shotkill g id) id).id = (charAt g id).id ∧
    (∀ j, j ≠ id → charAt (shotkill g id) j = charAt g j) ∧
    (shotkill g id).gs.chars.length = g.gs.chars.length ∧
    (shotkill g id).gs.shots = g.gs.shots := by
  unfold shotkill
  by_cases h : (charAt g id).health ≤ 0
  · rw [if_pos h]
    refine ⟨?_, ?_, ?_, ?_, ?_⟩
    · rw [charAt_setchar_self _ _ _ hid]
    · rw [charAt_setchar_self _ _ _ hid]
    · intro j hj
      rw [charAt_setchar_ne _ _ _ _ hj]
    · rw [setchar_length]
    · rw [setchar_shots]
  · rw [if_neg h]
    exact ⟨rfl, rfl, fun _ _ => rfl, rfl, rfl⟩

theorem shotstump_spec (rnd : Nat → ℚ) (g : Game) (id : Nat) (hid : id < g.gs.chars.length) :
    ((charAt g id).health ≤ 0 ∧ (charAt g id).id = 30 →
      (charAt (shotstump rnd g id) id).health = HEALTHPLANT ∧
      (charAt (shotstump rnd g id) id).id = 31) ∧
    (¬ ((charAt g id).health ≤ 0 ∧ (charAt g id).id = 30) →
      (charAt (shotstump rnd g id) id).health = (charAt g id).health ∧
      (charAt (shotstump rnd g id) id).id = (charAt g id).id) ∧
    (∀ j, j ≠ id → charAt (shotstump rnd g id) j = charAt g j) ∧
    (shotstump rnd g id).gs.chars.length = g.gs.chars.length ∧
    (shotstump rnd g id).gs.shots = g.gs.shots := by
  unfold shotstump
  by_cases h : (charAt g id).health ≤ 0
  · rw [if_pos h]
    by_cases h30 : (charAt g id).id = 30
    · rw [if_pos h30]
      simp only []
      have l1 : id < (setchar g id fun c => { c with health := HEALTHPLANT }).gs.chars.length := by
        rw [setchar_length]; exact hid
      have l2 : id < (rng rnd (setchar g id fun c => { c with health := HEALTHPLANT })).2.gs.chars.length := by
        rw [rng_gs]; exact l1
      refine ⟨fun _ => ⟨?_, ?_⟩, fun hn => absurd ⟨h, h30⟩ hn, ?_, ?_, ?_⟩
      · rw [charAt_setchar_self _ _ _ (by rw [setchar_length]; exact l2),
          charAt_setchar_self _ _ _ l2, rng_charAt, charAt_setchar_self _ _ _ hid]
      · rw [charAt_setchar_self _ _ _ (by rw [setchar_length]; exact l2)]
      · intro j hj
        rw [charAt_setchar_ne _ _ _ _ hj, charAt_setchar_ne _ _ _ _ hj, rng_charAt,
          charAt_setchar_ne _ _ _ _ hj]
      · rw [setchar_length, setchar_length, rng_gs, setchar_length]
      · rw [setchar_shots, setchar_shots, rng_gs, setchar_shots]
    · rw [if_neg h30]
      refine ⟨fun hc => absurd hc.2 h30, fun _ => ⟨?_, ?_⟩, ?_, ?_, ?_⟩
      · rw [charAt_setchar_self _ _ _ hid]
      · rw [charAt_setchar_self _ _ _ hid]
      · intro j hj
        rw [charAt_setchar_ne _ _ _ _ hj]
      · rw [setchar_length]
      · rw [setchar_shots]
  · rw [if_neg h]
    exact ⟨fun hc => absurd hc.1 h, fun _ => ⟨rfl, rfl⟩, fun _ _ => rfl, rfl, rfl⟩

theorem shothit_spent (rnd : Nat → ℚ) (g : Game) (i id : Nat) (h : (shotAt g i).dir = 0) :
    shothit rnd g i id = g := by
  unfold shothit
  simp only []
  rw [if_neg (fun hc => hc.1 h)]

theorem shothit_miss (rnd : Nat → ℚ) (g : Game) (i id : Nat) (h : ¬ SHit g i id) :
    shothit rnd g i id = g := by
  unfold shothit
  simp only []
  unfold SHit at h
  by_cases hc : (shotAt g i).dir ≠ 0 ∧
      overlap (shotAt g i).x (shotAt g i).y 16 16 (charAt g id).x (charAt g id).y 16 16 = true
  · rw [if_pos hc]
    have hn : ¬ ((charAt g id).id = 30 ∨ (charAt g id).id = 31 ∨ (charAt g id).id = 53 ∨
        (charAt g id).id = 54 ∨ (charAt g id).id = 55 ∨ (charAt g id).id = 56) :=
      fun hd => h ⟨hc.2, hd⟩
    rw [if_neg (by tauto), if_neg (by tauto), if_neg (by tauto)]
  · rw [if_neg hc]

theorem shotscan_spent (rnd : Nat → ℚ) (i : Nat) : ∀ (k id : Nat) (g : Game),
    (shotAt g i).dir = 0 → shotscan rnd i k id g = g := by
  intro k
  induction k with
  | zero => intro id g _; rfl
  | succ k ih =>
    intro id g h
    unfold shotscan
    rw [shothit_spent rnd g i id h]
    exact ih (id + 1) g h

/-- What a damage case leaves when it follows changes `g3` of the entity at
index `id` alone. -/
theorem shotspent_after (rnd : Nat → ℚ) (g g3 : Game) (i id : Nat) (mt : ℚ)
    (many few r gg b : Nat) (hi : i < g.gs.shots.length)
    (hs : g3.gs.shots = g.gs.shots) (hc : g3.gs.chars.length = g.gs.chars.length)
    (ho : ∀ j, j ≠ id → charAt g3 j = charAt g j) :
    shotAt (shotspent rnd g3 i id mt many few r gg b) i = { shotAt g i with dir := 0, ttl := 3 } ∧
    (∀ k, k ≠ i → shotAt (shotspent rnd g3 i id mt many few r gg b) k = shotAt g k) ∧
    (∀ j, j ≠ id → charAt (shotspent rnd g3 i id mt many few r gg b) j = charAt g j) ∧
    (shotspent rnd g3 i id mt many few r gg b).gs.shots.length = g.gs.shots.length ∧
    (shotspent rnd g3 i id mt many few r gg b).gs.chars.length = g.gs.chars.length ∧
    charAt (shotspent rnd g3 i id mt many few r gg b) id = charAt g3 id := by
  have hsa : ∀ k, shotAt g3 k = shotAt g k := by
    intro k; unfold shotAt; rw [hs]
  obtain ⟨s1, s2, s3, s4, s5⟩ := shotspent_spec rnd g3 i id mt many few r gg b
    (by rw [hs]; exact hi)
  exact ⟨by rw [s1, hsa], fun k hk => by rw [s2 k hk, hsa], fun j hj => by rw [s3, ho j hj],
    by rw [s4, hs], by rw [s5, hc], s3 id⟩

/-- The zombee and grub cases: one unit of health less, the shot spent. -/
theorem shotkill_hit (rnd : Nat → ℚ) (g : Game) (i id : Nat) (mt : ℚ) (many few r gg b : Nat)
    (hi : i < g.gs.shots.length) (hid : id < g.gs.chars.length) :
    shotAt (shotspent rnd (shotkill (shothurt g id) id) i id mt many few r gg b) i =
      { shotAt g i with dir := 0, ttl := 3 } ∧
    (∀ k, k ≠ i →
      shotAt (shotspent rnd (shotkill (shothurt g id) id) i id mt many few r gg b) k =
        shotAt g k) ∧
    (∀ j, j ≠ id →
      charAt (shotspent rnd (shotkill (shothurt g id) id) i id mt many few r gg b) j =
        charAt g j) ∧
    (shotspent rnd (shotkill (shothurt g id) id) i id mt many few r gg b).gs.shots.length =
      g.gs.shots.length ∧
    (shotspent rnd (shotkill (shothurt g id) id) i id mt many few r gg b).gs.chars.length =
      g.gs.chars.length ∧
    (charAt (shotspent rnd (shotkill (shothurt g id) id) i id mt many few r gg b) id).health =
      (charAt g id).health - 1 ∧
    (charAt (shotspent rnd (shotkill (shothurt g id) id) i id mt many few r gg b) id).id =
      (charAt g id).id := by
  obtain ⟨a1, a2, a3, a4⟩ := shothurt_spec g id hid
  obtain ⟨b1, b2, b3, b4, b5⟩ := shotkill_spec (shothurt g id) id (by rw [a3]; exact hid)
  obtain ⟨k1, k2, k3, k4, k5, k6⟩ := shotspent_after rnd g (shotkill (shothurt g id) id) i id
    mt many few r gg b hi (by rw [b5, a4]) (by rw [b4, a3])
    (fun j hj => by rw [b3 j hj, a2 j hj])
  refine ⟨k1, k2, k3, k4, k5, ?_, ?_⟩
  · rw [k6, b1, a1]
  · rw [k6, b2, a1]

/-- The toadstool case: one unit of health less, or the small toadstool that
takes the place of a tall one out of health; the shot spent. -/
theorem shotstump_hit (rnd : Nat → ℚ) (g : Game) (i id : Nat) (mt : ℚ) (many few r gg b : Nat)
    (hi : i < g.gs.shots.length) (hid : id < g.gs.chars.length) :
    shotAt (shotspent rnd (shotstump rnd (shothurt g id) id) i id mt many few r gg b) i =
      { shotAt g i with dir := 0, ttl := 3 } ∧
    (∀ k, k ≠ i →
      shotAt (shotspent rnd (shotstump rnd (shothurt g id) id) i id mt many few r gg b) k =
        shotAt g k) ∧
    (∀ j, j ≠ id →
      charAt (shotspent rnd (shotstump rnd (shothurt g id) id) i id mt many few r gg b) j =
        charAt g j) ∧
    (shotspent rnd (shotstump rnd (shothurt g id) id) i id mt many few r gg b).gs.shots.length =
      g.gs.shots.length ∧
    (shotspent rnd (shotstump rnd (shothurt g id) id) i id mt many few r gg b).gs.chars.length =
      g.gs.chars.length ∧
    (¬ ((charAt g id).id = 30 ∧ (charAt g id).health ≤ 1) →
      (charAt (shotspent rnd (shotstump rnd (shothurt g id) id) i id mt many few r gg b)
        id).health = (charAt g id).health - 1 ∧
      (charAt (shotspent rnd (shotstump rnd (shothurt g id) id) i id mt many few r gg b)
        id).id = (charAt g id).id) ∧
    ((charAt g id).id = 30 ∧ (charAt g id).health ≤ 1 →
      (charAt (shotspent rnd (shotstump rnd (shothurt g id) id) i id mt many few r gg b)
        id).health = HEALTHPLANT ∧
      (charAt (shotspent rnd (shotstump rnd (shothurt g id) id) i id mt many few r gg b)
        id).id = 31) := by
  obtain ⟨a1, a2, a3, a4⟩ := shothurt_spec g id hid
  obtain ⟨b1, b2, b3, b4, b5⟩ := shotstump_spec rnd (shothurt g id) id (by rw [a3]; exact hid)
  obtain ⟨k1, k2, k3, k4, k5, k6⟩ := shotspent_after rnd g (shotstump rnd (shothurt g id) id)
    i id mt many few r gg b hi (by rw [b5, a4]) (by rw [b4, a3])
    (fun j hj => by rw [b3 j hj, a2 j hj])
  have eh : (charAt (shothurt g id) id).health = (charAt g id).health - 1 := by rw [a1]
  have ei : (charAt (shothurt g id) id).id = (charAt g id).id := by rw [a1]
  refine ⟨k1, k2, k3, k4, k5, ?_, ?_⟩
  · intro hn
    rw [k6]
    have hn2 : ¬ ((charAt (shothurt g id) id).health ≤ 0 ∧ (charAt (shothurt g id) id).id = 30) := by
      rw [eh, ei]
      intro hc
      exact hn ⟨hc.2, by omega⟩
    rw [(b2 hn2).1, (b2 hn2).2, eh, ei]
    exact ⟨rfl, rfl⟩
  · intro hc
    rw [k6]
    have hc2 : (charAt (shothurt g id) id).health ≤ 0 ∧ (charAt (shothurt g id) id).id = 30 := by
      rw [eh, ei]
      exact ⟨by omega, hc.1⟩
    exact b1 hc2

/-- The entity a damage case leaves at index `id`, and the rest of the game. -/
theorem shothit_hit (rnd : Nat → ℚ) (g : Game) (i id : Nat)
    (hi : i < g.gs.shots.length) (hid : id < g.gs.chars.length)
    (hd : (shotAt g i).dir ≠ 0) (h : SHit g i id) :
    shotAt (shothit rnd g i id) i = { shotAt g i with dir := 0, ttl := 3 } ∧
    (∀ k, k ≠ i → shotAt (shothit rnd g i id) k = shotAt g k) ∧
    (∀ j, j ≠ id → charAt (shothit rnd g i id) j = charAt g j) ∧
    (shothit rnd g i id).gs.shots.length = g.gs.shots.length ∧
    (shothit rnd g i id).gs.chars.length = g.gs.chars.length ∧
    (¬ ((charAt g id).id = 30 ∧ (charAt g id).health ≤ 1) →
      (charAt (shothit rnd g i id) id).health = (charAt g id).health - 1 ∧
      (charAt (shothit rnd g i id) id).id = (charAt g id).id) ∧
    ((charAt g id).id = 30 ∧ (charAt g id).health ≤ 1 →
      (charAt (shothit rnd g i id) id).health = HEALTHPLANT ∧
      (charAt (shothit rnd g i id) id).id = 31) := by
  unfold shothit
  simp only []
  rw [if_pos ⟨hd, h.1⟩]
  by_cases hplant : (charAt g id).id = 30 ∨ (charAt g id).id = 31
  · rw [if_pos hplant]
    exact shotstump_hit rnd g i id 8 16 2 252 104 59 hi hid
  · rw [if_neg hplant]
    have hn30 : (charAt g id).id ≠ 30 := fun hc => hplant (Or.inl hc)
    by_cases hzb : (charAt g id).id = 53 ∨ (charAt g id).id = 54
    · rw [if_pos hzb]
      obtain ⟨k1, k2, k3, k4, k5, k6, k7⟩ := shotkill_hit rnd g i id 16 32 4 44 197 246 hi hid
      exact ⟨k1, k2, k3, k4, k5, fun _ => ⟨k6, k7⟩, fun hc => absurd hc.1 hn30⟩
    · rw [if_neg hzb]
      have hgr : (charAt g id).id = 55 ∨ (charAt g id).id = 56 := by
        rcases h.2 with h1 | h1 | h1 | h1 | h1 | h1
        · exact absurd (Or.inl h1) hplant
        · exact absurd (Or.inr h1) hplant
        · exact absurd (Or.inl h1) hzb
        · exact absurd (Or.inr h1) hzb
        · exact Or.inl h1
        · exact Or.inr h1
      rw [if_pos hgr]
      obtain ⟨k1, k2, k3, k4, k5, k6, k7⟩ := shotkill_hit rnd g i id 16 32 4 252 104 59 hi hid
      exact ⟨k1, k2, k3, k4, k5, fun _ => ⟨k6, k7⟩, fun hc => absurd hc.1 hn30⟩

theorem shothurt_shots (g : Game) (id : Nat) : (shothurt g id).gs.shots = g.gs.shots := rfl

theorem shotkill_shots (g : Game) (id : Nat) : (shotkill g id).gs.shots = g.gs.shots := by
  unfold shotkill
  split <;> rfl

theorem shotstump_shots (rnd : Nat → ℚ) (g : Game) (id : Nat) :
    (shotstump rnd g id).gs.shots = g.gs.shots := by
  unfold shotstump
  split
  · split <;> rfl
  · rfl

theorem shotspent_others (rnd : Nat → ℚ) (g : Game) (i id : Nat) (mt : ℚ)
    (many few r gg b : Nat) :
    (∀ k, k ≠ i → shotAt (shotspent rnd g i id mt many few r gg b) k = shotAt g k) ∧
    (shotspent rnd g i id mt many few r gg b).gs.shots.length = g.gs.shots.length := by
  unfold shotspent
  simp only []
  constructor
  · intro k hk
    rw [shotAt_setshot_ne _ _ _ _ hk, shotAt_setshot_ne _ _ _ _ hk, shotAt_particles]
  · rw [setshot_length, setshot_length, generateparticles_shots]

theorem shotAt_congr (g g2 : Game) (h : g2.gs.shots = g.gs.shots) (k : Nat) :
    shotAt g2 k = shotAt g k := by
  unfold shotAt; rw [h]

/-- A pass through the inner loop leaves the other shots, and the number of
shots, as they were. -/
theorem shothit_others (rnd : Nat → ℚ) (g : Game) (i id : Nat) :
    (∀ k, k ≠ i → shotAt (shothit rnd g i id) k = shotAt g k) ∧
    (shothit rnd g i id).gs.shots.length = g.gs.shots.length := by
  have hk : ∀ (mt : ℚ) (many few r gg b : Nat),
      (∀ k, k ≠ i → shotAt (shotspent rnd (shotkill (shothurt g id) id) i id mt many few r gg b) k
        = shotAt g k) ∧
      (shotspent rnd (shotkill (shothurt g id) id) i id mt many few r gg b).gs.shots.length
        = g.gs.shots.length := by
    intro mt many few r gg b
    obtain ⟨o1, o2⟩ := shotspent_others rnd (shotkill (shothurt g id) id) i id mt many few r gg b
    have e : (shotkill (shothurt g id) id).gs.shots = g.gs.shots := by
      rw [shotkill_shots, shothurt_shots]
    exact ⟨fun k h => by rw [o1 k h, shotAt_congr _ _ e], by rw [o2, e]⟩
  unfold shothit
  simp only []
  split
  · split
    · obtain ⟨o1, o2⟩ := shotspent_others rnd (shotstump rnd (shothurt g id) id) i id
        8 16 2 252 104 59
      have e : (shotstump rnd (shothurt g id) id).gs.shots = g.gs.shots := by
        rw [shotstump_shots, shothurt_shots]
      exact ⟨fun k h => by rw [o1 k h, shotAt_congr _ _ e], by rw [o2, e]⟩
    · split
      · exact hk 16 32 4 44 197 246
      · split
        · exact hk 16 32 4 252 104 59
        · exact ⟨fun _ _ => rfl, rfl⟩
  · exact ⟨fun _ _ => rfl, rfl⟩

theorem shotscan_others (rnd : Nat → ℚ) (i : Nat) : ∀ (n id : Nat) (g : Game),
    (∀ k, k ≠ i → shotAt (shotscan rnd i n id g) k = shotAt g k) ∧
    (shotscan rnd i n id g).gs.shots.length = g.gs.shots.length := by
  intro n
  induction n with
  | zero => intro id g; exact ⟨fun _ _ => rfl, rfl⟩
  | succ n ih =>
    intro id g
    unfold shotscan
    obtain ⟨a1, a2⟩ := ih (id + 1) (shothit rnd g i id)
    obtain ⟨b1, b2⟩ := shothit_others rnd g i id
    exact ⟨fun k h => by rw [a1 k h, b1 k h], by rw [a2, b2]⟩

theorem shotscan_first (rnd : Nat → ℚ) (i : Nat) : ∀ (n id : Nat) (g : Game) (j0 : Nat),
    i < g.gs.shots.length → j0 < g.gs.chars.length → (shotAt g i).dir ≠ 0 →
    id ≤ j0 → j0 < id + n → SHit g i j0 → (∀ j, id ≤ j → j < j0 → ¬ SHit g i j) →
    shotscan rnd i n id g = shothit rnd g i j0 := by
  intro n
  induction n with
  | zero => intro id g j0 _ _ _ h1 h2; omega
  | succ n ih =>
    intro id g j0 hi hj hd h1 h2 hit hfirst
    unfold shotscan
    by_cases he : id = j0
    · subst he
      apply shotscan_spent
      rw [(shothit_hit rnd g i id hi hj hd hit).1]
    · rw [shothit_miss rnd g i id (hfirst id (le_refl _) (by omega))]
      exact ih (id + 1) g j0 hi hj hd (by omega) (by omega) hit
        (fun j hj1 hj2 => hfirst j (by omega) hj2)

theorem shotscan_none (rnd : Nat → ℚ) (i : Nat) : ∀ (n id : Nat) (g : Game),
    (∀ j, id ≤ j → j < id + n → ¬ SHit g i j) → shotscan rnd i n id g = g := by
  intro n
  induction n with
  | zero => intro id g _; rfl
  | succ n ih =>
    intro id g h
    unfold shotscan
    rw [shothit_miss rnd g i id (h id (le_refl _) (by omega))]
    exact ih (id + 1) g (fun j h1 h2 => h j (by omega) (by omega))

theorem shotmove_spec (g : Game) (i : Nat) (hi : i < g.gs.shots.length) :
    shotAt (shotmove g i) i = { shotAt g i with x := (shotAt g i).x + (shotAt g i).dir } ∧
    (∀ k, k ≠ i → shotAt (shotmove g i) k = shotAt g k) ∧
    (shotmove g i).gs.shots.length = g.gs.shots.length ∧
    (shotmove g i).gs.chars = g.gs.chars :=
  ⟨shotAt_setshot_self g i _ hi, fun k hk => shotAt_setshot_ne g i _ k hk,
    setshot_length g i _, rfl⟩

theorem shotmove_others (g : Game) (i : Nat) :
    (∀ k, k ≠ i → shotAt (shotmove g i) k = shotAt g k) ∧
    (shotmove g i).gs.shots.length = g.gs.shots.length :=
  ⟨fun k hk => shotAt_setshot_ne g i _ k hk, setshot_length g i _⟩

theorem shotage_chars (g : Game) (i : Nat) : (shotage g i).gs.chars = g.gs.chars := by
  unfold shotage
  simp only []
  split <;> rfl

theorem shotage_others (g : Game) (i : Nat) :
    (∀ k, k ≠ i → shotAt (shotage g i) k = shotAt g k) ∧
    (shotage g i).gs.shots.length = g.gs.shots.length := by
  unfold shotage
  simp only []
  split
  · exact ⟨fun k hk => by rw [shotAt_setshot_ne _ _ _ _ hk, shotAt_setshot_ne _ _ _ _ hk],
      by rw [setshot_length, setshot_length]⟩
  · exact ⟨fun k hk => by rw [shotAt_setshot_ne _ _ _ _ hk], by rw [setshot_length]⟩

theorem shotage_spec (g : Game) (i : Nat) (hi : i < g.gs.shots.length) :
    (shotAt (shotage g i) i).dir = (shotAt g i).dir ∧
    (shotAt (shotage g i) i).ttl = (shotAt g i).ttl - 1 ∧
    ((shotAt g i).ttl ≤ 1 → (shotAt (shotage g i) i).del = true) ∧
    (1 < (shotAt g i).ttl → (shotAt (shotage g i) i).del = (shotAt g i).del) := by
  have e1 : shotAt (setshot g i fun s => { s with ttl := s.ttl - 1 }) i =
      { shotAt g i with ttl := (shotAt g i).ttl - 1 } := shotAt_setshot_self g i _ hi
  unfold shotage
  simp only []
  by_cases h : (shotAt (setshot g i fun s => { s with ttl := s.ttl - 1 }) i).ttl ≤ 0
  · rw [if_pos h, shotAt_setshot_self _ _ _ (by rw [setshot_length]; exact hi), e1]
    rw [e1] at h
    have h2 : (shotAt g i).ttl - 1 ≤ 0 := h
    exact ⟨rfl, rfl, fun _ => rfl, fun hc => by omega⟩
  · rw [if_neg h, e1]
    rw [e1] at h
    have h2 : ¬ (shotAt g i).ttl - 1 ≤ 0 := h
    exact ⟨rfl, rfl, fun hc => by omega, fun _ => rfl⟩

/-- The step of a shot leaves the other shots, and the number of shots, as
they were. -/
theorem shotstep_others (rnd : Nat → ℚ) (g : Game) (i : Nat) :
    (∀ k, k ≠ i → shotAt (shotstep rnd g i) k = shotAt g k) ∧
    (shotstep rnd g i).gs.shots.length = g.gs.shots.length := by
  unfold shotstep
  obtain ⟨a1, a2⟩ := shotage_others
    (shotscan rnd i (shotmove g i).gs.chars.length 0 (shotmove g i)) i
  obtain ⟨b1, b2⟩ := shotscan_others rnd i (shotmove g i).gs.chars.length 0 (shotmove g i)
  obtain ⟨c1, c2⟩ := shotmove_others g i
  exact ⟨fun k h => by rw [a1 k h, b1 k h, c1 k h], by rw [a2, b2, c2]⟩

/-- The step of a spent shot. -/
theorem shotstep_spent (rnd : Nat → ℚ) (g : Game) (i : Nat) (hi : i < g.gs.shots.length)
    (hd : (shotAt g i).dir = 0) :
    (shotstep rnd g i).gs.chars = g.gs.chars ∧
    (shotAt (shotstep rnd g i) i).dir = 0 ∧
    (shotAt (shotstep rnd g i) i).ttl = (shotAt g i).ttl - 1 ∧
    ((shotAt g i).ttl ≤ 1 → (shotAt (shotstep rnd g i) i).del = true) := by
  obtain ⟨m1, _, m3, m4⟩ := shotmove_spec g i hi
  have hd1 : (shotAt (shotmove g i) i).dir = 0 := by rw [m1]; exact hd
  have ht1 : (shotAt (shotmove g i) i).ttl = (shotAt g i).ttl := by rw [m1]
  unfold shotstep
  rw [shotscan_spent rnd i _ 0 (shotmove g i) hd1]
  obtain ⟨a1, a2, a3, _⟩ := shotage_spec (shotmove g i) i (by rw [m3]; exact hi)
  refine ⟨by rw [shotage_chars, m4], by rw [a1, hd1], by rw [a2, ht1], fun h => a3 (by rw [ht1]; exact h)⟩

/-- The step of a shot that is on none of the entities it can damage. -/
theorem shotstep_none (rnd : Nat → ℚ) (g : Game) (i : Nat) (hi : i < g.gs.shots.length)
    (hn : ∀ j, j < g.gs.chars.length → ¬ SHit (shotmove g i) i j) :
    (shotstep rnd g i).gs.chars = g.gs.chars ∧
    (shotAt (shotstep rnd g i) i).dir = (shotAt g i).dir ∧
    (shotAt (shotstep rnd g i) i).ttl = (shotAt g i).ttl - 1 := by
  obtain ⟨m1, _, m3, m4⟩ := shotmove_spec g i hi
  unfold shotstep
  rw [shotscan_none rnd i _ 0 (shotmove g i)
    (fun j _ hj => hn j (by rw [m4] at hj; omega))]
  obtain ⟨a1, a2, _, _⟩ := shotage_spec (shotmove g i) i (by rw [m3]; exact hi)
  exact ⟨by rw [shotage_chars, m4], by rw [a1, m1], by rw [a2, m1]⟩

/-- The step of a live shot that is on an entity it can damage. -/
theorem shotstep_hit (rnd : Nat → ℚ) (g : Game) (i j0 : Nat) (hi : i < g.gs.shots.length)
    (hj : j0 < g.gs.chars.length) (hd : (shotAt g i).dir ≠ 0)
    (hit : SHit (shotmove g i) i j0) (hfirst : ∀ j, j < j0 → ¬ SHit (shotmove g i) i j) :
    (shotAt (shotstep rnd g i) i).dir = 0 ∧
    (shotAt (shotstep rnd g i) i).ttl = 2 ∧
    (shotAt (shotstep rnd g i) i).del = (shotAt g i).del ∧
    (∀ j, j ≠ j0 → charAt (shotstep rnd g i) j = charAt g j) ∧
    (¬ ((charAt g j0).id = 30 ∧ (charAt g j0).health ≤ 1) →
      (charAt (shotstep rnd g i) j0).health = (charAt g j0).health - 1 ∧
      (charAt (shotstep rnd g i) j0).id = (charAt g j0).id) ∧
    ((charAt g j0).id = 30 ∧ (charAt g j0).health ≤ 1 →
      (charAt (shotstep rnd g i) j0).health = HEALTHPLANT ∧
      (charAt (shotstep rnd g i) j0).id = 31) := by
  obtain ⟨m1, _, m3, m4⟩ := shotmove_spec g i hi
  have hi1 : i < (shotmove g i).gs.shots.length := by rw [m3]; exact hi
  have hj1 : j0 < (shotmove g i).gs.chars.length := by rw [m4]; exact hj
  have hd1 : (shotAt (shotmove g i) i).dir ≠ 0 := by rw [m1]; exact hd
  have hc : ∀ j, charAt (shotmove g i) j = charAt g j := fun _ => rfl
  obtain ⟨k1, _, k3, k4, _, k6, k7⟩ := shothit_hit rnd (shotmove g i) i j0 hi1 hj1 hd1 hit
  have ca : ∀ (g2 : Game) (j : Nat), charAt (shotage g2 i) j = charAt g2 j := by
    intro g2 j
    unfold charAt
    rw [shotage_chars]
  unfold shotstep
  rw [shotscan_first rnd i _ 0 (shotmove g i) j0 hi1 hj1 hd1 (Nat.zero_le _) (by omega) hit
    (fun j _ h => hfirst j h)]
  obtain ⟨a1, a2, _, a4⟩ := shotage_spec (shothit rnd (shotmove g i) i j0) i
    (by rw [k4]; exact hi1)
  have t3 : (shotAt (shothit rnd (shotmove g i) i j0) i).ttl = 3 := by rw [k1]
  refine ⟨by rw [a1, k1], by rw [a2, t3]; rfl, ?_, ?_, ?_, ?_⟩
  · rw [a4 (by rw [t3]; decide), k1, m1]
  · intro j hjn
    rw [ca, k3 j hjn, hc]
  · intro h
    rw [ca]
    exact k6 h
  · intro h
    rw [ca]
    exact k7 h

/-- A spent shot through the loop over the shots: its own step takes one off
its `ttl` and marks it when none is left; the steps of the other shots leave
it as it is. -/
theorem shotsloop_spent (rnd : Nat → ℚ) (i : Nat) : ∀ (n k : Nat) (g : Game),
    i < g.gs.shots.length → (shotAt g i).dir = 0 →
    ((shotsloop rnd n k g).gs.shots.length = g.gs.shots.length) ∧
    (i < k ∨ k + n ≤ i → shotAt (shotsloop rnd n k g) i = shotAt g i) ∧
    (k ≤ i → i < k + n →
      (shotAt (shotsloop rnd n k g) i).dir = 0 ∧
      (shotAt (shotsloop rnd n k g) i).ttl = (shotAt g i).ttl - 1 ∧
      ((shotAt g i).ttl ≤ 1 → (shotAt (shotsloop rnd n k g) i).del = true)) := by
  intro n
  induction n with
  | zero =>
    intro k g _ _
    exact ⟨rfl, fun _ => rfl, fun h1 h2 => by omega⟩
  | succ n ih =>
    intro k g hi hd
    unfold shotsloop
    obtain ⟨o1, o2⟩ := shotstep_others rnd g k
    by_cases hk : k = i
    · subst hk
      obtain ⟨_, s2, s3, s4⟩ := shotstep_spent rnd g k hi hd
      obtain ⟨r1, r2, _⟩ := ih (k + 1) (shotstep rnd g k) (by rw [o2]; exact hi) s2
      refine ⟨by rw [r1, o2], fun h => by omega, fun _ _ => ?_⟩
      rw [r2 (Or.inl (by omega))]
      exact ⟨s2, s3, s4⟩
    · have e : shotAt (shotstep rnd g k) i = shotAt g i := o1 i (Ne.symm hk)
      obtain ⟨r1, r2, r3⟩ := ih (k + 1) (shotstep rnd g k) (by rw [o2]; exact hi)
        (by rw [e]; exact hd)
      refine ⟨by rw [r1, o2], fun h => ?_, fun h1 h2 => ?_⟩
      · rw [r2 (by omega), e]
      · obtain ⟨q1, q2, q3⟩ := r3 (by omega) (by omega)
        rw [e] at q2 q3
        exact ⟨q1, q2, q3⟩

/-- The start of `guncheck` leaves the shots there are where they are. -/
theorem gunfire_shots (fire : Bool) (g : Game) :
    (∀ i, i < g.gs.shots.length → shotAt (gunfire fire g) i = shotAt g i) ∧
    g.gs.shots.length ≤ (gunfire fire g).gs.shots.length ∧
    (gunfire fire g).gs.shots.length ≤ g.gs.shots.length + 1 := by
  have key : ∀ (g1 : Game), g1.gs.shots = g.gs.shots →
      (∀ i, i < g.gs.shots.length →
        shotAt (if g1.gs.gun = true ∧ g1.gs.gunheat = 0 ∧ fire = true then
          ({ g1 with gs := { g1.gs with
              shots := g1.gs.shots ++ [(⟨44, g1.gs.x + ((if g1.gs.flip then -5 else 5 : Int) : ℚ),
                g1.gs.y + 3, g1.gs.flip, (if g1.gs.flip then -5 else 5 : Int), 40, false⟩ : shot)],
              gunheat := 10 } } : Game) else g1) i = shotAt g i) ∧
      g.gs.shots.length ≤ (if g1.gs.gun = true ∧ g1.gs.gunheat = 0 ∧ fire = true then
          ({ g1 with gs := { g1.gs with
              shots := g1.gs.shots ++ [(⟨44, g1.gs.x + ((if g1.gs.flip then -5 else 5 : Int) : ℚ),
                g1.gs.y + 3, g1.gs.flip, (if g1.gs.flip then -5 else 5 : Int), 40, false⟩ : shot)],
              gunheat := 10 } } : Game) else g1).gs.shots.length ∧
      (if g1.gs.gun = true ∧ g1.gs.gunheat = 0 ∧ fire = true then
          ({ g1 with gs := { g1.gs with
              shots := g1.gs.shots ++ [(⟨44, g1.gs.x + ((if g1.gs.flip then -5 else 5 : Int) : ℚ),
                g1.gs.y + 3, g1.gs.flip, (if g1.gs.flip then -5 else 5 : Int), 40, false⟩ : shot)],
              gunheat := 10 } } : Game) else g1).gs.shots.length ≤ g.gs.shots.length + 1 := by
    intro g1 h1
    split
    · refine ⟨fun i hi => ?_, ?_, ?_⟩
      · unfold shotAt
        simp only [h1, List.getD_eq_getElem?_getD]
        rw [List.getElem?_append_left hi]
      · simp [h1]
      · simp [h1]
    · exact ⟨fun i _ => shotAt_congr _ _ h1 i, by rw [h1], by rw [h1]; omega⟩
  unfold gunfire
  simp only []
  split
  · exact key _ rfl
  · exact key _ rfl

/-- The purge at the end of `guncheck` leaves the shots that are not marked. -/
theorem guncheck_purged (rnd : Nat → ℚ) (fire : Bool) (g : Game)
    (hs : g.gs.shots.length + 1 < U32) :
    (guncheck rnd fire g).gs.shots =
      (shotsloop rnd (gunfire fire g).gs.shots.length 0 (gunfire fire g)).gs.shots.filter
        (fun s => !s.del) ∧
    ∀ s, s ∈ (guncheck rnd fire g).gs.shots → s.del = false := by
  have hl : (shotsloop rnd (gunfire fire g).gs.shots.length 0 (gunfire fire g)).gs.shots.length
      < U32 := by
    have h1 := (gunfire_shots fire g).2.2
    have h2 : ∀ (n k : Nat) (g2 : Game),
        (shotsloop rnd n k g2).gs.shots.length = g2.gs.shots.length := by
      intro n
      induction n with
      | zero => intro k g2; rfl
      | succ n ih =>
        intro k g2
        unfold shotsloop
        rw [ih, (shotstep_others rnd g2 k).2]
    rw [h2]
    omega
  have e : (guncheck rnd fire g).gs.shots =
      (shotsloop rnd (gunfire fire g).gs.shots.length 0 (gunfire fire g)).gs.shots.filter
        (fun s => !s.del) := by
    show purgeshots _ = _
    unfold purgeshots
    rw [Nat.mod_eq_of_lt hl, purge_all]
  refine ⟨e, fun s hs => ?_⟩
  rw [e] at hs
  simpa using (List.mem_filter.mp hs).2

/-- C37 (as stated, refuted): a tall toadstool with one unit of health, and a
live shot that its next move puts on it. After the pass of `guncheck` the shot
is spent with two frames to live, and the entity is a small toadstool with
`HEALTHPLANT = 2` units of health: it has one more than before, not one
less. -/
theorem shot_regrows_toadstool :
    ((charAt stumpGame 0).id, (charAt stumpGame 0).health) = (30, 1) ∧
    (shotAt stumpGame 0).dir = 5 ∧
    SHit (shotmove stumpGame 0) 0 0 ∧
    ((charAt (guncheck halves false stumpGame) 0).id,
      (charAt (guncheck halves false stumpGame) 0).health) = (31, 2) ∧
    ((shotAt (guncheck halves false stumpGame) 0).dir,
      (shotAt (guncheck halves false stumpGame) 0).ttl) = (0, 2) := by
  unfold SHit
  decide!

/-- C37 (amended): the shot at index `i` through `guncheck`. A live shot
(`dir` not 0) that, after its move, overlaps a toadstool, zombee or grub
damages the first such entity in collection order and no other: that entity
loses exactly one unit of health, except a tall toadstool (id 30) that would
be left with none, which becomes a small toadstool (id 31) with `HEALTHPLANT`
units; every other entity is as it was, and the shot ends its step with `dir`
0 and, after `ttl=3` and the count-down of the pass, `ttl` 2. A live shot that
overlaps no such entity changes no entity and stays live. A spent shot (`dir`
0) changes nothing in any scan, so its step changes no entity; the step takes
one off its `ttl` and marks the shot for deletion when none is left. The steps
of the other shots leave the shot as it is, so through the whole loop of a
pass a spent shot only ages by one; and the purge at the end of the pass
removes every marked shot. Hence a shot that has hit has `ttl` 2 after that
pass, 1 after the next, and is gone after the third. -/
theorem shot_one_hit (rnd : Nat → ℚ) (g : Game) (i : Nat) (hi : i < g.gs.shots.length) :
    ((shotAt g i).dir ≠ 0 → ∀ j0, j0 < g.gs.chars.length → SHit (shotmove g i) i j0 →
      (∀ j, j < j0 → ¬ SHit (shotmove g i) i j) →
      (shotAt (shotstep rnd g i) i).dir = 0 ∧
      (shotAt (shotstep rnd g i) i).ttl = 2 ∧
      (shotAt (shotstep rnd g i) i).del = (shotAt g i).del ∧
      (∀ j, j ≠ j0 → charAt (shotstep rnd g i) j = charAt g j) ∧
      (¬ ((charAt g j0).id = 30 ∧ (charAt g j0).health ≤ 1) →
        (charAt (shotstep rnd g i) j0).health = (charAt g j0).health - 1 ∧
        (charAt (shotstep rnd g i) j0).id = (charAt g j0).id) ∧
      ((charAt g j0).id = 30 ∧ (charAt g j0).health ≤ 1 →
        (charAt (shotstep rnd g i) j0).health = HEALTHPLANT ∧
        (charAt (shotstep rnd g i) j0).id = 31)) ∧
    ((∀ j, j < g.gs.chars.length → ¬ SHit (shotmove g i) i j) →
      (shotstep rnd g i).gs.chars = g.gs.chars ∧
      (shotAt (shotstep rnd g i) i).dir = (shotAt g i).dir ∧
      (shotAt (shotstep rnd g i) i).ttl = (shotAt g i).ttl - 1) ∧
    ((shotAt g i).dir = 0 →
      (∀ n id, shotscan rnd i n id g = g) ∧
      (shotstep rnd g i).gs.chars = g.gs.chars ∧
      (shotAt (shotstep rnd g i) i).dir = 0 ∧
      (shotAt (shotstep rnd g i) i).ttl = (shotAt g i).ttl - 1 ∧
      ((shotAt g i).ttl ≤ 1 → (shotAt (shotstep rnd g i) i).del = true)) ∧
    (∀ k, k ≠ i → shotAt (shotstep rnd g k) i = shotAt g i) ∧
    ((shotAt g i).dir = 0 → ∀ fire,
      (shotAt (shotsloop rnd (gunfire fire g).gs.shots.length 0 (gunfire fire g)) i).dir = 0 ∧
      (shotAt (shotsloop rnd (gunfire fire g).gs.shots.length 0 (gunfire fire g)) i).ttl =
        (shotAt g i).ttl - 1 ∧
      ((shotAt g i).ttl ≤ 1 →
        (shotAt (shotsloop rnd (gunfire fire g).gs.shots.length 0 (gunfire fire g)) i).del
          = true)) ∧
    (g.gs.shots.length + 1 < U32 → ∀ fire,
      (guncheck rnd fire g).gs.shots =
        (shotsloop rnd (gunfire fire g).gs.shots.length 0 (gunfire fire g)).gs.shots.filter
          (fun s => !s.del) ∧
      ∀ s, s ∈ (guncheck rnd fire g).gs.shots → s.del = false) := by
  refine ⟨fun hd j0 hj hit hfirst => shotstep_hit rnd g i j0 hi hj hd hit hfirst,
    fun hn => shotstep_none rnd g i hi hn,
    fun hd => ⟨fun n id => shotscan_spent rnd i n id g hd, shotstep_spent rnd g i hi hd⟩,
    fun k hk => (shotstep_others rnd g k).1 i (Ne.symm hk), ?_,
    fun hs fire => guncheck_purged rnd fire g hs⟩
  intro hd fire
  obtain ⟨f1, f2, _⟩ := gunfire_shots fire g
  have e : shotAt (gunfire fire g) i = shotAt g i := f1 i hi
  obtain ⟨_, _, r3⟩ := shotsloop_spent rnd i (gunfire fire g).gs.shots.length 0 (gunfire fire g)
    (by omega) (by rw [e]; exact hd)
  obtain ⟨q1, q2, q3⟩ := r3 (Nat.zero_le _) (by omega)
  rw [e] at q2 q3
  exact ⟨q1, q2, q3⟩

theorem shot_one_hit_witness :
    0 < stumpGame.gs.shots.length ∧
    ((shotAt (shotstep halves stumpGame 0) 0).dir = 0 ∧
      (shotAt (shotstep halves stumpGame 0) 0).ttl = 2 ∧
      (charAt (shotstep halves stumpGame 0) 0).health = HEALTHPLANT ∧
      (charAt (shotstep halves stumpGame 0) 0).id = 31) ∧
    ((guncheck halves false stumpGame).gs.shots.map (fun s => (s.dir, s.ttl)) = [(0, 2)] ∧
      (guncheck halves false (guncheck halves false stumpGame)).gs.shots.map
        (fun s => (s.dir, s.ttl)) = [(0, 1)] ∧
      (guncheck halves false (guncheck halves false
        (guncheck halves false stumpGame))).gs.shots = []) := by
  have h := (shot_one_hit halves stumpGame 0 (by decide)).1 (by decide!) 0 (by decide)
    (by unfold SHit; decide!) (fun j hj => absurd hj (Nat.not_lt_zero j))
  exact ⟨by decide, ⟨h.1, h.2.1, (h.2.2.2.2.2 (by decide!)).1, (h.2.2.2.2.2 (by decide!)).2⟩,
    by decide!⟩

end BeeKind
